import Mathlib

/-!
# polypartition: a shallow embedding of the partitioning engine

Coordinates (`tppl_float`) are modelled by exact rationals; the square root of
`<cmath>` is a parameter `sqrt : ℚ → ℚ` of every operation that reaches
`Normalize` or `Distance`.  Indices (`tppl_idx`) are natural numbers, except
where the source stores the sentinel `-1`.  Arrays are lists; reading an array
outside its bounds yields the default element.

`tppl_float` is `double`, and every finite `double` is a rational number.  The
operations whose result depends on the rounding are given a second time, with the
arithmetic a parameter (`Arith`): `Arith.exact` is the exact model and
`Arith.binary64` rounds each operation to the nearest double.  `Triangulate_OPT`
is given a third time with the weights in an ordered field, for the real numbers
with the real square root.
-/

namespace PolyPartition

/-! ## Data model (polypartition.h) -/

/-- 2D point structure with the user-specified identifier. -/
structure TPPLPoint where
  x : ℚ
  y : ℚ
  id : Int
deriving DecidableEq

instance : Inhabited TPPLPoint := ⟨⟨0, 0, 0⟩⟩

namespace TPPLPoint

/-- The `operator-` of the source; the identifier of the result is not set there. -/
def sub (p q : TPPLPoint) : TPPLPoint := ⟨p.x - q.x, p.y - q.y, 0⟩

/-- The `operator/` of the source; the identifier of the result is not set there. -/
def div (p : TPPLPoint) (f : ℚ) : TPPLPoint := ⟨p.x / f, p.y / f, 0⟩

/-- The `operator==` of the source: only the coordinates are compared. -/
def eq (p q : TPPLPoint) : Bool := decide (p.x = q.x) && decide (p.y = q.y)

/-- The `operator!=` of the source. -/
def ne (p q : TPPLPoint) : Bool := !(p.eq q)

end TPPLPoint

/-- Polygon implemented as an array of points with a "hole" flag. -/
structure TPPLPoly where
  points : List TPPLPoint
  hole : Bool
deriving DecidableEq

instance : Inhabited TPPLPoly := ⟨⟨[], false⟩⟩

namespace TPPLPoly

def GetNumPoints (poly : TPPLPoly) : Nat := poly.points.length

def IsHole (poly : TPPLPoly) : Bool := poly.hole

def GetPoint (poly : TPPLPoly) (i : Nat) : TPPLPoint := poly.points.getD i default

/-- `Init(numpoints)` followed by the writes `points[k] = ...` that fill it: `Clear`
resets the hole flag. -/
def ofPoints (pts : List TPPLPoint) : TPPLPoly := ⟨pts, false⟩

/-- Creates a triangle with points p1, p2, and p3. -/
def Triangle (p1 p2 p3 : TPPLPoint) : TPPLPoly := ofPoints [p1, p2, p3]

/-- Checks whether a polygon is valid or not. -/
def Valid (poly : TPPLPoly) : Bool := decide (3 ≤ poly.GetNumPoints)

end TPPLPoly

abbrev TPPLPolyList := List TPPLPoly

/-- The polygon `*iter` for the iterator at position `it` of the list. -/
def polyAt (polys : TPPLPolyList) (it : Nat) : TPPLPoly := polys.getD it default

/-- Total number of points of the polygons of a list. -/
def totalPoints (polys : TPPLPolyList) : Nat :=
  (polys.map TPPLPoly.GetNumPoints).sum

/-! ## Geometric kernel -/

def Normalize (sqrt : ℚ → ℚ) (p : TPPLPoint) : TPPLPoint :=
  let n := sqrt (p.x * p.x + p.y * p.y)
  if n ≠ 0 then p.div n else ⟨0, 0, 0⟩

def Distance (sqrt : ℚ → ℚ) (p1 p2 : TPPLPoint) : ℚ :=
  let dx := p2.x - p1.x
  let dy := p2.y - p1.y
  sqrt (dx * dx + dy * dy)

/-- Checks if two lines intersect. -/
def Intersects (p11 p12 p21 p22 : TPPLPoint) : Int :=
  if p11.eq p21 || p11.eq p22 || p12.eq p21 || p12.eq p22 then 0
  else
    let v1ortx := p12.y - p11.y
    let v1orty := p11.x - p12.x
    let v2ortx := p22.y - p21.y
    let v2orty := p21.x - p22.x
    let dot21 := (p21.x - p11.x) * v1ortx + (p21.y - p11.y) * v1orty
    let dot22 := (p22.x - p11.x) * v1ortx + (p22.y - p11.y) * v1orty
    let dot11 := (p11.x - p21.x) * v2ortx + (p11.y - p21.y) * v2orty
    let dot12 := (p12.x - p21.x) * v2ortx + (p12.y - p21.y) * v2orty
    if dot11 * dot12 > 0 ∨ dot21 * dot22 > 0 then 0 else 1

def IsConvex (p1 p2 p3 : TPPLPoint) : Bool :=
  decide ((p3.y - p1.y) * (p2.x - p1.x) - (p3.x - p1.x) * (p2.y - p1.y) > 0)

def IsReflex (p1 p2 p3 : TPPLPoint) : Bool :=
  decide ((p3.y - p1.y) * (p2.x - p1.x) - (p3.x - p1.x) * (p2.y - p1.y) < 0)

def IsInside (p1 p2 p3 p : TPPLPoint) : Bool :=
  if IsConvex p1 p p2 then false
  else if IsConvex p2 p p3 then false
  else if IsConvex p3 p p1 then false
  else true

def InCone (p1 p2 p3 p : TPPLPoint) : Bool :=
  let convex := IsConvex p1 p2 p3
  if convex then
    if !IsConvex p1 p2 p then false
    else if !IsConvex p2 p3 p then false
    else true
  else
    if IsConvex p1 p2 p then true
    else if IsConvex p2 p3 p then true
    else false

/-! ## Ear clipping -/

/-- Node of the doubly-linked vertex ring; `previous` and `next` are array indices. -/
structure PartitionVertex where
  isActive : Bool
  isConvex : Bool
  isEar : Bool
  p : TPPLPoint
  angle : ℚ
  previous : Nat
  next : Nat
deriving DecidableEq

instance : Inhabited PartitionVertex := ⟨⟨false, false, false, default, 0, 0, 0⟩⟩

/-- The element `vertices[i]` of the vertex array. -/
def vtx (vertices : List PartitionVertex) (i : Nat) : PartitionVertex := vertices.getD i default

def UpdateVertex (sqrt : ℚ → ℚ) (v : Nat) (vertices : List PartitionVertex) (numvertices : Nat) :
    List PartitionVertex :=
  let self := vtx vertices v
  let v1 := vtx vertices self.previous
  let v3 := vtx vertices self.next
  let isConvex := IsConvex v1.p self.p v3.p
  let vec1 := Normalize sqrt (v1.p.sub self.p)
  let vec3 := Normalize sqrt (v3.p.sub self.p)
  let angle := vec1.x * vec3.x + vec1.y * vec3.y
  let isEar :=
    if isConvex then
      !(List.range numvertices).any (fun i =>
        let q := (vtx vertices i).p
        !(q.eq self.p || q.eq v1.p || q.eq v3.p) && IsInside v1.p self.p v3.p q)
    else false
  vertices.set v { self with isConvex := isConvex, angle := angle, isEar := isEar }

/-- The initial ring of `Triangulate_EC`: vertex `i` is linked to `i - 1` and `i + 1`,
cyclically. -/
def initVertices (poly : TPPLPoly) (numvertices : Nat) : List PartitionVertex :=
  (List.range numvertices).map (fun i =>
    { isActive := true, isConvex := false, isEar := false, p := poly.GetPoint i, angle := 0,
      previous := if i = 0 then numvertices - 1 else i - 1,
      next := if i = numvertices - 1 then 0 else i + 1 })

/-- The scan "find the most extruded ear": the first active ear in index order whose
angle is not exceeded by a later one. -/
def findEar (vertices : List PartitionVertex) (numvertices : Nat) : Option Nat :=
  (List.range numvertices).foldl (fun ear j =>
    if !(vtx vertices j).isActive then ear
    else if !(vtx vertices j).isEar then ear
    else match ear with
      | none => some j
      | some e => if (vtx vertices j).angle > (vtx vertices e).angle then some j else some e)
    none

/-- The assignment `v->isActive = b`. -/
def PartitionVertex.setActive (v : PartitionVertex) (b : Bool) : PartitionVertex :=
  { v with isActive := b }

/-- The assignment `v->next = i`. -/
def PartitionVertex.setNext (v : PartitionVertex) (i : Nat) : PartitionVertex :=
  { v with next := i }

/-- The assignment `v->previous = i`. -/
def PartitionVertex.setPrevious (v : PartitionVertex) (i : Nat) : PartitionVertex :=
  { v with previous := i }

/-- The three writes that deactivate the ear and splice it out of the ring:
`ear->isActive = false; ear->previous->next = ear->next; ear->next->previous = ear->previous`. -/
def clipEar (vertices : List PartitionVertex) (ear : Nat) : List PartitionVertex :=
  let vs1 := vertices.set ear ((vtx vertices ear).setActive false)
  let vs2 := vs1.set (vtx vs1 ear).previous
    ((vtx vs1 (vtx vs1 ear).previous).setNext (vtx vs1 ear).next)
  vs2.set (vtx vs2 ear).next ((vtx vs2 (vtx vs2 ear).next).setPrevious (vtx vs2 ear).previous)

/-- The triangle `(v->previous->p, v->p, v->next->p)`. -/
def earTriangle (vertices : List PartitionVertex) (v : Nat) : TPPLPoly :=
  TPPLPoly.Triangle (vtx vertices (vtx vertices v).previous).p (vtx vertices v).p
    (vtx vertices (vtx vertices v).next).p

/-- The clipping loop `for (i = 0; i < numvertices - 3; i++)`, with `rem` iterations left
(`i = numvertices - 3 - rem`).  The result is `none` when no ear is found, paired with
the triangle list as it stands. -/
def ecLoop (sqrt : ℚ → ℚ) (numvertices : Nat) :
    Nat → List PartitionVertex → TPPLPolyList → Bool × List PartitionVertex × TPPLPolyList
  | 0, vertices, triangles => (true, vertices, triangles)
  | rem + 1, vertices, triangles =>
    match findEar vertices numvertices with
    | none => (false, vertices, triangles)
    | some ear =>
      let triangles1 := triangles ++ [earTriangle vertices ear]
      let vs1 := clipEar vertices ear
      if rem = 0 then (true, vs1, triangles1)
      else
        let vs2 := UpdateVertex sqrt (vtx vs1 ear).previous vs1 numvertices
        let vs3 := UpdateVertex sqrt (vtx vs2 ear).next vs2 numvertices
        ecLoop sqrt numvertices rem vs3 triangles1

/-- The closing loop: the triangle at the first active vertex, if any. -/
def lastTriangle (vertices : List PartitionVertex) (numvertices : Nat) : TPPLPolyList :=
  match (List.range numvertices).find? (fun i => (vtx vertices i).isActive) with
  | some i => [earTriangle vertices i]
  | none => []

/-- Triangulation by ear removal (single polygon).  Returns the return value and the
output list after the call. -/
def Triangulate_EC (sqrt : ℚ → ℚ) (poly : TPPLPoly) (triangles : TPPLPolyList) :
    Int × TPPLPolyList :=
  if !poly.Valid then (0, triangles)
  else if poly.GetNumPoints < 3 then (0, triangles)
  else if poly.GetNumPoints = 3 then (1, triangles ++ [poly])
  else
    let numvertices := poly.GetNumPoints
    let vertices0 := initVertices poly numvertices
    let vertices := (List.range numvertices).foldl
      (fun vs i => UpdateVertex sqrt i vs numvertices) vertices0
    match ecLoop sqrt numvertices (numvertices - 3) vertices triangles with
    | (false, _, triangles1) => (0, triangles1)
    | (true, vertices1, triangles1) => (1, triangles1 ++ lastTriangle vertices1 numvertices)

/-! ## Hole removal -/

/-- The inner loop of "find the hole point with the largest x" for the hole at position
`it`; the state is `(holeiter, holepointindex)`. -/
def scanHole (polys : TPPLPolyList) (it : Nat) (st : Nat × Nat) : Nat × Nat :=
  (List.range (polyAt polys it).GetNumPoints).foldl (fun st i =>
    if ((polyAt polys it).GetPoint i).x > ((polyAt polys st.1).GetPoint st.2).x
    then (it, i) else st) st

/-- Find the hole point with the largest x: `none` when `hasholes` stays false, else
`(holeiter, holepointindex)`, list positions standing for iterators. -/
def findHolePoint (polys : TPPLPolyList) : Option (Nat × Nat) :=
  (List.range polys.length).foldl (fun st it =>
    if !(polyAt polys it).IsHole then st
    else some (scanHole polys it (st.getD (it, 0)))) none

/-- The flag `pointvisible`: the segment meets no edge of any non-hole polygon. -/
def pointVisible (polys : TPPLPolyList) (holepoint polypoint : TPPLPoint) : Bool :=
  polys.all (fun poly2 => poly2.IsHole ||
    (List.range poly2.GetNumPoints).all (fun i2 =>
      Intersects holepoint polypoint (poly2.GetPoint i2)
        (poly2.GetPoint ((i2 + 1) % poly2.GetNumPoints)) = 0))

/-- Body of the search loop for vertex `i` of the non-hole polygon at position `it`; the
state is `none` while `pointfound` is false, else `(polyiter, polypointindex)`, and
`bestpolypoint` is the point stored there. -/
def polyPointStep (sqrt : ℚ → ℚ) (polys : TPPLPolyList) (holepoint : TPPLPoint) (it i : Nat)
    (st : Option (Nat × Nat)) : Option (Nat × Nat) :=
  let poly := polyAt polys it
  if (poly.GetPoint i).x ≤ holepoint.x then st
  else if !InCone (poly.GetPoint ((i + poly.GetNumPoints - 1) % poly.GetNumPoints))
      (poly.GetPoint i) (poly.GetPoint ((i + 1) % poly.GetNumPoints)) holepoint then st
  else
    let polypoint := poly.GetPoint i
    let worse := match st with
      | none => false
      | some best =>
        let bestpolypoint := (polyAt polys best.1).GetPoint best.2
        let v1 := Normalize sqrt (polypoint.sub holepoint)
        let v2 := Normalize sqrt (bestpolypoint.sub holepoint)
        decide (v2.x > v1.x)
    if worse then st
    else if pointVisible polys holepoint polypoint then some (it, i)
    else st

/-- The search for the bridge vertex over all vertices of all non-hole polygons. -/
def findPolyPoint (sqrt : ℚ → ℚ) (polys : TPPLPolyList) (holepoint : TPPLPoint) :
    Option (Nat × Nat) :=
  (List.range polys.length).foldl (fun st it =>
    if (polyAt polys it).IsHole then st
    else (List.range (polyAt polys it).GetNumPoints).foldl
      (fun st i => polyPointStep sqrt polys holepoint it i st) st) none

/-- The polygon `newpoly` built from the three copy loops. -/
def mergeHole (hole poly : TPPLPoly) (holepointindex polypointindex : Nat) : TPPLPoly :=
  TPPLPoly.ofPoints (
    (List.range (polypointindex + 1)).map (fun i => poly.GetPoint i)
    ++ (List.range (hole.GetNumPoints + 1)).map
        (fun i => hole.GetPoint ((i + holepointindex) % hole.GetNumPoints))
    ++ (List.range' polypointindex (poly.GetNumPoints - polypointindex)).map
        (fun i => poly.GetPoint i))

/-- Outcome of one pass through the body of `while (true)`. -/
inductive HoleStep where
  | done : HoleStep
  | fail : HoleStep
  | next : TPPLPolyList → HoleStep

/-- One pass through the body of `while (true)` in `RemoveHoles`. -/
def removeHolesStep (sqrt : ℚ → ℚ) (polys : TPPLPolyList) : HoleStep :=
  match findHolePoint polys with
  | none => HoleStep.done
  | some (holeiter, holepointindex) =>
    let holepoint := (polyAt polys holeiter).GetPoint holepointindex
    match findPolyPoint sqrt polys holepoint with
    | none => HoleStep.fail
    | some (polyiter, polypointindex) =>
      let newpoly := mergeHole (polyAt polys holeiter) (polyAt polys polyiter)
        holepointindex polypointindex
      HoleStep.next (((polys.eraseIdx holeiter).eraseIdx
        (if holeiter < polyiter then polyiter - 1 else polyiter)) ++ [newpoly])

/-- The loop `while (true)`, bounded by `fuel` passes: `none` is `return 0` (or the bound
being reached), `some polys` the list when the loop is left by `break`. -/
def removeHolesLoop (sqrt : ℚ → ℚ) : Nat → TPPLPolyList → Option TPPLPolyList
  | 0, _ => none
  | fuel + 1, polys =>
    match removeHolesStep sqrt polys with
    | HoleStep.done => some polys
    | HoleStep.fail => none
    | HoleStep.next polys1 => removeHolesLoop sqrt fuel polys1

/-- Removes holes from inpolys by merging them with non-holes.  Every pass removes one
hole, so `inpolys.length + 1` passes are enough. -/
def RemoveHoles (sqrt : ℚ → ℚ) (inpolys outpolys : TPPLPolyList) : Int × TPPLPolyList :=
  if !inpolys.any (fun poly => poly.IsHole) then (1, outpolys ++ inpolys)
  else
    match removeHolesLoop sqrt (inpolys.length + 1) inpolys with
    | none => (0, outpolys)
    | some polys => (1, outpolys ++ polys)

/-! ## Hertel-Mehlhorn convex partition -/

/-- The reflex scan "check if the poly is already convex": true when `numreflex` is set. -/
def hasReflex (poly : TPPLPoly) : Bool :=
  (List.range poly.GetNumPoints).any (fun i11 =>
    let i12 := if i11 = 0 then poly.GetNumPoints - 1 else i11 - 1
    let i13 := if i11 = poly.GetNumPoints - 1 then 0 else i11 + 1
    IsReflex (poly.GetPoint i12) (poly.GetPoint i11) (poly.GetPoint i13))

/-- The search over `iter2` (the polygons after `iter1`) and `i21` for the reversed edge
`(d2, d1)`: the first `(iter2, i21)` found. -/
def findDiagonal (triangles : TPPLPolyList) (iter1 : Nat) (d1 d2 : TPPLPoint) :
    Option (Nat × Nat) :=
  (List.range' (iter1 + 1) (triangles.length - (iter1 + 1))).findSome? (fun iter2 =>
    ((List.range (polyAt triangles iter2).GetNumPoints).find? (fun i21 =>
      !(d2.ne ((polyAt triangles iter2).GetPoint i21)) &&
      !(d1.ne ((polyAt triangles iter2).GetPoint
          ((i21 + 1) % (polyAt triangles iter2).GetNumPoints))))).map
      (fun i21 => (iter2, i21)))

/-- The copy loop `for (j = start; j != stop; j = (j + 1) % n) newpoly[k++] = poly[j]`,
which runs at most `n` times. -/
def copyLoop (poly : TPPLPoly) (stop : Nat) : Nat → Nat → List TPPLPoint
  | 0, _ => []
  | fuel + 1, j =>
    if j = stop then []
    else poly.GetPoint j :: copyLoop poly stop fuel ((j + 1) % poly.GetNumPoints)

/-- The polygon `newpoly` obtained by removing the shared diagonal. -/
def hmMerge (poly1 poly2 : TPPLPoly) (i11 i12 i21 i22 : Nat) : TPPLPoly :=
  TPPLPoly.ofPoints (copyLoop poly1 i11 poly1.GetNumPoints i12
    ++ copyLoop poly2 i21 poly2.GetNumPoints i22)

/-- The body of the loop over `i11` for the edge `(d1, d2)` that starts at vertex `i11` of
the polygon at `iter1`: `none` when the body ends in a `continue`, else the list after
`triangles.erase(iter2); *iter1 = newpoly`. -/
def hmEdge (triangles : TPPLPolyList) (iter1 i11 : Nat) : Option TPPLPolyList :=
  let poly1 := polyAt triangles iter1
  let d1 := poly1.GetPoint i11
  let i12 := (i11 + 1) % poly1.GetNumPoints
  let d2 := poly1.GetPoint i12
  match findDiagonal triangles iter1 d1 d2 with
  | none => none
  | some (iter2, i21) =>
    let poly2 := polyAt triangles iter2
    let i22 := (i21 + 1) % poly2.GetNumPoints
    if !IsConvex (poly1.GetPoint (if i11 = 0 then poly1.GetNumPoints - 1 else i11 - 1))
        (poly1.GetPoint i11)
        (poly2.GetPoint (if i22 = poly2.GetNumPoints - 1 then 0 else i22 + 1)) then none
    else if !IsConvex (poly2.GetPoint (if i21 = 0 then poly2.GetNumPoints - 1 else i21 - 1))
        (poly1.GetPoint i12)
        (poly1.GetPoint (if i12 = poly1.GetNumPoints - 1 then 0 else i12 + 1)) then none
    else
      some ((triangles.eraseIdx iter2).set iter1 (hmMerge poly1 poly2 i11 i12 i21 i22))

/-- The two nested loops over `iter1` and `i11` of `ConvexPartition_HM`, as a state machine
on `(triangles, iter1, i11)`, bounded by `fuel` steps: a step either moves to the next
polygon, moves to the next edge, or merges two polygons and restarts at edge 0. -/
def hmLoop : Nat → TPPLPolyList → Nat → Nat → TPPLPolyList
  | 0, triangles, _, _ => triangles
  | fuel + 1, triangles, iter1, i11 =>
    if iter1 < triangles.length then
      if i11 < (polyAt triangles iter1).GetNumPoints then
        match hmEdge triangles iter1 i11 with
        | none => hmLoop fuel triangles iter1 (i11 + 1)
        | some triangles1 => hmLoop fuel triangles1 iter1 0
      else hmLoop fuel triangles (iter1 + 1) 0
    else triangles

/-- A bound on the number of steps of `hmLoop`: between two merges every edge of every
polygon is visited at most once, and there are fewer merges than polygons. -/
def hmFuel (triangles : TPPLPolyList) : Nat :=
  (triangles.length + 1) * (totalPoints triangles + triangles.length + 2)

/-- The single-polygon `ConvexPartition_HM`. -/
def ConvexPartition_HM (sqrt : ℚ → ℚ) (poly : TPPLPoly) (parts : TPPLPolyList) :
    Int × TPPLPolyList :=
  if !poly.Valid then (0, parts)
  else if !hasReflex poly then (1, parts ++ [poly])
  else
    match Triangulate_EC sqrt poly [] with
    | (0, _) => (0, parts)
    | (_, triangles) => (1, parts ++ hmLoop (hmFuel triangles) triangles 0 0)

/-! ## Minimum-weight triangulation -/

/-- Dynamic programming state for minimum-weight triangulation. -/
structure DPState where
  visible : Bool
  weight : ℚ
  bestvertex : Int

instance : Inhabited DPState := ⟨⟨false, 0, -1⟩⟩

/-- The table `dpstates`: row `j` holds the states `dpstates[j][i]`. -/
abbrev DPTable := List (List DPState)

/-- The element `dpstates[j][i]`. -/
def DPTable.get (dp : DPTable) (j i : Nat) : DPState := (dp.getD j []).getD i default

/-- The write `dpstates[j][i] = s`. -/
def DPTable.set (dp : DPTable) (j i : Nat) (s : DPState) : DPTable :=
  List.set dp j ((dp.getD j []).set i s)

/-- The visibility flag computed for the pair `i < j` in the initialisation loop of
`Triangulate_OPT`. -/
def optVisible (poly : TPPLPoly) (n i j : Nat) : Bool :=
  if j ≠ i + 1 then
    let p1 := poly.GetPoint i
    let p2 := poly.GetPoint j
    let p3 := if i = 0 then poly.GetPoint (n - 1) else poly.GetPoint (i - 1)
    let p4 := if i = n - 1 then poly.GetPoint 0 else poly.GetPoint (i + 1)
    if !InCone p3 p1 p4 p2 then false
    else
      let p3 := if j = 0 then poly.GetPoint (n - 1) else poly.GetPoint (j - 1)
      let p4 := if j = n - 1 then poly.GetPoint 0 else poly.GetPoint (j + 1)
      if !InCone p3 p2 p4 p1 then false
      else
        !(List.range n).any (fun k =>
          let p3 := poly.GetPoint k
          let p4 := if k = n - 1 then poly.GetPoint 0 else poly.GetPoint (k + 1)
          decide (Intersects p1 p2 p3 p4 ≠ 0))
  else true

/-- Initialize states and visibility. -/
def optInit (poly : TPPLPoly) (n : Nat) : DPTable :=
  let dp : DPTable := (List.range (n - 1)).foldl (fun (dp : DPTable) i =>
    (List.range' (i + 1) (n - (i + 1))).foldl (fun (dp : DPTable) j =>
      dp.set j i ⟨optVisible poly n i j, 0, -1⟩) dp) ((List.range n).map (fun i => List.replicate i default))
  dp.set (n - 1) 0 ⟨true, 0, -1⟩

/-- The loop over `k` for the pair `(i, j)`: the final `(bestvertex, minweight)`. -/
def optBest (sqrt : ℚ → ℚ) (poly : TPPLPoly) (dp : DPTable) (i j : Nat) : Int × ℚ :=
  (List.range' (i + 1) (j - (i + 1))).foldl (fun st k =>
    if !(dp.get k i).visible then st
    else if !(dp.get j k).visible then st
    else
      let d1 := if k ≤ i + 1 then 0 else Distance sqrt (poly.GetPoint i) (poly.GetPoint k)
      let d2 := if j ≤ k + 1 then 0 else Distance sqrt (poly.GetPoint k) (poly.GetPoint j)
      let weight := (dp.get k i).weight + (dp.get j k).weight + d1 + d2
      if st.1 = -1 ∨ weight < st.2 then ((k : Int), weight) else st) (-1, 0)

/-- The body of the loop over `i` for a given `gap`; `none` is the `return 0`. -/
def optCell (sqrt : ℚ → ℚ) (poly : TPPLPoly) (gap : Nat) (dp : DPTable) (i : Nat) :
    Option DPTable :=
  let j := i + gap
  if !(dp.get j i).visible then some dp
  else
    let best := optBest sqrt poly dp i j
    if best.1 = -1 then none
    else some (dp.set j i { dp.get j i with bestvertex := best.1, weight := best.2 })

/-- The loops over `gap` and `i`; `none` is the `return 0`. -/
def optFill (sqrt : ℚ → ℚ) (poly : TPPLPoly) (n : Nat) (dp0 : DPTable) : Option DPTable :=
  (List.range' 2 (n - 2)).foldlM (fun dp gap =>
    (List.range (n - gap)).foldlM (optCell sqrt poly gap) dp) dp0

/-- The loop `while (!diagonals.empty())` of `Triangulate_OPT`, bounded by `fuel` passes. -/
def optRecover (poly : TPPLPoly) (dp : DPTable) :
    Nat → List (Nat × Nat) → TPPLPolyList → Int × TPPLPolyList
  | _, [], triangles => (1, triangles)
  | 0, _ :: _, triangles => (0, triangles)
  | fuel + 1, diagonal :: diagonals, triangles =>
    let bestvertex := (dp.get diagonal.2 diagonal.1).bestvertex
    if bestvertex = -1 then (0, triangles)
    else
      let triangles1 := triangles ++ [TPPLPoly.Triangle (poly.GetPoint diagonal.1)
        (poly.GetPoint bestvertex.toNat) (poly.GetPoint diagonal.2)]
      let diagonals1 :=
        if bestvertex > diagonal.1 + 1 then diagonals ++ [(diagonal.1, bestvertex.toNat)]
        else diagonals
      let diagonals2 :=
        if (diagonal.2 : Int) > bestvertex + 1 then diagonals1 ++ [(bestvertex.toNat, diagonal.2)]
        else diagonals1
      optRecover poly dp fuel diagonals2 triangles1

/-- Minimum-weight polygon triangulation by dynamic programming.  Each pass of the
recovery loop emits one triangle, so `n` passes are enough. -/
def Triangulate_OPT (sqrt : ℚ → ℚ) (poly : TPPLPoly) (triangles : TPPLPolyList) :
    Int × TPPLPolyList :=
  if !poly.Valid then (0, triangles)
  else
    let n := poly.GetNumPoints
    match optFill sqrt poly n (optInit poly n) with
    | none => (0, triangles)
    | some dp => optRecover poly dp n [(0, n - 1)] triangles

/-! ## Optimal convex partition (Keil-Snoeyink) -/

structure Diagonal where
  index1 : Nat
  index2 : Nat
deriving DecidableEq

instance : Inhabited Diagonal := ⟨⟨0, 0⟩⟩

/-- Dynamic programming state for convex partitioning; the head of `pairs` is the front
of the list. -/
structure DPState2 where
  visible : Bool
  weight : Int
  pairs : List Diagonal

instance : Inhabited DPState2 := ⟨⟨false, 0, []⟩⟩

/-- The table `dpstates`: row `i` holds the states `dpstates[i][j]`. -/
abbrev DPTable2 := List (List DPState2)

/-- The element `dpstates[a][b]`. -/
def DPTable2.get (dp : DPTable2) (a b : Nat) : DPState2 := (dp.getD a []).getD b default

/-- The write `dpstates[a][b] = s`. -/
def DPTable2.set (dp : DPTable2) (a b : Nat) (s : DPState2) : DPTable2 :=
  List.set dp a ((dp.getD a []).set b s)

def UpdateVertexReflexity (v : Nat) (vertices : List PartitionVertex) : List PartitionVertex :=
  let self := vtx vertices v
  vertices.set v { self with
    isConvex := !IsReflex (vtx vertices self.previous).p self.p (vtx vertices self.next).p }

/-- The overload `InCone(const PartitionVertex *v, const TPPLPoint &p)`. -/
def InConeV (vertices : List PartitionVertex) (v : Nat) (p : TPPLPoint) : Bool :=
  InCone (vtx vertices (vtx vertices v).previous).p (vtx vertices v).p
    (vtx vertices (vtx vertices v).next).p p

def UpdateState (a b : Nat) (w : Int) (i j : Nat) (dp : DPTable2) : DPTable2 :=
  let w2 := (dp.get a b).weight
  if w > w2 then dp
  else
    let pairs := (dp.get a b).pairs
    if w < w2 then dp.set a b { dp.get a b with pairs := [⟨i, j⟩], weight := w }
    else
      if !pairs.isEmpty && decide (i ≤ (pairs.headD default).index1) then dp
      else dp.set a b { dp.get a b with
        pairs := ⟨i, j⟩ :: pairs.dropWhile (fun d => decide (d.index2 ≥ j)) }

/-- The part of `TypeA` under `if (j - i > 1)`: the backward scan over the pairs of
`dpstates[i][j]` and the resulting `(top, w)`. -/
def typeAScan (i j k : Nat) (vertices : List PartitionVertex) (dp : DPTable2) (w : Int) :
    Nat × Int :=
  -- the pairs visited by the scan, the last one visited being `lastiter`
  let scanned := (dp.get i j).pairs.reverse.takeWhile (fun d =>
    !IsReflex (vtx vertices d.index2).p (vtx vertices j).p (vtx vertices k).p)
  match scanned.getLast? with
  | none => (j, w + 1)
  | some lastiter =>
    if IsReflex (vtx vertices k).p (vtx vertices i).p (vtx vertices lastiter.index1).p
    then (j, w + 1)
    else (lastiter.index1, w)

def TypeA (i j k : Nat) (vertices : List PartitionVertex) (dp : DPTable2) : DPTable2 :=
  if !(dp.get i j).visible then dp
  else if k - j > 1 ∧ !(dp.get j k).visible then dp
  else
    let w := if k - j > 1 then (dp.get i j).weight + ((dp.get j k).weight + 1)
      else (dp.get i j).weight
    let tw := if j - i > 1 then typeAScan i j k vertices dp w else (j, w)
    UpdateState i k tw.2 tw.1 j dp

/-- The part of `TypeB` under `if (k - j > 1)`: the forward scan over the pairs of
`dpstates[j][k]` and the resulting `(top, w)`. -/
def typeBScan (i j k : Nat) (vertices : List PartitionVertex) (dp : DPTable2) (w : Int) :
    Nat × Int :=
  -- the pairs visited by the scan, the last one visited being `lastiter`
  let scanned := (dp.get j k).pairs.takeWhile (fun d =>
    !IsReflex (vtx vertices i).p (vtx vertices j).p (vtx vertices d.index1).p)
  match scanned.getLast? with
  | some lastiter =>
    if IsReflex (vtx vertices lastiter.index2).p (vtx vertices k).p (vtx vertices i).p
    then (j, w + 1)
    else (lastiter.index2, w)
  | none => (j, w + 1)

def TypeB (i j k : Nat) (vertices : List PartitionVertex) (dp : DPTable2) : DPTable2 :=
  if !(dp.get j k).visible then dp
  else if j - i > 1 ∧ !(dp.get i j).visible then dp
  else
    let w := if j - i > 1 then (dp.get j k).weight + ((dp.get i j).weight + 1)
      else (dp.get j k).weight
    let tw := if k - j > 1 then typeBScan i j k vertices dp w else (j, w)
    UpdateState i k tw.2 j tw.1 dp

/-- Initialize vertex information. -/
def cpoVertices (poly : TPPLPoly) (n : Nat) : List PartitionVertex :=
  (List.range' 1 (n - 1)).foldl (fun vs i => UpdateVertexReflexity i vs) (initVertices poly n)

/-- The visibility flag computed for the pair `i < j` in the initialisation loop of
`ConvexPartition_OPT`. -/
def cpoVisible (poly : TPPLPoly) (vertices : List PartitionVertex) (n i j : Nat) : Bool :=
  if j ≠ i + 1 then
    let p1 := poly.GetPoint i
    let p2 := poly.GetPoint j
    if !InConeV vertices i p2 then false
    else if !InConeV vertices j p1 then false
    else
      !(List.range n).any (fun k =>
        let p3 := poly.GetPoint k
        let p4 := if k = n - 1 then poly.GetPoint 0 else poly.GetPoint (k + 1)
        decide (Intersects p1 p2 p3 p4 ≠ 0))
  else true

/-- Initialize states and visibility. -/
def cpoInit (poly : TPPLPoly) (vertices : List PartitionVertex) (n : Nat) : DPTable2 :=
  let dp1 : DPTable2 := (List.range (n - 1)).foldl (fun (dp : DPTable2) i =>
    (List.range' (i + 1) (n - (i + 1))).foldl (fun (dp : DPTable2) j =>
      dp.set i j { dp.get i j with
        visible := cpoVisible poly vertices n i j,
        weight := if j = i + 1 then 0 else 2147483647 }) dp) (List.replicate n (List.replicate n default))
  let dp2 : DPTable2 := (List.range (n - 2)).foldl (fun (dp : DPTable2) i =>
    let j := i + 2
    if (dp.get i j).visible then
      dp.set i j { dp.get i j with weight := 0, pairs := (dp.get i j).pairs ++ [⟨i + 1, i + 1⟩] }
    else dp) dp1
  dp2.set 0 (n - 1) { dp2.get 0 (n - 1) with visible := true }

/-- The first inner loop of a given `gap`: the `TypeA` relaxations. -/
def cpoGapA (vertices : List PartitionVertex) (n gap : Nat) (dp0 : DPTable2) : DPTable2 :=
  (List.range (n - gap)).foldl (fun (dp : DPTable2) i =>
    if (vtx vertices i).isConvex then dp
    else
      let k := i + gap
      if (dp.get i k).visible then
        if !(vtx vertices k).isConvex then
          (List.range' (i + 1) (k - (i + 1))).foldl (fun dp j => TypeA i j k vertices dp) dp
        else
          let dp1 := (List.range' (i + 1) (k - 1 - (i + 1))).foldl (fun dp j =>
            if (vtx vertices j).isConvex then dp else TypeA i j k vertices dp) dp
          TypeA i (k - 1) k vertices dp1
      else dp) dp0

/-- The second inner loop of a given `gap`: the `TypeB` relaxations. -/
def cpoGapB (vertices : List PartitionVertex) (n gap : Nat) (dp0 : DPTable2) : DPTable2 :=
  (List.range' gap (n - gap)).foldl (fun (dp : DPTable2) k =>
    if (vtx vertices k).isConvex then dp
    else
      let i := k - gap
      if (vtx vertices i).isConvex && (dp.get i k).visible then
        let dp1 := TypeB i (i + 1) k vertices dp
        (List.range' (i + 2) (k - (i + 2))).foldl (fun dp j =>
          if (vtx vertices j).isConvex then dp else TypeB i j k vertices dp) dp1
      else dp) dp0

/-- The loop `for (gap = 3; gap < n; gap++)`. -/
def cpoFill (vertices : List PartitionVertex) (n : Nat) (dp0 : DPTable2) : DPTable2 :=
  (List.range' 3 (n - 3)).foldl (fun dp gap =>
    cpoGapB vertices n gap (cpoGapA vertices n gap dp)) dp0

/-- The first recovery loop ("recover solution"), bounded by `fuel` passes; it returns
the table with the pair lists as trimmed by `pop_back` and `pop_front`, or `none` when
`ret` is set to 0 (or the bound is reached). -/
def cpoRecover1 (vertices : List PartitionVertex) :
    Nat → List Diagonal → DPTable2 → Option DPTable2
  | _, [], dp => some dp
  | 0, _ :: _, _ => none
  | fuel + 1, diagonal :: diagonals, dp =>
    if diagonal.index2 - diagonal.index1 ≤ 1 then cpoRecover1 vertices fuel diagonals dp
    else
      let pairs := (dp.get diagonal.index1 diagonal.index2).pairs
      if pairs.isEmpty then none
      else if !(vtx vertices diagonal.index1).isConvex then
        let iter := pairs.getLastD default
        let j := iter.index2
        let diagonals1 := ⟨j, diagonal.index2⟩ :: diagonals
        if j - diagonal.index1 > 1 then
          if iter.index1 ≠ iter.index2 then
            let pairs2 := ((dp.get diagonal.index1 j).pairs).rdropWhile
              (fun d => decide (iter.index1 ≠ d.index1))
            if pairs2.isEmpty then none
            else cpoRecover1 vertices fuel (⟨diagonal.index1, j⟩ :: diagonals1)
              (dp.set diagonal.index1 j { dp.get diagonal.index1 j with pairs := pairs2 })
          else cpoRecover1 vertices fuel (⟨diagonal.index1, j⟩ :: diagonals1) dp
        else cpoRecover1 vertices fuel diagonals1 dp
      else
        let iter := pairs.headD default
        let j := iter.index1
        let diagonals1 := ⟨diagonal.index1, j⟩ :: diagonals
        if diagonal.index2 - j > 1 then
          if iter.index1 ≠ iter.index2 then
            let pairs2 := ((dp.get j diagonal.index2).pairs).dropWhile
              (fun d => decide (iter.index2 ≠ d.index2))
            if pairs2.isEmpty then none
            else cpoRecover1 vertices fuel (⟨j, diagonal.index2⟩ :: diagonals1)
              (dp.set j diagonal.index2 { dp.get j diagonal.index2 with pairs := pairs2 })
          else cpoRecover1 vertices fuel (⟨j, diagonal.index2⟩ :: diagonals1) dp
        else cpoRecover1 vertices fuel diagonals1 dp

/-- The choice made for a diagonal in the second recovery loop: `(j, ijreal, jkreal)`. -/
def cpoPick (vertices : List PartitionVertex) (dp : DPTable2) (diagonal : Diagonal) :
    Nat × Bool × Bool :=
  let pairs := (dp.get diagonal.index1 diagonal.index2).pairs
  if !(vtx vertices diagonal.index1).isConvex then
    let iter := pairs.getLastD default
    (iter.index2, decide (iter.index1 = iter.index2), true)
  else
    let iter := pairs.headD default
    (iter.index1, true, decide (iter.index1 = iter.index2))

/-- The loop `while (!diagonals2.empty())` that collects the vertex indices of one part,
bounded by `fuel` passes; the state is `(diagonals, diagonals2, indices)`. -/
def cpoCollect (vertices : List PartitionVertex) (dp : DPTable2) :
    Nat → List Diagonal → List Diagonal → List Nat → List Diagonal × List Nat
  | _, diagonals, [], indices => (diagonals, indices)
  | 0, diagonals, _ :: _, indices => (diagonals, indices)
  | fuel + 1, diagonals, diagonal :: diagonals2, indices =>
    if diagonal.index2 - diagonal.index1 ≤ 1 then
      cpoCollect vertices dp fuel diagonals diagonals2 indices
    else
      let pick := cpoPick vertices dp diagonal
      let j := pick.1
      let diagonalsA := if pick.2.1 then diagonals ++ [⟨diagonal.index1, j⟩] else diagonals
      let diagonals2A := if pick.2.1 then diagonals2 else diagonals2 ++ [⟨diagonal.index1, j⟩]
      let diagonalsB := if pick.2.2 then diagonalsA ++ [⟨j, diagonal.index2⟩] else diagonalsA
      let diagonals2B := if pick.2.2 then diagonals2A else diagonals2A ++ [⟨j, diagonal.index2⟩]
      cpoCollect vertices dp fuel diagonalsB diagonals2B (indices ++ [j])

/-- The second recovery loop, which emits the parts, bounded by `fuel` passes. -/
def cpoRecover2 (vertices : List PartitionVertex) (dp : DPTable2) (n : Nat) :
    Nat → List Diagonal → TPPLPolyList → TPPLPolyList
  | _, [], parts => parts
  | 0, _ :: _, parts => parts
  | fuel + 1, diagonal :: diagonals, parts =>
    if diagonal.index2 - diagonal.index1 ≤ 1 then cpoRecover2 vertices dp n fuel diagonals parts
    else
      let r := cpoCollect vertices dp (2 * n + 2) diagonals [diagonal]
        [diagonal.index1, diagonal.index2]
      let indices := r.2.insertionSort (fun a b => a ≤ b)
      let newpoly := TPPLPoly.ofPoints (indices.map (fun i => (vtx vertices i).p))
      cpoRecover2 vertices dp n fuel r.1 (parts ++ [newpoly])

/-- The single-polygon `ConvexPartition_OPT`.  Every pass of a recovery loop handles one
diagonal `(a, b)` with `a < b < n`, each at most once, which bounds the passes. -/
def ConvexPartition_OPT (poly : TPPLPoly) (parts : TPPLPolyList) : Int × TPPLPolyList :=
  if !poly.Valid then (0, parts)
  else
    let n := poly.GetNumPoints
    let vertices0 := cpoVertices poly n
    let dp0 := cpoInit poly vertices0 n
    let vertices := vertices0.set 0 { vtx vertices0 0 with isConvex := false }
    let dp := cpoFill vertices n dp0
    match cpoRecover1 vertices (2 * n + 2) [⟨0, n - 1⟩] dp with
    | none => (0, parts)
    | some dp1 => (1, cpoRecover2 vertices dp1 n (2 * n + 2) [⟨0, n - 1⟩] parts)

/-! ## Monotone partition and triangulation: the entry points -/

/-- The first loop of `MonotonePartition`, which counts the vertices: `none` is the
`return 0` on a polygon that is not valid, else the value of `numvertices`. -/
def monoNumVertices (inpolys : TPPLPolyList) : Option Nat :=
  inpolys.foldlM (fun numvertices poly =>
    if !poly.Valid then none else some (numvertices + poly.GetNumPoints)) 0

/-- `MonotonePartition`: the validity scan, followed by the sweep.  The sweep (everything
after the first loop) is the parameter `sweep`, applied to the input list, `numvertices`
and the output list. -/
def MonotonePartition (sweep : TPPLPolyList → Nat → TPPLPolyList → Int × TPPLPolyList)
    (inpolys monotonePolys : TPPLPolyList) : Int × TPPLPolyList :=
  match monoNumVertices inpolys with
  | none => (0, monotonePolys)
  | some numvertices => sweep inpolys numvertices monotonePolys

/-- The loop of the list form of `Triangulate_MONO` over the monotone polygons, with
`TriangulateMonotone` as the parameter `triangulateMonotone`. -/
def triangulateMonotoneAll
    (triangulateMonotone : TPPLPoly → TPPLPolyList → Int × TPPLPolyList) :
    TPPLPolyList → TPPLPolyList → Int × TPPLPolyList
  | [], triangles => (1, triangles)
  | poly :: rest, triangles =>
    match triangulateMonotone poly triangles with
    | (0, triangles1) => (0, triangles1)
    | (_, triangles1) => triangulateMonotoneAll triangulateMonotone rest triangles1

/-- The list form of `Triangulate_MONO`. -/
def Triangulate_MONO_list (sweep : TPPLPolyList → Nat → TPPLPolyList → Int × TPPLPolyList)
    (triangulateMonotone : TPPLPoly → TPPLPolyList → Int × TPPLPolyList)
    (inpolys triangles : TPPLPolyList) : Int × TPPLPolyList :=
  match MonotonePartition sweep inpolys [] with
  | (0, _) => (0, triangles)
  | (_, monotone) => triangulateMonotoneAll triangulateMonotone monotone triangles

/-- The single-polygon form of `Triangulate_MONO`. -/
def Triangulate_MONO (sweep : TPPLPolyList → Nat → TPPLPolyList → Int × TPPLPolyList)
    (triangulateMonotone : TPPLPoly → TPPLPolyList → Int × TPPLPolyList)
    (poly : TPPLPoly) (triangles : TPPLPolyList) : Int × TPPLPolyList :=
  Triangulate_MONO_list sweep triangulateMonotone [poly] triangles

/-! ## Monotone partition: the sweep -/

inductive TPPLVertexType where
  | REGULAR
  | START
  | END
  | SPLIT
  | MERGE
deriving DecidableEq

instance : Inhabited TPPLVertexType := ⟨TPPLVertexType.REGULAR⟩

/-- Node of the doubly-connected vertex list of `MonotonePartition`. -/
structure MonotoneVertex where
  p : TPPLPoint
  previous : Nat
  next : Nat
deriving DecidableEq

instance : Inhabited MonotoneVertex := ⟨⟨default, 0, 0⟩⟩

def Below (p1 p2 : TPPLPoint) : Bool :=
  if p1.y < p2.y then true else decide (p1.y = p2.y ∧ p1.x < p2.x)

/-- The comparison `VertexSorter::operator()`: falling order of `y`, then of `x`. -/
def VertexSorter (vertices : List MonotoneVertex) (index1 index2 : Nat) : Bool :=
  if (vertices.getD index1 default).p.y > (vertices.getD index2 default).p.y then true
  else decide ((vertices.getD index1 default).p.y = (vertices.getD index2 default).p.y ∧
    (vertices.getD index1 default).p.x > (vertices.getD index2 default).p.x)

/-- Insertion of one index into a sequence sorted by `VertexSorter`, after the entries that
do not come after it. -/
def sorterInsert (vertices : List MonotoneVertex) (a : Nat) : List Nat → List Nat
  | [] => [a]
  | b :: l =>
    if VertexSorter vertices a b then a :: b :: l else b :: sorterInsert vertices a l

/-- The call `std::sort(priority, ..., VertexSorter(vertices))`, as an insertion sort that
keeps the index order of vertices with equal points (the order `std::sort` gives to such
vertices is not specified). -/
def sortPriority (vertices : List MonotoneVertex) (priority : List Nat) : List Nat :=
  priority.foldl (fun sorted a => sorterInsert vertices a sorted) []

/-- Edge that intersects the scanline. -/
structure ScanLineEdge where
  index : Nat
  p1 : TPPLPoint
  p2 : TPPLPoint
deriving DecidableEq

instance : Inhabited ScanLineEdge := ⟨⟨0, default, default⟩⟩

/-- The comparison `ScanLineEdge::operator<`: determines if the edge is to the left of another
edge. -/
def ScanLineEdge.lt (e other : ScanLineEdge) : Bool :=
  if other.p1.y = other.p2.y then
    if e.p1.y = e.p2.y then decide (e.p1.y < other.p1.y)
    else IsConvex e.p1 e.p2 other.p1
  else if e.p1.y = e.p2.y then !IsConvex other.p1 other.p2 e.p1
  else if e.p1.y < other.p1.y then !IsConvex other.p1 other.p2 e.p1
  else IsConvex e.p1 e.p2 other.p1

/-- The set `edgeTree`, as the sequence of its nodes in iteration order; a node is the pair
of its identity (what an iterator to it holds) and its element. -/
abbrev EdgeTree := List (Nat × ScanLineEdge)

/-- The call `edgeTree.insert(newedge)` for a new node `id`: the descent finds the first node
that `newedge` is less than, and the element goes in front of it unless the node before
is not less than `newedge`.  Returns the tree and `edgeTreeRet.first`. -/
def EdgeTree.insert (t : EdgeTree) (id : Nat) (newedge : ScanLineEdge) : EdgeTree × Nat :=
  let k := t.findIdx (fun node => newedge.lt node.2)
  if k = 0 ∨ (t.getD (k - 1) default).2.lt newedge then
    (t.take k ++ (id, newedge) :: t.drop k, id)
  else (t, (t.getD (k - 1) default).1)

/-- The call `edgeTree.lower_bound(newedge)` followed by the test against `begin()` and
`--edgeIter`: `none` when the bound is `begin()`, else the node before the first node
that is not less than `newedge`. -/
def EdgeTree.leftOf (t : EdgeTree) (newedge : ScanLineEdge) : Option Nat :=
  let k := t.findIdx (fun node => !node.2.lt newedge)
  if k = 0 then none else some (t.getD (k - 1) default).1

/-- The call `edgeTree.erase(iterator)`. -/
def EdgeTree.erase (t : EdgeTree) (id : Nat) : EdgeTree :=
  t.filter (fun node => node.1 != id)

/-- The read `iterator->index`. -/
def EdgeTree.index (t : EdgeTree) (id : Nat) : Nat :=
  ((t.find? (fun node => node.1 == id)).getD default).2.index

/-- The write `iterator->index = index`. -/
def EdgeTree.setIndex (t : EdgeTree) (id index : Nat) : EdgeTree :=
  t.map (fun node => if node.1 = id then (node.1, { node.2 with index := index }) else node)

/-- The arrays and the edge tree of `MonotonePartition`; `nextId` is the identity of the
next node of the edge tree.  An iterator is `none` when it is `edgeTree.end()`. -/
structure MonotoneState where
  vertices : List MonotoneVertex
  newnumvertices : Nat
  vertextypes : List TPPLVertexType
  edgeTreeIterators : List (Option Nat)
  helpers : List Nat
  edgeTree : EdgeTree
  nextId : Nat

namespace MonotoneState

def vertex (st : MonotoneState) (i : Nat) : MonotoneVertex := st.vertices.getD i default

def vertextype (st : MonotoneState) (i : Nat) : TPPLVertexType := st.vertextypes.getD i default

def iterator (st : MonotoneState) (i : Nat) : Option Nat := st.edgeTreeIterators.getD i none

def helper (st : MonotoneState) (i : Nat) : Nat := st.helpers.getD i 0

end MonotoneState

/-- The write `vertices[i].p = p`. -/
def setP (vs : List MonotoneVertex) (i : Nat) (p : TPPLPoint) : List MonotoneVertex :=
  vs.set i { vs.getD i default with p := p }

/-- The write `vertices[i].next = j`. -/
def setNextIdx (vs : List MonotoneVertex) (i j : Nat) : List MonotoneVertex :=
  vs.set i { vs.getD i default with next := j }

/-- The write `vertices[i].previous = j`. -/
def setPreviousIdx (vs : List MonotoneVertex) (i j : Nat) : List MonotoneVertex :=
  vs.set i { vs.getD i default with previous := j }

/-- The ten writes of `AddDiagonal` to the doubly-connected list, in the order of the
source. -/
def addDiagonalLinks (vs : List MonotoneVertex) (index1 index2 newindex1 newindex2 : Nat) :
    List MonotoneVertex :=
  let vs1 := setP vs newindex1 (vs.getD index1 default).p
  let vs2 := setP vs1 newindex2 (vs1.getD index2 default).p
  let vs3 := setNextIdx vs2 newindex2 (vs2.getD index2 default).next
  let vs4 := setNextIdx vs3 newindex1 (vs3.getD index1 default).next
  let vs5 := setPreviousIdx vs4 (vs4.getD index2 default).next newindex2
  let vs6 := setPreviousIdx vs5 (vs5.getD index1 default).next newindex1
  let vs7 := setNextIdx vs6 index1 newindex2
  let vs8 := setPreviousIdx vs7 newindex2 index1
  let vs9 := setNextIdx vs8 index2 newindex1
  setPreviousIdx vs9 newindex1 index2

/-- The block of `AddDiagonal` that copies the type, the iterator and the helper of `index`
to `newindex` and redirects the node of the edge tree. -/
def copyStructures (st : MonotoneState) (index newindex : Nat) : MonotoneState :=
  let iterators := st.edgeTreeIterators.set newindex (st.iterator index)
  { st with
    vertextypes := st.vertextypes.set newindex (st.vertextype index)
    edgeTreeIterators := iterators
    helpers := st.helpers.set newindex (st.helper index)
    edgeTree := match iterators.getD newindex none with
      | some id => st.edgeTree.setIndex id newindex
      | none => st.edgeTree }

/-- Adds a diagonal to the doubly-connected list of vertices. -/
def AddDiagonal (st : MonotoneState) (index1 index2 : Nat) : MonotoneState :=
  let newindex1 := st.newnumvertices
  let newindex2 := st.newnumvertices + 1
  let st1 := { st with
    newnumvertices := st.newnumvertices + 2
    vertices := addDiagonalLinks st.vertices index1 index2 newindex1 newindex2 }
  copyStructures (copyStructures st1 index1 newindex1) index2 newindex2

/-- The block "insert e_i in T": the edge from vertex `vindex2` to its successor goes into
the edge tree, and `edgeTreeIterators[vindex2]` takes the iterator returned. -/
def insertEdge (st : MonotoneState) (vindex2 : Nat) : MonotoneState :=
  let newedge : ScanLineEdge :=
    ⟨vindex2, (st.vertex vindex2).p, (st.vertex (st.vertex vindex2).next).p⟩
  let edgeTreeRet := st.edgeTree.insert st.nextId newedge
  { st with
    edgeTree := edgeTreeRet.1
    nextId := st.nextId + 1
    edgeTreeIterators := st.edgeTreeIterators.set vindex2 (some edgeTreeRet.2) }

/-- The call `edgeTree.erase(edgeTreeIterators[i])`. -/
def eraseEdge (st : MonotoneState) (i : Nat) : MonotoneState :=
  match st.iterator i with
  | some id => { st with edgeTree := st.edgeTree.erase id }
  | none => st

/-- The write `helpers[i] = j`. -/
def setHelper (st : MonotoneState) (i j : Nat) : MonotoneState :=
  { st with helpers := st.helpers.set i j }

/-- The search key `newedge.p1 = v->p; newedge.p2 = v->p`. -/
def searchKey (st : MonotoneState) (vindex : Nat) : ScanLineEdge :=
  ⟨0, (st.vertex vindex).p, (st.vertex vindex).p⟩

/-- The block "if helper(e_i-1) is a merge vertex, insert the diagonal connecting v_i to
helper(e_i-1)": the state after it, and the value of `vindex2`. -/
def diagonalToHelper (st : MonotoneState) (vindex : Nat) : MonotoneState × Nat :=
  if st.vertextype (st.helper (st.vertex vindex).previous) = TPPLVertexType.MERGE then
    let st1 := AddDiagonal st vindex (st.helper (st.vertex vindex).previous)
    (st1, st1.newnumvertices - 2)
  else (st, vindex)

/-- The block "if helper(e_j) is a merge vertex, insert the diagonal connecting v_i to
helper(e_j); helper(e_j) <- v_i" for the edge `edgeIter` directly left of the vertex. -/
def helperLeft (st : MonotoneState) (edgeIter vindex2 : Nat) : MonotoneState :=
  let st1 :=
    if st.vertextype (st.helper (st.edgeTree.index edgeIter)) = TPPLVertexType.MERGE then
      AddDiagonal st vindex2 (st.helper (st.edgeTree.index edgeIter))
    else st
  setHelper st1 (st1.edgeTree.index edgeIter) vindex2

/-- The body of the loop "for each vertex" for the vertex `vindex`; `none` is `error`. -/
def monoStep (st : MonotoneState) (vindex : Nat) : Option MonotoneState :=
  match st.vertextype vindex with
  | TPPLVertexType.START =>
    some (setHelper (insertEdge st vindex) vindex vindex)
  | TPPLVertexType.END =>
    if st.iterator (st.vertex vindex).previous = none then none
    else
      let st1 := (diagonalToHelper st vindex).1
      some (eraseEdge st1 (st1.vertex vindex).previous)
  | TPPLVertexType.SPLIT =>
    match st.edgeTree.leftOf (searchKey st vindex) with
    | none => none
    | some edgeIter =>
      let st1 := AddDiagonal st vindex (st.helper (st.edgeTree.index edgeIter))
      let vindex2 := st1.newnumvertices - 2
      let st2 := setHelper st1 (st1.edgeTree.index edgeIter) vindex
      some (setHelper (insertEdge st2 vindex2) vindex2 vindex2)
  | TPPLVertexType.MERGE =>
    if st.iterator (st.vertex vindex).previous = none then none
    else
      let (st1, vindex2) := diagonalToHelper st vindex
      let st2 := eraseEdge st1 (st1.vertex vindex).previous
      match st2.edgeTree.leftOf (searchKey st2 vindex) with
      | none => none
      | some edgeIter => some (helperLeft st2 edgeIter vindex2)
  | TPPLVertexType.REGULAR =>
    if Below (st.vertex vindex).p (st.vertex (st.vertex vindex).previous).p then
      if st.iterator (st.vertex vindex).previous = none then none
      else
        let (st1, vindex2) := diagonalToHelper st vindex
        let st2 := eraseEdge st1 (st1.vertex vindex).previous
        some (setHelper (insertEdge st2 vindex2) vindex2 vindex)
    else
      match st.edgeTree.leftOf (searchKey st vindex) with
      | none => none
      | some edgeIter => some (helperLeft st edgeIter vindex)

/-- The loop that copies the polygons into `vertices` and links each ring: the entries
for one polygon that starts at `polystartindex`. -/
def polyVertices (poly : TPPLPoly) (polystartindex : Nat) : List MonotoneVertex :=
  (List.range poly.GetNumPoints).map (fun i =>
    { p := poly.GetPoint i
      previous :=
        if i = 0 then polystartindex + poly.GetNumPoints - 1 else i + polystartindex - 1
      next := if i = poly.GetNumPoints - 1 then polystartindex else i + polystartindex + 1 })

/-- The first `numvertices` entries of `vertices`. -/
def monoInitVertices : TPPLPolyList → Nat → List MonotoneVertex
  | [], _ => []
  | poly :: rest, polystartindex =>
    polyVertices poly polystartindex
      ++ monoInitVertices rest (polystartindex + poly.GetNumPoints)

/-- The classification "determine vertex types" of vertex `i`. -/
def monoVertexType (vertices : List MonotoneVertex) (i : Nat) : TPPLVertexType :=
  let v := vertices.getD i default
  let vprev := vertices.getD v.previous default
  let vnext := vertices.getD v.next default
  if Below vprev.p v.p && Below vnext.p v.p then
    if IsConvex vnext.p vprev.p v.p then TPPLVertexType.START else TPPLVertexType.SPLIT
  else if Below v.p vprev.p && Below v.p vnext.p then
    if IsConvex vnext.p vprev.p v.p then TPPLVertexType.END else TPPLVertexType.MERGE
  else TPPLVertexType.REGULAR

/-- The state before the loop "for each vertex": the arrays have `maxnumvertices` entries,
of which those from `numvertices` on are not initialised by the source (here: default). -/
def monoInitState (inpolys : TPPLPolyList) (numvertices : Nat) : MonotoneState :=
  let vertices := monoInitVertices inpolys 0
  { vertices := vertices ++ List.replicate (numvertices * 3 - numvertices) default
    newnumvertices := numvertices
    vertextypes := (List.range numvertices).map (monoVertexType vertices)
      ++ List.replicate (numvertices * 3 - numvertices) default
    edgeTreeIterators := List.replicate (numvertices * 3) none
    helpers := List.replicate (numvertices * 3) 0
    edgeTree := []
    nextId := 0 }

/-- The walk `while (vnext != v)` along `next` from `cur` back to `start`, bounded by
`fuel` steps: the indices visited. -/
def ringWalk (vertices : List MonotoneVertex) (start : Nat) : Nat → Nat → List Nat
  | 0, _ => []
  | fuel + 1, cur =>
    if cur = start then []
    else cur :: ringWalk vertices start fuel (vertices.getD cur default).next

/-- The loop "return result": one polygon for each ring of the doubly-connected list, in
the order of the lowest index of the ring. -/
def monoOutput (st : MonotoneState) (monotonePolys : TPPLPolyList) : TPPLPolyList :=
  ((List.range st.newnumvertices).foldl (fun (acc : List Bool × TPPLPolyList) i =>
    if acc.1.getD i false then acc
    else
      let walk := ringWalk st.vertices i st.newnumvertices (st.vertex i).next
      let used1 := (acc.1.set i true).set (st.vertex i).next true
      let used2 := walk.foldl (fun used w => used.set (st.vertex w).next true) used1
      (used2, acc.2 ++ [TPPLPoly.ofPoints ((st.vertex i).p :: walk.map (fun w => (st.vertex w).p))]))
    (List.replicate st.newnumvertices false, monotonePolys)).2

/-- Everything after the first loop of `MonotonePartition`. -/
def monoSweep (inpolys : TPPLPolyList) (numvertices : Nat) (monotonePolys : TPPLPolyList) :
    Int × TPPLPolyList :=
  let st0 := monoInitState inpolys numvertices
  let priority := sortPriority st0.vertices (List.range numvertices)
  match priority.foldlM monoStep st0 with
  | none => (0, monotonePolys)
  | some st => (1, monoOutput st monotonePolys)

/-! ## Triangulation of a monotone polygon -/

/-- The scan for `topindex` and `bottomindex`; the state is `(topindex, bottomindex)`. -/
def topBottom (inPoly : TPPLPoly) : Nat × Nat :=
  (List.range' 1 (inPoly.GetNumPoints - 1)).foldl (fun (tb : Nat × Nat) i =>
    let bottomindex := if Below (inPoly.GetPoint i) (inPoly.GetPoint tb.2) then i else tb.2
    let topindex := if Below (inPoly.GetPoint tb.1) (inPoly.GetPoint i) then i else tb.1
    (topindex, bottomindex)) (0, 0)

/-- The loop `while (i != bottomindex)` of "check if the poly is really monotone", bounded
by `fuel` steps: `false` is the `return 0`. -/
def chainDown (inPoly : TPPLPoly) (bottomindex : Nat) : Nat → Nat → Bool
  | 0, _ => true
  | fuel + 1, i =>
    if i = bottomindex then true
    else
      let i2 := if i + 1 ≥ inPoly.GetNumPoints then 0 else i + 1
      if !Below (inPoly.GetPoint i2) (inPoly.GetPoint i) then false
      else chainDown inPoly bottomindex fuel i2

/-- The loop `while (i != topindex)` of "check if the poly is really monotone", bounded by
`fuel` steps: `false` is the `return 0`. -/
def chainUp (inPoly : TPPLPoly) (topindex : Nat) : Nat → Nat → Bool
  | 0, _ => true
  | fuel + 1, i =>
    if i = topindex then true
    else
      let i2 := if i + 1 ≥ inPoly.GetNumPoints then 0 else i + 1
      if !Below (inPoly.GetPoint i) (inPoly.GetPoint i2) then false
      else chainUp inPoly topindex fuel i2

/-- The arrays `priority` and `vertextypes` and the two cursors of "merge left and right
vertex chains". -/
structure ChainMerge where
  priority : List Nat
  vertextypes : List Int
  leftindex : Nat
  rightindex : Nat

/-- The step `priority[i] = rightindex; rightindex--; ...; vertextypes[priority[i]] = -1`. -/
def ChainMerge.takeRight (m : ChainMerge) (numpoints i : Nat) : ChainMerge :=
  { priority := m.priority.set i m.rightindex
    vertextypes := m.vertextypes.set m.rightindex (-1)
    leftindex := m.leftindex
    rightindex := if m.rightindex = 0 then numpoints - 1 else m.rightindex - 1 }

/-- The step `priority[i] = leftindex; leftindex++; ...; vertextypes[priority[i]] = 1`. -/
def ChainMerge.takeLeft (m : ChainMerge) (numpoints i : Nat) : ChainMerge :=
  { priority := m.priority.set i m.leftindex
    vertextypes := m.vertextypes.set m.leftindex 1
    leftindex := if m.leftindex + 1 ≥ numpoints then 0 else m.leftindex + 1
    rightindex := m.rightindex }

/-- "Merge left and right vertex chains": the arrays `priority` and `vertextypes` after
the loop and the two writes for `bottomindex`. -/
def mergeChains (inPoly : TPPLPoly) (topindex bottomindex : Nat) : ChainMerge :=
  let numpoints := inPoly.GetNumPoints
  let m0 : ChainMerge :=
    { priority := (List.replicate numpoints 0).set 0 topindex
      vertextypes := (List.replicate numpoints 0).set topindex 0
      leftindex := if topindex + 1 ≥ numpoints then 0 else topindex + 1
      rightindex := if topindex = 0 then numpoints - 1 else topindex - 1 }
  let m1 := (List.range' 1 (numpoints - 2)).foldl (fun (m : ChainMerge) i =>
    if m.leftindex = bottomindex then m.takeRight numpoints i
    else if m.rightindex = bottomindex then m.takeLeft numpoints i
    else if Below (inPoly.GetPoint m.leftindex) (inPoly.GetPoint m.rightindex) then
      m.takeRight numpoints i
    else m.takeLeft numpoints i) m0
  { m1 with
    priority := m1.priority.set (numpoints - 1) bottomindex
    vertextypes := m1.vertextypes.set bottomindex 0 }

/-- The loop `while (stackptr > 0)` of the same-chain case, after `stackptr--`: the value
of `stackptr` when the loop is left, and the triangle list. -/
def trimStack (inPoly : TPPLPoly) (vertextype : Int) (vindex : Nat) (stack : List Nat) :
    Nat → TPPLPolyList → Nat × TPPLPolyList
  | 0, triangles => (0, triangles)
  | stackptr + 1, triangles =>
    if vertextype = 1 then
      if IsConvex (inPoly.GetPoint vindex) (inPoly.GetPoint (stack.getD stackptr 0))
          (inPoly.GetPoint (stack.getD (stackptr + 1) 0)) then
        trimStack inPoly vertextype vindex stack stackptr
          (triangles ++ [TPPLPoly.Triangle (inPoly.GetPoint vindex)
            (inPoly.GetPoint (stack.getD stackptr 0))
            (inPoly.GetPoint (stack.getD (stackptr + 1) 0))])
      else (stackptr + 1, triangles)
    else
      if IsConvex (inPoly.GetPoint vindex) (inPoly.GetPoint (stack.getD (stackptr + 1) 0))
          (inPoly.GetPoint (stack.getD stackptr 0)) then
        trimStack inPoly vertextype vindex stack stackptr
          (triangles ++ [TPPLPoly.Triangle (inPoly.GetPoint vindex)
            (inPoly.GetPoint (stack.getD (stackptr + 1) 0))
            (inPoly.GetPoint (stack.getD stackptr 0))])
      else (stackptr + 1, triangles)

/-- The array `stack`, `stackptr` and the triangle list. -/
structure StackState where
  stack : List Nat
  stackptr : Nat
  triangles : TPPLPolyList

/-- The body of the loop "for each vertex from top to bottom trim as many triangles as
possible" for `i`. -/
def stackStep (inPoly : TPPLPoly) (m : ChainMerge) (s : StackState) (i : Nat) : StackState :=
  let vindex := m.priority.getD i 0
  if m.vertextypes.getD vindex 0 ≠ m.vertextypes.getD (s.stack.getD (s.stackptr - 1) 0) 0 then
    let triangles := (List.range (s.stackptr - 1)).foldl (fun (triangles : TPPLPolyList) j =>
      if m.vertextypes.getD vindex 0 = 1 then
        triangles ++ [TPPLPoly.Triangle (inPoly.GetPoint (s.stack.getD (j + 1) 0))
          (inPoly.GetPoint (s.stack.getD j 0)) (inPoly.GetPoint vindex)]
      else
        triangles ++ [TPPLPoly.Triangle (inPoly.GetPoint (s.stack.getD j 0))
          (inPoly.GetPoint (s.stack.getD (j + 1) 0)) (inPoly.GetPoint vindex)]) s.triangles
    { stack := (s.stack.set 0 (m.priority.getD (i - 1) 0)).set 1 (m.priority.getD i 0)
      stackptr := 2
      triangles := triangles }
  else
    let r := trimStack inPoly (m.vertextypes.getD vindex 0) vindex s.stack (s.stackptr - 1)
      s.triangles
    { stack := s.stack.set (r.1 + 1) vindex
      stackptr := r.1 + 2
      triangles := r.2 }

/-- Triangulates monotone polygon. -/
def TriangulateMonotone (inPoly : TPPLPoly) (triangles : TPPLPolyList) : Int × TPPLPolyList :=
  if !inPoly.Valid then (0, triangles)
  else if inPoly.GetNumPoints = 3 then (1, triangles ++ [inPoly])
  else
    let numpoints := inPoly.GetNumPoints
    let topindex := (topBottom inPoly).1
    let bottomindex := (topBottom inPoly).2
    if !chainDown inPoly bottomindex numpoints topindex then (0, triangles)
    else if !chainUp inPoly topindex numpoints bottomindex then (0, triangles)
    else
      let m := mergeChains inPoly topindex bottomindex
      let s0 : StackState :=
        { stack := ((List.replicate numpoints 0).set 0 (m.priority.getD 0 0)).set 1
            (m.priority.getD 1 0)
          stackptr := 2
          triangles := triangles }
      let s := (List.range' 2 (numpoints - 3)).foldl (stackStep inPoly m) s0
      let vindex := m.priority.getD (numpoints - 1) 0
      (1, (List.range (s.stackptr - 1)).foldl (fun (triangles : TPPLPolyList) j =>
        if m.vertextypes.getD (s.stack.getD (j + 1) 0) 0 = 1 then
          triangles ++ [TPPLPoly.Triangle (inPoly.GetPoint (s.stack.getD j 0))
            (inPoly.GetPoint (s.stack.getD (j + 1) 0)) (inPoly.GetPoint vindex)]
        else
          triangles ++ [TPPLPoly.Triangle (inPoly.GetPoint (s.stack.getD (j + 1) 0))
            (inPoly.GetPoint (s.stack.getD j 0)) (inPoly.GetPoint vindex)]) s.triangles)

/-! ## Shoelace sums and the ring of active vertices (specification side) -/

/-- The summand `p.x * q.y - p.y * q.x` of `GetOrientation`. -/
def cross (p q : TPPLPoint) : ℚ := p.x * q.y - p.y * q.x

/-- The value of the accumulator `area` of `GetOrientation` after its loop: the
shoelace sum of the polygon (twice its signed area). -/
def TPPLPoly.shoelace (poly : TPPLPoly) : ℚ :=
  (List.range poly.GetNumPoints).foldl (fun area i1 =>
    let i2 := if i1 + 1 = poly.GetNumPoints then 0 else i1 + 1
    area + ((poly.GetPoint i1).x * (poly.GetPoint i2).y
      - (poly.GetPoint i1).y * (poly.GetPoint i2).x)) 0

/-- Sum of the shoelace sums of a list of polygons. -/
def shoelaceSum (polys : TPPLPolyList) : ℚ := (polys.map TPPLPoly.shoelace).sum

/-- Shoelace sum of a cyclic sequence of points, as a sum over consecutive pairs. -/
def shoelacePts (l : List TPPLPoint) : ℚ :=
  ((l.zip (l.rotate 1)).map (fun ab => cross ab.1 ab.2)).sum

/-- `ring` lists, in ring order, the active vertices of `vertices`: consecutive entries
(cyclically) are linked by `next` and `previous`. -/
structure Ring (n : Nat) (vertices : List PartitionVertex) (ring : List Nat) : Prop where
  len : vertices.length = n
  nodup : ring.Nodup
  lt : ∀ i ∈ ring, i < n
  active : ∀ i, i < n → ((vtx vertices i).isActive = true ↔ i ∈ ring)
  link : ∀ ab ∈ ring.zip (ring.rotate 1),
    (vtx vertices ab.1).next = ab.2 ∧ (vtx vertices ab.2).previous = ab.1

/-- Two vertex arrays agree on everything but the cached convexity, ear and angle fields. -/
def SameLinks (vs vs1 : List PartitionVertex) : Prop :=
  vs1.length = vs.length ∧ ∀ i, (vtx vs1 i).isActive = (vtx vs i).isActive ∧
    (vtx vs1 i).p = (vtx vs i).p ∧ (vtx vs1 i).previous = (vtx vs i).previous ∧
    (vtx vs1 i).next = (vtx vs i).next

/-- The three tests a vertex has to pass in the search loop of `RemoveHoles`, apart from
the comparison with the best vertex so far. -/
def bridgeTest (polys : TPPLPolyList) (holepoint : TPPLPoint) (it i : Nat) : Bool :=
  let poly := polyAt polys it
  decide (holepoint.x < (poly.GetPoint i).x) &&
  InCone (poly.GetPoint ((i + poly.GetNumPoints - 1) % poly.GetNumPoints))
      (poly.GetPoint i) (poly.GetPoint ((i + 1) % poly.GetNumPoints)) holepoint &&
  pointVisible polys holepoint (poly.GetPoint i)

/-- Vertex `i` of the polygon at position `it` is a vertex P of a non-hole polygon that is
strictly to the right of H, has H in its cone, and whose segment H-P intersects no edge of
any non-hole polygon. -/
structure Bridge (polys : TPPLPolyList) (H : TPPLPoint) (it i : Nat) : Prop where
  it_lt : it < polys.length
  nonhole : (polyAt polys it).IsHole = false
  i_lt : i < (polyAt polys it).GetNumPoints
  right : H.x < ((polyAt polys it).GetPoint i).x
  cone : InCone
    ((polyAt polys it).GetPoint
      ((i + (polyAt polys it).GetNumPoints - 1) % (polyAt polys it).GetNumPoints))
    ((polyAt polys it).GetPoint i)
    ((polyAt polys it).GetPoint ((i + 1) % (polyAt polys it).GetNumPoints)) H = true
  visible : ∀ poly2 ∈ polys, poly2.IsHole = false → ∀ i2, i2 < poly2.GetNumPoints →
    Intersects H ((polyAt polys it).GetPoint i) (poly2.GetPoint i2)
      (poly2.GetPoint ((i2 + 1) % poly2.GetNumPoints)) = 0

/-- The list `polys` at the start of pass number `k` (from 0) of the `while (true)` loop
of `RemoveHoles` started on `polys`, if that pass is reached. -/
def holeIter (sqrt : ℚ → ℚ) : Nat → TPPLPolyList → Option TPPLPolyList
  | 0, polys => some polys
  | k + 1, polys =>
    match removeHolesStep sqrt polys with
    | HoleStep.next polys1 => holeIter sqrt k polys1
    | _ => none

/-- Number of polygons of the list with the hole flag set. -/
def numHoles (polys : TPPLPolyList) : Nat :=
  (polys.map (fun poly => if poly.IsHole then 1 else 0)).sum

/-- Number of polygons of the list without the hole flag. -/
def numNonHoles (polys : TPPLPolyList) : Nat :=
  (polys.map (fun poly => if poly.IsHole then 0 else 1)).sum

/-- Sum of the cross products of the consecutive pairs of an open path of points. -/
def pathSum : List TPPLPoint → ℚ
  | a :: b :: l => cross a b + pathSum (b :: l)
  | _ => 0

/-! ## Concrete inputs -/

/-- Newton iteration for the integer square root, bounded by `fuel` steps. -/
def isqrtIter : Nat → Nat → Nat → Nat
  | 0, _, x => x
  | fuel + 1, n, x =>
    let y := (x + n / x) / 2
    if y < x then isqrtIter fuel n y else x

/-- Integer square root. -/
def isqrt (n : Nat) : Nat := if n = 0 then 0 else isqrtIter 200 n n

/-- A computable instance for the parameter `sqrt`, used to run the operations on concrete
inputs: the square root rounded down to a multiple of `1 / (1000000 * q.den)`, 0 on
negative arguments. -/
def sqrtApprox (q : ℚ) : ℚ :=
  (isqrt (q.num.toNat * q.den * 1000000000000) : ℚ) / ((q.den : ℚ) * 1000000)

/-- The square `[(0,0),(10,0),(10,10),(0,10)]`, counter-clockwise. -/
def squarePoly : TPPLPoly :=
  ⟨[⟨0, 0, 0⟩, ⟨10, 0, 1⟩, ⟨10, 10, 2⟩, ⟨0, 10, 3⟩], false⟩

/-- The clockwise hole `[(3,3),(3,7),(7,7),(7,3)]`. -/
def squareHole : TPPLPoly :=
  ⟨[⟨3, 3, 4⟩, ⟨3, 7, 5⟩, ⟨7, 7, 6⟩, ⟨7, 3, 7⟩], true⟩

/-- Every point of every polygon of the list is one of the points `S`. -/
def PointsIn (S : List TPPLPoint) (polys : TPPLPolyList) : Prop :=
  ∀ t ∈ polys, ∀ x ∈ t.points, x ∈ S

/-- Every stored `bestvertex` is the sentinel or an index below `n`. -/
def BestBounded (n : Nat) (dp : DPTable) : Prop :=
  ∀ a b, (dp.get a b).bestvertex = -1 ∨ ∃ k : Nat, (dp.get a b).bestvertex = (k : Int) ∧ k < n

/-- Every index stored in a pair list of the table is below `n`. -/
def PairsBounded (n : Nat) (dp : DPTable2) : Prop :=
  ∀ a b, ∀ d ∈ (dp.get a b).pairs, d.index1 < n ∧ d.index2 < n

/-- Every index of every diagonal of the list is below `n`. -/
def DiagonalsBounded (n : Nat) (ds : List Diagonal) : Prop :=
  ∀ d ∈ ds, d.index1 < n ∧ d.index2 < n

/-- The coordinates of a point. -/
def TPPLPoint.xy (p : TPPLPoint) : ℚ × ℚ := (p.x, p.y)

/-- `IsConvex(prev, v, next)` at vertex `v` of the polygon, with the neighbours taken
cyclically as the source does. -/
def ConvexAt (poly : TPPLPoly) (v : Nat) : Bool :=
  IsConvex (poly.GetPoint (if v = 0 then poly.GetNumPoints - 1 else v - 1)) (poly.GetPoint v)
    (poly.GetPoint (if v = poly.GetNumPoints - 1 then 0 else v + 1))

/-- `IsReflex(prev, v, next)` at vertex `v` of the polygon. -/
def ReflexAt (poly : TPPLPoly) (v : Nat) : Bool :=
  IsReflex (poly.GetPoint (if v = 0 then poly.GetNumPoints - 1 else v - 1)) (poly.GetPoint v)
    (poly.GetPoint (if v = poly.GetNumPoints - 1 then 0 else v + 1))

/-- The polygon satisfies `IsConvex` (strictly) at each of its vertices. -/
def StrictlyConvex (poly : TPPLPoly) : Prop :=
  ∀ v, v < poly.GetNumPoints → ConvexAt poly v = true

/-- The sum of `size + 1` over the polygons of the list. -/
def hmSize (triangles : TPPLPolyList) : Nat :=
  (triangles.map (fun t => t.GetNumPoints + 1)).sum

/-- A bound on the steps of the loops of `ConvexPartition_HM` up to the next merge: the edges
left at the polygon at `iter1`, and all edges of the polygons after it. -/
def hmRest (triangles : TPPLPolyList) (iter1 i11 : Nat) : Nat :=
  ((triangles.drop (iter1 + 1)).map (fun t => t.GetNumPoints + 1)).sum
    + ((polyAt triangles iter1).GetNumPoints - i11) + 1

/-- A bound on the steps the loops of `ConvexPartition_HM` still take from the state
`(triangles, iter1, i11)`; every merge removes one polygon of the list. -/
def hmMeasure (triangles : TPPLPolyList) (iter1 i11 : Nat) : Nat :=
  if iter1 < triangles.length then
    triangles.length * (hmSize triangles + 1) + hmRest triangles iter1 i11
  else 0

/-- The cached ear flag of vertex `i` is backed by `IsConvex` on its current neighbours. -/
def EarOkAt (vs : List PartitionVertex) (i : Nat) : Prop :=
  (vtx vs i).isEar = true →
    IsConvex (vtx vs (vtx vs i).previous).p (vtx vs i).p (vtx vs (vtx vs i).next).p = true

instance (poly : TPPLPoly) : Decidable (StrictlyConvex poly) := by
  unfold StrictlyConvex
  infer_instance

/-- The L-shaped hexagon `[(0,0),(4,0),(4,2),(2,2),(2,4),(0,4)]`, counter-clockwise, with
one reflex vertex at `(2,2)`. -/
def ellPoly : TPPLPoly :=
  ⟨[⟨0, 0, 0⟩, ⟨4, 0, 1⟩, ⟨4, 2, 2⟩, ⟨2, 2, 3⟩, ⟨2, 4, 4⟩, ⟨0, 4, 5⟩], false⟩

/-- The table has `n` rows and row `j` has `j` entries. -/
def DPTable.Shaped (n : Nat) (dp : DPTable) : Prop :=
  dp.length = n ∧ ∀ j, j < n → (dp.getD j []).length = j

/-- The weight that the loop over `k` of `Triangulate_OPT` computes for the split vertex
`k` of the pair `(i, j)`. -/
def optCand (sqrt : ℚ → ℚ) (poly : TPPLPoly) (dp : DPTable) (i j k : Nat) : ℚ :=
  (dp.get k i).weight + (dp.get j k).weight
    + (if k ≤ i + 1 then 0 else Distance sqrt (poly.GetPoint i) (poly.GetPoint k))
    + (if j ≤ k + 1 then 0 else Distance sqrt (poly.GetPoint k) (poly.GetPoint j))

/-- The state `dpstates[j][i]` is final: if the pair is visible, its `bestvertex` is a vertex
`k` strictly between `i` and `j` with both `(i, k)` and `(k, j)` visible, and its weight is
the one computed for `k`, minimal among the weights computed for such vertices. -/
def CellDone (sqrt : ℚ → ℚ) (poly : TPPLPoly) (dp : DPTable) (i j : Nat) : Prop :=
  (dp.get j i).visible = true →
    ∃ k : Nat, (dp.get j i).bestvertex = (k : Int) ∧ i < k ∧ k < j ∧
      (dp.get k i).visible = true ∧ (dp.get j k).visible = true ∧
      (dp.get j i).weight = optCand sqrt poly dp i j k ∧
      ∀ k1, i < k1 → k1 < j → (dp.get k1 i).visible = true → (dp.get j k1).visible = true →
        (dp.get j i).weight ≤ optCand sqrt poly dp i j k1

/-- The colinear polygon `[(0,0),(1,0),(2,0)]`, of zero area. -/
def flatTriangle : TPPLPoly :=
  ⟨[⟨0, 0, 0⟩, ⟨1, 0, 1⟩, ⟨2, 0, 2⟩], false⟩

/-- The table during the loops over `gap` and `i` of `Triangulate_OPT`, before the pass
for `(gap, i)`: the visibility flags are those of `dp0`, the pairs of consecutive vertices
have weight 0, and the states of the pairs handled by earlier passes are final. -/
def FillInv (sqrt : ℚ → ℚ) (poly : TPPLPoly) (n : Nat) (dp0 dp : DPTable) (gap i : Nat) :
    Prop :=
  dp.Shaped n ∧ (∀ a b, (dp.get a b).visible = (dp0.get a b).visible) ∧
    (∀ a, a + 1 < n → (dp.get (a + 1) a).weight = 0) ∧
    ∀ a b, a + 2 ≤ b → b < n → (b - a < gap ∨ (b - a = gap ∧ a < i)) →
      CellDone sqrt poly dp a b

/-- The index triples `(index1, bestvertex, index2)` of the triangles that the loop
`while (!diagonals.empty())` of `Triangulate_OPT` emits, in order. -/
def optTriples (dp : DPTable) : Nat → List (Nat × Nat) → List (Nat × Nat × Nat)
  | _, [] => []
  | 0, _ :: _ => []
  | fuel + 1, diagonal :: diagonals =>
    let bestvertex := (dp.get diagonal.2 diagonal.1).bestvertex
    if bestvertex = -1 then []
    else
      let diagonals1 :=
        if bestvertex > diagonal.1 + 1 then diagonals ++ [(diagonal.1, bestvertex.toNat)]
        else diagonals
      let diagonals2 :=
        if (diagonal.2 : Int) > bestvertex + 1 then diagonals1 ++ [(bestvertex.toNat, diagonal.2)]
        else diagonals1
      (diagonal.1, bestvertex.toNat, diagonal.2) :: optTriples dp fuel diagonals2

/-- The index triples of the triangles of `Triangulate_OPT`. -/
def Triangulate_OPT_triples (sqrt : ℚ → ℚ) (poly : TPPLPoly) : List (Nat × Nat × Nat) :=
  if !poly.Valid then []
  else
    match optFill sqrt poly poly.GetNumPoints (optInit poly poly.GetNumPoints) with
    | none => []
    | some dp => optTriples dp poly.GetNumPoints [(0, poly.GetNumPoints - 1)]

/-- The triangle of the polygon with the vertices `(i, k, j)`. -/
def idxTriangle (poly : TPPLPoly) (t : Nat × Nat × Nat) : TPPLPoly :=
  TPPLPoly.Triangle (poly.GetPoint t.1) (poly.GetPoint t.2.1) (poly.GetPoint t.2.2)

/-- The sum of `cross` along the path of `m` edges from vertex `i`. -/
def pathTo (pts : Nat → TPPLPoint) (i : Nat) : Nat → ℚ
  | 0 => 0
  | m + 1 => pathTo pts i m + cross (pts (i + m)) (pts (i + m + 1))

/-- Shoelace sum of the polygon with the vertices `i, i + 1, ..., j`. -/
def subShoelace (poly : TPPLPoly) (i j : Nat) : ℚ :=
  pathTo poly.GetPoint i (j - i) + cross (poly.GetPoint j) (poly.GetPoint i)

/-- The lengths of those of the sides `(i, k)` and `(k, j)` of the triangle `(i, k, j)` that
are diagonals. -/
def optDiagCost (sqrt : ℚ → ℚ) (poly : TPPLPoly) (t : Nat × Nat × Nat) : ℚ :=
  (if t.2.1 ≤ t.1 + 1 then 0 else Distance sqrt (poly.GetPoint t.1) (poly.GetPoint t.2.1))
    + (if t.2.2 ≤ t.2.1 + 1 then 0
      else Distance sqrt (poly.GetPoint t.2.1) (poly.GetPoint t.2.2))

/-- The number of triangles between the vertices of the diagonals of a list. -/
def queueSize (diagonals : List (Nat × Nat)) : Nat :=
  (diagonals.map (fun d => d.2 - d.1 - 1)).sum

/-- A triangulation of a vertex sequence `i, ..., j`: the vertex `k` of the triangle on
the side `(i, j)`, and the triangulations of `i, ..., k` and of `k, ..., j`. -/
inductive TriTree where
  | leaf : TriTree
  | node (k : Nat) (l r : TriTree) : TriTree

/-- The tree is a triangulation of `i, ..., j` all of whose diagonals are visible. -/
def TriTree.Valid (vis : Nat → Nat → Bool) : TriTree → Nat → Nat → Prop
  | TriTree.leaf, i, j => j = i + 1
  | TriTree.node k l r, i, j =>
    i < k ∧ k < j ∧ (i + 2 ≤ k → vis i k = true) ∧ (k + 2 ≤ j → vis k j = true) ∧
      l.Valid vis i k ∧ r.Valid vis k j

/-- The sum of the lengths `d` of the diagonals of the triangulation. -/
def TriTree.cost (d : Nat → Nat → ℚ) : TriTree → Nat → Nat → ℚ
  | TriTree.leaf, _, _ => 0
  | TriTree.node k l r, i, j =>
    (if i + 2 ≤ k then d i k else 0) + (if k + 2 ≤ j then d k j else 0)
      + l.cost d i k + r.cost d k j

/-- Validity of a triangulation is decidable. -/
def TriTree.decValid (vis : Nat → Nat → Bool) :
    (t : TriTree) → (i j : Nat) → Decidable (t.Valid vis i j)
  | TriTree.leaf, i, j => inferInstanceAs (Decidable (j = i + 1))
  | TriTree.node k l r, i, j =>
    have := TriTree.decValid vis l i k
    have := TriTree.decValid vis r k j
    inferInstanceAs (Decidable (i < k ∧ k < j ∧ (i + 2 ≤ k → vis i k = true) ∧
      (k + 2 ≤ j → vis k j = true) ∧ l.Valid vis i k ∧ r.Valid vis k j))

instance (vis : Nat → Nat → Bool) (t : TriTree) (i j : Nat) : Decidable (t.Valid vis i j) :=
  TriTree.decValid vis t i j

/-- The points of the polygon are in strictly convex position in counter-clockwise index
order: `IsConvex(p_i, p_j, p_k)` holds for all indices `i < j < k`. -/
def ConvexPosition (poly : TPPLPoly) : Prop :=
  ∀ k, k < poly.GetNumPoints → ∀ j, j < k → ∀ i, i < j →
    IsConvex (poly.GetPoint i) (poly.GetPoint j) (poly.GetPoint k) = true

instance (poly : TPPLPoly) : Decidable (ConvexPosition poly) := by
  unfold ConvexPosition
  infer_instance

/-- The counter-clockwise triangle `[(0,0),(2,0),(1,2)]`. -/
def smallTriangle : TPPLPoly :=
  ⟨[⟨0, 0, 0⟩, ⟨2, 0, 1⟩, ⟨1, 2, 2⟩], false⟩

/-- The table has `n` rows of `n` entries. -/
def DPTable2.Square (n : Nat) (dp : DPTable2) : Prop :=
  dp.length = n ∧ ∀ a, a < n → (dp.getD a []).length = n

/-- The state that `ConvexPartition_OPT` holds for the pair `(0, b)` of a polygon in convex
position once the gaps below `g` are done. -/
def cvxCell (g b : Nat) : DPState2 :=
  ⟨true, if b < g then 0 else 2147483647,
    if 2 ≤ b ∧ b < g then [⟨1, b - 1⟩] else []⟩

/-- Row 0 of the table of `ConvexPartition_OPT` for a polygon in convex position once the
gaps below `g` are done. -/
def CvxRow (n g : Nat) (dp : DPTable2) : Prop :=
  dp.Square n ∧ ∀ b, 1 ≤ b → b < n → dp.get 0 b = cvxCell g b

/-- The record of vertex `i` of `ConvexPartition_OPT` for a polygon in convex position once
`UpdateVertexReflexity` has run on the vertices below `x`. -/
def cvxVertex (poly : TPPLPoly) (x i : Nat) : PartitionVertex :=
  { isActive := true, isConvex := decide (1 ≤ i ∧ i < x), isEar := false,
    p := poly.GetPoint i, angle := 0,
    previous := if i = 0 then poly.GetNumPoints - 1 else i - 1,
    next := if i = poly.GetNumPoints - 1 then 0 else i + 1 }

/-- Twice the signed area of the triangle `a b c`. -/
def orient (a b c : TPPLPoint) : ℚ :=
  (b.x - a.x) * (c.y - a.y) - (b.y - a.y) * (c.x - a.x)

/-- The point `p` lies on the closed segment from `a` to `b`. -/
def onSegment (a b p : TPPLPoint) : Bool :=
  decide (orient a b p = 0) && decide ((p.x - a.x) * (p.x - b.x) ≤ 0) &&
    decide ((p.y - a.y) * (p.y - b.y) ≤ 0)

/-- The closed segments `a b` and `c d` share a point: they cross properly, or an end of one
lies on the other. -/
def segmentsMeet (a b c d : TPPLPoint) : Bool :=
  (decide (orient a b c * orient a b d < 0) && decide (orient c d a * orient c d b < 0)) ||
    onSegment a b c || onSegment a b d || onSegment c d a || onSegment c d b

/-- No two non-adjacent edges of the polygon share a point. -/
def SimplePolygon (poly : TPPLPoly) : Bool :=
  (List.range poly.GetNumPoints).all (fun i =>
    (List.range poly.GetNumPoints).all (fun j =>
      decide (j ≤ i + 1) || decide (i = 0 ∧ j = poly.GetNumPoints - 1) ||
        !segmentsMeet (poly.GetPoint i) (poly.GetPoint (i + 1)) (poly.GetPoint j)
          (poly.GetPoint (if j = poly.GetNumPoints - 1 then 0 else j + 1))))

/-- No vertex of the polygon is colinear with its two neighbours: each vertex passes
`IsConvex` or `IsReflex`. -/
def NoColinearVertex (poly : TPPLPoly) : Bool :=
  (List.range poly.GetNumPoints).all (fun v => ConvexAt poly v || ReflexAt poly v)

/-- The counter-clockwise simple polygon
`[(-2,3),(-3,3),(-2,2),(-3,1),(-2,-2),(-2,-3),(1,-3),(2,1),(3,2)]`, in which the diagonal
from `(-2,3)` to `(-2,2)` lies on the line of the edge from `(-2,-2)` to `(-2,-3)`. -/
def notchedNonagon : TPPLPoly :=
  ⟨[⟨-2, 3, 0⟩, ⟨-3, 3, 1⟩, ⟨-2, 2, 2⟩, ⟨-3, 1, 3⟩, ⟨-2, -2, 4⟩, ⟨-2, -3, 5⟩, ⟨1, -3, 6⟩,
    ⟨2, 1, 7⟩, ⟨3, 2, 8⟩], false⟩

/-- The counter-clockwise simple polygon `[(2,1),(3,-1),(3,5),(2,4),(1,6),(0,2),(1,0)]`: a
merge vertex `(2,4)`, a regular vertex `(0,2)` on the left chain below it and a split vertex
`(2,1)` below both. -/
def hourglass : TPPLPoly :=
  ⟨[⟨2, 1, 0⟩, ⟨3, -1, 1⟩, ⟨3, 5, 2⟩, ⟨2, 4, 3⟩, ⟨1, 6, 4⟩, ⟨0, 2, 5⟩, ⟨1, 0, 6⟩], false⟩

/-- The test "check if the poly is really monotone" of `TriangulateMonotone`. -/
def monotoneCheck (poly : TPPLPoly) : Bool :=
  chainDown poly (topBottom poly).2 poly.GetNumPoints (topBottom poly).1 &&
    chainUp poly (topBottom poly).1 poly.GetNumPoints (topBottom poly).2

/-! ## Orientation, inversion and the list form of ear clipping -/

/-- Polygon orientation: the enumeration `TPPLOrientation` of the source. -/
inductive TPPLOrientation
  | CW
  | NONE
  | CCW
deriving DecidableEq

/-- The values of the enumeration: `TPPL_ORIENTATION_CW = -1`, `TPPL_ORIENTATION_NONE = 0`,
`TPPL_ORIENTATION_CCW = 1`. -/
def TPPLOrientation.toInt : TPPLOrientation → Int
  | TPPLOrientation.CW => -1
  | TPPLOrientation.NONE => 0
  | TPPLOrientation.CCW => 1

/-- Returns the orientation of the polygon; `area` is the accumulator after the loop. -/
def TPPLPoly.GetOrientation (poly : TPPLPoly) : TPPLOrientation :=
  let area := poly.shoelace
  if area > 0 then TPPLOrientation.CCW
  else if area < 0 then TPPLOrientation.CW
  else TPPLOrientation.NONE

/-- Inverts the order of vertices. -/
def TPPLPoly.Invert (poly : TPPLPoly) : TPPLPoly :=
  { poly with points := poly.points.reverse }

/-- Sets the polygon orientation. -/
def TPPLPoly.SetOrientation (poly : TPPLPoly) (orientation : TPPLOrientation) : TPPLPoly :=
  let polyorientation := poly.GetOrientation
  if polyorientation ≠ TPPLOrientation.NONE ∧ polyorientation ≠ orientation then poly.Invert
  else poly

/-- The loop of the list form of `Triangulate_EC` over the polygons left by `RemoveHoles`. -/
def triangulateAll_EC (sqrt : ℚ → ℚ) : TPPLPolyList → TPPLPolyList → Int × TPPLPolyList
  | [], triangles => (1, triangles)
  | poly :: rest, triangles =>
    match Triangulate_EC sqrt poly triangles with
    | (0, triangles1) => (0, triangles1)
    | (_, triangles1) => triangulateAll_EC sqrt rest triangles1

/-- The list form of `Triangulate_EC`. -/
def Triangulate_EC_list (sqrt : ℚ → ℚ) (inpolys triangles : TPPLPolyList) :
    Int × TPPLPolyList :=
  match RemoveHoles sqrt inpolys [] with
  | (0, _) => (0, triangles)
  | (_, outpolys) => triangulateAll_EC sqrt outpolys triangles

/-! ## Lines, segments and triangles (specification side) -/

/-- The points of the list lie on one line `a * x + b * y = c`. -/
def OnCommonLine (pts : List TPPLPoint) : Prop :=
  ∃ a b c : ℚ, (a ≠ 0 ∨ b ≠ 0) ∧ ∀ p ∈ pts, a * p.x + b * p.y = c

/-- The point `p` lies on the closed segment from `a` to `b`. -/
def OnSegment (a b p : TPPLPoint) : Prop :=
  ∃ t : ℚ, 0 ≤ t ∧ t ≤ 1 ∧ p.x = a.x + t * (b.x - a.x) ∧ p.y = a.y + t * (b.y - a.y)

/-- The point `p` is a convex combination of `a`, `b` and `c`. -/
def InClosedTriangle (a b c p : TPPLPoint) : Prop :=
  ∃ u v w : ℚ, 0 ≤ u ∧ 0 ≤ v ∧ 0 ≤ w ∧ u + v + w = 1 ∧
    p.x = u * a.x + v * b.x + w * c.x ∧ p.y = u * a.y + v * b.y + w * c.y

/-- The dot product of `p - a` with the perpendicular `(b.y - a.y, a.x - b.x)` of `b - a`,
as computed by `Intersects`: it vanishes on the line through `a` and `b` and its sign tells
the two sides of this line apart. -/
def sideOf (a b p : TPPLPoint) : ℚ :=
  (p.x - a.x) * (b.y - a.y) + (p.y - a.y) * (a.x - b.x)

/-- The x-coordinate of the line through the edge at height `c`. -/
def ScanLineEdge.xAt (e : ScanLineEdge) (c : ℚ) : ℚ :=
  e.p1.x + (c - e.p1.y) * (e.p2.x - e.p1.x) / (e.p2.y - e.p1.y)

/-- The bow-tie `[(0,0),(10,10),(10,0),(0,10)]`, whose two sides cross. -/
def bowTie : TPPLPoly :=
  ⟨[⟨0, 0, 0⟩, ⟨10, 10, 1⟩, ⟨10, 0, 2⟩, ⟨0, 10, 3⟩], false⟩

/-- The vertex array of `Triangulate_EC` when the clipping loop is entered. -/
def ecVertices (sqrt : ℚ → ℚ) (poly : TPPLPoly) : List PartitionVertex :=
  (List.range poly.GetNumPoints).foldl
    (fun vs i => UpdateVertex sqrt i vs poly.GetNumPoints)
    (initVertices poly poly.GetNumPoints)

/-- A pair list is strictly decreasing in `index1` and in `index2` from front to back. -/
def PairsDecreasing (pairs : List Diagonal) : Prop :=
  pairs.Pairwise (fun d e => e.index1 < d.index1 ∧ e.index2 < d.index2)

/-- A table with the state `(true, 5, [(3,7), (2,4), (1,2)])` at `[0][1]`. -/
def pairsTable : DPTable2 :=
  [[default, ⟨true, 5, [⟨3, 7⟩, ⟨2, 4⟩, ⟨1, 2⟩]⟩], [default, default]]

/-- The x component of `Normalize(P - H)` for vertex `i` of the polygon at position `it`. -/
def bridgeDirX (sqrt : ℚ → ℚ) (polys : TPPLPolyList) (H : TPPLPoint) (it i : Nat) : ℚ :=
  (Normalize sqrt (((polyAt polys it).GetPoint i).sub H)).x

/-- The state of the search holds a vertex whose direction has x component at least `q`. -/
def BridgeAtLeast (sqrt : ℚ → ℚ) (polys : TPPLPolyList) (H : TPPLPoint)
    (st : Option (Nat × Nat)) (q : ℚ) : Prop :=
  ∃ s, st = some s ∧ q ≤ bridgeDirX sqrt polys H s.1 s.2

/-- No vertex of the input list is classified SPLIT or MERGE by the loop "determine vertex
types" of `MonotonePartition`. -/
def NoSplitMerge (inpolys : TPPLPolyList) : Prop :=
  ∀ i, i < totalPoints inpolys →
    monoVertexType (monoInitVertices inpolys 0) i ≠ TPPLVertexType.SPLIT ∧
    monoVertexType (monoInitVertices inpolys 0) i ≠ TPPLVertexType.MERGE

/-- The body of the loop "return result" of `MonotonePartition` for the index `i`; the
state is the array `used` and the output list. -/
def monoOutputStep (st : MonotoneState) (acc : List Bool × TPPLPolyList) (i : Nat) :
    List Bool × TPPLPolyList :=
  if acc.1.getD i false then acc
  else
    let walk := ringWalk st.vertices i st.newnumvertices (st.vertex i).next
    let used1 := (acc.1.set i true).set (st.vertex i).next true
    let used2 := walk.foldl (fun used w => used.set (st.vertex w).next true) used1
    (used2, acc.2 ++ [TPPLPoly.ofPoints ((st.vertex i).p :: walk.map (fun w => (st.vertex w).p))])

/-! ## The arithmetic of `tppl_float`

`tppl_float` is `double`.  The generic forms of the operations below take the four
arithmetic operations and the square root as a parameter, so that the same code can be read
in exact arithmetic and in IEEE 754 binary64 arithmetic (every operation rounded to the
nearest double, ties to even, no fused multiply-add). -/

/-- The binary logarithm of a natural number, rounded down, by repeated halving. -/
def log2Fuel : Nat → Nat → Nat
  | 0, _ => 0
  | fuel + 1, n => if n ≥ 2 then log2Fuel fuel (n / 2) + 1 else 0

/-- The power `2 ^ e` for an integer exponent. -/
def pow2 (e : Int) : ℚ :=
  if 0 ≤ e then ((2 ^ e.toNat : Nat) : ℚ) else 1 / ((2 ^ (-e).toNat : Nat) : ℚ)

/-- The binary exponent of a nonzero rational with numerator and denominator below
`2 ^ 4096`: the `e` with `2 ^ e ≤ |q| < 2 ^ (e + 1)`. -/
def binExp (q : ℚ) : Int :=
  let e0 : Int := (log2Fuel 4096 q.num.natAbs : Int) - (log2Fuel 4096 q.den : Int)
  if pow2 e0 ≤ (if q < 0 then -q else q) then e0 else e0 - 1

/-- Rounding of a rational to the nearest integer, ties to the even one. -/
def roundHalfEven (q : ℚ) : Int :=
  let f := Rat.floor q
  if q - f < 1 / 2 then f
  else if q - f > 1 / 2 then f + 1
  else if f % 2 = 0 then f else f + 1

/-- The double nearest to `q`, ties to even (IEEE 754 binary64: 53 significant bits, least
exponent `-1022`, below which the spacing stays `2 ^ (-1074)`).  Overflow to infinity is
not modelled: the result is the one of an unbounded exponent range. -/
def fl (q : ℚ) : ℚ :=
  if q = 0 then 0
  else
    let ulp := pow2 (max (binExp q) (-1022) - 52)
    (roundHalfEven (q / ulp) : ℚ) * ulp

/-- The function `sqrt` of `<cmath>` on a double `x ≥ 0`: the double nearest to the square
root of `x`.  With `ulp` the spacing of the doubles around the root and `y = x / ulp ^ 2`,
the root is `n` or `n + 1` spacings, `n` the integer square root of `y`, according to the
side of `(n + 1/2) ^ 2` on which `y` lies. -/
def sqrtDouble (x : ℚ) : ℚ :=
  if x ≤ 0 then 0
  else
    let ulp := pow2 (max (binExp x / 2) (-1022) - 52)
    let y := x / (ulp * ulp)
    let n := isqrt (Rat.floor y).toNat
    let m : ℚ := (n : ℚ) + 1 / 2
    if y < m * m then (n : ℚ) * ulp
    else if y > m * m then ((n : ℚ) + 1) * ulp
    else if n % 2 = 0 then (n : ℚ) * ulp else ((n : ℚ) + 1) * ulp

/-- The operations `+`, `-`, `*`, `/` and `sqrt` on values of type `tppl_float`. -/
structure Arith where
  add : ℚ → ℚ → ℚ
  sub : ℚ → ℚ → ℚ
  mul : ℚ → ℚ → ℚ
  div : ℚ → ℚ → ℚ
  sqrt : ℚ → ℚ

/-- Exact arithmetic, with the square root as a parameter. -/
def Arith.exact (sqrt : ℚ → ℚ) : Arith :=
  ⟨fun a b => a + b, fun a b => a - b, fun a b => a * b, fun a b => a / b, sqrt⟩

/-- The arithmetic of `double`: each operation gives the double nearest to the exact
result. -/
def Arith.binary64 : Arith :=
  ⟨fun a b => fl (a + b), fun a b => fl (a - b), fun a b => fl (a * b),
    fun a b => fl (a / b), sqrtDouble⟩

namespace Arith

/-- The `operator-` of `TPPLPoint`. -/
def pointSub (A : Arith) (p q : TPPLPoint) : TPPLPoint := ⟨A.sub p.x q.x, A.sub p.y q.y, 0⟩

/-- The `operator/` of `TPPLPoint`. -/
def pointDiv (A : Arith) (p : TPPLPoint) (f : ℚ) : TPPLPoint := ⟨A.div p.x f, A.div p.y f, 0⟩

def Normalize (A : Arith) (p : TPPLPoint) : TPPLPoint :=
  let n := A.sqrt (A.add (A.mul p.x p.x) (A.mul p.y p.y))
  if n ≠ 0 then A.pointDiv p n else ⟨0, 0, 0⟩

def Distance (A : Arith) (p1 p2 : TPPLPoint) : ℚ :=
  let dx := A.sub p2.x p1.x
  let dy := A.sub p2.y p1.y
  A.sqrt (A.add (A.mul dx dx) (A.mul dy dy))

/-- Checks if two lines intersect. -/
def Intersects (A : Arith) (p11 p12 p21 p22 : TPPLPoint) : Int :=
  if p11.eq p21 || p11.eq p22 || p12.eq p21 || p12.eq p22 then 0
  else
    let v1ortx := A.sub p12.y p11.y
    let v1orty := A.sub p11.x p12.x
    let v2ortx := A.sub p22.y p21.y
    let v2orty := A.sub p21.x p22.x
    let dot21 := A.add (A.mul (A.sub p21.x p11.x) v1ortx) (A.mul (A.sub p21.y p11.y) v1orty)
    let dot22 := A.add (A.mul (A.sub p22.x p11.x) v1ortx) (A.mul (A.sub p22.y p11.y) v1orty)
    let dot11 := A.add (A.mul (A.sub p11.x p21.x) v2ortx) (A.mul (A.sub p11.y p21.y) v2orty)
    let dot12 := A.add (A.mul (A.sub p12.x p21.x) v2ortx) (A.mul (A.sub p12.y p21.y) v2orty)
    if A.mul dot11 dot12 > 0 ∨ A.mul dot21 dot22 > 0 then 0 else 1

def IsConvex (A : Arith) (p1 p2 p3 : TPPLPoint) : Bool :=
  decide (A.sub (A.mul (A.sub p3.y p1.y) (A.sub p2.x p1.x))
    (A.mul (A.sub p3.x p1.x) (A.sub p2.y p1.y)) > 0)

def IsReflex (A : Arith) (p1 p2 p3 : TPPLPoint) : Bool :=
  decide (A.sub (A.mul (A.sub p3.y p1.y) (A.sub p2.x p1.x))
    (A.mul (A.sub p3.x p1.x) (A.sub p2.y p1.y)) < 0)

def IsInside (A : Arith) (p1 p2 p3 p : TPPLPoint) : Bool :=
  if A.IsConvex p1 p p2 then false
  else if A.IsConvex p2 p p3 then false
  else if A.IsConvex p3 p p1 then false
  else true

def InCone (A : Arith) (p1 p2 p3 p : TPPLPoint) : Bool :=
  let convex := A.IsConvex p1 p2 p3
  if convex then
    if !A.IsConvex p1 p2 p then false
    else if !A.IsConvex p2 p3 p then false
    else true
  else
    if A.IsConvex p1 p2 p then true
    else if A.IsConvex p2 p3 p then true
    else false

/-- Returns the orientation of the polygon. -/
def GetOrientation (A : Arith) (poly : TPPLPoly) : TPPLOrientation :=
  let area := (List.range poly.GetNumPoints).foldl (fun area i1 =>
    let i2 := if i1 + 1 = poly.GetNumPoints then 0 else i1 + 1
    A.add area (A.sub (A.mul (poly.GetPoint i1).x (poly.GetPoint i2).y)
      (A.mul (poly.GetPoint i1).y (poly.GetPoint i2).x))) 0
  if area > 0 then TPPLOrientation.CCW
  else if area < 0 then TPPLOrientation.CW
  else TPPLOrientation.NONE

/-- Sets the polygon orientation. -/
def SetOrientation (A : Arith) (poly : TPPLPoly) (orientation : TPPLOrientation) : TPPLPoly :=
  let polyorientation := A.GetOrientation poly
  if polyorientation ≠ TPPLOrientation.NONE ∧ polyorientation ≠ orientation then poly.Invert
  else poly

/-- The comparison `ScanLineEdge::operator<`. -/
def edgeLt (A : Arith) (e other : ScanLineEdge) : Bool :=
  if other.p1.y = other.p2.y then
    if e.p1.y = e.p2.y then decide (e.p1.y < other.p1.y)
    else A.IsConvex e.p1 e.p2 other.p1
  else if e.p1.y = e.p2.y then !A.IsConvex other.p1 other.p2 e.p1
  else if e.p1.y < other.p1.y then !A.IsConvex other.p1 other.p2 e.p1
  else A.IsConvex e.p1 e.p2 other.p1

end Arith

namespace Arith

/-! ### The sweep of `MonotonePartition` -/

/-- The call `edgeTree.insert(newedge)`, see `EdgeTree.insert`. -/
def treeInsert (A : Arith) (t : EdgeTree) (id : Nat) (newedge : ScanLineEdge) :
    EdgeTree × Nat :=
  let k := t.findIdx (fun node => A.edgeLt newedge node.2)
  if k = 0 ∨ A.edgeLt (t.getD (k - 1) default).2 newedge then
    (t.take k ++ (id, newedge) :: t.drop k, id)
  else (t, (t.getD (k - 1) default).1)

/-- The call `edgeTree.lower_bound(newedge)` followed by the test against `begin()` and
`--edgeIter`, see `EdgeTree.leftOf`. -/
def treeLeftOf (A : Arith) (t : EdgeTree) (newedge : ScanLineEdge) : Option Nat :=
  let k := t.findIdx (fun node => !A.edgeLt node.2 newedge)
  if k = 0 then none else some (t.getD (k - 1) default).1

/-- The block "insert e_i in T". -/
def insertEdge (A : Arith) (st : MonotoneState) (vindex2 : Nat) : MonotoneState :=
  let newedge : ScanLineEdge :=
    ⟨vindex2, (st.vertex vindex2).p, (st.vertex (st.vertex vindex2).next).p⟩
  let edgeTreeRet := A.treeInsert st.edgeTree st.nextId newedge
  { st with
    edgeTree := edgeTreeRet.1
    nextId := st.nextId + 1
    edgeTreeIterators := st.edgeTreeIterators.set vindex2 (some edgeTreeRet.2) }

/-- The body of the loop "for each vertex" for the vertex `vindex`; `none` is `error`. -/
def monoStep (A : Arith) (st : MonotoneState) (vindex : Nat) : Option MonotoneState :=
  match st.vertextype vindex with
  | TPPLVertexType.START =>
    some (setHelper (A.insertEdge st vindex) vindex vindex)
  | TPPLVertexType.END =>
    if st.iterator (st.vertex vindex).previous = none then none
    else
      let st1 := (diagonalToHelper st vindex).1
      some (eraseEdge st1 (st1.vertex vindex).previous)
  | TPPLVertexType.SPLIT =>
    match A.treeLeftOf st.edgeTree (searchKey st vindex) with
    | none => none
    | some edgeIter =>
      let st1 := AddDiagonal st vindex (st.helper (st.edgeTree.index edgeIter))
      let vindex2 := st1.newnumvertices - 2
      let st2 := setHelper st1 (st1.edgeTree.index edgeIter) vindex
      some (setHelper (A.insertEdge st2 vindex2) vindex2 vindex2)
  | TPPLVertexType.MERGE =>
    if st.iterator (st.vertex vindex).previous = none then none
    else
      let (st1, vindex2) := diagonalToHelper st vindex
      let st2 := eraseEdge st1 (st1.vertex vindex).previous
      match A.treeLeftOf st2.edgeTree (searchKey st2 vindex) with
      | none => none
      | some edgeIter => some (helperLeft st2 edgeIter vindex2)
  | TPPLVertexType.REGULAR =>
    if Below (st.vertex vindex).p (st.vertex (st.vertex vindex).previous).p then
      if st.iterator (st.vertex vindex).previous = none then none
      else
        let (st1, vindex2) := diagonalToHelper st vindex
        let st2 := eraseEdge st1 (st1.vertex vindex).previous
        some (setHelper (A.insertEdge st2 vindex2) vindex2 vindex)
    else
      match A.treeLeftOf st.edgeTree (searchKey st vindex) with
      | none => none
      | some edgeIter => some (helperLeft st edgeIter vindex)

/-- The classification "determine vertex types" of vertex `i`. -/
def monoVertexType (A : Arith) (vertices : List MonotoneVertex) (i : Nat) : TPPLVertexType :=
  let v := vertices.getD i default
  let vprev := vertices.getD v.previous default
  let vnext := vertices.getD v.next default
  if Below vprev.p v.p && Below vnext.p v.p then
    if A.IsConvex vnext.p vprev.p v.p then TPPLVertexType.START else TPPLVertexType.SPLIT
  else if Below v.p vprev.p && Below v.p vnext.p then
    if A.IsConvex vnext.p vprev.p v.p then TPPLVertexType.END else TPPLVertexType.MERGE
  else TPPLVertexType.REGULAR

/-- The state before the loop "for each vertex". -/
def monoInitState (A : Arith) (inpolys : TPPLPolyList) (numvertices : Nat) : MonotoneState :=
  let vertices := monoInitVertices inpolys 0
  { vertices := vertices ++ List.replicate (numvertices * 3 - numvertices) default
    newnumvertices := numvertices
    vertextypes := (List.range numvertices).map (A.monoVertexType vertices)
      ++ List.replicate (numvertices * 3 - numvertices) default
    edgeTreeIterators := List.replicate (numvertices * 3) none
    helpers := List.replicate (numvertices * 3) 0
    edgeTree := []
    nextId := 0 }

/-- Everything after the first loop of `MonotonePartition`. -/
def monoSweep (A : Arith) (inpolys : TPPLPolyList) (numvertices : Nat)
    (monotonePolys : TPPLPolyList) : Int × TPPLPolyList :=
  let st0 := A.monoInitState inpolys numvertices
  let priority := sortPriority st0.vertices (List.range numvertices)
  match priority.foldlM A.monoStep st0 with
  | none => (0, monotonePolys)
  | some st => (1, monoOutput st monotonePolys)

/-! ### Ear clipping and the Hertel-Mehlhorn partition -/

def UpdateVertex (A : Arith) (v : Nat) (vertices : List PartitionVertex) (numvertices : Nat) :
    List PartitionVertex :=
  let self := vtx vertices v
  let v1 := vtx vertices self.previous
  let v3 := vtx vertices self.next
  let isConvex := A.IsConvex v1.p self.p v3.p
  let vec1 := A.Normalize (A.pointSub v1.p self.p)
  let vec3 := A.Normalize (A.pointSub v3.p self.p)
  let angle := A.add (A.mul vec1.x vec3.x) (A.mul vec1.y vec3.y)
  let isEar :=
    if isConvex then
      !(List.range numvertices).any (fun i =>
        let q := (vtx vertices i).p
        !(q.eq self.p || q.eq v1.p || q.eq v3.p) && A.IsInside v1.p self.p v3.p q)
    else false
  vertices.set v { self with isConvex := isConvex, angle := angle, isEar := isEar }

/-- The clipping loop `for (i = 0; i < numvertices - 3; i++)`, see `ecLoop`. -/
def ecLoop (A : Arith) (numvertices : Nat) :
    Nat → List PartitionVertex → TPPLPolyList → Bool × List PartitionVertex × TPPLPolyList
  | 0, vertices, triangles => (true, vertices, triangles)
  | rem + 1, vertices, triangles =>
    match findEar vertices numvertices with
    | none => (false, vertices, triangles)
    | some ear =>
      let triangles1 := triangles ++ [earTriangle vertices ear]
      let vs1 := clipEar vertices ear
      if rem = 0 then (true, vs1, triangles1)
      else
        let vs2 := A.UpdateVertex (vtx vs1 ear).previous vs1 numvertices
        let vs3 := A.UpdateVertex (vtx vs2 ear).next vs2 numvertices
        ecLoop A numvertices rem vs3 triangles1

/-- Triangulation by ear removal (single polygon). -/
def Triangulate_EC (A : Arith) (poly : TPPLPoly) (triangles : TPPLPolyList) :
    Int × TPPLPolyList :=
  if !poly.Valid then (0, triangles)
  else if poly.GetNumPoints < 3 then (0, triangles)
  else if poly.GetNumPoints = 3 then (1, triangles ++ [poly])
  else
    let numvertices := poly.GetNumPoints
    let vertices0 := initVertices poly numvertices
    let vertices := (List.range numvertices).foldl
      (fun vs i => A.UpdateVertex i vs numvertices) vertices0
    match A.ecLoop numvertices (numvertices - 3) vertices triangles with
    | (false, _, triangles1) => (0, triangles1)
    | (true, vertices1, triangles1) => (1, triangles1 ++ lastTriangle vertices1 numvertices)

/-- The reflex scan "check if the poly is already convex". -/
def hasReflex (A : Arith) (poly : TPPLPoly) : Bool :=
  (List.range poly.GetNumPoints).any (fun i11 =>
    let i12 := if i11 = 0 then poly.GetNumPoints - 1 else i11 - 1
    let i13 := if i11 = poly.GetNumPoints - 1 then 0 else i11 + 1
    A.IsReflex (poly.GetPoint i12) (poly.GetPoint i11) (poly.GetPoint i13))

/-- The body of the loop over `i11`, see `hmEdge`. -/
def hmEdge (A : Arith) (triangles : TPPLPolyList) (iter1 i11 : Nat) : Option TPPLPolyList :=
  let poly1 := polyAt triangles iter1
  let d1 := poly1.GetPoint i11
  let i12 := (i11 + 1) % poly1.GetNumPoints
  let d2 := poly1.GetPoint i12
  match findDiagonal triangles iter1 d1 d2 with
  | none => none
  | some (iter2, i21) =>
    let poly2 := polyAt triangles iter2
    let i22 := (i21 + 1) % poly2.GetNumPoints
    if !A.IsConvex (poly1.GetPoint (if i11 = 0 then poly1.GetNumPoints - 1 else i11 - 1))
        (poly1.GetPoint i11)
        (poly2.GetPoint (if i22 = poly2.GetNumPoints - 1 then 0 else i22 + 1)) then none
    else if !A.IsConvex (poly2.GetPoint (if i21 = 0 then poly2.GetNumPoints - 1 else i21 - 1))
        (poly1.GetPoint i12)
        (poly1.GetPoint (if i12 = poly1.GetNumPoints - 1 then 0 else i12 + 1)) then none
    else
      some ((triangles.eraseIdx iter2).set iter1 (hmMerge poly1 poly2 i11 i12 i21 i22))

/-- The two nested loops over `iter1` and `i11`, see `hmLoop`. -/
def hmLoop (A : Arith) : Nat → TPPLPolyList → Nat → Nat → TPPLPolyList
  | 0, triangles, _, _ => triangles
  | fuel + 1, triangles, iter1, i11 =>
    if iter1 < triangles.length then
      if i11 < (polyAt triangles iter1).GetNumPoints then
        match A.hmEdge triangles iter1 i11 with
        | none => hmLoop A fuel triangles iter1 (i11 + 1)
        | some triangles1 => hmLoop A fuel triangles1 iter1 0
      else hmLoop A fuel triangles (iter1 + 1) 0
    else triangles

/-- The single-polygon `ConvexPartition_HM`. -/
def ConvexPartition_HM (A : Arith) (poly : TPPLPoly) (parts : TPPLPolyList) :
    Int × TPPLPolyList :=
  if !poly.Valid then (0, parts)
  else if !A.hasReflex poly then (1, parts ++ [poly])
  else
    match A.Triangulate_EC poly [] with
    | (0, _) => (0, parts)
    | (_, triangles) => (1, parts ++ A.hmLoop (hmFuel triangles) triangles 0 0)

/-! ### Minimum-weight triangulation -/

/-- The visibility flag computed for the pair `i < j`, see `optVisible`. -/
def optVisible (A : Arith) (poly : TPPLPoly) (n i j : Nat) : Bool :=
  if j ≠ i + 1 then
    let p1 := poly.GetPoint i
    let p2 := poly.GetPoint j
    let p3 := if i = 0 then poly.GetPoint (n - 1) else poly.GetPoint (i - 1)
    let p4 := if i = n - 1 then poly.GetPoint 0 else poly.GetPoint (i + 1)
    if !A.InCone p3 p1 p4 p2 then false
    else
      let p3 := if j = 0 then poly.GetPoint (n - 1) else poly.GetPoint (j - 1)
      let p4 := if j = n - 1 then poly.GetPoint 0 else poly.GetPoint (j + 1)
      if !A.InCone p3 p2 p4 p1 then false
      else
        !(List.range n).any (fun k =>
          let p3 := poly.GetPoint k
          let p4 := if k = n - 1 then poly.GetPoint 0 else poly.GetPoint (k + 1)
          decide (A.Intersects p1 p2 p3 p4 ≠ 0))
  else true

/-- Initialize states and visibility. -/
def optInit (A : Arith) (poly : TPPLPoly) (n : Nat) : DPTable :=
  let dp : DPTable := (List.range (n - 1)).foldl (fun (dp : DPTable) i =>
    (List.range' (i + 1) (n - (i + 1))).foldl (fun (dp : DPTable) j =>
      dp.set j i ⟨A.optVisible poly n i j, 0, -1⟩) dp)
    ((List.range n).map (fun i => List.replicate i default))
  dp.set (n - 1) 0 ⟨true, 0, -1⟩

/-- The loop over `k` for the pair `(i, j)`: the final `(bestvertex, minweight)`. -/
def optBest (A : Arith) (poly : TPPLPoly) (dp : DPTable) (i j : Nat) : Int × ℚ :=
  (List.range' (i + 1) (j - (i + 1))).foldl (fun st k =>
    if !(dp.get k i).visible then st
    else if !(dp.get j k).visible then st
    else
      let d1 := if k ≤ i + 1 then 0 else A.Distance (poly.GetPoint i) (poly.GetPoint k)
      let d2 := if j ≤ k + 1 then 0 else A.Distance (poly.GetPoint k) (poly.GetPoint j)
      let weight := A.add (A.add (A.add (dp.get k i).weight (dp.get j k).weight) d1) d2
      if st.1 = -1 ∨ weight < st.2 then ((k : Int), weight) else st) (-1, 0)

/-- The body of the loop over `i` for a given `gap`; `none` is the `return 0`. -/
def optCell (A : Arith) (poly : TPPLPoly) (gap : Nat) (dp : DPTable) (i : Nat) :
    Option DPTable :=
  let j := i + gap
  if !(dp.get j i).visible then some dp
  else
    let best := A.optBest poly dp i j
    if best.1 = -1 then none
    else some (dp.set j i { dp.get j i with bestvertex := best.1, weight := best.2 })

/-- The loops over `gap` and `i`; `none` is the `return 0`. -/
def optFill (A : Arith) (poly : TPPLPoly) (n : Nat) (dp0 : DPTable) : Option DPTable :=
  (List.range' 2 (n - 2)).foldlM (fun dp gap =>
    (List.range (n - gap)).foldlM (A.optCell poly gap) dp) dp0

/-- Minimum-weight polygon triangulation by dynamic programming. -/
def Triangulate_OPT (A : Arith) (poly : TPPLPoly) (triangles : TPPLPolyList) :
    Int × TPPLPolyList :=
  if !poly.Valid then (0, triangles)
  else
    let n := poly.GetNumPoints
    match A.optFill poly n (A.optInit poly n) with
    | none => (0, triangles)
    | some dp => optRecover poly dp n [(0, n - 1)] triangles

end Arith

/-! ## Inputs on which the rounding of binary64 decides

Every coordinate below is an integer of absolute value at most `2^27 + 10` or a half, hence
a `double`; `134217728` is `2^27`, and the product `(2^27 + 1) * (2^27 - 1) = 2^54 - 1` is
not a `double`: it rounds to `2^54`. -/

/-- `IsConvex(prev, v, next)` at vertex `v` of the polygon, in the arithmetic `A`. -/
def Arith.ConvexAt (A : Arith) (poly : TPPLPoly) (v : Nat) : Bool :=
  A.IsConvex (poly.GetPoint (if v = 0 then poly.GetNumPoints - 1 else v - 1)) (poly.GetPoint v)
    (poly.GetPoint (if v = poly.GetNumPoints - 1 then 0 else v + 1))

/-- The quadrilateral `[(2^27, 0), (0, 2^27), (2^27, -1), (1, 0)]`. -/
def roundingQuad : TPPLPoly :=
  ⟨[⟨134217728, 0, 0⟩, ⟨0, 134217728, 1⟩, ⟨134217728, -1, 2⟩, ⟨1, 0, 3⟩], false⟩

/-- The counter-clockwise quadrilateral `[(0,0), (-1,-1/2), (2^27,0), (2^27 - 1, 1/2)]`: its
diagonal from vertex 0 to vertex 2 has length `2^27`, the one from vertex 1 to vertex 3 has
length `sqrt (2^54 + 1)`. -/
def thinQuad : TPPLPoly :=
  ⟨[⟨0, 0, 0⟩, ⟨-1, -1 / 2, 1⟩, ⟨134217728, 0, 2⟩, ⟨134217727, 1 / 2, 3⟩], false⟩

/-- The edge from `(0, 0)` down to `(2^27 + 1, -2^27)`. -/
def steepEdgeA : ScanLineEdge := ⟨0, ⟨0, 0, 0⟩, ⟨134217729, -134217728, 1⟩⟩

/-- The edge from `(2^27, -(2^27 - 1))` down to `(2^27 + 10, -2^27)`. -/
def steepEdgeB : ScanLineEdge := ⟨1, ⟨134217728, -134217727, 2⟩, ⟨134217738, -134217728, 3⟩⟩

/-! ## Minimum-weight triangulation with the weights in an ordered field

`Triangulate_OPT` once more, with the type `W` of the weights a parameter.  The coordinates
stay rational (every `double` is a rational number) and the visibility tests are those of
the exact model; the values of `Distance` and the weights are numbers of the ordered field
`W`, which comes with a square root `sqrt : W → W`.  For the real numbers with the real
square root this is `Triangulate_OPT` in exact arithmetic. -/

/-- Dynamic programming state for minimum-weight triangulation, with its weight in `W`. -/
structure DPStateW (W : Type) where
  visible : Bool
  weight : W
  bestvertex : Int

instance {W : Type} [Zero W] : Inhabited (DPStateW W) := ⟨⟨false, 0, -1⟩⟩

/-- The table `dpstates`: row `j` holds the states `dpstates[j][i]`. -/
abbrev DPTableW (W : Type) := List (List (DPStateW W))

/-- The element `dpstates[j][i]`. -/
def DPTableW.get {W : Type} [Zero W] (dp : DPTableW W) (j i : Nat) : DPStateW W :=
  (dp.getD j []).getD i default

/-- The write `dpstates[j][i] = s`. -/
def DPTableW.set {W : Type} (dp : DPTableW W) (j i : Nat) (s : DPStateW W) : DPTableW W :=
  List.set dp j ((dp.getD j []).set i s)

/-- The function `Distance` on the rational points, computed in `W`. -/
def DistanceW {W : Type} [LinearOrderedField W] (sqrt : W → W) (p1 p2 : TPPLPoint) : W :=
  let dx : W := (p2.x : W) - (p1.x : W)
  let dy : W := (p2.y : W) - (p1.y : W)
  sqrt (dx * dx + dy * dy)

/-- Initialize states and visibility. -/
def optInitW (W : Type) [Zero W] (poly : TPPLPoly) (n : Nat) : DPTableW W :=
  let dp : DPTableW W := (List.range (n - 1)).foldl (fun (dp : DPTableW W) i =>
    (List.range' (i + 1) (n - (i + 1))).foldl (fun (dp : DPTableW W) j =>
      dp.set j i ⟨optVisible poly n i j, 0, -1⟩) dp)
    ((List.range n).map (fun i => List.replicate i default))
  dp.set (n - 1) 0 ⟨true, 0, -1⟩

/-- The loop over `k` for the pair `(i, j)`: the final `(bestvertex, minweight)`. -/
def optBestW {W : Type} [LinearOrderedField W] (sqrt : W → W) (poly : TPPLPoly)
    (dp : DPTableW W) (i j : Nat) : Int × W :=
  (List.range' (i + 1) (j - (i + 1))).foldl (fun st k =>
    if !(dp.get k i).visible then st
    else if !(dp.get j k).visible then st
    else
      let d1 := if k ≤ i + 1 then 0 else DistanceW sqrt (poly.GetPoint i) (poly.GetPoint k)
      let d2 := if j ≤ k + 1 then 0 else DistanceW sqrt (poly.GetPoint k) (poly.GetPoint j)
      let weight := (dp.get k i).weight + (dp.get j k).weight + d1 + d2
      if st.1 = -1 ∨ weight < st.2 then ((k : Int), weight) else st) (-1, 0)

/-- The body of the loop over `i` for a given `gap`; `none` is the `return 0`. -/
def optCellW {W : Type} [LinearOrderedField W] (sqrt : W → W) (poly : TPPLPoly) (gap : Nat)
    (dp : DPTableW W) (i : Nat) : Option (DPTableW W) :=
  let j := i + gap
  if !(dp.get j i).visible then some dp
  else
    let best := optBestW sqrt poly dp i j
    if best.1 = -1 then none
    else some (dp.set j i { dp.get j i with bestvertex := best.1, weight := best.2 })

/-- The loops over `gap` and `i`; `none` is the `return 0`. -/
def optFillW {W : Type} [LinearOrderedField W] (sqrt : W → W) (poly : TPPLPoly) (n : Nat)
    (dp0 : DPTableW W) : Option (DPTableW W) :=
  (List.range' 2 (n - 2)).foldlM (fun dp gap =>
    (List.range (n - gap)).foldlM (optCellW sqrt poly gap) dp) dp0

/-- The loop `while (!diagonals.empty())` of `Triangulate_OPT`, bounded by `fuel` passes. -/
def optRecoverW {W : Type} [Zero W] (poly : TPPLPoly) (dp : DPTableW W) :
    Nat → List (Nat × Nat) → TPPLPolyList → Int × TPPLPolyList
  | _, [], triangles => (1, triangles)
  | 0, _ :: _, triangles => (0, triangles)
  | fuel + 1, diagonal :: diagonals, triangles =>
    let bestvertex := (dp.get diagonal.2 diagonal.1).bestvertex
    if bestvertex = -1 then (0, triangles)
    else
      let triangles1 := triangles ++ [TPPLPoly.Triangle (poly.GetPoint diagonal.1)
        (poly.GetPoint bestvertex.toNat) (poly.GetPoint diagonal.2)]
      let diagonals1 :=
        if bestvertex > diagonal.1 + 1 then diagonals ++ [(diagonal.1, bestvertex.toNat)]
        else diagonals
      let diagonals2 :=
        if (diagonal.2 : Int) > bestvertex + 1 then diagonals1 ++ [(bestvertex.toNat, diagonal.2)]
        else diagonals1
      optRecoverW poly dp fuel diagonals2 triangles1

/-- Minimum-weight polygon triangulation by dynamic programming, with the weights in `W`.
Each pass of the recovery loop emits one triangle, so `n` passes are enough. -/
def Triangulate_OPT_W {W : Type} [LinearOrderedField W] (sqrt : W → W) (poly : TPPLPoly)
    (triangles : TPPLPolyList) : Int × TPPLPolyList :=
  if !poly.Valid then (0, triangles)
  else
    let n := poly.GetNumPoints
    match optFillW sqrt poly n (optInitW W poly n) with
    | none => (0, triangles)
    | some dp => optRecoverW poly dp n [(0, n - 1)] triangles

/-- The table has `n` rows and row `j` has `j` entries. -/
def DPTableW.Shaped {W : Type} (n : Nat) (dp : DPTableW W) : Prop :=
  dp.length = n ∧ ∀ j, j < n → (dp.getD j []).length = j

/-- The weight that the loop over `k` of `Triangulate_OPT` computes for the split vertex
`k` of the pair `(i, j)`. -/
def optCandW {W : Type} [LinearOrderedField W] (sqrt : W → W) (poly : TPPLPoly)
    (dp : DPTableW W) (i j k : Nat) : W :=
  (dp.get k i).weight + (dp.get j k).weight
    + (if k ≤ i + 1 then 0 else DistanceW sqrt (poly.GetPoint i) (poly.GetPoint k))
    + (if j ≤ k + 1 then 0 else DistanceW sqrt (poly.GetPoint k) (poly.GetPoint j))

/-- The state `dpstates[j][i]` is final: if the pair is visible, its `bestvertex` is a vertex
`k` strictly between `i` and `j` with both `(i, k)` and `(k, j)` visible, and its weight is
the one computed for `k`, minimal among the weights computed for such vertices. -/
def CellDoneW {W : Type} [LinearOrderedField W] (sqrt : W → W) (poly : TPPLPoly)
    (dp : DPTableW W) (i j : Nat) : Prop :=
  (dp.get j i).visible = true →
    ∃ k : Nat, (dp.get j i).bestvertex = (k : Int) ∧ i < k ∧ k < j ∧
      (dp.get k i).visible = true ∧ (dp.get j k).visible = true ∧
      (dp.get j i).weight = optCandW sqrt poly dp i j k ∧
      ∀ k1, i < k1 → k1 < j → (dp.get k1 i).visible = true → (dp.get j k1).visible = true →
        (dp.get j i).weight ≤ optCandW sqrt poly dp i j k1

/-- The table during the loops over `gap` and `i` of `Triangulate_OPT`, before the pass
for `(gap, i)`: the visibility flags are those of `dp0`, the pairs of consecutive vertices
have weight 0, and the states of the pairs handled by earlier passes are final. -/
def FillInvW {W : Type} [LinearOrderedField W] (sqrt : W → W) (poly : TPPLPoly) (n : Nat)
    (dp0 dp : DPTableW W) (gap i : Nat) : Prop :=
  dp.Shaped n ∧ (∀ a b, (dp.get a b).visible = (dp0.get a b).visible) ∧
    (∀ a, a + 1 < n → (dp.get (a + 1) a).weight = 0) ∧
    ∀ a b, a + 2 ≤ b → b < n → (b - a < gap ∨ (b - a = gap ∧ a < i)) →
      CellDoneW sqrt poly dp a b

/-- The index triples `(index1, bestvertex, index2)` of the triangles that the loop
`while (!diagonals.empty())` of `Triangulate_OPT` emits, in order. -/
def optTriplesW {W : Type} [Zero W] (dp : DPTableW W) :
    Nat → List (Nat × Nat) → List (Nat × Nat × Nat)
  | _, [] => []
  | 0, _ :: _ => []
  | fuel + 1, diagonal :: diagonals =>
    let bestvertex := (dp.get diagonal.2 diagonal.1).bestvertex
    if bestvertex = -1 then []
    else
      let diagonals1 :=
        if bestvertex > diagonal.1 + 1 then diagonals ++ [(diagonal.1, bestvertex.toNat)]
        else diagonals
      let diagonals2 :=
        if (diagonal.2 : Int) > bestvertex + 1 then diagonals1 ++ [(bestvertex.toNat, diagonal.2)]
        else diagonals1
      (diagonal.1, bestvertex.toNat, diagonal.2) :: optTriplesW dp fuel diagonals2

/-- The index triples of the triangles of `Triangulate_OPT`. -/
def Triangulate_OPT_triplesW {W : Type} [LinearOrderedField W] (sqrt : W → W)
    (poly : TPPLPoly) : List (Nat × Nat × Nat) :=
  if !poly.Valid then []
  else
    match optFillW sqrt poly poly.GetNumPoints (optInitW W poly poly.GetNumPoints) with
    | none => []
    | some dp => optTriplesW dp poly.GetNumPoints [(0, poly.GetNumPoints - 1)]

/-- The lengths of those of the sides `(i, k)` and `(k, j)` of the triangle `(i, k, j)` that
are diagonals, as `Distance` computes them. -/
def optDiagCostW {W : Type} [LinearOrderedField W] (sqrt : W → W) (poly : TPPLPoly)
    (t : Nat × Nat × Nat) : W :=
  (if t.2.1 ≤ t.1 + 1 then 0 else DistanceW sqrt (poly.GetPoint t.1) (poly.GetPoint t.2.1))
    + (if t.2.2 ≤ t.2.1 + 1 then 0
      else DistanceW sqrt (poly.GetPoint t.2.1) (poly.GetPoint t.2.2))

/-- The lengths `d` of those of the sides `(i, k)` and `(k, j)` of the triangle `(i, k, j)`
that are diagonals. -/
def diagCostW {W : Type} [LinearOrderedField W] (d : Nat → Nat → W) (t : Nat × Nat × Nat) :
    W :=
  (if t.2.1 ≤ t.1 + 1 then 0 else d t.1 t.2.1)
    + (if t.2.2 ≤ t.2.1 + 1 then 0 else d t.2.1 t.2.2)

/-- The sum of the lengths `d` of the diagonals of the triangulation. -/
def TriTree.costW {W : Type} [LinearOrderedField W] (d : Nat → Nat → W) :
    TriTree → Nat → Nat → W
  | TriTree.leaf, _, _ => 0
  | TriTree.node k l r, i, j =>
    (if i + 2 ≤ k then d i k else 0) + (if k + 2 ≤ j then d k j else 0)
      + l.costW d i k + r.costW d k j

/-- Every pair `i + 2 ≤ j` marked visible in the table of the initialisation has a vertex
`k` strictly between `i` and `j` with both `(i, k)` and `(k, j)` marked visible. -/
def HasSplits (poly : TPPLPoly) : Prop :=
  ∀ j, j < poly.GetNumPoints → ∀ i, i < j → i + 2 ≤ j →
    ((optInit poly poly.GetNumPoints).get j i).visible = true →
    ∃ k, k < j ∧ i < k ∧ ((optInit poly poly.GetNumPoints).get k i).visible = true ∧
      ((optInit poly poly.GetNumPoints).get j k).visible = true

instance (poly : TPPLPoly) : Decidable (HasSplits poly) :=
  Nat.decidableBallLT _ (fun j _ => ∀ i, i < j → i + 2 ≤ j →
    ((optInit poly poly.GetNumPoints).get j i).visible = true →
    ∃ k, k < j ∧ i < k ∧ ((optInit poly poly.GetNumPoints).get k i).visible = true ∧
      ((optInit poly poly.GetNumPoints).get j k).visible = true)

/-- The point of the Euclidean plane with the coordinates of `p`. -/
noncomputable def toPlane (p : TPPLPoint) : EuclideanSpace ℝ (Fin 2) :=
  ![(p.x : ℝ), (p.y : ℝ)]

/-- The Euclidean length of the segment between the vertices `i` and `j` of the polygon. -/
noncomputable def euclidLength (poly : TPPLPoly) (i j : Nat) : ℝ :=
  dist (toPlane (poly.GetPoint i)) (toPlane (poly.GetPoint j))

/-- The state, read as a state with its weight in `W = ℚ`. -/
def DPState.toW (s : DPState) : DPStateW ℚ := ⟨s.visible, s.weight, s.bestvertex⟩

/-- The table, read as a table with the weights in `W = ℚ`. -/
def DPTable.toW (dp : DPTable) : DPTableW ℚ := dp.map (List.map DPState.toW)

/-! # Theorems -/

/-! ## Arrays -/

theorem vtx_set (vs : List PartitionVertex) (i j : Nat) (v : PartitionVertex) :
    vtx (vs.set i v) j = if i = j ∧ i < vs.length then v else vtx vs j := by
  unfold vtx
  simp only [List.getD_eq_getElem?_getD, List.getElem?_set]
  by_cases h : i = j
  · subst h
    by_cases h2 : i < vs.length
    · simp [h2]
    · have h3 : vs.length ≤ i := Nat.le_of_not_lt h2
      simp [h2, List.getElem?_eq_none h3]
  · simp [h]

theorem vtx_set_ne (vs : List PartitionVertex) {i j : Nat} (v : PartitionVertex) (h : i ≠ j) :
    vtx (vs.set i v) j = vtx vs j := by
  rw [vtx_set]; simp [h]

theorem vtx_set_eq (vs : List PartitionVertex) {i : Nat} (v : PartitionVertex)
    (h : i < vs.length) : vtx (vs.set i v) i = v := by
  rw [vtx_set]; simp [h]

/-! ## Shoelace sums -/

theorem foldl_add_eq_sum {α : Type} (f : α → ℚ) (l : List α) (init : ℚ) :
    l.foldl (fun a i => a + f i) init = init + (l.map f).sum := by
  induction l generalizing init with
  | nil => simp
  | cons a l ih => simp [ih, add_assoc]

theorem shoelace_eq_pts (poly : TPPLPoly) : poly.shoelace = shoelacePts poly.points := by
  unfold TPPLPoly.shoelace shoelacePts
  rw [foldl_add_eq_sum (fun i1 =>
    ((poly.GetPoint i1).x * (poly.GetPoint (if i1 + 1 = poly.GetNumPoints then 0 else i1 + 1)).y
      - (poly.GetPoint i1).y *
        (poly.GetPoint (if i1 + 1 = poly.GetNumPoints then 0 else i1 + 1)).x))]
  rw [zero_add]
  congr 1
  apply List.ext_getElem
  · simp [TPPLPoly.GetNumPoints]
  · intro k h1 h2
    have hk : k < poly.points.length := by
      simpa [TPPLPoly.GetNumPoints] using h1
    have hmod : (if k + 1 = poly.points.length then 0 else k + 1) = (k + 1) % poly.points.length := by
      split
      · next h => rw [h, Nat.mod_self]
      · next h => rw [Nat.mod_eq_of_lt (by omega)]
    have hlt : (k + 1) % poly.points.length < poly.points.length := Nat.mod_lt _ (by omega)
    simp only [List.getElem_map, List.getElem_range, List.getElem_zip, List.getElem_rotate,
      TPPLPoly.GetNumPoints, TPPLPoly.GetPoint, cross, hmod]
    rw [List.getD_eq_getElem _ _ hk, List.getD_eq_getElem _ _ hlt]

theorem zip_rotate_one_rotate {α : Type} (l : List α) (k : Nat) :
    (l.rotate k).zip ((l.rotate k).rotate 1) = (l.zip (l.rotate 1)).rotate k := by
  rw [List.rotate_rotate, Nat.add_comm, ← List.rotate_rotate]
  unfold List.zip
  rw [List.zipWith_rotate_distrib]
  simp

theorem mem_cycPairs_of_isRotated {α : Type} {l l1 : List α} (h : l ~r l1) (ab : α × α) :
    ab ∈ l.zip (l.rotate 1) ↔ ab ∈ l1.zip (l1.rotate 1) := by
  obtain ⟨k, rfl⟩ := h
  rw [zip_rotate_one_rotate, List.mem_rotate]

theorem shoelacePts_isRotated {l l1 : List TPPLPoint} (h : l ~r l1) :
    shoelacePts l = shoelacePts l1 := by
  obtain ⟨k, rfl⟩ := h
  unfold shoelacePts
  rw [zip_rotate_one_rotate]
  exact ((List.rotate_perm _ k).map _).sum_eq.symm

theorem shoelacePts_triangle (a b c : TPPLPoint) :
    shoelacePts [a, b, c] = cross a b + cross b c + cross c a := by
  simp [shoelacePts, List.rotate, add_assoc]

theorem shoelacePts_clip (p e q : TPPLPoint) (rest : List TPPLPoint) :
    shoelacePts (p :: e :: q :: rest) = shoelacePts (p :: q :: rest) + shoelacePts [p, e, q] := by
  rw [shoelacePts_triangle]
  unfold shoelacePts
  rw [List.rotate_cons_succ, List.rotate_zero, List.rotate_cons_succ, List.rotate_zero]
  simp only [List.cons_append, List.zip_cons_cons, List.map_cons, List.sum_cons]
  simp only [cross]
  ring

/-! ## The ring of active vertices -/

theorem Ring.of_isRotated {n : Nat} {vs : List PartitionVertex} {ring ring1 : List Nat}
    (h : Ring n vs ring) (hr : ring ~r ring1) : Ring n vs ring1 where
  len := h.len
  nodup := hr.nodup_iff.mp h.nodup
  lt := fun i hi => h.lt i (hr.mem_iff.mpr hi)
  active := fun i hi => (h.active i hi).trans hr.mem_iff
  link := fun ab hab => h.link ab ((mem_cycPairs_of_isRotated hr ab).mpr hab)

theorem exists_rotation_around {ring : List Nat} {e : Nat} (he : e ∈ ring)
    (hlen : 3 ≤ ring.length) : ∃ p q rest, ring ~r p :: e :: q :: rest := by
  obtain ⟨A, B, rfl⟩ := List.append_of_mem he
  have h1 : (A ++ e :: B) ~r (e :: (B ++ A)) := by
    have := @List.isRotated_append _ A (e :: B)
    simpa using this
  have hlen2 : 2 ≤ (B ++ A).length := by
    simp only [List.length_append, List.length_cons] at hlen ⊢
    omega
  rcases List.eq_nil_or_concat (B ++ A) with hnil | ⟨M, p, hM⟩
  · rw [hnil] at hlen2; simp at hlen2
  · rw [hM, List.concat_eq_append] at h1 hlen2
    have h2 : (e :: (M ++ [p])) ~r (p :: e :: M) := by
      have := @List.isRotated_append _ (e :: M) [p]
      simpa using this
    cases M with
    | nil => simp at hlen2
    | cons q rest => exact ⟨p, q, rest, h1.trans h2⟩

theorem Ring.prev_next {n : Nat} {vs : List PartitionVertex} {p e q : Nat} {rest : List Nat}
    (h : Ring n vs (p :: e :: q :: rest)) :
    (vtx vs e).previous = p ∧ (vtx vs e).next = q := by
  have h1 := h.link (p, e) (by simp [List.rotate_cons_succ])
  have h2 := h.link (e, q) (by simp [List.rotate_cons_succ])
  exact ⟨h1.2, h2.1⟩

theorem SameLinks.refl (vs : List PartitionVertex) : SameLinks vs vs :=
  ⟨rfl, fun _ => ⟨rfl, rfl, rfl, rfl⟩⟩

theorem SameLinks.trans {vs vs1 vs2 : List PartitionVertex} (h1 : SameLinks vs vs1)
    (h2 : SameLinks vs1 vs2) : SameLinks vs vs2 :=
  ⟨h2.1.trans h1.1, fun i =>
    ⟨(h2.2 i).1.trans (h1.2 i).1, (h2.2 i).2.1.trans (h1.2 i).2.1,
      (h2.2 i).2.2.1.trans (h1.2 i).2.2.1, (h2.2 i).2.2.2.trans (h1.2 i).2.2.2⟩⟩

theorem Ring.sameLinks {n : Nat} {vs vs1 : List PartitionVertex} {ring : List Nat}
    (h : Ring n vs ring) (hs : SameLinks vs vs1) : Ring n vs1 ring where
  len := hs.1.trans h.len
  nodup := h.nodup
  lt := h.lt
  active := fun i hi => by rw [(hs.2 i).1]; exact h.active i hi
  link := fun ab hab => by
    rw [(hs.2 ab.1).2.2.2, (hs.2 ab.2).2.2.1]; exact h.link ab hab

theorem UpdateVertex_sameLinks (sqrt : ℚ → ℚ) (v : Nat) (vs : List PartitionVertex) (n : Nat) :
    SameLinks vs (UpdateVertex sqrt v vs n) := by
  unfold UpdateVertex
  refine ⟨by simp, fun i => ?_⟩
  simp only [vtx_set]
  split
  · next h => obtain ⟨rfl, _⟩ := h; exact ⟨rfl, rfl, rfl, rfl⟩
  · exact ⟨rfl, rfl, rfl, rfl⟩

theorem foldl_UpdateVertex_sameLinks (sqrt : ℚ → ℚ) (n : Nat) (l : List Nat)
    (vs : List PartitionVertex) :
    SameLinks vs (l.foldl (fun vs i => UpdateVertex sqrt i vs n) vs) := by
  induction l generalizing vs with
  | nil => exact SameLinks.refl vs
  | cons a l ih => exact (UpdateVertex_sameLinks sqrt a vs n).trans (ih _)

@[simp] theorem setActive_fields (v : PartitionVertex) (b : Bool) :
    (v.setActive b).isActive = b ∧ (v.setActive b).p = v.p ∧
    (v.setActive b).previous = v.previous ∧ (v.setActive b).next = v.next :=
  ⟨rfl, rfl, rfl, rfl⟩

@[simp] theorem setNext_fields (v : PartitionVertex) (i : Nat) :
    (v.setNext i).isActive = v.isActive ∧ (v.setNext i).p = v.p ∧
    (v.setNext i).previous = v.previous ∧ (v.setNext i).next = i :=
  ⟨rfl, rfl, rfl, rfl⟩

@[simp] theorem setPrevious_fields (v : PartitionVertex) (i : Nat) :
    (v.setPrevious i).isActive = v.isActive ∧ (v.setPrevious i).p = v.p ∧
    (v.setPrevious i).previous = i ∧ (v.setPrevious i).next = v.next :=
  ⟨rfl, rfl, rfl, rfl⟩

theorem clipEar_length (vs : List PartitionVertex) (e : Nat) :
    (clipEar vs e).length = vs.length := by
  simp [clipEar]

theorem clipEar_vtx {vs : List PartitionVertex} {p e q : Nat}
    (hp : p < vs.length) (he : e < vs.length) (hq : q < vs.length)
    (hpe : p ≠ e) (heq : e ≠ q) (hpq : p ≠ q)
    (hprev : (vtx vs e).previous = p) (hnext : (vtx vs e).next = q) (i : Nat) :
    vtx (clipEar vs e) i =
      if i = q then (vtx vs q).setPrevious p
      else if i = p then (vtx vs p).setNext q
      else if i = e then (vtx vs e).setActive false
      else vtx vs i := by
  have e1 : (vtx (vs.set e ((vtx vs e).setActive false)) e).previous = p := by
    rw [vtx_set_eq _ _ he]; exact hprev
  have e2 : (vtx (vs.set e ((vtx vs e).setActive false)) e).next = q := by
    rw [vtx_set_eq _ _ he]; exact hnext
  have e3 : vtx (vs.set e ((vtx vs e).setActive false)) p = vtx vs p :=
    vtx_set_ne _ _ (Ne.symm hpe)
  have e4 : vtx ((vs.set e ((vtx vs e).setActive false)).set p ((vtx vs p).setNext q)) e
      = (vtx vs e).setActive false := by
    rw [vtx_set_ne _ _ hpe, vtx_set_eq _ _ he]
  have e5 : vtx ((vs.set e ((vtx vs e).setActive false)).set p ((vtx vs p).setNext q)) q
      = vtx vs q := by
    rw [vtx_set_ne _ _ hpq, vtx_set_ne _ _ heq]
  have e6 : ((vtx vs e).setActive false).next = q := hnext
  have e7 : ((vtx vs e).setActive false).previous = p := hprev
  unfold clipEar
  simp only [e1, e2, e3, e4, e5, e6, e7]
  by_cases h1 : i = q
  · subst h1
    rw [vtx_set_eq _ _ (by simpa using hq)]
    simp
  · rw [vtx_set_ne _ _ (Ne.symm h1), if_neg h1]
    by_cases h2 : i = p
    · subst h2
      rw [vtx_set_eq _ _ (by simpa using hp)]
      simp
    · rw [vtx_set_ne _ _ (Ne.symm h2), if_neg h2]
      by_cases h3 : i = e
      · subst h3
        rw [vtx_set_eq _ _ he]
        simp
      · rw [vtx_set_ne _ _ (Ne.symm h3), if_neg h3]

theorem clipEar_ring {n : Nat} {vs : List PartitionVertex} {p e q : Nat} {rest : List Nat}
    (h : Ring n vs (p :: e :: q :: rest)) :
    Ring n (clipEar vs e) (p :: q :: rest) ∧ ∀ i, (vtx (clipEar vs e) i).p = (vtx vs i).p := by
  obtain ⟨hprev, hnext⟩ := h.prev_next
  have hnd := h.nodup
  simp only [List.nodup_cons, List.mem_cons, not_or] at hnd
  obtain ⟨⟨hpe, hpq, hpr⟩, ⟨heq, her⟩, hqr, hrest⟩ := hnd
  have hp : p < vs.length := by rw [h.len]; exact h.lt p (by simp)
  have he : e < vs.length := by rw [h.len]; exact h.lt e (by simp)
  have hq : q < vs.length := by rw [h.len]; exact h.lt q (by simp)
  have hv := clipEar_vtx hp he hq hpe heq hpq hprev hnext
  have hpts : ∀ i, (vtx (clipEar vs e) i).p = (vtx vs i).p := by
    intro i
    rw [hv]
    split
    · next h1 => rw [h1]; rfl
    · split
      · next h1 => rw [h1]; rfl
      · split
        · next h1 => rw [h1]; rfl
        · rfl
  refine ⟨?_, hpts⟩
  refine ⟨by rw [clipEar_length]; exact h.len, ?_, ?_, ?_, ?_⟩
  · simp only [List.nodup_cons, List.mem_cons, not_or]
    exact ⟨⟨hpq, hpr⟩, hqr, hrest⟩
  · intro i hi
    apply h.lt
    simp only [List.mem_cons] at hi ⊢
    rcases hi with hi | hi | hi
    · exact Or.inl hi
    · exact Or.inr (Or.inr (Or.inl hi))
    · exact Or.inr (Or.inr (Or.inr hi))
  · intro i hi
    have ha := h.active i hi
    rw [hv]
    simp only [List.mem_cons] at ha ⊢
    by_cases h1 : i = q
    · subst h1
      simp only [if_true]
      have : (vtx vs i).isActive = true := ha.mpr (by simp)
      simp [this]
    · by_cases h2 : i = p
      · subst h2
        simp only [if_neg h1, if_true]
        have : (vtx vs i).isActive = true := ha.mpr (by simp)
        simp [this]
      · by_cases h3 : i = e
        · subst h3
          simp only [if_neg h1, if_neg h2, if_true]
          constructor
          · intro hf; simp at hf
          · intro hf
            rcases hf with hf | hf | hf
            · exact absurd hf h2
            · exact absurd hf h1
            · exact absurd hf her
        · simp only [if_neg h1, if_neg h2, if_neg h3]
          rw [ha]
          simp [h1, h2, h3]
  · intro ab hab
    rw [List.rotate_cons_succ, List.rotate_zero] at hab
    simp only [List.cons_append, List.zip_cons_cons, List.mem_cons] at hab
    rcases hab with hab | hab
    · subst hab
      simp only [hv]
      simp [hpq, Ne.symm hpq]
    · have hold := h.link ab (by
        rw [List.rotate_cons_succ, List.rotate_zero]
        simp only [List.cons_append, List.zip_cons_cons, List.mem_cons]
        exact Or.inr (Or.inr hab))
      have hm := List.of_mem_zip (a := ab.1) (b := ab.2) hab
      obtain ⟨hm1, hm2⟩ := hm
      have ha1 : ab.1 ≠ p := by
        intro hc; rw [hc] at hm1
        simp only [List.mem_cons] at hm1
        rcases hm1 with hm1 | hm1
        · exact hpq hm1
        · exact hpr hm1
      have ha2 : ab.2 ≠ q := by
        intro hc; rw [hc] at hm2
        simp only [List.mem_append, List.mem_singleton] at hm2
        rcases hm2 with hm2 | hm2
        · exact hqr hm2
        · exact hpq hm2.symm
      have ha3 : ab.1 ≠ e := by
        intro hc; rw [hc] at hm1
        simp only [List.mem_cons] at hm1
        rcases hm1 with hm1 | hm1
        · exact heq hm1
        · exact her hm1
      have ha4 : ab.2 ≠ e := by
        intro hc; rw [hc] at hm2
        simp only [List.mem_append, List.mem_singleton] at hm2
        rcases hm2 with hm2 | hm2
        · exact her hm2
        · exact hpe hm2.symm
      constructor
      · rw [hv, if_neg ha1, if_neg ha3]
        split
        · next h1 => rw [← h1]; exact hold.1
        · exact hold.1
      · rw [hv, if_neg ha2]
        split
        · next h1 => rw [← h1]; exact hold.2
        · exact hold.2

theorem vtx_initVertices (poly : TPPLPoly) (n i : Nat) (hi : i < n) :
    vtx (initVertices poly n) i =
      { isActive := true, isConvex := false, isEar := false, p := poly.GetPoint i, angle := 0,
        previous := if i = 0 then n - 1 else i - 1,
        next := if i = n - 1 then 0 else i + 1 } := by
  unfold vtx initVertices
  rw [List.getD_eq_getElem _ _ (by simpa using hi)]
  simp

theorem initVertices_ring (poly : TPPLPoly) (n : Nat) :
    Ring n (initVertices poly n) (List.range n) where
  len := by simp [initVertices]
  nodup := List.nodup_range n
  lt := fun i hi => List.mem_range.mp hi
  active := fun i hi => by
    rw [vtx_initVertices poly n i hi]
    simp [hi]
  link := fun ab hab => by
    obtain ⟨k, hk, hab⟩ := List.mem_iff_getElem.mp hab
    have hk1 : k < n := by
      simp only [List.length_zip, List.length_range, List.length_rotate] at hk
      omega
    simp only [List.getElem_zip, List.getElem_rotate, List.getElem_range,
      List.length_range] at hab
    have hm : (k + 1) % n < n := Nat.mod_lt _ (by omega)
    rw [← hab]
    simp only
    rw [vtx_initVertices poly n k hk1, vtx_initVertices poly n _ hm]
    simp only
    by_cases hkn : k + 1 = n
    · have h1 : k = n - 1 := by omega
      rw [hkn, Nat.mod_self]
      simp [h1]
    · have h1 : ¬ k = n - 1 := by omega
      rw [Nat.mod_eq_of_lt (by omega)]
      simp [h1]

theorem findEar_foldl_some (vs : List PartitionVertex) (l : List Nat) (init : Option Nat) (e : Nat)
    (h : l.foldl (fun ear j =>
      if !(vtx vs j).isActive then ear
      else if !(vtx vs j).isEar then ear
      else match ear with
        | none => some j
        | some e => if (vtx vs j).angle > (vtx vs e).angle then some j else some e) init
      = some e) :
    init = some e ∨ (e ∈ l ∧ (vtx vs e).isActive = true) := by
  induction l generalizing init with
  | nil => left; simpa using h
  | cons j l ih =>
    rw [List.foldl_cons] at h
    rcases ih _ h with h1 | h1
    · by_cases ha : (vtx vs j).isActive = true
      · by_cases hb : (vtx vs j).isEar = true
        · simp only [ha, hb, Bool.not_true, Bool.false_eq_true, if_false] at h1
          cases init with
          | none =>
            simp only [Option.some.injEq] at h1
            right; subst h1; exact ⟨by simp, ha⟩
          | some e0 =>
            simp only at h1
            split at h1
            · simp only [Option.some.injEq] at h1
              right; subst h1; exact ⟨by simp, ha⟩
            · left; exact h1
        · simp only [ha, hb, Bool.not_true, Bool.false_eq_true, if_false, Bool.not_false,
            if_true] at h1
          left; exact h1
      · simp only [ha, Bool.not_false, if_true] at h1
        left; exact h1
    · right; exact ⟨List.mem_cons_of_mem _ h1.1, h1.2⟩

theorem findEar_some {vs : List PartitionVertex} {n e : Nat} (h : findEar vs n = some e) :
    e < n ∧ (vtx vs e).isActive = true := by
  rcases findEar_foldl_some vs (List.range n) none e h with h1 | h1
  · exact absurd h1 (by simp)
  · exact ⟨List.mem_range.mp h1.1, h1.2⟩

theorem shoelace_Triangle (a b c : TPPLPoint) :
    (TPPLPoly.Triangle a b c).shoelace = shoelacePts [a, b, c] := by
  rw [shoelace_eq_pts]; rfl

theorem shoelaceSum_append (l1 l2 : TPPLPolyList) :
    shoelaceSum (l1 ++ l2) = shoelaceSum l1 + shoelaceSum l2 := by
  simp [shoelaceSum]

/-- One clipping step at a vertex `e` of the ring: the emitted triangle, the new ring and
the shoelace sums. -/
theorem clip_step {n : Nat} {vs : List PartitionVertex} {ring : List Nat} {e : Nat}
    (pts : Nat → TPPLPoint) (h : Ring n vs ring) (hpts : ∀ i, (vtx vs i).p = pts i)
    (he : e ∈ ring) (hlen : 3 ≤ ring.length) :
    ∃ p q ring1, p < n ∧ e < n ∧ q < n ∧
      earTriangle vs e = TPPLPoly.Triangle (pts p) (pts e) (pts q) ∧
      Ring n (clipEar vs e) ring1 ∧ ring1.length + 1 = ring.length ∧
      (∀ i, (vtx (clipEar vs e) i).p = pts i) ∧
      shoelacePts (ring1.map pts) + (earTriangle vs e).shoelace = shoelacePts (ring.map pts) := by
  obtain ⟨p, q, rest, hr⟩ := exists_rotation_around he hlen
  have h1 := h.of_isRotated hr
  obtain ⟨hprev, hnext⟩ := h1.prev_next
  obtain ⟨h2, h3⟩ := clipEar_ring h1
  have htri : earTriangle vs e = TPPLPoly.Triangle (pts p) (pts e) (pts q) := by
    unfold earTriangle
    rw [hprev, hnext, hpts, hpts, hpts]
  refine ⟨p, q, p :: q :: rest, h1.lt p (by simp), h1.lt e (by simp), h1.lt q (by simp), htri,
    h2, ?_, fun i => (h3 i).trans (hpts i), ?_⟩
  · have := hr.perm.length_eq
    simp only [List.length_cons] at this ⊢
    omega
  · rw [htri, shoelace_Triangle, shoelacePts_isRotated (hr.map pts)]
    simp only [List.map_cons]
    exact (shoelacePts_clip (pts p) (pts e) (pts q) (rest.map pts)).symm

theorem ecLoop_spec (sqrt : ℚ → ℚ) (n : Nat) (pts : Nat → TPPLPoint) :
    ∀ (rem : Nat) (vs : List PartitionVertex) (ring : List Nat) (tris : TPPLPolyList),
      Ring n vs ring → ring.length = rem + 3 → (∀ i, (vtx vs i).p = pts i) →
      ∃ ok vs1 new, ecLoop sqrt n rem vs tris = (ok, vs1, tris ++ new) ∧
        (∀ t ∈ new, ∃ a b c, a < n ∧ b < n ∧ c < n ∧
          t = TPPLPoly.Triangle (pts a) (pts b) (pts c)) ∧
        (ok = true → new.length = rem ∧ ∃ ring1, Ring n vs1 ring1 ∧ ring1.length = 3 ∧
          (∀ i, (vtx vs1 i).p = pts i) ∧
          shoelacePts (ring1.map pts) + shoelaceSum new = shoelacePts (ring.map pts)) := by
  intro rem
  induction rem with
  | zero =>
    intro vs ring tris h hlen hpts
    refine ⟨true, vs, [], by simp [ecLoop], by simp, fun _ => ⟨rfl, ring, h, hlen, hpts, ?_⟩⟩
    simp [shoelaceSum]
  | succ rem ih =>
    intro vs ring tris h hlen hpts
    unfold ecLoop
    cases hf : findEar vs n with
    | none =>
      exact ⟨false, vs, [], by simp, by simp, fun hc => absurd hc (by simp)⟩
    | some e =>
      obtain ⟨hen, hact⟩ := findEar_some hf
      have he : e ∈ ring := (h.active e hen).mp hact
      obtain ⟨p, q, ring1, hp, _, hq, htri, hring1, hlen1, hpts1, hsh⟩ :=
        clip_step pts h hpts he (by omega)
      simp only
      by_cases hrem : rem = 0
      · subst hrem
        refine ⟨true, clipEar vs e, [earTriangle vs e], by simp, ?_, fun _ => ⟨rfl, ring1,
          hring1, by omega, hpts1, ?_⟩⟩
        · intro t ht
          simp only [List.mem_singleton] at ht
          exact ⟨p, e, q, hp, hen, hq, ht.trans htri⟩
        · simpa [shoelaceSum] using hsh
      · rw [if_neg hrem]
        have hs1 := UpdateVertex_sameLinks sqrt (vtx (clipEar vs e) e).previous (clipEar vs e) n
        have hs2 := UpdateVertex_sameLinks sqrt
          (vtx (UpdateVertex sqrt (vtx (clipEar vs e) e).previous (clipEar vs e) n) e).next
          (UpdateVertex sqrt (vtx (clipEar vs e) e).previous (clipEar vs e) n) n
        have hs := hs1.trans hs2
        obtain ⟨ok, vs1, new, heq, hnew, hok⟩ := ih _ ring1 (tris ++ [earTriangle vs e])
          (hring1.sameLinks hs) (by omega) (fun i => ((hs.2 i).2.1).trans (hpts1 i))
        refine ⟨ok, vs1, earTriangle vs e :: new, ?_, ?_, ?_⟩
        · rw [heq]; simp
        · intro t ht
          simp only [List.mem_cons] at ht
          rcases ht with ht | ht
          · exact ⟨p, e, q, hp, hen, hq, ht.trans htri⟩
          · exact hnew t ht
        · intro hc
          obtain ⟨hl, ring2, hr2, hl2, hp2, hs2⟩ := hok hc
          refine ⟨by simp [hl], ring2, hr2, hl2, hp2, ?_⟩
          have : shoelaceSum (earTriangle vs e :: new)
              = (earTriangle vs e).shoelace + shoelaceSum new := by
            simp [shoelaceSum]
          rw [this, ← hsh, ← hs2]
          ring

theorem lastTriangle_spec {n : Nat} {vs : List PartitionVertex} {ring : List Nat}
    (pts : Nat → TPPLPoint) (h : Ring n vs ring) (hlen : ring.length = 3)
    (hpts : ∀ i, (vtx vs i).p = pts i) :
    ∃ a b c, a < n ∧ b < n ∧ c < n ∧
      lastTriangle vs n = [TPPLPoly.Triangle (pts a) (pts b) (pts c)] ∧
      shoelaceSum (lastTriangle vs n) = shoelacePts (ring.map pts) := by
  unfold lastTriangle
  cases hf : (List.range n).find? (fun i => (vtx vs i).isActive) with
  | none =>
    exfalso
    rw [List.find?_eq_none] at hf
    cases ring with
    | nil => simp at hlen
    | cons a _ =>
      have ha : a < n := h.lt a (by simp)
      have := (h.active a ha).mpr (by simp)
      exact hf a (List.mem_range.mpr ha) this
  | some i =>
    have hi1 := List.find?_some hf
    have hi2 := List.mem_range.mp (List.mem_of_find?_eq_some hf)
    have he : i ∈ ring := (h.active i hi2).mp hi1
    obtain ⟨p, q, ring1, hp, _, hq, htri, hring1, hlen1, hpts1, hsh⟩ :=
      clip_step pts h hpts he (by omega)
    refine ⟨p, i, q, hp, hi2, hq, by simp [htri], ?_⟩
    obtain ⟨p1, q1, rest, hr⟩ := exists_rotation_around he (by omega)
    have hl := hr.perm.length_eq
    have hrest : rest = [] := by
      simp only [List.length_cons, hlen] at hl
      exact List.length_eq_zero.mp (by omega)
    subst hrest
    have h1 := h.of_isRotated hr
    obtain ⟨hprev, hnext⟩ := h1.prev_next
    rw [shoelacePts_isRotated (hr.map pts)]
    simp only [shoelaceSum, List.map_cons, List.map_nil, List.sum_cons, List.sum_nil, add_zero]
    unfold earTriangle
    rw [hprev, hnext, hpts, hpts, hpts, shoelace_Triangle]

theorem GetPoint_mem (poly : TPPLPoly) {i : Nat} (hi : i < poly.GetNumPoints) :
    poly.GetPoint i ∈ poly.points := by
  unfold TPPLPoly.GetPoint
  rw [List.getD_eq_getElem _ _ hi]
  exact List.getElem_mem _

theorem map_GetPoint_range (poly : TPPLPoly) :
    (List.range poly.GetNumPoints).map poly.GetPoint = poly.points := by
  apply List.ext_getElem
  · simp [TPPLPoly.GetNumPoints]
  · intro k h1 h2
    simp only [List.getElem_map, List.getElem_range, TPPLPoly.GetPoint]
    exact List.getD_eq_getElem _ _ h2

/-- Summary of the single-polygon `Triangulate_EC`: what is appended, and what holds when
the call returns 1. -/
theorem Triangulate_EC_spec (sqrt : ℚ → ℚ) (poly : TPPLPoly) (out : TPPLPolyList) :
    ∃ new, (Triangulate_EC sqrt poly out).2 = out ++ new ∧
      (∀ t ∈ new, ∀ x ∈ t.points, x ∈ poly.points) ∧
      ((Triangulate_EC sqrt poly out).1 = 1 →
        3 ≤ poly.GetNumPoints ∧ new.length = poly.GetNumPoints - 2 ∧
        (∀ t ∈ new, t.GetNumPoints = 3) ∧ shoelaceSum new = poly.shoelace) := by
  unfold Triangulate_EC
  by_cases hv : poly.Valid = true
  swap
  · simp only [hv, Bool.not_false, if_true]
    exact ⟨[], by simp, by simp, fun hc => absurd hc (by decide)⟩
  have hn : 3 ≤ poly.GetNumPoints := by simpa [TPPLPoly.Valid] using hv
  simp only [hv, Bool.not_true, Bool.false_eq_true, if_false, if_neg (Nat.not_lt.mpr hn)]
  by_cases h3 : poly.GetNumPoints = 3
  · simp only [h3, if_true]
    refine ⟨[poly], rfl, ?_, fun _ => ⟨by omega, by simp, ?_, ?_⟩⟩
    · intro t ht x hx
      simp only [List.mem_singleton] at ht
      rw [ht] at hx; exact hx
    · intro t ht
      simp only [List.mem_singleton] at ht
      rw [ht]; exact h3
    · simp [shoelaceSum]
  · rw [if_neg h3]
    have hring := (initVertices_ring poly poly.GetNumPoints).sameLinks
      (foldl_UpdateVertex_sameLinks sqrt poly.GetNumPoints (List.range poly.GetNumPoints)
        (initVertices poly poly.GetNumPoints))
    have hpts : ∀ i, (vtx ((List.range poly.GetNumPoints).foldl
          (fun vs i => UpdateVertex sqrt i vs poly.GetNumPoints)
          (initVertices poly poly.GetNumPoints)) i).p = poly.GetPoint i := by
      intro i
      rw [((foldl_UpdateVertex_sameLinks sqrt poly.GetNumPoints (List.range poly.GetNumPoints)
        (initVertices poly poly.GetNumPoints)).2 i).2.1]
      by_cases hi : i < poly.GetNumPoints
      · rw [vtx_initVertices poly _ i hi]
      · have h1 : vtx (initVertices poly poly.GetNumPoints) i = default := by
          unfold vtx
          exact List.getD_eq_default _ _ (by simp [initVertices]; omega)
        have h2 : poly.GetPoint i = default := by
          unfold TPPLPoly.GetPoint
          exact List.getD_eq_default _ _ (by simp [TPPLPoly.GetNumPoints] at hi; omega)
        rw [h1, h2]; rfl
    obtain ⟨ok, vs1, new, heq, hnew, hok⟩ := ecLoop_spec sqrt poly.GetNumPoints poly.GetPoint
      (poly.GetNumPoints - 3) _ (List.range poly.GetNumPoints) out hring
      (by simp; omega) hpts
    rw [heq]
    have hmem : ∀ a b c, a < poly.GetNumPoints → b < poly.GetNumPoints →
        c < poly.GetNumPoints →
        ∀ x ∈ (TPPLPoly.Triangle (poly.GetPoint a) (poly.GetPoint b) (poly.GetPoint c)).points,
          x ∈ poly.points := by
      intro a b c ha hb hc x hx
      simp only [TPPLPoly.Triangle, TPPLPoly.ofPoints, List.mem_cons, List.mem_singleton,
        List.mem_nil_iff, or_false] at hx
      rcases hx with hx | hx | hx <;> rw [hx] <;> exact GetPoint_mem poly (by assumption)
    have hnew2 : ∀ t ∈ new, ∀ x ∈ t.points, x ∈ poly.points := by
      intro t ht
      obtain ⟨a, b, c, ha, hb, hc, rfl⟩ := hnew t ht
      exact hmem a b c ha hb hc
    cases ok with
    | false =>
      exact ⟨new, rfl, hnew2, fun hc => absurd hc (by simp)⟩
    | true =>
      obtain ⟨hl, ring1, hr1, hl1, hp1, hsh⟩ := hok rfl
      obtain ⟨a, b, c, ha, hb, hc, hlast, hlsh⟩ := lastTriangle_spec poly.GetPoint hr1 hl1 hp1
      refine ⟨new ++ lastTriangle vs1 poly.GetNumPoints, by simp, ?_, fun _ => ⟨hn, ?_, ?_, ?_⟩⟩
      · intro t ht
        rw [List.mem_append] at ht
        rcases ht with ht | ht
        · exact hnew2 t ht
        · rw [hlast, List.mem_singleton] at ht
          rw [ht]; exact hmem a b c ha hb hc
      · rw [List.length_append, hl, hlast]
        simp only [List.length_singleton]
        omega
      · intro t ht
        rw [List.mem_append] at ht
        rcases ht with ht | ht
        · obtain ⟨a, b, c, _, _, _, rfl⟩ := hnew t ht
          rfl
        · rw [hlast, List.mem_singleton] at ht
          rw [ht]; rfl
      · rw [shoelaceSum_append, hlsh, add_comm, hsh, map_GetPoint_range, shoelace_eq_pts]

/-- C1: when the single-polygon `Triangulate_EC` returns 1 on a polygon with `n` points
(then `n ≥ 3`), exactly `n - 2` polygons are appended to the output list and each has exactly
three points. -/
theorem C1_Triangulate_EC_count (sqrt : ℚ → ℚ) (poly : TPPLPoly) (out : TPPLPolyList)
    (hret : (Triangulate_EC sqrt poly out).1 = 1) :
    3 ≤ poly.GetNumPoints ∧ ∃ new, (Triangulate_EC sqrt poly out).2 = out ++ new ∧
      new.length = poly.GetNumPoints - 2 ∧ ∀ t ∈ new, t.GetNumPoints = 3 := by
  obtain ⟨new, h1, _, h3⟩ := Triangulate_EC_spec sqrt poly out
  obtain ⟨h0, h4, h5, _⟩ := h3 hret
  exact ⟨h0, new, h1, h4, h5⟩

/-- C2: when the single-polygon `Triangulate_EC` returns 1, the shoelace sums of the appended
triangles add up to the shoelace sum of the input polygon. -/
theorem C2_Triangulate_EC_shoelace (sqrt : ℚ → ℚ) (poly : TPPLPoly) (out : TPPLPolyList)
    (hret : (Triangulate_EC sqrt poly out).1 = 1) :
    ∃ new, (Triangulate_EC sqrt poly out).2 = out ++ new ∧
      shoelaceSum new = poly.shoelace := by
  obtain ⟨new, h1, _, h3⟩ := Triangulate_EC_spec sqrt poly out
  obtain ⟨_, _, _, h6⟩ := h3 hret
  exact ⟨new, h1, h6⟩

/-! ## Hole removal -/

theorem sum_map_eraseIdx {M : Type} [AddCommMonoid M] (f : TPPLPoly → M) :
    ∀ (l : TPPLPolyList) (i : Nat), i < l.length →
      (l.map f).sum = f (polyAt l i) + ((l.eraseIdx i).map f).sum
  | [], i, h => by simp at h
  | a :: l, 0, _ => by simp [polyAt]
  | a :: l, i + 1, h => by
    have ih := sum_map_eraseIdx f l i (by simpa using h)
    simp only [polyAt] at ih ⊢
    simp only [List.map_cons, List.sum_cons, List.eraseIdx_cons_succ, List.getD_cons_succ]
    rw [ih]
    exact add_left_comm _ _ _

theorem polyAt_eraseIdx (l : TPPLPolyList) (i j : Nat) :
    polyAt (l.eraseIdx i) j = if j < i then polyAt l j else polyAt l (j + 1) := by
  simp only [polyAt, List.getD_eq_getElem?_getD, List.getElem?_eraseIdx]
  split <;> rfl

theorem polyAt_mem {l : TPPLPolyList} {i : Nat} (h : i < l.length) : polyAt l i ∈ l := by
  unfold polyAt
  rw [List.getD_eq_getElem _ _ h]
  exact List.getElem_mem _

theorem exists_polyAt_of_mem {l : TPPLPolyList} {poly : TPPLPoly} (h : poly ∈ l) :
    ∃ i, i < l.length ∧ polyAt l i = poly := by
  obtain ⟨i, hi, rfl⟩ := List.mem_iff_getElem.mp h
  exact ⟨i, hi, by unfold polyAt; exact List.getD_eq_getElem _ _ hi⟩

/-- Removing the hole at `hi` and the polygon at `pi` and appending `newpoly`: effect on a
sum over the list. -/
theorem sum_map_merge {M : Type} [AddCommMonoid M] (f : TPPLPoly → M) (l : TPPLPolyList)
    (hi pi : Nat) (newpoly : TPPLPoly) (h1 : hi < l.length) (h2 : pi < l.length) (hne : hi ≠ pi) :
    (((l.eraseIdx hi).eraseIdx (if hi < pi then pi - 1 else pi) ++ [newpoly]).map f).sum
      + (f (polyAt l hi) + f (polyAt l pi)) = (l.map f).sum + f newpoly := by
  have hlen : (l.eraseIdx hi).length = l.length - 1 := List.length_eraseIdx_of_lt h1
  have hj : (if hi < pi then pi - 1 else pi) < (l.eraseIdx hi).length := by
    rw [hlen]; split <;> omega
  have hget : polyAt (l.eraseIdx hi) (if hi < pi then pi - 1 else pi) = polyAt l pi := by
    rw [polyAt_eraseIdx]
    by_cases h : hi < pi
    · have h3 : ¬ (pi - 1 < hi) := by omega
      have h4 : pi - 1 + 1 = pi := by omega
      simp only [h, if_true, h3, if_false, h4]
    · have h3 : pi < hi := by omega
      simp only [h, if_false, h3, if_true]
  rw [sum_map_eraseIdx f l hi h1, sum_map_eraseIdx f (l.eraseIdx hi) _ hj, hget]
  simp only [List.map_append, List.sum_append, List.map_cons, List.map_nil, List.sum_cons,
    List.sum_nil, add_zero]
  abel

theorem scanHole_cases (polys : TPPLPolyList) (it : Nat) (st : Nat × Nat) :
    scanHole polys it st = st ∨
      ((scanHole polys it st).1 = it ∧ (scanHole polys it st).2 < (polyAt polys it).GetNumPoints) := by
  unfold scanHole
  have key : ∀ (l : List Nat) (st0 : Nat × Nat), (∀ i ∈ l, i < (polyAt polys it).GetNumPoints) →
      (st0 = st ∨ (st0.1 = it ∧ st0.2 < (polyAt polys it).GetNumPoints)) →
      (l.foldl (fun st i =>
        if ((polyAt polys it).GetPoint i).x > ((polyAt polys st.1).GetPoint st.2).x
        then (it, i) else st) st0 = st ∨
      ((l.foldl (fun st i =>
        if ((polyAt polys it).GetPoint i).x > ((polyAt polys st.1).GetPoint st.2).x
        then (it, i) else st) st0).1 = it ∧
       (l.foldl (fun st i =>
        if ((polyAt polys it).GetPoint i).x > ((polyAt polys st.1).GetPoint st.2).x
        then (it, i) else st) st0).2 < (polyAt polys it).GetNumPoints)) := by
    intro l
    induction l with
    | nil => intro st0 _ h; exact h
    | cons i l ih =>
      intro st0 hl h
      rw [List.foldl_cons]
      apply ih _ (fun j hj => hl j (List.mem_cons_of_mem _ hj))
      split
      · right; exact ⟨rfl, hl i (by simp)⟩
      · exact h
  exact key _ st (fun i hi => List.mem_range.mp hi) (Or.inl rfl)

theorem findHolePoint_foldl (polys : TPPLPolyList) (l : List Nat) (init : Option (Nat × Nat)) :
    (l.foldl (fun st it =>
      if !(polyAt polys it).IsHole then st
      else some (scanHole polys it (st.getD (it, 0)))) init = none ↔
      init = none ∧ ∀ it ∈ l, (polyAt polys it).IsHole = false) ∧
    ∀ s, l.foldl (fun st it =>
      if !(polyAt polys it).IsHole then st
      else some (scanHole polys it (st.getD (it, 0)))) init = some s →
      init = some s ∨ (s.1 ∈ l ∧ (polyAt polys s.1).IsHole = true ∧
        (s.2 = 0 ∨ s.2 < (polyAt polys s.1).GetNumPoints)) := by
  induction l generalizing init with
  | nil =>
    refine ⟨by simp, fun s hs => ?_⟩
    left; simpa using hs
  | cons it l ih =>
    rw [List.foldl_cons]
    by_cases hh : (polyAt polys it).IsHole = true
    · simp only [hh, Bool.not_true, Bool.false_eq_true, if_false]
      obtain ⟨ih1, ih2⟩ := ih (some (scanHole polys it (init.getD (it, 0))))
      constructor
      · rw [ih1]
        constructor
        · intro h; exact absurd h.1 (by simp)
        · intro h
          have := h.2 it (by simp)
          rw [hh] at this; exact absurd this (by simp)
      · intro s hs
        rcases ih2 s hs with h0 | h
        · simp only [Option.some.injEq] at h0
          rcases scanHole_cases polys it (init.getD (it, 0)) with h2 | h2
          · cases init with
            | none =>
              right
              simp only [Option.getD_none] at h2 h0
              rw [← h0, h2]; exact ⟨by simp, hh, Or.inl rfl⟩
            | some s1 =>
              left
              simp only [Option.getD_some] at h2 h0
              rw [← h0, h2]
          · right
            rw [← h0]
            refine ⟨by rw [h2.1]; simp, by rw [h2.1]; exact hh, Or.inr ?_⟩
            have := h2.2
            rw [h2.1]; exact this
        · right; exact ⟨List.mem_cons_of_mem _ h.1, h.2⟩
    · simp only [hh, Bool.not_false, if_true]
      obtain ⟨ih1, ih2⟩ := ih init
      constructor
      · rw [ih1]
        constructor
        · intro h
          refine ⟨h.1, fun j hj => ?_⟩
          simp only [List.mem_cons] at hj
          rcases hj with hj | hj
          · rw [hj]; simpa using hh
          · exact h.2 j hj
        · intro h; exact ⟨h.1, fun j hj => h.2 j (List.mem_cons_of_mem _ hj)⟩
      · intro s hs
        rcases ih2 s hs with h | h
        · left; exact h
        · right; exact ⟨List.mem_cons_of_mem _ h.1, h.2⟩

theorem findHolePoint_none_iff (polys : TPPLPolyList) :
    findHolePoint polys = none ↔ ∀ poly ∈ polys, poly.IsHole = false := by
  unfold findHolePoint
  rw [(findHolePoint_foldl polys (List.range polys.length) none).1]
  constructor
  · intro h poly hp
    obtain ⟨i, hi, rfl⟩ := exists_polyAt_of_mem hp
    exact h.2 i (List.mem_range.mpr hi)
  · intro h
    exact ⟨rfl, fun it hit => h _ (polyAt_mem (List.mem_range.mp hit))⟩

theorem findHolePoint_some {polys : TPPLPolyList} {s : Nat × Nat}
    (h : findHolePoint polys = some s) :
    s.1 < polys.length ∧ (polyAt polys s.1).IsHole = true ∧
      (s.2 = 0 ∨ s.2 < (polyAt polys s.1).GetNumPoints) := by
  rcases (findHolePoint_foldl polys (List.range polys.length) none).2 s h with h0 | h1
  · exact absurd h0 (by simp)
  · exact ⟨List.mem_range.mp h1.1, h1.2⟩

theorem pointVisible_iff (polys : TPPLPolyList) (H P : TPPLPoint) :
    pointVisible polys H P = true ↔
      ∀ poly2 ∈ polys, poly2.IsHole = false → ∀ i2, i2 < poly2.GetNumPoints →
        Intersects H P (poly2.GetPoint i2) (poly2.GetPoint ((i2 + 1) % poly2.GetNumPoints)) = 0 := by
  unfold pointVisible
  simp only [List.all_eq_true, Bool.or_eq_true, List.mem_range, decide_eq_true_eq]
  constructor
  · intro h poly2 hp hh i2 hi2
    rcases h poly2 hp with h1 | h1
    · rw [hh] at h1; exact absurd h1 (by simp)
    · exact h1 i2 hi2
  · intro h poly2 hp
    by_cases hh : poly2.IsHole = true
    · left; exact hh
    · right; exact h poly2 hp (by simpa using hh)

theorem polyPointStep_none (sqrt : ℚ → ℚ) (polys : TPPLPolyList) (H : TPPLPoint) (it i : Nat) :
    polyPointStep sqrt polys H it i none = if bridgeTest polys H it i then some (it, i) else none := by
  unfold polyPointStep bridgeTest
  by_cases h1 : ((polyAt polys it).GetPoint i).x ≤ H.x
  · have : ¬ H.x < ((polyAt polys it).GetPoint i).x := not_lt.mpr h1
    simp [h1, this]
  · have h1b : H.x < ((polyAt polys it).GetPoint i).x := not_le.mp h1
    simp only [h1, if_false, h1b, decide_True, Bool.true_and]
    by_cases h2 : InCone ((polyAt polys it).GetPoint
        ((i + (polyAt polys it).GetNumPoints - 1) % (polyAt polys it).GetNumPoints))
        ((polyAt polys it).GetPoint i)
        ((polyAt polys it).GetPoint ((i + 1) % (polyAt polys it).GetNumPoints)) H = true
    · simp only [h2, Bool.not_true, Bool.false_eq_true, if_false, Bool.true_and]
    · simp only [h2, Bool.not_false, if_true, Bool.false_and, Bool.false_eq_true, if_false]

theorem polyPointStep_some (sqrt : ℚ → ℚ) (polys : TPPLPolyList) (H : TPPLPoint) (it i : Nat)
    (s : Nat × Nat) :
    polyPointStep sqrt polys H it i (some s) = some s ∨
      (polyPointStep sqrt polys H it i (some s) = some (it, i) ∧ bridgeTest polys H it i = true) := by
  unfold polyPointStep bridgeTest
  by_cases h1 : ((polyAt polys it).GetPoint i).x ≤ H.x
  · left; simp [h1]
  · have h1b : H.x < ((polyAt polys it).GetPoint i).x := not_le.mp h1
    simp only [h1, if_false, h1b, decide_True, Bool.true_and]
    by_cases h2 : InCone ((polyAt polys it).GetPoint
        ((i + (polyAt polys it).GetNumPoints - 1) % (polyAt polys it).GetNumPoints))
        ((polyAt polys it).GetPoint i)
        ((polyAt polys it).GetPoint ((i + 1) % (polyAt polys it).GetNumPoints)) H = true
    · simp only [h2, Bool.not_true, Bool.false_eq_true, if_false, Bool.true_and]
      split
      · left; rfl
      · split
        · next h3 => right; exact ⟨rfl, h3⟩
        · left; rfl
    · left
      simp only [h2, Bool.not_false, if_true]

theorem polyPoint_inner (sqrt : ℚ → ℚ) (polys : TPPLPolyList) (H : TPPLPoint) (it : Nat)
    (l : List Nat) (st : Option (Nat × Nat)) :
    (l.foldl (fun st i => polyPointStep sqrt polys H it i st) st = none ↔
      st = none ∧ ∀ i ∈ l, bridgeTest polys H it i = false) ∧
    ∀ s, l.foldl (fun st i => polyPointStep sqrt polys H it i st) st = some s →
      st = some s ∨ (s.1 = it ∧ s.2 ∈ l ∧ bridgeTest polys H it s.2 = true) := by
  induction l generalizing st with
  | nil => simp
  | cons i l ih =>
    rw [List.foldl_cons]
    obtain ⟨ih1, ih2⟩ := ih (polyPointStep sqrt polys H it i st)
    cases st with
    | none =>
      rw [polyPointStep_none] at ih1 ih2 ⊢
      by_cases hb : bridgeTest polys H it i = true
      · simp only [hb, if_true] at ih1 ih2 ⊢
        constructor
        · rw [ih1]
          constructor
          · intro h; exact absurd h.1 (by simp)
          · intro h
            have := h.2 i (by simp)
            rw [hb] at this; exact absurd this (by simp)
        · intro s hs
          right
          rcases ih2 s hs with h | h
          · simp only [Option.some.injEq] at h
            rw [← h]; exact ⟨rfl, by simp, hb⟩
          · exact ⟨h.1, List.mem_cons_of_mem _ h.2.1, h.2.2⟩
      · simp only [hb, Bool.false_eq_true, if_false] at ih1 ih2 ⊢
        constructor
        · rw [ih1]
          constructor
          · intro h
            refine ⟨trivial, fun j hj => ?_⟩
            simp only [List.mem_cons] at hj
            rcases hj with hj | hj
            · rw [hj]; simpa using hb
            · exact h.2 j hj
          · intro h; exact ⟨trivial, fun j hj => h.2 j (List.mem_cons_of_mem _ hj)⟩
        · intro s hs
          right
          rcases ih2 s hs with h | h
          · exact absurd h (by simp)
          · exact ⟨h.1, List.mem_cons_of_mem _ h.2.1, h.2.2⟩
    | some s0 =>
      constructor
      · constructor
        · intro h
          rw [ih1] at h
          rcases polyPointStep_some sqrt polys H it i s0 with h1 | h1
          · rw [h1] at h; exact absurd h.1 (by simp)
          · rw [h1.1] at h; exact absurd h.1 (by simp)
        · intro h; exact absurd h.1 (by simp)
      · intro s hs
        rcases ih2 s hs with h | h
        · rcases polyPointStep_some sqrt polys H it i s0 with h1 | h1
          · left; rw [← h, h1]
          · right
            rw [h1.1] at h
            simp only [Option.some.injEq] at h
            rw [← h]; exact ⟨rfl, by simp, h1.2⟩
        · right; exact ⟨h.1, List.mem_cons_of_mem _ h.2.1, h.2.2⟩

theorem polyPoint_outer (sqrt : ℚ → ℚ) (polys : TPPLPolyList) (H : TPPLPoint)
    (l : List Nat) (st : Option (Nat × Nat)) :
    (l.foldl (fun st it =>
        if (polyAt polys it).IsHole then st
        else (List.range (polyAt polys it).GetNumPoints).foldl
          (fun st i => polyPointStep sqrt polys H it i st) st) st = none ↔
      st = none ∧ ∀ it ∈ l, (polyAt polys it).IsHole = false →
        ∀ i, i < (polyAt polys it).GetNumPoints → bridgeTest polys H it i = false) ∧
    ∀ s, l.foldl (fun st it =>
        if (polyAt polys it).IsHole then st
        else (List.range (polyAt polys it).GetNumPoints).foldl
          (fun st i => polyPointStep sqrt polys H it i st) st) st = some s →
      st = some s ∨ (s.1 ∈ l ∧ (polyAt polys s.1).IsHole = false ∧
        s.2 < (polyAt polys s.1).GetNumPoints ∧ bridgeTest polys H s.1 s.2 = true) := by
  induction l generalizing st with
  | nil => simp
  | cons it l ih =>
    rw [List.foldl_cons]
    by_cases hh : (polyAt polys it).IsHole = true
    · simp only [hh, if_true]
      obtain ⟨ih1, ih2⟩ := ih st
      constructor
      · rw [ih1]
        constructor
        · intro h
          refine ⟨h.1, fun j hj hjh => ?_⟩
          simp only [List.mem_cons] at hj
          rcases hj with hj | hj
          · rw [hj, hh] at hjh; exact absurd hjh (by simp)
          · exact h.2 j hj hjh
        · intro h; exact ⟨h.1, fun j hj => h.2 j (List.mem_cons_of_mem _ hj)⟩
      · intro s hs
        rcases ih2 s hs with h | h
        · left; exact h
        · right; exact ⟨List.mem_cons_of_mem _ h.1, h.2⟩
    · have hh2 : (polyAt polys it).IsHole = false := by simpa using hh
      simp only [hh2, Bool.false_eq_true, if_false]
      obtain ⟨ih1, ih2⟩ := ih ((List.range (polyAt polys it).GetNumPoints).foldl
          (fun st i => polyPointStep sqrt polys H it i st) st)
      obtain ⟨in1, in2⟩ := polyPoint_inner sqrt polys H it
        (List.range (polyAt polys it).GetNumPoints) st
      constructor
      · rw [ih1, in1]
        constructor
        · intro h
          refine ⟨h.1.1, fun j hj hjh i hi => ?_⟩
          simp only [List.mem_cons] at hj
          rcases hj with hj | hj
          · subst hj; exact h.1.2 i (List.mem_range.mpr hi)
          · exact h.2 j hj hjh i hi
        · intro h
          exact ⟨⟨h.1, fun i hi => h.2 it (by simp) hh2 i (List.mem_range.mp hi)⟩,
            fun j hj => h.2 j (List.mem_cons_of_mem _ hj)⟩
      · intro s hs
        rcases ih2 s hs with h | h
        · rcases in2 s h with h1 | h1
          · left; exact h1
          · right
            refine ⟨by rw [h1.1]; simp, by rw [h1.1]; exact hh2, ?_, ?_⟩
            · rw [h1.1]; exact List.mem_range.mp h1.2.1
            · have := h1.2.2
              rw [← h1.1] at this
              exact this
        · right; exact ⟨List.mem_cons_of_mem _ h.1, h.2⟩

theorem bridgeTest_iff (polys : TPPLPolyList) (H : TPPLPoint) (it i : Nat) :
    (it < polys.length ∧ (polyAt polys it).IsHole = false ∧ i < (polyAt polys it).GetNumPoints ∧
      bridgeTest polys H it i = true) ↔ Bridge polys H it i := by
  unfold bridgeTest
  simp only [Bool.and_eq_true, decide_eq_true_eq, pointVisible_iff]
  constructor
  · rintro ⟨h1, h2, h3, ⟨h4, h5⟩, h6⟩
    exact ⟨h1, h2, h3, h4, h5, h6⟩
  · intro h
    exact ⟨h.it_lt, h.nonhole, h.i_lt, ⟨h.right, h.cone⟩, h.visible⟩

theorem findPolyPoint_none_iff (sqrt : ℚ → ℚ) (polys : TPPLPolyList) (H : TPPLPoint) :
    findPolyPoint sqrt polys H = none ↔ ∀ it i, ¬ Bridge polys H it i := by
  unfold findPolyPoint
  rw [(polyPoint_outer sqrt polys H (List.range polys.length) none).1]
  constructor
  · intro h it i hb
    have := h.2 it (List.mem_range.mpr hb.it_lt) hb.nonhole i hb.i_lt
    rw [((bridgeTest_iff polys H it i).mpr hb).2.2.2] at this
    exact absurd this (by simp)
  · intro h
    refine ⟨rfl, fun it hit hh i hi => ?_⟩
    by_contra hc
    exact h it i ((bridgeTest_iff polys H it i).mp
      ⟨List.mem_range.mp hit, hh, hi, by simpa using hc⟩)

theorem findPolyPoint_some {sqrt : ℚ → ℚ} {polys : TPPLPolyList} {H : TPPLPoint} {s : Nat × Nat}
    (h : findPolyPoint sqrt polys H = some s) : Bridge polys H s.1 s.2 := by
  rcases (polyPoint_outer sqrt polys H (List.range polys.length) none).2 s h with h1 | h1
  · exact absurd h1 (by simp)
  · exact (bridgeTest_iff polys H s.1 s.2).mp ⟨List.mem_range.mp h1.1, h1.2⟩

theorem pathSum_zip (a a0 : TPPLPoint) (l : List TPPLPoint) :
    (((a :: l).zip (l ++ [a0])).map (fun ab => cross ab.1 ab.2)).sum
      = pathSum (a :: (l ++ [a0])) := by
  induction l generalizing a with
  | nil => simp [pathSum]
  | cons b l ih =>
    simp only [List.cons_append, List.zip_cons_cons, List.map_cons, List.sum_cons, pathSum,
      List.append_eq]
    rw [← ih b]

theorem shoelacePts_eq_pathSum (a : TPPLPoint) (l : List TPPLPoint) :
    shoelacePts (a :: l) = pathSum (a :: (l ++ [a])) := by
  unfold shoelacePts
  rw [List.rotate_cons_succ, List.rotate_zero]
  exact pathSum_zip a a l

theorem pathSum_append (X : List TPPLPoint) (a : TPPLPoint) (Y : List TPPLPoint) :
    pathSum (X ++ a :: Y) = pathSum (X ++ [a]) + pathSum (a :: Y) := by
  induction X with
  | nil => simp [pathSum]
  | cons x X ih =>
    cases X with
    | nil => simp [pathSum]
    | cons x1 X1 =>
      simp only [List.cons_append, pathSum, List.append_eq] at ih ⊢
      rw [ih]; ring

theorem cross_antisymm (p q : TPPLPoint) : cross p q + cross q p = 0 := by
  unfold cross; ring

/-- Splicing a ring `R` (closed by its first point, here `H1`) into a polygon at the
vertex `P` adds the two shoelace sums. -/
theorem shoelacePts_splice (A B R : List TPPLPoint) (P H1 : TPPLPoint)
    (hR : R = [] ∨ ∃ R1, R = H1 :: R1) :
    shoelacePts ((A ++ [P]) ++ (R ++ [H1]) ++ P :: B) = shoelacePts (A ++ P :: B) + shoelacePts R := by
  obtain ⟨f0, X, hX⟩ : ∃ f0 X, A ++ [P] = f0 :: X := by
    cases A with
    | nil => exact ⟨P, [], rfl⟩
    | cons a A => exact ⟨a, A ++ [P], rfl⟩
  have e1 : A ++ P :: B = f0 :: (X ++ B) := by
    have : A ++ P :: B = (A ++ [P]) ++ B := by simp
    rw [this, hX]; rfl
  have e2 : (A ++ [P]) ++ (R ++ [H1]) ++ P :: B = f0 :: (X ++ (R ++ [H1]) ++ P :: B) := by
    rw [hX]; simp
  rw [e1, e2, shoelacePts_eq_pathSum, shoelacePts_eq_pathSum]
  have e3 : f0 :: (X ++ B ++ [f0]) = A ++ P :: (B ++ [f0]) := by
    have : f0 :: (X ++ B ++ [f0]) = (f0 :: X) ++ (B ++ [f0]) := by simp
    rw [this, ← hX]; simp
  have e4 : f0 :: (X ++ (R ++ [H1]) ++ P :: B ++ [f0])
      = (A ++ P :: (R ++ [H1])) ++ P :: (B ++ [f0]) := by
    have : f0 :: (X ++ (R ++ [H1]) ++ P :: B ++ [f0])
        = (f0 :: X) ++ ((R ++ [H1]) ++ P :: (B ++ [f0])) := by simp
    rw [this, ← hX]; simp
  rw [e3, e4, pathSum_append A P, pathSum_append (A ++ P :: (R ++ [H1])) P]
  have e5 : A ++ P :: (R ++ [H1]) ++ [P] = A ++ P :: (R ++ [H1, P]) := by simp
  rw [e5, pathSum_append A P]
  have key : pathSum (P :: (R ++ [H1, P])) = shoelacePts R := by
    rcases hR with hR | ⟨R1, hR⟩
    · subst hR
      have := cross_antisymm P H1
      simp only [List.nil_append, pathSum, shoelacePts, List.rotate_nil, List.zip_nil_right,
        List.map_nil, List.sum_nil]
      linarith
    · subst hR
      rw [shoelacePts_eq_pathSum]
      have e6 : P :: ((H1 :: R1) ++ [H1, P]) = [P] ++ H1 :: (R1 ++ [H1, P]) := by simp
      have e7 : H1 :: (R1 ++ [H1, P]) = (H1 :: R1) ++ H1 :: [P] := by simp
      rw [e6, pathSum_append [P] H1, e7, pathSum_append (H1 :: R1) H1]
      have := cross_antisymm P H1
      simp only [List.nil_append, List.cons_append, pathSum]
      linarith
  rw [key]; ring

theorem map_GetPoint_range_take (poly : TPPLPoly) (k : Nat) (hk : k ≤ poly.GetNumPoints) :
    (List.range k).map (fun i => poly.GetPoint i) = poly.points.take k := by
  apply List.ext_getElem
  · simp only [List.length_map, List.length_range, List.length_take]
    unfold TPPLPoly.GetNumPoints at hk; omega
  · intro i h1 h2
    simp only [List.length_map, List.length_range] at h1
    simp only [List.getElem_map, List.getElem_range, List.getElem_take, TPPLPoly.GetPoint]
    exact List.getD_eq_getElem _ _ (by unfold TPPLPoly.GetNumPoints at hk; omega)

theorem map_GetPoint_range_drop (poly : TPPLPoly) (k : Nat) :
    (List.range' k (poly.GetNumPoints - k)).map (fun i => poly.GetPoint i)
      = poly.points.drop k := by
  apply List.ext_getElem
  · simp [TPPLPoly.GetNumPoints]
  · intro i h1 h2
    simp only [List.length_map, List.length_range', TPPLPoly.GetNumPoints] at h1
    simp only [List.getElem_map, List.getElem_range', List.getElem_drop, TPPLPoly.GetPoint,
      one_mul]
    exact List.getD_eq_getElem _ _ (by omega)

theorem map_GetPoint_rotate (hole : TPPLPoly) (k : Nat) :
    (List.range hole.GetNumPoints).map (fun i => hole.GetPoint ((i + k) % hole.GetNumPoints))
      = hole.points.rotate k := by
  apply List.ext_getElem
  · simp [TPPLPoly.GetNumPoints]
  · intro i h1 h2
    simp only [List.length_map, List.length_range, TPPLPoly.GetNumPoints] at h1
    simp only [List.getElem_map, List.getElem_range, List.getElem_rotate, TPPLPoly.GetPoint,
      TPPLPoly.GetNumPoints]
    exact List.getD_eq_getElem _ _ (Nat.mod_lt _ (by omega))

/-- The point sequence of the merged polygon: the non-hole points up to and including P,
the hole ring starting at H and wrapping back to H, then the non-hole points from P on. -/
theorem mergeHole_points (hole poly : TPPLPoly) (hpi ppi : Nat) (hp : ppi < poly.GetNumPoints) :
    (mergeHole hole poly hpi ppi).points =
      poly.points.take (ppi + 1)
        ++ (hole.points.rotate hpi ++ [hole.GetPoint (hpi % hole.GetNumPoints)])
        ++ poly.points.drop ppi := by
  unfold mergeHole TPPLPoly.ofPoints
  simp only
  rw [map_GetPoint_range_take poly (ppi + 1) (by omega), map_GetPoint_range_drop,
    List.range_succ, List.map_append, map_GetPoint_rotate]
  simp only [List.map_cons, List.map_nil]
  have : (hole.GetNumPoints + hpi) % hole.GetNumPoints = hpi % hole.GetNumPoints := by
    rw [Nat.add_comm, Nat.add_mod_right]
  rw [this]

theorem mergeHole_GetNumPoints (hole poly : TPPLPoly) (hpi ppi : Nat)
    (hp : ppi < poly.GetNumPoints) :
    (mergeHole hole poly hpi ppi).GetNumPoints = hole.GetNumPoints + poly.GetNumPoints + 2 := by
  unfold TPPLPoly.GetNumPoints at hp ⊢
  rw [mergeHole_points hole poly hpi ppi hp]
  simp only [List.length_append, List.length_take, List.length_rotate, List.length_drop,
    List.length_singleton]
  omega

theorem mergeHole_shoelace (hole poly : TPPLPoly) (hpi ppi : Nat)
    (hp : ppi < poly.GetNumPoints) :
    (mergeHole hole poly hpi ppi).shoelace = poly.shoelace + hole.shoelace := by
  have hp1 : ppi < poly.points.length := hp
  rw [shoelace_eq_pts, shoelace_eq_pts, shoelace_eq_pts, mergeHole_points hole poly hpi ppi hp]
  have e1 : poly.points.take (ppi + 1) = poly.points.take ppi ++ [poly.points[ppi]] := by
    rw [List.take_succ, List.getElem?_eq_getElem hp1]; rfl
  have e2 : poly.points.drop ppi = poly.points[ppi] :: poly.points.drop (ppi + 1) :=
    List.drop_eq_getElem_cons hp1
  have e3 : poly.points = poly.points.take ppi ++ poly.points[ppi] :: poly.points.drop (ppi + 1) := by
    rw [← e2, List.take_append_drop]
  have hR : hole.points.rotate hpi = [] ∨
      ∃ R1, hole.points.rotate hpi = hole.GetPoint (hpi % hole.GetNumPoints) :: R1 := by
    cases hr : hole.points.rotate hpi with
    | nil => left; rfl
    | cons a R1 =>
      right
      refine ⟨R1, ?_⟩
      have hlen : 0 < hole.points.length := by
        have := congrArg List.length hr
        simp only [List.length_rotate, List.length_cons] at this
        omega
      have h0 : (hole.points.rotate hpi)[0]? = some a := by rw [hr]; simp
      rw [List.getElem?_rotate hlen, zero_add] at h0
      unfold TPPLPoly.GetPoint TPPLPoly.GetNumPoints
      rw [List.getD_eq_getElem?_getD, h0]; rfl
  rw [e1, e2, shoelacePts_splice _ _ _ _ _ hR, ← e3]
  congr 1
  exact (shoelacePts_isRotated ⟨hpi, rfl⟩).symm

theorem removeHolesStep_done_iff (sqrt : ℚ → ℚ) (polys : TPPLPolyList) :
    removeHolesStep sqrt polys = HoleStep.done ↔ ∀ poly ∈ polys, poly.IsHole = false := by
  rw [← findHolePoint_none_iff]
  unfold removeHolesStep
  cases h1 : findHolePoint polys with
  | none => simp
  | some s =>
    obtain ⟨hi, hpi⟩ := s
    simp only
    cases h2 : findPolyPoint sqrt polys ((polyAt polys hi).GetPoint hpi) with
    | none => simp
    | some t => simp

theorem removeHolesStep_fail_iff (sqrt : ℚ → ℚ) (polys : TPPLPolyList) :
    removeHolesStep sqrt polys = HoleStep.fail ↔
      ∃ hi hpi, findHolePoint polys = some (hi, hpi) ∧
        ∀ it i, ¬ Bridge polys ((polyAt polys hi).GetPoint hpi) it i := by
  unfold removeHolesStep
  cases h1 : findHolePoint polys with
  | none => simp
  | some s =>
    obtain ⟨hi, hpi⟩ := s
    simp only
    cases h2 : findPolyPoint sqrt polys ((polyAt polys hi).GetPoint hpi) with
    | none =>
      simp only [true_iff]
      exact ⟨hi, hpi, rfl, (findPolyPoint_none_iff sqrt polys _).mp h2⟩
    | some t =>
      simp only [reduceCtorEq, false_iff]
      rintro ⟨hi1, hpi1, he, hb⟩
      simp only [Option.some.injEq, Prod.mk.injEq] at he
      obtain ⟨rfl, rfl⟩ := he
      exact hb t.1 t.2 (findPolyPoint_some h2)

theorem removeHolesStep_next {sqrt : ℚ → ℚ} {polys polys1 : TPPLPolyList}
    (h : removeHolesStep sqrt polys = HoleStep.next polys1) :
    ∃ hi hpi pi ppi, findHolePoint polys = some (hi, hpi) ∧
      hi < polys.length ∧ (polyAt polys hi).IsHole = true ∧
      hpi % (polyAt polys hi).GetNumPoints = hpi ∧
      Bridge polys ((polyAt polys hi).GetPoint hpi) pi ppi ∧
      polys1 = ((polys.eraseIdx hi).eraseIdx (if hi < pi then pi - 1 else pi))
        ++ [mergeHole (polyAt polys hi) (polyAt polys pi) hpi ppi] := by
  unfold removeHolesStep at h
  cases h1 : findHolePoint polys with
  | none => rw [h1] at h; simp at h
  | some s =>
    obtain ⟨hi, hpi⟩ := s
    rw [h1] at h
    simp only at h
    cases h2 : findPolyPoint sqrt polys ((polyAt polys hi).GetPoint hpi) with
    | none => rw [h2] at h; simp at h
    | some t =>
      obtain ⟨pi, ppi⟩ := t
      rw [h2] at h
      simp only [HoleStep.next.injEq] at h
      obtain ⟨hlt, hhole, hidx⟩ := findHolePoint_some h1
      have hmod : hpi % (polyAt polys hi).GetNumPoints = hpi := by
        rcases hidx with h0 | h0
        · simp only at h0; rw [h0]; exact Nat.zero_mod _
        · exact Nat.mod_eq_of_lt h0
      exact ⟨hi, hpi, pi, ppi, rfl, hlt, hhole, hmod, findPolyPoint_some h2, h.symm⟩

theorem mergeHole_IsHole (hole poly : TPPLPoly) (hpi ppi : Nat) :
    (mergeHole hole poly hpi ppi).IsHole = false := rfl

/-- Effect of one successful pass on the counts and on the shoelace sum. -/
theorem removeHolesStep_next_effect {sqrt : ℚ → ℚ} {polys polys1 : TPPLPolyList}
    (h : removeHolesStep sqrt polys = HoleStep.next polys1) :
    numHoles polys1 + 1 = numHoles polys ∧ numNonHoles polys1 = numNonHoles polys ∧
    totalPoints polys1 = totalPoints polys + 2 ∧ shoelaceSum polys1 = shoelaceSum polys := by
  obtain ⟨hi, hpi, pi, ppi, _, hlt, hhole, _, hb, rfl⟩ := removeHolesStep_next h
  have hne : hi ≠ pi := by
    intro hc
    have := hb.nonhole
    rw [← hc, hhole] at this
    exact absurd this (by simp)
  have hnh := hb.nonhole
  refine ⟨?_, ?_, ?_, ?_⟩
  · have := sum_map_merge (fun poly => if poly.IsHole then 1 else 0) polys hi pi
      (mergeHole (polyAt polys hi) (polyAt polys pi) hpi ppi) hlt hb.it_lt hne
    simp only [hhole, hnh, mergeHole_IsHole, if_true, Bool.false_eq_true, if_false] at this
    unfold numHoles
    omega
  · have := sum_map_merge (fun poly => if poly.IsHole then 0 else 1) polys hi pi
      (mergeHole (polyAt polys hi) (polyAt polys pi) hpi ppi) hlt hb.it_lt hne
    simp only [hhole, hnh, mergeHole_IsHole, if_true, Bool.false_eq_true, if_false] at this
    unfold numNonHoles
    omega
  · have := sum_map_merge TPPLPoly.GetNumPoints polys hi pi
      (mergeHole (polyAt polys hi) (polyAt polys pi) hpi ppi) hlt hb.it_lt hne
    rw [mergeHole_GetNumPoints _ _ _ _ hb.i_lt] at this
    unfold totalPoints
    omega
  · have := sum_map_merge TPPLPoly.shoelace polys hi pi
      (mergeHole (polyAt polys hi) (polyAt polys pi) hpi ppi) hlt hb.it_lt hne
    rw [mergeHole_shoelace _ _ _ _ hb.i_lt] at this
    unfold shoelaceSum
    linarith

theorem numHoles_eq_zero_iff (polys : TPPLPolyList) :
    numHoles polys = 0 ↔ ∀ poly ∈ polys, poly.IsHole = false := by
  unfold numHoles
  induction polys with
  | nil => simp
  | cons a l ih =>
    simp only [List.map_cons, List.sum_cons, List.mem_cons, forall_eq_or_imp]
    rw [← ih]
    by_cases h : a.IsHole = true
    · simp [h]
    · simp [h]

theorem numNonHoles_of_no_holes (polys : TPPLPolyList)
    (h : ∀ poly ∈ polys, poly.IsHole = false) : numNonHoles polys = polys.length := by
  unfold numNonHoles
  induction polys with
  | nil => simp
  | cons a l ih =>
    simp only [List.map_cons, List.sum_cons, List.length_cons]
    rw [ih (fun p hp => h p (List.mem_cons_of_mem _ hp)), h a (by simp)]
    simp only [Bool.false_eq_true, if_false]
    omega

theorem removeHolesLoop_some {sqrt : ℚ → ℚ} :
    ∀ (fuel : Nat) (polys L : TPPLPolyList), removeHolesLoop sqrt fuel polys = some L →
      (∀ poly ∈ L, poly.IsHole = false) ∧ numNonHoles L = numNonHoles polys ∧
      totalPoints L = totalPoints polys + 2 * numHoles polys ∧
      shoelaceSum L = shoelaceSum polys
  | 0, polys, L, h => by simp [removeHolesLoop] at h
  | fuel + 1, polys, L, h => by
    unfold removeHolesLoop at h
    cases hs : removeHolesStep sqrt polys with
    | done =>
      rw [hs] at h
      simp only [Option.some.injEq] at h
      subst h
      have hno := (removeHolesStep_done_iff sqrt polys).mp hs
      have h0 := (numHoles_eq_zero_iff polys).mpr hno
      exact ⟨hno, rfl, by rw [h0]; rfl, rfl⟩
    | fail => rw [hs] at h; simp at h
    | next polys1 =>
      rw [hs] at h
      simp only at h
      obtain ⟨a1, a2, a3, a4⟩ := removeHolesLoop_some fuel polys1 L h
      obtain ⟨b1, b2, b3, b4⟩ := removeHolesStep_next_effect hs
      exact ⟨a1, a2.trans b2, by rw [a3, b3, ← b1]; ring, a4.trans b4⟩

theorem removeHolesLoop_none_iff {sqrt : ℚ → ℚ} :
    ∀ (fuel : Nat) (polys : TPPLPolyList), numHoles polys < fuel →
      (removeHolesLoop sqrt fuel polys = none ↔
        ∃ k polys1, holeIter sqrt k polys = some polys1 ∧
          removeHolesStep sqrt polys1 = HoleStep.fail)
  | 0, polys, h => by omega
  | fuel + 1, polys, h => by
    unfold removeHolesLoop
    cases hs : removeHolesStep sqrt polys with
    | done =>
      simp only [reduceCtorEq, false_iff]
      rintro ⟨k, polys1, hk, hf⟩
      cases k with
      | zero =>
        simp only [holeIter, Option.some.injEq] at hk
        subst hk; rw [hs] at hf; simp at hf
      | succ k => simp [holeIter, hs] at hk
    | fail =>
      simp only [true_iff]
      exact ⟨0, polys, rfl, hs⟩
    | next polys1 =>
      simp only
      obtain ⟨b1, _, _, _⟩ := removeHolesStep_next_effect hs
      rw [removeHolesLoop_none_iff fuel polys1 (by omega)]
      constructor
      · rintro ⟨k, polys2, hk, hf⟩
        exact ⟨k + 1, polys2, by simp [holeIter, hs, hk], hf⟩
      · rintro ⟨k, polys2, hk, hf⟩
        cases k with
        | zero =>
          simp only [holeIter, Option.some.injEq] at hk
          subst hk; rw [hs] at hf; simp at hf
        | succ k =>
          simp only [holeIter, hs] at hk
          exact ⟨k, polys2, hk, hf⟩

theorem numHoles_le_length (polys : TPPLPolyList) : numHoles polys ≤ polys.length := by
  unfold numHoles
  induction polys with
  | nil => simp
  | cons a l ih =>
    simp only [List.map_cons, List.sum_cons, List.length_cons]
    split <;> omega

/-- The three ways `RemoveHoles` ends. -/
theorem RemoveHoles_cases (sqrt : ℚ → ℚ) (inpolys out : TPPLPolyList) :
    ((∀ poly ∈ inpolys, poly.IsHole = false) ∧ RemoveHoles sqrt inpolys out = (1, out ++ inpolys)) ∨
    ((∃ poly ∈ inpolys, poly.IsHole = true) ∧
      ((∃ L, removeHolesLoop sqrt (inpolys.length + 1) inpolys = some L ∧
          RemoveHoles sqrt inpolys out = (1, out ++ L)) ∨
       (removeHolesLoop sqrt (inpolys.length + 1) inpolys = none ∧
          RemoveHoles sqrt inpolys out = (0, out)))) := by
  unfold RemoveHoles
  by_cases h : inpolys.any (fun poly => poly.IsHole) = true
  · right
    refine ⟨by simpa using h, ?_⟩
    simp only [h, Bool.not_true, Bool.false_eq_true, if_false]
    cases hl : removeHolesLoop sqrt (inpolys.length + 1) inpolys with
    | none => right; exact ⟨rfl, rfl⟩
    | some L => left; exact ⟨L, rfl, rfl⟩
  · left
    simp only [h, Bool.not_false, if_true, and_true]
    intro poly hp
    simp only [List.any_eq_true, not_exists, not_and, Bool.not_eq_true] at h
    exact h poly hp

/-- C4: when `RemoveHoles` returns 1 (output list initially empty), the shoelace sums of the
output polygons add up to the sum of the shoelace sums of all input polygons, holes
included with their sign; for the 10x10 square with the 4x4 hole this is twice
`100 - 16 = 84`. -/
theorem C4_RemoveHoles_shoelace (sqrt : ℚ → ℚ) (inpolys : TPPLPolyList)
    (hret : (RemoveHoles sqrt inpolys []).1 = 1) :
    shoelaceSum (RemoveHoles sqrt inpolys []).2 = shoelaceSum inpolys ∧
    shoelaceSum [squarePoly, squareHole] = 2 * (100 - 16) := by
  refine ⟨?_, by decide!⟩
  rcases RemoveHoles_cases sqrt inpolys [] with ⟨_, h⟩ | ⟨_, ⟨L, hl, h⟩ | ⟨_, h⟩⟩
  · rw [h]; simp
  · rw [h]
    simp only [List.nil_append]
    exact (removeHolesLoop_some _ _ _ hl).2.2.2
  · rw [h] at hret; exact absurd hret (by decide)

/-- C5: when `RemoveHoles` returns 1 (output list initially empty) on a list with `h` holes
and `m` non-hole polygons, the output holds exactly `m` polygons with `2*h` more points in
total than the input; and every pass of the loop that merges a hole appends a polygon with
`hole.size + non_hole.size + 2` points: the non-hole points up to and including P, the hole
ring starting at H and wrapping back to H, then the non-hole points from P to the end. -/
theorem C5_RemoveHoles_counts (sqrt : ℚ → ℚ) (inpolys : TPPLPolyList)
    (hret : (RemoveHoles sqrt inpolys []).1 = 1) :
    (RemoveHoles sqrt inpolys []).2.length = numNonHoles inpolys ∧
    totalPoints (RemoveHoles sqrt inpolys []).2 = totalPoints inpolys + 2 * numHoles inpolys ∧
    ∀ polys polys1, removeHolesStep sqrt polys = HoleStep.next polys1 →
      ∃ hi hpi pi ppi rest newpoly,
        findHolePoint polys = some (hi, hpi) ∧
        hi < polys.length ∧ (polyAt polys hi).IsHole = true ∧
        pi < polys.length ∧ (polyAt polys pi).IsHole = false ∧
        ppi < (polyAt polys pi).GetNumPoints ∧
        polys1 = rest ++ [newpoly] ∧
        newpoly.GetNumPoints
          = (polyAt polys hi).GetNumPoints + (polyAt polys pi).GetNumPoints + 2 ∧
        newpoly.points = (polyAt polys pi).points.take (ppi + 1)
          ++ ((polyAt polys hi).points.rotate hpi ++ [(polyAt polys hi).GetPoint hpi])
          ++ (polyAt polys pi).points.drop ppi := by
  refine ⟨?_, ?_, ?_⟩
  · rcases RemoveHoles_cases sqrt inpolys [] with ⟨h0, h⟩ | ⟨_, ⟨L, hl, h⟩ | ⟨_, h⟩⟩
    · rw [h]
      simp only [List.nil_append]
      exact (numNonHoles_of_no_holes inpolys h0).symm
    · rw [h]
      simp only [List.nil_append]
      obtain ⟨a1, a2, _, _⟩ := removeHolesLoop_some _ _ _ hl
      rw [← a2, numNonHoles_of_no_holes L a1]
    · rw [h] at hret; exact absurd hret (by decide)
  · rcases RemoveHoles_cases sqrt inpolys [] with ⟨h0, h⟩ | ⟨_, ⟨L, hl, h⟩ | ⟨_, h⟩⟩
    · rw [h, (numHoles_eq_zero_iff inpolys).mpr h0]
      simp
    · rw [h]
      simp only [List.nil_append]
      exact (removeHolesLoop_some _ _ _ hl).2.2.1
    · rw [h] at hret; exact absurd hret (by decide)
  · intro polys polys1 hs
    obtain ⟨hi, hpi, pi, ppi, hf, hlt, hhole, hmod, hb, rfl⟩ := removeHolesStep_next hs
    refine ⟨hi, hpi, pi, ppi, _, _, hf, hlt, hhole, hb.it_lt, hb.nonhole, hb.i_lt, rfl,
      mergeHole_GetNumPoints _ _ _ _ hb.i_lt, ?_⟩
    rw [mergeHole_points _ _ _ _ hb.i_lt, hmod]

/-- C6: `RemoveHoles` is idempotent: when it returns 1 with output `L` (output list
initially empty), no polygon of `L` has the hole flag set, and `RemoveHoles` applied to `L`
returns 1 and outputs exactly `L`. -/
theorem C6_RemoveHoles_idempotent (sqrt : ℚ → ℚ) (inpolys : TPPLPolyList)
    (hret : (RemoveHoles sqrt inpolys []).1 = 1) :
    (∀ poly ∈ (RemoveHoles sqrt inpolys []).2, poly.IsHole = false) ∧
    RemoveHoles sqrt (RemoveHoles sqrt inpolys []).2 []
      = (1, (RemoveHoles sqrt inpolys []).2) := by
  have key : ∀ poly ∈ (RemoveHoles sqrt inpolys []).2, poly.IsHole = false := by
    rcases RemoveHoles_cases sqrt inpolys [] with ⟨h0, h⟩ | ⟨_, ⟨L, hl, h⟩ | ⟨_, h⟩⟩
    · rw [h]; simpa using h0
    · rw [h]
      simp only [List.nil_append]
      exact (removeHolesLoop_some _ _ _ hl).1
    · rw [h] at hret; exact absurd hret (by decide)
  refine ⟨key, ?_⟩
  rcases RemoveHoles_cases sqrt (RemoveHoles sqrt inpolys []).2 [] with
    ⟨_, h⟩ | ⟨⟨poly, hp, hh⟩, _⟩
  · rw [h]; simp
  · rw [key poly hp] at hh; exact absurd hh (by simp)

/-- C7: `RemoveHoles` returns 0 exactly when some pass of its loop selects a hole vertex H
for which no vertex P of a non-hole polygon is strictly to the right of H, has H in its
cone and has the segment H-P intersecting no non-hole edge; then nothing is appended to the
output list.  In particular it returns 0 on every list that contains a hole and no non-hole
polygon. -/
theorem C7_RemoveHoles_failure (sqrt : ℚ → ℚ) (inpolys out : TPPLPolyList) :
    ((RemoveHoles sqrt inpolys out).1 = 0 ↔
      ∃ k polys hi hpi, holeIter sqrt k inpolys = some polys ∧
        findHolePoint polys = some (hi, hpi) ∧
        ∀ it i, ¬ Bridge polys ((polyAt polys hi).GetPoint hpi) it i) ∧
    ((RemoveHoles sqrt inpolys out).1 = 0 → (RemoveHoles sqrt inpolys out).2 = out) ∧
    ((∃ poly ∈ inpolys, poly.IsHole = true) → (∀ poly ∈ inpolys, poly.IsHole = true) →
      (RemoveHoles sqrt inpolys out).1 = 0) := by
  have hiff : removeHolesLoop sqrt (inpolys.length + 1) inpolys = none ↔
      ∃ k polys hi hpi, holeIter sqrt k inpolys = some polys ∧
        findHolePoint polys = some (hi, hpi) ∧
        ∀ it i, ¬ Bridge polys ((polyAt polys hi).GetPoint hpi) it i := by
    rw [removeHolesLoop_none_iff _ _ (Nat.lt_succ_of_le (numHoles_le_length inpolys))]
    constructor
    · rintro ⟨k, polys, hk, hf⟩
      obtain ⟨hi, hpi, h1, h2⟩ := (removeHolesStep_fail_iff sqrt polys).mp hf
      exact ⟨k, polys, hi, hpi, hk, h1, h2⟩
    · rintro ⟨k, polys, hi, hpi, hk, h1, h2⟩
      exact ⟨k, polys, hk, (removeHolesStep_fail_iff sqrt polys).mpr ⟨hi, hpi, h1, h2⟩⟩
  refine ⟨?_, ?_, ?_⟩
  · rcases RemoveHoles_cases sqrt inpolys out with ⟨h0, h⟩ | ⟨_, ⟨L, hl, h⟩ | ⟨hl, h⟩⟩
    · rw [h]
      simp only [one_ne_zero, false_iff]
      rintro ⟨k, polys, hi, hpi, hk, h1, _⟩
      have hdone := (removeHolesStep_done_iff sqrt inpolys).mpr h0
      cases k with
      | zero =>
        simp only [holeIter, Option.some.injEq] at hk
        subst hk
        rw [(findHolePoint_none_iff inpolys).mpr h0] at h1
        exact absurd h1 (by simp)
      | succ k => simp [holeIter, hdone] at hk
    · rw [h]
      simp only [one_ne_zero, false_iff]
      intro hc
      rw [hiff.mpr hc] at hl
      exact absurd hl (by simp)
    · rw [h]
      simp only [true_iff]
      exact hiff.mp hl
  · rcases RemoveHoles_cases sqrt inpolys out with ⟨_, h⟩ | ⟨_, ⟨L, _, h⟩ | ⟨_, h⟩⟩
    · rw [h]; intro hc; exact absurd hc (by simp)
    · rw [h]; intro hc; exact absurd hc (by simp)
    · rw [h]; intro _; rfl
  · intro hex hall
    rcases RemoveHoles_cases sqrt inpolys out with ⟨h0, _⟩ | ⟨_, ⟨L, hl, _⟩ | ⟨_, h⟩⟩
    · obtain ⟨poly, hp, hh⟩ := hex
      rw [h0 poly hp] at hh; exact absurd hh (by simp)
    · exfalso
      have : removeHolesLoop sqrt (inpolys.length + 1) inpolys = none := by
        rw [hiff]
        cases hf : findHolePoint inpolys with
        | none =>
          obtain ⟨poly, hp, hh⟩ := hex
          rw [(findHolePoint_none_iff inpolys).mp hf poly hp] at hh
          exact absurd hh (by simp)
        | some s =>
          refine ⟨0, inpolys, s.1, s.2, rfl, hf, fun it i hb => ?_⟩
          have := hb.nonhole
          rw [hall _ (polyAt_mem hb.it_lt)] at this
          exact absurd this (by simp)
      rw [this] at hl
      exact absurd hl (by simp)
    · rw [h]

/-! ## Loops and tables -/

theorem foldl_invariant {σ α : Type} (P : σ → Prop) (f : σ → α → σ) (l : List α) (init : σ)
    (h0 : P init) (hstep : ∀ s x, x ∈ l → P s → P (f s x)) : P (l.foldl f init) := by
  induction l generalizing init with
  | nil => exact h0
  | cons a l ih =>
    rw [List.foldl_cons]
    exact ih _ (hstep _ a (by simp) h0) (fun s x hx hs => hstep s x (List.mem_cons_of_mem _ hx) hs)

theorem foldlM_invariant {σ α : Type} (P : σ → Prop) (f : σ → α → Option σ) (l : List α)
    (init r : σ) (h0 : P init) (hstep : ∀ s x s1, x ∈ l → P s → f s x = some s1 → P s1)
    (h : l.foldlM f init = some r) : P r := by
  induction l generalizing init with
  | nil =>
    simp only [List.foldlM_nil] at h
    cases h; exact h0
  | cons a l ih =>
    rw [List.foldlM_cons] at h
    cases hf : f init a with
    | none => simp [hf] at h
    | some s1 =>
      simp only [hf, Option.some_bind, Option.bind_eq_bind] at h
      exact ih s1 (hstep init a s1 (by simp) h0 hf)
        (fun s x s2 hx hs => hstep s x s2 (List.mem_cons_of_mem _ hx) hs) h

theorem getD_set_cases {α : Type} (l : List α) (i j : Nat) (v d : α) :
    (l.set i v).getD j d = v ∨ (l.set i v).getD j d = l.getD j d := by
  simp only [List.getD_eq_getElem?_getD, List.getElem?_set]
  by_cases h : i = j
  · subst h
    by_cases h2 : i < l.length
    · left; simp [h2]
    · right; simp [h2, List.getElem?_eq_none (Nat.le_of_not_lt h2)]
  · right; simp [h]

theorem DPTable_get_set_cases (dp : DPTable) (j i a b : Nat) (s : DPState) :
    (dp.set j i s).get a b = s ∨ (dp.set j i s).get a b = dp.get a b := by
  unfold DPTable.get DPTable.set
  by_cases haj : a = j
  · subst haj
    rcases getD_set_cases dp a a ((dp.getD a []).set i s) [] with h | h
    · rw [h]
      exact getD_set_cases (dp.getD a []) i b s default
    · right; rw [h]
  · right
    have : (List.set dp j ((dp.getD j []).set i s)).getD a [] = dp.getD a [] := by
      simp only [List.getD_eq_getElem?_getD, List.getElem?_set]
      simp [Ne.symm haj]
    rw [this]

theorem DPTable2_get_set_cases (dp : DPTable2) (j i a b : Nat) (s : DPState2) :
    (dp.set j i s).get a b = s ∨ (dp.set j i s).get a b = dp.get a b := by
  unfold DPTable2.get DPTable2.set
  by_cases haj : a = j
  · subst haj
    rcases getD_set_cases dp a a ((dp.getD a []).set i s) [] with h | h
    · rw [h]
      exact getD_set_cases (dp.getD a []) i b s default
    · right; rw [h]
  · right
    have : (List.set dp j ((dp.getD j []).set i s)).getD a [] = dp.getD a [] := by
      simp only [List.getD_eq_getElem?_getD, List.getElem?_set]
      simp [Ne.symm haj]
    rw [this]

/-! ## Minimum-weight triangulation -/

theorem DPTable.get_replicate_rows (n a b : Nat) :
    (DPTable.get ((List.range n).map (fun i => List.replicate i default)) a b).bestvertex = -1 := by
  have hrow : ∀ m : Nat, (List.replicate m (default : DPState)).getD b default = default := by
    intro m
    by_cases hb : b < m
    · rw [List.getD_eq_getElem _ _ (by simpa using hb)]
      simp
    · rw [List.getD_eq_default _ _ (by simpa using hb)]
  have hrows : ((List.range n).map (fun i => List.replicate i (default : DPState))).getD a []
      = List.replicate a default ∨
      ((List.range n).map (fun i => List.replicate i (default : DPState))).getD a [] = [] := by
    by_cases ha : a < n
    · left
      rw [List.getD_eq_getElem _ _ (by simpa using ha)]
      simp
    · right
      rw [List.getD_eq_default _ _ (by simpa using ha)]
  unfold DPTable.get
  rcases hrows with h | h
  · rw [h, hrow]; rfl
  · rw [h]; rfl

theorem optInit_bestBounded (poly : TPPLPoly) (n : Nat) : BestBounded n (optInit poly n) := by
  have hP : ∀ dp : DPTable, (∀ a b, (dp.get a b).bestvertex = -1) → BestBounded n dp :=
    fun dp h a b => Or.inl (h a b)
  apply hP
  unfold optInit
  have hset : ∀ (dp : DPTable) (j i : Nat) (v : Bool), (∀ a b, (dp.get a b).bestvertex = -1) →
      ∀ a b, ((dp.set j i ⟨v, 0, -1⟩).get a b).bestvertex = -1 := by
    intro dp j i v h a b
    rcases DPTable_get_set_cases dp j i a b ⟨v, 0, -1⟩ with h1 | h1
    · rw [h1]
    · rw [h1]; exact h a b
  apply hset
  apply foldl_invariant (fun dp : DPTable => ∀ a b, (dp.get a b).bestvertex = -1)
  · exact DPTable.get_replicate_rows n
  · intro dp i _ hdp
    apply foldl_invariant (fun dp : DPTable => ∀ a b, (dp.get a b).bestvertex = -1)
    · exact hdp
    · intro dp1 j _ hdp1
      exact hset dp1 j i _ hdp1

theorem optBest_cases (sqrt : ℚ → ℚ) (poly : TPPLPoly) (dp : DPTable) (i j : Nat) :
    (optBest sqrt poly dp i j).1 = -1 ∨
      ∃ k : Nat, (optBest sqrt poly dp i j).1 = (k : Int) ∧ k < j := by
  unfold optBest
  apply foldl_invariant (fun st : Int × ℚ => st.1 = -1 ∨ ∃ k : Nat, st.1 = (k : Int) ∧ k < j)
  · left; rfl
  · intro st k hk hst
    have hkj : k < j := by
      rw [List.mem_range'_1] at hk
      omega
    simp only
    split_ifs <;> first | exact hst | exact Or.inr ⟨k, rfl, hkj⟩

theorem optCell_bestBounded (sqrt : ℚ → ℚ) (poly : TPPLPoly) (n gap i : Nat) (dp dp1 : DPTable)
    (hi : i + gap < n) (h : BestBounded n dp) (hc : optCell sqrt poly gap dp i = some dp1) :
    BestBounded n dp1 := by
  unfold optCell at hc
  simp only at hc
  split at hc
  · cases hc; exact h
  · split at hc
    · exact absurd hc (by simp)
    · next hb =>
      cases hc
      intro a b
      rcases DPTable_get_set_cases dp (i + gap) i a b _ with h1 | h1
      · rw [h1]
        simp only
        rcases optBest_cases sqrt poly dp i (i + gap) with h2 | ⟨k, h2, h3⟩
        · exact absurd h2 hb
        · right; exact ⟨k, h2, by omega⟩
      · rw [h1]; exact h a b

theorem optFill_bestBounded (sqrt : ℚ → ℚ) (poly : TPPLPoly) (n : Nat) (dp0 dp : DPTable)
    (h0 : BestBounded n dp0) (h : optFill sqrt poly n dp0 = some dp) : BestBounded n dp := by
  unfold optFill at h
  refine foldlM_invariant (BestBounded n) _ _ dp0 dp h0 ?_ h
  intro s gap s1 _ hs hg
  refine foldlM_invariant (BestBounded n) _ _ s s1 hs ?_ hg
  intro s2 i s3 hi hs2 hc
  rw [List.mem_range] at hi
  by_cases hgap : gap ≤ n
  · exact optCell_bestBounded sqrt poly n gap i s2 s3 (by omega) hs2 hc
  · omega

theorem optRecover_spec (poly : TPPLPoly) (dp : DPTable) (n : Nat) (hdp : BestBounded n dp) :
    ∀ (fuel : Nat) (diagonals : List (Nat × Nat)) (triangles : TPPLPolyList),
      (∀ d ∈ diagonals, d.1 < n ∧ d.2 < n) →
      ∃ new, (optRecover poly dp fuel diagonals triangles).2 = triangles ++ new ∧
        ∀ t ∈ new, ∃ a b c, a < n ∧ b < n ∧ c < n ∧
          t = TPPLPoly.Triangle (poly.GetPoint a) (poly.GetPoint b) (poly.GetPoint c) := by
  intro fuel
  induction fuel with
  | zero =>
    intro diagonals triangles _
    cases diagonals with
    | nil => exact ⟨[], by simp [optRecover], by simp⟩
    | cons d ds => exact ⟨[], by simp [optRecover], by simp⟩
  | succ fuel ih =>
    intro diagonals triangles hq
    cases diagonals with
    | nil => exact ⟨[], by simp [optRecover], by simp⟩
    | cons d ds =>
      unfold optRecover
      simp only
      have hd := hq d (by simp)
      have hds : ∀ x ∈ ds, x.1 < n ∧ x.2 < n := fun x hx => hq x (List.mem_cons_of_mem _ hx)
      split
      · exact ⟨[], by simp, by simp⟩
      · next hb =>
        rcases hdp d.2 d.1 with h1 | ⟨k, h1, hk⟩
        · exact absurd h1 hb
        · have hkn : (dp.get d.2 d.1).bestvertex.toNat = k := by rw [h1]; rfl
          rw [hkn]
          have hq2 : ∀ x ∈ (if (d.2 : Int) > (dp.get d.2 d.1).bestvertex + 1 then
              (if (dp.get d.2 d.1).bestvertex > (d.1 : Int) + 1 then ds ++ [(d.1, k)] else ds)
                ++ [(k, d.2)]
              else (if (dp.get d.2 d.1).bestvertex > (d.1 : Int) + 1 then ds ++ [(d.1, k)]
                else ds)), x.1 < n ∧ x.2 < n := by
            intro x hx
            split at hx
            · rw [List.mem_append] at hx
              rcases hx with hx | hx
              · split at hx
                · rw [List.mem_append] at hx
                  rcases hx with hx | hx
                  · exact hds x hx
                  · simp only [List.mem_singleton] at hx
                    rw [hx]; exact ⟨hd.1, hk⟩
                · exact hds x hx
              · simp only [List.mem_singleton] at hx
                rw [hx]; exact ⟨hk, hd.2⟩
            · split at hx
              · rw [List.mem_append] at hx
                rcases hx with hx | hx
                · exact hds x hx
                · simp only [List.mem_singleton] at hx
                  rw [hx]; exact ⟨hd.1, hk⟩
              · exact hds x hx
          obtain ⟨new, hnew, hall⟩ := ih _ (triangles ++ [TPPLPoly.Triangle (poly.GetPoint d.1)
            (poly.GetPoint k) (poly.GetPoint d.2)]) hq2
          refine ⟨TPPLPoly.Triangle (poly.GetPoint d.1) (poly.GetPoint k) (poly.GetPoint d.2)
            :: new, ?_, ?_⟩
          · rw [hnew]; simp
          · intro t ht
            simp only [List.mem_cons] at ht
            rcases ht with ht | ht
            · exact ⟨d.1, k, d.2, hd.1, hk, hd.2, ht⟩
            · exact hall t ht

theorem Triangle_points_mem (poly : TPPLPoly) {a b c : Nat} (ha : a < poly.GetNumPoints)
    (hb : b < poly.GetNumPoints) (hc : c < poly.GetNumPoints) :
    ∀ x ∈ (TPPLPoly.Triangle (poly.GetPoint a) (poly.GetPoint b) (poly.GetPoint c)).points,
      x ∈ poly.points := by
  intro x hx
  simp only [TPPLPoly.Triangle, TPPLPoly.ofPoints, List.mem_cons, List.mem_singleton,
    List.mem_nil_iff, or_false] at hx
  rcases hx with hx | hx | hx <;> rw [hx] <;> exact GetPoint_mem poly (by assumption)

theorem Triangulate_OPT_points (sqrt : ℚ → ℚ) (poly : TPPLPoly) (out : TPPLPolyList) :
    ∃ new, (Triangulate_OPT sqrt poly out).2 = out ++ new ∧
      ∀ t ∈ new, ∀ x ∈ t.points, x ∈ poly.points := by
  unfold Triangulate_OPT
  by_cases hv : poly.Valid = true
  swap
  · simp only [hv, Bool.not_false, if_true]
    exact ⟨[], by simp, by simp⟩
  have hn : 3 ≤ poly.GetNumPoints := by simpa [TPPLPoly.Valid] using hv
  simp only [hv, Bool.not_true, Bool.false_eq_true, if_false]
  cases hf : optFill sqrt poly poly.GetNumPoints (optInit poly poly.GetNumPoints) with
  | none => exact ⟨[], by simp, by simp⟩
  | some dp =>
    have hdp := optFill_bestBounded sqrt poly _ _ dp (optInit_bestBounded poly _) hf
    obtain ⟨new, h1, h2⟩ := optRecover_spec poly dp poly.GetNumPoints hdp poly.GetNumPoints
      [(0, poly.GetNumPoints - 1)] out (by
        intro d hd
        simp only [List.mem_singleton] at hd
        rw [hd]; simp only; omega)
    refine ⟨new, h1, fun t ht => ?_⟩
    obtain ⟨a, b, c, ha, hb, hc, rfl⟩ := h2 t ht
    exact Triangle_points_mem poly ha hb hc

/-! ## Hertel-Mehlhorn -/

theorem findDiagonal_some {triangles : TPPLPolyList} {iter1 : Nat} {d1 d2 : TPPLPoint}
    {iter2 i21 : Nat} (h : findDiagonal triangles iter1 d1 d2 = some (iter2, i21)) :
    iter1 < iter2 ∧ iter2 < triangles.length ∧ i21 < (polyAt triangles iter2).GetNumPoints ∧
      d2.ne ((polyAt triangles iter2).GetPoint i21) = false ∧
      d1.ne ((polyAt triangles iter2).GetPoint
        ((i21 + 1) % (polyAt triangles iter2).GetNumPoints)) = false := by
  unfold findDiagonal at h
  obtain ⟨it, hit, hf⟩ := List.exists_of_findSome?_eq_some h
  rw [Option.map_eq_some'] at hf
  obtain ⟨i, hfind, hpair⟩ := hf
  simp only [Prod.mk.injEq] at hpair
  obtain ⟨rfl, rfl⟩ := hpair
  rw [List.mem_range'_1] at hit
  have hi := List.mem_range.mp (List.mem_of_find?_eq_some hfind)
  have hp := List.find?_some hfind
  simp only [Bool.and_eq_true, Bool.not_eq_true'] at hp
  exact ⟨by omega, by omega, hi, hp.1, hp.2⟩

theorem copyLoop_mem (poly : TPPLPoly) (stop : Nat) :
    ∀ (fuel j : Nat), j < poly.GetNumPoints → ∀ x ∈ copyLoop poly stop fuel j, x ∈ poly.points
  | 0, _, _, x, hx => by simp [copyLoop] at hx
  | fuel + 1, j, hj, x, hx => by
    unfold copyLoop at hx
    split at hx
    · simp at hx
    · simp only [List.mem_cons] at hx
      rcases hx with hx | hx
      · rw [hx]; exact GetPoint_mem poly hj
      · exact copyLoop_mem poly stop fuel _ (Nat.mod_lt _ (by omega)) x hx

theorem hmMerge_mem (poly1 poly2 : TPPLPoly) (i11 i12 i21 i22 : Nat)
    (h1 : i12 < poly1.GetNumPoints) (h2 : i22 < poly2.GetNumPoints) :
    ∀ x ∈ (hmMerge poly1 poly2 i11 i12 i21 i22).points, x ∈ poly1.points ∨ x ∈ poly2.points := by
  intro x hx
  simp only [hmMerge, TPPLPoly.ofPoints, List.mem_append] at hx
  rcases hx with hx | hx
  · left; exact copyLoop_mem poly1 i11 _ _ h1 x hx
  · right; exact copyLoop_mem poly2 i21 _ _ h2 x hx

/-- What a merge at edge `i11` of the polygon at `iter1` consists of. -/
theorem hmEdge_some {triangles triangles1 : TPPLPolyList} {iter1 i11 : Nat}
    (h : hmEdge triangles iter1 i11 = some triangles1) :
    ∃ iter2 i21,
      findDiagonal triangles iter1 ((polyAt triangles iter1).GetPoint i11)
        ((polyAt triangles iter1).GetPoint ((i11 + 1) % (polyAt triangles iter1).GetNumPoints))
        = some (iter2, i21) ∧
      IsConvex ((polyAt triangles iter1).GetPoint
          (if i11 = 0 then (polyAt triangles iter1).GetNumPoints - 1 else i11 - 1))
        ((polyAt triangles iter1).GetPoint i11)
        ((polyAt triangles iter2).GetPoint
          (if (i21 + 1) % (polyAt triangles iter2).GetNumPoints
              = (polyAt triangles iter2).GetNumPoints - 1 then 0
            else (i21 + 1) % (polyAt triangles iter2).GetNumPoints + 1)) = true ∧
      IsConvex ((polyAt triangles iter2).GetPoint
          (if i21 = 0 then (polyAt triangles iter2).GetNumPoints - 1 else i21 - 1))
        ((polyAt triangles iter1).GetPoint ((i11 + 1) % (polyAt triangles iter1).GetNumPoints))
        ((polyAt triangles iter1).GetPoint
          (if (i11 + 1) % (polyAt triangles iter1).GetNumPoints
              = (polyAt triangles iter1).GetNumPoints - 1 then 0
            else (i11 + 1) % (polyAt triangles iter1).GetNumPoints + 1)) = true ∧
      triangles1 = (triangles.eraseIdx iter2).set iter1
        (hmMerge (polyAt triangles iter1) (polyAt triangles iter2) i11
          ((i11 + 1) % (polyAt triangles iter1).GetNumPoints) i21
          ((i21 + 1) % (polyAt triangles iter2).GetNumPoints)) := by
  unfold hmEdge at h
  simp only at h
  cases hf : findDiagonal triangles iter1 ((polyAt triangles iter1).GetPoint i11)
      ((polyAt triangles iter1).GetPoint ((i11 + 1) % (polyAt triangles iter1).GetNumPoints)) with
  | none => rw [hf] at h; simp at h
  | some s =>
    obtain ⟨iter2, i21⟩ := s
    rw [hf] at h
    simp only at h
    by_cases h1 : IsConvex ((polyAt triangles iter1).GetPoint
          (if i11 = 0 then (polyAt triangles iter1).GetNumPoints - 1 else i11 - 1))
        ((polyAt triangles iter1).GetPoint i11)
        ((polyAt triangles iter2).GetPoint
          (if (i21 + 1) % (polyAt triangles iter2).GetNumPoints
              = (polyAt triangles iter2).GetNumPoints - 1 then 0
            else (i21 + 1) % (polyAt triangles iter2).GetNumPoints + 1)) = true
    · by_cases h2 : IsConvex ((polyAt triangles iter2).GetPoint
          (if i21 = 0 then (polyAt triangles iter2).GetNumPoints - 1 else i21 - 1))
        ((polyAt triangles iter1).GetPoint ((i11 + 1) % (polyAt triangles iter1).GetNumPoints))
        ((polyAt triangles iter1).GetPoint
          (if (i11 + 1) % (polyAt triangles iter1).GetNumPoints
              = (polyAt triangles iter1).GetNumPoints - 1 then 0
            else (i11 + 1) % (polyAt triangles iter1).GetNumPoints + 1)) = true
      · simp only [h1, h2, Bool.not_true, Bool.false_eq_true, if_false, Option.some.injEq] at h
        exact ⟨iter2, i21, rfl, h1, h2, h.symm⟩
      · simp only [h1, h2, Bool.not_true, Bool.false_eq_true, if_false, Bool.not_false,
          if_true] at h
        exact absurd h (by simp)
    · simp only [h1, Bool.not_false, if_true] at h
      exact absurd h (by simp)

theorem hmEdge_pointsIn (S : List TPPLPoint) {triangles triangles1 : TPPLPolyList}
    {iter1 i11 : Nat} (hit : iter1 < triangles.length)
    (hi : i11 < (polyAt triangles iter1).GetNumPoints)
    (h : hmEdge triangles iter1 i11 = some triangles1) (hS : PointsIn S triangles) :
    PointsIn S triangles1 := by
  obtain ⟨iter2, i21, hf, _, _, rfl⟩ := hmEdge_some h
  obtain ⟨h1, h2, h3, _, _⟩ := findDiagonal_some hf
  intro t ht x hx
  rcases List.mem_or_eq_of_mem_set ht with ht | ht
  · exact hS t (List.eraseIdx_subset _ _ ht) x hx
  · rw [ht] at hx
    rcases hmMerge_mem _ _ _ _ _ _ (Nat.mod_lt _ (by omega))
      (Nat.mod_lt _ (by omega)) x hx with hx | hx
    · exact hS _ (polyAt_mem hit) x hx
    · exact hS _ (polyAt_mem h2) x hx

theorem hmLoop_pointsIn (S : List TPPLPoint) :
    ∀ (fuel : Nat) (triangles : TPPLPolyList) (iter1 i11 : Nat),
      PointsIn S triangles → PointsIn S (hmLoop fuel triangles iter1 i11)
  | 0, triangles, _, _, h => by simpa [hmLoop] using h
  | fuel + 1, triangles, iter1, i11, h => by
    unfold hmLoop
    by_cases hit : iter1 < triangles.length
    · rw [if_pos hit]
      by_cases hi : i11 < (polyAt triangles iter1).GetNumPoints
      · rw [if_pos hi]
        cases he : hmEdge triangles iter1 i11 with
        | none => exact hmLoop_pointsIn S fuel _ _ _ h
        | some triangles1 =>
          exact hmLoop_pointsIn S fuel _ _ _ (hmEdge_pointsIn S hit hi he h)
      · rw [if_neg hi]
        exact hmLoop_pointsIn S fuel _ _ _ h
    · rw [if_neg hit]
      exact h

theorem ConvexPartition_HM_points (sqrt : ℚ → ℚ) (poly : TPPLPoly) (out : TPPLPolyList) :
    ∃ new, (ConvexPartition_HM sqrt poly out).2 = out ++ new ∧ PointsIn poly.points new := by
  unfold ConvexPartition_HM
  split
  · exact ⟨[], by simp, by simp [PointsIn]⟩
  · split
    · refine ⟨[poly], rfl, ?_⟩
      intro t ht x hx
      simp only [List.mem_singleton] at ht
      rw [ht] at hx; exact hx
    · split
      · exact ⟨[], by simp, by simp [PointsIn]⟩
      · next r triangles hne heq =>
        refine ⟨_, rfl, ?_⟩
        apply hmLoop_pointsIn
        obtain ⟨new, h1, h2, _⟩ := Triangulate_EC_spec sqrt poly []
        rw [heq] at h1
        simp only [List.nil_append] at h1
        rw [h1]
        exact h2

/-- C9: on a polygon with `n ≥ 3` points in which `IsReflex(prev, v, next)` is false at every
vertex `v`, the single-polygon `ConvexPartition_HM` returns 1 and appends exactly one
polygon, equal to the input polygon. -/
theorem C9_ConvexPartition_HM_no_reflex (sqrt : ℚ → ℚ) (poly : TPPLPoly) (out : TPPLPolyList)
    (hn : 3 ≤ poly.GetNumPoints)
    (hconv : ∀ v, v < poly.GetNumPoints →
      IsReflex (poly.GetPoint (if v = 0 then poly.GetNumPoints - 1 else v - 1)) (poly.GetPoint v)
        (poly.GetPoint (if v = poly.GetNumPoints - 1 then 0 else v + 1)) = false) :
    ConvexPartition_HM sqrt poly out = (1, out ++ [poly]) := by
  unfold ConvexPartition_HM
  have hv : poly.Valid = true := by simpa [TPPLPoly.Valid] using hn
  have hr : hasReflex poly = false := by
    unfold hasReflex
    rw [List.any_eq_false]
    intro v hv
    simp only [hconv v (List.mem_range.mp hv)]
    simp
  simp [hv, hr]

/-! ## Optimal convex partition -/

theorem PairsBounded.set {n : Nat} {dp : DPTable2} (h : PairsBounded n dp) (a b : Nat)
    (s : DPState2) (hs : ∀ d ∈ s.pairs, d.index1 < n ∧ d.index2 < n) :
    PairsBounded n (dp.set a b s) := by
  intro x y d hd
  rcases DPTable2_get_set_cases dp a b x y s with h1 | h1
  · rw [h1] at hd; exact hs d hd
  · rw [h1] at hd; exact h x y d hd

theorem PairsBounded_replicate (n m : Nat) :
    PairsBounded n (List.replicate m (List.replicate m default)) := by
  intro a b d hd
  have : (DPTable2.get (List.replicate m (List.replicate m default)) a b).pairs = [] := by
    have hrow : ∀ k : Nat, (List.replicate k (default : DPState2)).getD b default = default := by
      intro k
      by_cases hb : b < k
      · rw [List.getD_eq_getElem _ _ (by simpa using hb)]
        simp
      · rw [List.getD_eq_default _ _ (by simpa using hb)]
    have hrows : (List.replicate m (List.replicate m (default : DPState2))).getD a []
        = List.replicate m default ∨
        (List.replicate m (List.replicate m (default : DPState2))).getD a [] = [] := by
      by_cases ha : a < m
      · left
        rw [List.getD_eq_getElem _ _ (by simpa using ha)]
        simp
      · right
        rw [List.getD_eq_default _ _ (by simpa using ha)]
    unfold DPTable2.get
    rcases hrows with h | h
    · rw [h, hrow]; rfl
    · rw [h]; rfl
  rw [this] at hd
  simp at hd

theorem cpoInit_pairsBounded (poly : TPPLPoly) (vertices : List PartitionVertex) (n : Nat) :
    PairsBounded n (cpoInit poly vertices n) := by
  unfold cpoInit
  simp only
  apply PairsBounded.set
  · apply foldl_invariant (PairsBounded n)
    · apply foldl_invariant (PairsBounded n)
      · exact PairsBounded_replicate n n
      · intro dp i _ hdp
        apply foldl_invariant (PairsBounded n)
        · exact hdp
        · intro dp1 j _ hdp1
          exact hdp1.set _ _ _ (fun d hd => hdp1 i j d hd)
    · intro dp i hi hdp
      rw [List.mem_range] at hi
      split
      · apply hdp.set
        intro d hd
        simp only [List.mem_append, List.mem_singleton] at hd
        rcases hd with hd | hd
        · exact hdp i (i + 2) d hd
        · rw [hd]; simp only; omega
      · exact hdp
  · intro d hd
    simp only at hd
    revert d hd
    have : PairsBounded n ((List.range (n - 2)).foldl (fun (dp : DPTable2) i =>
        if (dp.get i (i + 2)).visible then
          dp.set i (i + 2) { dp.get i (i + 2) with
            weight := 0, pairs := (dp.get i (i + 2)).pairs ++ [⟨i + 1, i + 1⟩] }
        else dp)
        ((List.range (n - 1)).foldl (fun (dp : DPTable2) i =>
          (List.range' (i + 1) (n - (i + 1))).foldl (fun (dp : DPTable2) j =>
            dp.set i j { dp.get i j with
              visible := cpoVisible poly vertices n i j,
              weight := if j = i + 1 then 0 else 2147483647 }) dp)
          (List.replicate n (List.replicate n default)))) := by
      apply foldl_invariant (PairsBounded n)
      · apply foldl_invariant (PairsBounded n)
        · exact PairsBounded_replicate n n
        · intro dp i _ hdp
          apply foldl_invariant (PairsBounded n)
          · exact hdp
          · intro dp1 j _ hdp1
            exact hdp1.set _ _ _ (fun d hd => hdp1 i j d hd)
      · intro dp i hi hdp
        rw [List.mem_range] at hi
        split
        · apply hdp.set
          intro d hd
          simp only [List.mem_append, List.mem_singleton] at hd
          rcases hd with hd | hd
          · exact hdp i (i + 2) d hd
          · rw [hd]; simp only; omega
        · exact hdp
    exact this 0 (n - 1)

theorem UpdateState_pairsBounded {n : Nat} {dp : DPTable2} (h : PairsBounded n dp)
    (a b : Nat) (w : Int) (i j : Nat) (hi : i < n) (hj : j < n) :
    PairsBounded n (UpdateState a b w i j dp) := by
  unfold UpdateState
  simp only
  split_ifs
  · exact h
  · apply h.set
    intro d hd
    simp only [List.mem_singleton] at hd
    rw [hd]; exact ⟨hi, hj⟩
  · exact h
  · apply h.set
    intro d hd
    simp only [List.mem_cons] at hd
    rcases hd with hd | hd
    · rw [hd]; exact ⟨hi, hj⟩
    · exact h a b d ((List.dropWhile_sublist _).subset hd)

theorem typeAScan_fst (i j k : Nat) (vertices : List PartitionVertex) (dp : DPTable2) (w : Int) :
    (typeAScan i j k vertices dp w).1 = j ∨
      ∃ d ∈ (dp.get i j).pairs, (typeAScan i j k vertices dp w).1 = d.index1 := by
  unfold typeAScan
  simp only
  cases hl : ((dp.get i j).pairs.reverse.takeWhile (fun d =>
    !IsReflex (vtx vertices d.index2).p (vtx vertices j).p (vtx vertices k).p)).getLast? with
  | none => left; rfl
  | some lastiter =>
    simp only
    split
    · left; rfl
    · right
      refine ⟨lastiter, ?_, rfl⟩
      have h1 := List.mem_of_getLast?_eq_some hl
      have h2 := (List.takeWhile_prefix _).subset h1
      exact List.mem_reverse.mp h2

theorem typeBScan_fst (i j k : Nat) (vertices : List PartitionVertex) (dp : DPTable2) (w : Int) :
    (typeBScan i j k vertices dp w).1 = j ∨
      ∃ d ∈ (dp.get j k).pairs, (typeBScan i j k vertices dp w).1 = d.index2 := by
  unfold typeBScan
  simp only
  cases hl : ((dp.get j k).pairs.takeWhile (fun d =>
    !IsReflex (vtx vertices i).p (vtx vertices j).p (vtx vertices d.index1).p)).getLast? with
  | none => left; rfl
  | some lastiter =>
    simp only
    split
    · left; rfl
    · right
      refine ⟨lastiter, ?_, rfl⟩
      have h1 := List.mem_of_getLast?_eq_some hl
      exact (List.takeWhile_prefix _).subset h1

theorem TypeA_pairsBounded {n : Nat} {dp : DPTable2} (h : PairsBounded n dp)
    (i j k : Nat) (vertices : List PartitionVertex) (hj : j < n) :
    PairsBounded n (TypeA i j k vertices dp) := by
  unfold TypeA
  by_cases h1 : (!(dp.get i j).visible) = true
  · rw [if_pos h1]; exact h
  · rw [if_neg h1]
    by_cases h2 : k - j > 1 ∧ (!(dp.get j k).visible) = true
    · rw [if_pos h2]; exact h
    · rw [if_neg h2]
      simp only
      apply UpdateState_pairsBounded h _ _ _ _ _ _ hj
      by_cases h3 : j - i > 1
      · rw [if_pos h3]
        rcases typeAScan_fst i j k vertices dp _ with h4 | ⟨d, hd, h4⟩
        · rw [h4]; exact hj
        · rw [h4]; exact (h i j d hd).1
      · rw [if_neg h3]; exact hj

theorem TypeB_pairsBounded {n : Nat} {dp : DPTable2} (h : PairsBounded n dp)
    (i j k : Nat) (vertices : List PartitionVertex) (hj : j < n) :
    PairsBounded n (TypeB i j k vertices dp) := by
  unfold TypeB
  by_cases h1 : (!(dp.get j k).visible) = true
  · rw [if_pos h1]; exact h
  · rw [if_neg h1]
    by_cases h2 : j - i > 1 ∧ (!(dp.get i j).visible) = true
    · rw [if_pos h2]; exact h
    · rw [if_neg h2]
      simp only
      apply UpdateState_pairsBounded h _ _ _ _ _ hj
      by_cases h3 : k - j > 1
      · rw [if_pos h3]
        rcases typeBScan_fst i j k vertices dp _ with h4 | ⟨d, hd, h4⟩
        · rw [h4]; exact hj
        · rw [h4]; exact (h j k d hd).2
      · rw [if_neg h3]; exact hj

theorem cpoGapA_pairsBounded {n : Nat} {dp : DPTable2} (h : PairsBounded n dp)
    (vertices : List PartitionVertex) (gap : Nat) :
    PairsBounded n (cpoGapA vertices n gap dp) := by
  unfold cpoGapA
  apply foldl_invariant (PairsBounded n) _ _ _ h
  intro dp1 i hi hdp1
  rw [List.mem_range] at hi
  simp only
  split_ifs
  · exact hdp1
  · apply foldl_invariant (PairsBounded n) _ _ _ hdp1
    intro dp2 j hj hdp2
    rw [List.mem_range'_1] at hj
    exact TypeA_pairsBounded hdp2 _ _ _ _ (by omega)
  · apply TypeA_pairsBounded _ _ _ _ _ (by omega)
    apply foldl_invariant (PairsBounded n) _ _ _ hdp1
    intro dp2 j hj hdp2
    rw [List.mem_range'_1] at hj
    split_ifs
    · exact hdp2
    · exact TypeA_pairsBounded hdp2 _ _ _ _ (by omega)
  · exact hdp1

theorem cpoGapB_pairsBounded {n : Nat} {dp : DPTable2} (h : PairsBounded n dp)
    (vertices : List PartitionVertex) (gap : Nat) (hgap : 1 ≤ gap) :
    PairsBounded n (cpoGapB vertices n gap dp) := by
  unfold cpoGapB
  apply foldl_invariant (PairsBounded n) _ _ _ h
  intro dp1 k hk hdp1
  rw [List.mem_range'_1] at hk
  simp only
  split_ifs
  · exact hdp1
  · apply foldl_invariant (PairsBounded n) _ _ _
      (TypeB_pairsBounded hdp1 _ _ _ _ (by omega))
    intro dp2 j hj hdp2
    rw [List.mem_range'_1] at hj
    split_ifs
    · exact hdp2
    · exact TypeB_pairsBounded hdp2 _ _ _ _ (by omega)
  · exact hdp1

theorem cpoFill_pairsBounded {n : Nat} {dp : DPTable2} (h : PairsBounded n dp)
    (vertices : List PartitionVertex) : PairsBounded n (cpoFill vertices n dp) := by
  unfold cpoFill
  apply foldl_invariant (PairsBounded n) _ _ _ h
  intro dp1 gap hgap hdp1
  rw [List.mem_range'_1] at hgap
  exact cpoGapB_pairsBounded (cpoGapA_pairsBounded hdp1 vertices gap) vertices gap (by omega)

theorem cpoRecover1_pairsBounded (vertices : List PartitionVertex) (n : Nat) :
    ∀ (fuel : Nat) (diagonals : List Diagonal) (dp dp1 : DPTable2),
      PairsBounded n dp → cpoRecover1 vertices fuel diagonals dp = some dp1 → PairsBounded n dp1 := by
  intro fuel
  induction fuel with
  | zero =>
    intro diagonals dp dp1 h hr
    cases diagonals with
    | nil => simp only [cpoRecover1, Option.some.injEq] at hr; rw [← hr]; exact h
    | cons d ds => simp [cpoRecover1] at hr
  | succ fuel ih =>
    intro diagonals dp dp1 h hr
    cases diagonals with
    | nil => simp only [cpoRecover1, Option.some.injEq] at hr; rw [← hr]; exact h
    | cons d ds =>
      unfold cpoRecover1 at hr
      simp only at hr
      split_ifs at hr
      · exact ih _ _ _ h hr
      · refine ih _ _ _ (h.set _ _ _ ?_) hr
        intro x hx
        exact h _ _ x ((List.rdropWhile_prefix _ _).subset hx)
      · exact ih _ _ _ h hr
      · exact ih _ _ _ h hr
      · refine ih _ _ _ (h.set _ _ _ ?_) hr
        intro x hx
        exact h _ _ x ((List.dropWhile_sublist _).subset hx)
      · exact ih _ _ _ h hr
      · exact ih _ _ _ h hr

theorem getLastD_mem_or {α : Type} (l : List α) (d : α) : l.getLastD d ∈ l ∨ l.getLastD d = d := by
  have := List.getLastD_mem_cons l d
  simp only [List.mem_cons] at this
  rcases this with h | h
  · right; exact h
  · left; exact h

theorem headD_mem_or {α : Type} (l : List α) (d : α) : l.headD d ∈ l ∨ l.headD d = d := by
  cases l with
  | nil => right; rfl
  | cons a l => left; simp

theorem cpoCollect_bounded (vertices : List PartitionVertex) (dp : DPTable2) (n : Nat)
    (hn : 0 < n) (hdp : PairsBounded n dp) :
    ∀ (fuel : Nat) (diagonals diagonals2 : List Diagonal) (indices : List Nat),
      DiagonalsBounded n diagonals → DiagonalsBounded n diagonals2 → (∀ i ∈ indices, i < n) →
      DiagonalsBounded n (cpoCollect vertices dp fuel diagonals diagonals2 indices).1 ∧
      ∀ i ∈ (cpoCollect vertices dp fuel diagonals diagonals2 indices).2, i < n := by
  intro fuel
  induction fuel with
  | zero =>
    intro diagonals diagonals2 indices h1 h2 h3
    cases diagonals2 with
    | nil => simpa [cpoCollect] using ⟨h1, h3⟩
    | cons d ds => simpa [cpoCollect] using ⟨h1, h3⟩
  | succ fuel ih =>
    intro diagonals diagonals2 indices h1 h2 h3
    cases diagonals2 with
    | nil => simpa [cpoCollect] using ⟨h1, h3⟩
    | cons d ds =>
      unfold cpoCollect
      have hd := h2 d (by simp)
      have hds : DiagonalsBounded n ds := fun x hx => h2 x (List.mem_cons_of_mem _ hx)
      have hj : (cpoPick vertices dp d).1 < n := by
        have hiter : ∀ it : Diagonal,
            (it ∈ (dp.get d.index1 d.index2).pairs ∨ it = default) →
            it.index1 < n ∧ it.index2 < n := by
          intro it hit
          rcases hit with hit | hit
          · exact hdp _ _ it hit
          · rw [hit]; exact ⟨hn, hn⟩
        unfold cpoPick
        simp only
        split
        · exact (hiter _ (getLastD_mem_or _ _)).2
        · exact (hiter _ (headD_mem_or _ _)).1
      generalize cpoPick vertices dp d = pick at hj
      have hpush : ∀ (l : List Diagonal) (x : Diagonal), DiagonalsBounded n l →
          x.index1 < n ∧ x.index2 < n → DiagonalsBounded n (l ++ [x]) := by
        intro l x hl hx y hy
        simp only [List.mem_append, List.mem_singleton] at hy
        rcases hy with hy | hy
        · exact hl y hy
        · rw [hy]; exact hx
      simp only
      split
      · exact ih _ _ _ h1 hds h3
      · apply ih
        · split_ifs <;> first
            | exact h1
            | exact hpush _ _ h1 ⟨hd.1, hj⟩
            | exact hpush _ _ h1 ⟨hj, hd.2⟩
            | exact hpush _ _ (hpush _ _ h1 ⟨hd.1, hj⟩) ⟨hj, hd.2⟩
        · split_ifs <;> first
            | exact hds
            | exact hpush _ _ hds ⟨hd.1, hj⟩
            | exact hpush _ _ hds ⟨hj, hd.2⟩
            | exact hpush _ _ (hpush _ _ hds ⟨hd.1, hj⟩) ⟨hj, hd.2⟩
        · intro i hi
          simp only [List.mem_append, List.mem_singleton] at hi
          rcases hi with hi | hi
          · exact h3 i hi
          · rw [hi]; exact hj

theorem cpoRecover2_points (vertices : List PartitionVertex) (dp : DPTable2) (n : Nat)
    (S : List TPPLPoint) (hn : 0 < n) (hdp : PairsBounded n dp)
    (hp : ∀ i, i < n → (vtx vertices i).p ∈ S) :
    ∀ (fuel : Nat) (diagonals : List Diagonal) (parts : TPPLPolyList),
      DiagonalsBounded n diagonals →
      ∃ new, cpoRecover2 vertices dp n fuel diagonals parts = parts ++ new ∧ PointsIn S new := by
  intro fuel
  induction fuel with
  | zero =>
    intro diagonals parts _
    cases diagonals with
    | nil => exact ⟨[], by simp [cpoRecover2], by simp [PointsIn]⟩
    | cons d ds => exact ⟨[], by simp [cpoRecover2], by simp [PointsIn]⟩
  | succ fuel ih =>
    intro diagonals parts hq
    cases diagonals with
    | nil => exact ⟨[], by simp [cpoRecover2], by simp [PointsIn]⟩
    | cons d ds =>
      unfold cpoRecover2
      have hd := hq d (by simp)
      have hds : DiagonalsBounded n ds := fun x hx => hq x (List.mem_cons_of_mem _ hx)
      simp only
      split
      · exact ih _ _ hds
      · obtain ⟨hc1, hc2⟩ := cpoCollect_bounded vertices dp n hn hdp (2 * n + 2) ds [d]
          [d.index1, d.index2] hds (by
            intro x hx
            simp only [List.mem_singleton] at hx
            rw [hx]; exact hd) (by
            intro i hi
            simp only [List.mem_cons, List.mem_singleton, List.mem_nil_iff, or_false] at hi
            rcases hi with hi | hi
            · rw [hi]; exact hd.1
            · rw [hi]; exact hd.2)
        obtain ⟨new, hnew, hin⟩ := ih _ (parts ++ [TPPLPoly.ofPoints
          (((cpoCollect vertices dp (2 * n + 2) ds [d] [d.index1, d.index2]).2.insertionSort
            (fun a b => a ≤ b)).map (fun i => (vtx vertices i).p))]) hc1
        refine ⟨TPPLPoly.ofPoints
          (((cpoCollect vertices dp (2 * n + 2) ds [d] [d.index1, d.index2]).2.insertionSort
            (fun a b => a ≤ b)).map (fun i => (vtx vertices i).p)) :: new,
          by rw [hnew]; simp, ?_⟩
        intro t ht x hx
        simp only [List.mem_cons] at ht
        rcases ht with ht | ht
        · rw [ht] at hx
          simp only [TPPLPoly.ofPoints, List.mem_map] at hx
          obtain ⟨i, hi, rfl⟩ := hx
          exact hp i (hc2 i ((List.mem_insertionSort _).mp hi))
        · exact hin t ht x hx

theorem UpdateVertexReflexity_sameLinks (v : Nat) (vs : List PartitionVertex) :
    SameLinks vs (UpdateVertexReflexity v vs) := by
  unfold UpdateVertexReflexity
  refine ⟨by simp, fun i => ?_⟩
  simp only [vtx_set]
  split
  · next h => obtain ⟨rfl, _⟩ := h; exact ⟨rfl, rfl, rfl, rfl⟩
  · exact ⟨rfl, rfl, rfl, rfl⟩

theorem cpoVertices_points (poly : TPPLPoly) (i : Nat) (hi : i < poly.GetNumPoints) :
    (vtx ((cpoVertices poly poly.GetNumPoints).set 0
      { vtx (cpoVertices poly poly.GetNumPoints) 0 with isConvex := false }) i).p
      = poly.GetPoint i := by
  have h1 : SameLinks (initVertices poly poly.GetNumPoints)
      (cpoVertices poly poly.GetNumPoints) := by
    unfold cpoVertices
    apply foldl_invariant (SameLinks (initVertices poly poly.GetNumPoints))
    · exact SameLinks.refl _
    · intro vs j _ hvs
      exact hvs.trans (UpdateVertexReflexity_sameLinks j vs)
  have h2 : (vtx ((cpoVertices poly poly.GetNumPoints).set 0
      { vtx (cpoVertices poly poly.GetNumPoints) 0 with isConvex := false }) i).p
      = (vtx (cpoVertices poly poly.GetNumPoints) i).p := by
    rw [vtx_set]
    split
    · next h => obtain ⟨rfl, _⟩ := h; rfl
    · rfl
  rw [h2, (h1.2 i).2.1, vtx_initVertices poly _ i hi]

theorem ConvexPartition_OPT_points (poly : TPPLPoly) (out : TPPLPolyList) :
    ∃ new, (ConvexPartition_OPT poly out).2 = out ++ new ∧ PointsIn poly.points new := by
  unfold ConvexPartition_OPT
  by_cases hv : poly.Valid = true
  swap
  · simp only [hv, Bool.not_false, if_true]
    exact ⟨[], by simp, by simp [PointsIn]⟩
  have hn : 3 ≤ poly.GetNumPoints := by simpa [TPPLPoly.Valid] using hv
  simp only [hv, Bool.not_true, Bool.false_eq_true, if_false]
  split
  · exact ⟨[], by simp, by simp [PointsIn]⟩
  · next dp1 hr =>
    have hdp1 := cpoRecover1_pairsBounded _ poly.GetNumPoints _ _ _ dp1
      (cpoFill_pairsBounded (cpoInit_pairsBounded poly _ poly.GetNumPoints) _) hr
    exact cpoRecover2_points _ dp1 poly.GetNumPoints poly.points (by omega) hdp1
      (fun i hi => by rw [cpoVertices_points poly i hi]; exact GetPoint_mem poly hi)
      _ _ out (by
        intro d hd
        simp only [List.mem_singleton] at hd
        rw [hd]; simp only; omega)

/-- C3: for each of the single-polygon operations `Triangulate_EC`, `Triangulate_OPT`,
`ConvexPartition_HM` and `ConvexPartition_OPT` and every input polygon, every point of every
polygon appended to the output is a point of the input polygon, with its `x`, `y` and
`id`. -/
theorem C3_output_points_are_input_points (sqrt : ℚ → ℚ) (poly : TPPLPoly)
    (out : TPPLPolyList) :
    (∃ new, (Triangulate_EC sqrt poly out).2 = out ++ new ∧
      ∀ t ∈ new, ∀ q ∈ t.points, ∃ p ∈ poly.points, q.x = p.x ∧ q.y = p.y ∧ q.id = p.id) ∧
    (∃ new, (Triangulate_OPT sqrt poly out).2 = out ++ new ∧
      ∀ t ∈ new, ∀ q ∈ t.points, ∃ p ∈ poly.points, q.x = p.x ∧ q.y = p.y ∧ q.id = p.id) ∧
    (∃ new, (ConvexPartition_HM sqrt poly out).2 = out ++ new ∧
      ∀ t ∈ new, ∀ q ∈ t.points, ∃ p ∈ poly.points, q.x = p.x ∧ q.y = p.y ∧ q.id = p.id) ∧
    (∃ new, (ConvexPartition_OPT poly out).2 = out ++ new ∧
      ∀ t ∈ new, ∀ q ∈ t.points, ∃ p ∈ poly.points, q.x = p.x ∧ q.y = p.y ∧ q.id = p.id) := by
  refine ⟨?_, ?_, ?_, ?_⟩
  · obtain ⟨new, h1, h2, _⟩ := Triangulate_EC_spec sqrt poly out
    exact ⟨new, h1, fun t ht q hq => ⟨q, h2 t ht q hq, rfl, rfl, rfl⟩⟩
  · obtain ⟨new, h1, h2⟩ := Triangulate_OPT_points sqrt poly out
    exact ⟨new, h1, fun t ht q hq => ⟨q, h2 t ht q hq, rfl, rfl, rfl⟩⟩
  · obtain ⟨new, h1, h2⟩ := ConvexPartition_HM_points sqrt poly out
    exact ⟨new, h1, fun t ht q hq => ⟨q, h2 t ht q hq, rfl, rfl, rfl⟩⟩
  · obtain ⟨new, h1, h2⟩ := ConvexPartition_OPT_points poly out
    exact ⟨new, h1, fun t ht q hq => ⟨q, h2 t ht q hq, rfl, rfl, rfl⟩⟩

/-! ## Instances on concrete inputs -/

theorem C1_witness :
    (Triangulate_EC sqrtApprox squarePoly []).1 = 1 ∧
    (3 ≤ squarePoly.GetNumPoints ∧ ∃ new, (Triangulate_EC sqrtApprox squarePoly []).2 = [] ++ new ∧
      new.length = squarePoly.GetNumPoints - 2 ∧ ∀ t ∈ new, t.GetNumPoints = 3) :=
  ⟨by decide!, C1_Triangulate_EC_count sqrtApprox squarePoly [] (by decide!)⟩

theorem C2_witness :
    (Triangulate_EC sqrtApprox squarePoly []).1 = 1 ∧
    ∃ new, (Triangulate_EC sqrtApprox squarePoly []).2 = [] ++ new ∧
      shoelaceSum new = squarePoly.shoelace :=
  ⟨by decide!, C2_Triangulate_EC_shoelace sqrtApprox squarePoly [] (by decide!)⟩

theorem C4_witness :
    (RemoveHoles sqrtApprox [squarePoly, squareHole] []).1 = 1 ∧
    (shoelaceSum (RemoveHoles sqrtApprox [squarePoly, squareHole] []).2
        = shoelaceSum [squarePoly, squareHole] ∧
      shoelaceSum [squarePoly, squareHole] = 2 * (100 - 16)) :=
  ⟨by decide!, C4_RemoveHoles_shoelace sqrtApprox [squarePoly, squareHole] (by decide!)⟩

theorem C6_witness :
    (RemoveHoles sqrtApprox [squarePoly, squareHole] []).1 = 1 ∧
    ((∀ poly ∈ (RemoveHoles sqrtApprox [squarePoly, squareHole] []).2, poly.IsHole = false) ∧
      RemoveHoles sqrtApprox (RemoveHoles sqrtApprox [squarePoly, squareHole] []).2 []
        = (1, (RemoveHoles sqrtApprox [squarePoly, squareHole] []).2)) :=
  ⟨by decide!, C6_RemoveHoles_idempotent sqrtApprox [squarePoly, squareHole] (by decide!)⟩

theorem C9_witness :
    3 ≤ squarePoly.GetNumPoints ∧
    ConvexPartition_HM sqrtApprox squarePoly [] = (1, [] ++ [squarePoly]) :=
  ⟨by decide, C9_ConvexPartition_HM_no_reflex sqrtApprox squarePoly [] (by decide)
    (by decide!)⟩

theorem C5_witness :
    (RemoveHoles sqrtApprox [squarePoly, squareHole] []).1 = 1 ∧
    (RemoveHoles sqrtApprox [squarePoly, squareHole] []).2.length
      = numNonHoles [squarePoly, squareHole] ∧
    totalPoints (RemoveHoles sqrtApprox [squarePoly, squareHole] []).2
      = totalPoints [squarePoly, squareHole] + 2 * numHoles [squarePoly, squareHole] :=
  ⟨by decide!,
    (C5_RemoveHoles_counts sqrtApprox [squarePoly, squareHole] (by decide!)).1,
    (C5_RemoveHoles_counts sqrtApprox [squarePoly, squareHole] (by decide!)).2.1⟩

/-! ## Invalid polygons -/

theorem monoNumVertices_invalid :
    ∀ (inpolys : TPPLPolyList) (init : Nat), (∃ poly ∈ inpolys, poly.GetNumPoints < 3) →
      inpolys.foldlM (fun numvertices poly =>
        if !poly.Valid then none else some (numvertices + poly.GetNumPoints)) init = none
  | [], _, h => by simp at h
  | poly :: rest, init, h => by
    rw [List.foldlM_cons]
    by_cases hv : poly.Valid = true
    · simp only [hv, Bool.not_true, Bool.false_eq_true, if_false, Option.some_bind,
        Option.bind_eq_bind]
      apply monoNumVertices_invalid rest
      obtain ⟨p, hp, hlt⟩ := h
      simp only [List.mem_cons] at hp
      rcases hp with hp | hp
      · subst hp
        simp only [TPPLPoly.Valid, decide_eq_true_eq] at hv
        omega
      · exact ⟨p, hp, hlt⟩
    · simp [hv]

/-- C8: on a polygon with fewer than three points the single-polygon operations
`Triangulate_EC`, `Triangulate_OPT`, `Triangulate_MONO`, `ConvexPartition_HM` and
`ConvexPartition_OPT` return 0 and append nothing; `MonotonePartition` returns 0 and
appends nothing when any polygon of its input list has fewer than three points. -/
theorem C8_invalid_polygon_rejected (sqrt : ℚ → ℚ)
    (sweep : TPPLPolyList → Nat → TPPLPolyList → Int × TPPLPolyList)
    (triangulateMonotone : TPPLPoly → TPPLPolyList → Int × TPPLPolyList)
    (poly : TPPLPoly) (out : TPPLPolyList) (h : poly.GetNumPoints < 3) :
    Triangulate_EC sqrt poly out = (0, out) ∧
    Triangulate_OPT sqrt poly out = (0, out) ∧
    Triangulate_MONO sweep triangulateMonotone poly out = (0, out) ∧
    ConvexPartition_HM sqrt poly out = (0, out) ∧
    ConvexPartition_OPT poly out = (0, out) ∧
    ∀ inpolys : TPPLPolyList, poly ∈ inpolys → MonotonePartition sweep inpolys out = (0, out) := by
  have hv : poly.Valid = false := by
    simp only [TPPLPoly.Valid, decide_eq_false_iff_not]
    omega
  have hmono : ∀ (inpolys outp : TPPLPolyList), poly ∈ inpolys →
      MonotonePartition sweep inpolys outp = (0, outp) := by
    intro inpolys outp hp
    unfold MonotonePartition monoNumVertices
    rw [monoNumVertices_invalid inpolys 0 ⟨poly, hp, h⟩]
  refine ⟨?_, ?_, ?_, ?_, ?_, fun inpolys hp => hmono inpolys out hp⟩
  · simp [Triangulate_EC, hv]
  · simp [Triangulate_OPT, hv]
  · unfold Triangulate_MONO Triangulate_MONO_list
    rw [hmono [poly] [] (by simp)]
    rfl
  · simp [ConvexPartition_HM, hv]
  · simp [ConvexPartition_OPT, hv]

theorem C8_witness :
    Triangulate_EC sqrtApprox ⟨[⟨0, 0, 0⟩, ⟨1, 0, 1⟩], false⟩ [] = (0, []) ∧
    Triangulate_OPT sqrtApprox ⟨[⟨0, 0, 0⟩, ⟨1, 0, 1⟩], false⟩ [] = (0, []) ∧
    ConvexPartition_HM sqrtApprox ⟨[⟨0, 0, 0⟩, ⟨1, 0, 1⟩], false⟩ [] = (0, []) ∧
    ConvexPartition_OPT ⟨[⟨0, 0, 0⟩, ⟨1, 0, 1⟩], false⟩ [] = (0, []) :=
  have h := C8_invalid_polygon_rejected sqrtApprox (fun _ _ out => (1, out))
    (fun _ out => (1, out)) ⟨[⟨0, 0, 0⟩, ⟨1, 0, 1⟩], false⟩ [] (by decide)
  ⟨h.1, h.2.1, h.2.2.2.1, h.2.2.2.2.1⟩

/-! ## Convexity of merged polygons -/

theorem add_mod_ne_self {n stop s : Nat} (hstop : stop < n) (hs : 0 < s) (hsn : s < n) :
    (stop + s) % n ≠ stop := by
  by_cases h : stop + s < n
  · rw [Nat.mod_eq_of_lt h]; omega
  · rw [Nat.mod_eq_sub_mod (by omega), Nat.mod_eq_of_lt (by omega)]; omega

theorem copyLoop_eq (poly : TPPLPoly) (stop : Nat) (hstop : stop < poly.GetNumPoints) :
    ∀ (fuel s : Nat), 1 ≤ s → s ≤ poly.GetNumPoints → poly.GetNumPoints - s ≤ fuel →
      copyLoop poly stop fuel ((stop + s) % poly.GetNumPoints) = (poly.points.rotate stop).drop s := by
  have hlen : (poly.points.rotate stop).length = poly.GetNumPoints := by
    simp [TPPLPoly.GetNumPoints]
  have hfull : ∀ s, s = poly.GetNumPoints → (poly.points.rotate stop).drop s = [] := by
    intro s hs
    rw [List.drop_eq_nil_iff, hlen, hs]
  intro fuel
  induction fuel with
  | zero =>
    intro s _ h2 h3
    rw [hfull s (by omega)]
    rfl
  | succ fuel ih =>
    intro s h1 h2 h3
    unfold copyLoop
    by_cases hs : s = poly.GetNumPoints
    · rw [hfull s hs, hs, Nat.add_mod_right, Nat.mod_eq_of_lt hstop]
      simp
    · have hlt : s < poly.GetNumPoints := by omega
      have hlt2 : s < poly.points.length := hlt
      have hR : (poly.points.rotate stop).drop s
          = poly.GetPoint ((stop + s) % poly.GetNumPoints)
            :: (poly.points.rotate stop).drop (s + 1) := by
        rw [List.drop_eq_getElem_cons (by rw [hlen]; exact hlt)]
        congr 1
        rw [List.getElem_rotate]
        unfold TPPLPoly.GetPoint TPPLPoly.GetNumPoints
        rw [List.getD_eq_getElem _ _ (Nat.mod_lt _ (by omega)), Nat.add_comm]
      rw [if_neg (add_mod_ne_self hstop (by omega) hlt), Nat.mod_add_mod, hR]
      congr 1
      exact ih (s + 1) (by omega) (by omega) (by omega)

theorem hmMerge_points (poly1 poly2 : TPPLPoly) (i11 i21 : Nat)
    (h1 : i11 < poly1.GetNumPoints) (h2 : i21 < poly2.GetNumPoints) :
    (hmMerge poly1 poly2 i11 ((i11 + 1) % poly1.GetNumPoints) i21
      ((i21 + 1) % poly2.GetNumPoints)).points
      = (poly1.points.rotate i11).drop 1 ++ (poly2.points.rotate i21).drop 1 := by
  unfold hmMerge TPPLPoly.ofPoints
  simp only
  rw [copyLoop_eq poly1 i11 h1 _ 1 (by omega) (by omega) (by omega),
    copyLoop_eq poly2 i21 h2 _ 1 (by omega) (by omega) (by omega)]

theorem hasReflex_eq_false_iff (poly : TPPLPoly) :
    hasReflex poly = false ↔ ∀ v, v < poly.GetNumPoints → ReflexAt poly v = false := by
  unfold hasReflex ReflexAt
  rw [List.any_eq_false]
  constructor
  · intro h v hv
    have := h v (List.mem_range.mpr hv)
    simpa using this
  · intro h v hv
    have := h v (List.mem_range.mp hv)
    simpa using this

/-! ## Convexity of the ears of `Triangulate_EC` -/

theorem findEar_foldl_isEar (vs : List PartitionVertex) (l : List Nat) (init : Option Nat)
    (e : Nat)
    (h : l.foldl (fun ear j =>
      if !(vtx vs j).isActive then ear
      else if !(vtx vs j).isEar then ear
      else match ear with
        | none => some j
        | some e => if (vtx vs j).angle > (vtx vs e).angle then some j else some e) init
      = some e) :
    init = some e ∨ (vtx vs e).isEar = true := by
  induction l generalizing init with
  | nil => left; simpa using h
  | cons j l ih =>
    rw [List.foldl_cons] at h
    rcases ih _ h with h1 | h1
    · by_cases ha : (vtx vs j).isActive = true
      · by_cases hb : (vtx vs j).isEar = true
        · simp only [ha, hb, Bool.not_true, Bool.false_eq_true, if_false] at h1
          cases init with
          | none =>
            simp only [Option.some.injEq] at h1
            right; subst h1; exact hb
          | some e0 =>
            simp only at h1
            split at h1
            · simp only [Option.some.injEq] at h1
              right; subst h1; exact hb
            · left; exact h1
        · simp only [ha, hb, Bool.not_true, Bool.false_eq_true, if_false, Bool.not_false,
            if_true] at h1
          left; exact h1
      · simp only [ha, Bool.not_false, if_true] at h1
        left; exact h1
    · right; exact h1

theorem findEar_isEar {vs : List PartitionVertex} {n e : Nat} (h : findEar vs n = some e) :
    (vtx vs e).isEar = true := by
  rcases findEar_foldl_isEar vs (List.range n) none e h with h1 | h1
  · exact absurd h1 (by simp)
  · exact h1

theorem UpdateVertex_earOkAt_self (sqrt : ℚ → ℚ) (v : Nat) (vs : List PartitionVertex)
    (n : Nat) (hv : v < vs.length) : EarOkAt (UpdateVertex sqrt v vs n) v := by
  have hs := UpdateVertex_sameLinks sqrt v vs n
  obtain ⟨_, hp, hprev, hnext⟩ := hs.2 v
  unfold EarOkAt
  rw [hprev, hnext, hp, (hs.2 (vtx vs v).previous).2.1, (hs.2 (vtx vs v).next).2.1]
  intro h
  unfold UpdateVertex at h
  simp only at h
  rw [vtx_set_eq _ _ hv] at h
  simp only at h
  by_contra hc
  simp [hc] at h

theorem UpdateVertex_earOkAt_other (sqrt : ℚ → ℚ) (v : Nat) (vs : List PartitionVertex)
    (n i : Nat) (hne : i ≠ v) (h : EarOkAt vs i) : EarOkAt (UpdateVertex sqrt v vs n) i := by
  have hs := UpdateVertex_sameLinks sqrt v vs n
  have hi : vtx (UpdateVertex sqrt v vs n) i = vtx vs i := by
    unfold UpdateVertex
    exact vtx_set_ne _ _ (Ne.symm hne)
  unfold EarOkAt
  rw [hi, (hs.2 (vtx vs i).previous).2.1, (hs.2 (vtx vs i).next).2.1]
  exact h

theorem foldl_UpdateVertex_earOk (sqrt : ℚ → ℚ) (n : Nat) :
    ∀ (l : List Nat) (vs : List PartitionVertex), (∀ i ∈ l, i < vs.length) →
      (∀ i, i ∈ l ∨ EarOkAt vs i) →
      ∀ i, EarOkAt (l.foldl (fun vs i => UpdateVertex sqrt i vs n) vs) i
  | [], vs, _, h, i => by
    rcases h i with h | h
    · simp at h
    · exact h
  | a :: l, vs, hlt, h, i => by
    rw [List.foldl_cons]
    have hs := UpdateVertex_sameLinks sqrt a vs n
    apply foldl_UpdateVertex_earOk sqrt n l
    · intro j hj
      rw [hs.1]
      exact hlt j (List.mem_cons_of_mem _ hj)
    · intro j
      by_cases hja : j = a
      · right
        rw [hja]
        exact UpdateVertex_earOkAt_self sqrt a vs n (hlt a (List.mem_cons_self _ _))
      · rcases h j with h1 | h1
        · rcases List.mem_cons.mp h1 with h2 | h2
          · exact absurd h2 hja
          · left; exact h2
        · right
          exact UpdateVertex_earOkAt_other sqrt a vs n j hja h1

theorem hmSize_eq (triangles : TPPLPolyList) :
    hmSize triangles = totalPoints triangles + triangles.length := by
  induction triangles with
  | nil => rfl
  | cons a l ih =>
    unfold hmSize totalPoints at ih ⊢
    simp only [List.map_cons, List.sum_cons, List.length_cons]
    omega

theorem sum_map_drop_succ (f : TPPLPoly → Nat) (l : TPPLPolyList) (j : Nat) (h : j < l.length) :
    ((l.drop j).map f).sum = f (polyAt l j) + ((l.drop (j + 1)).map f).sum := by
  rw [List.drop_eq_getElem_cons h]
  unfold polyAt
  rw [List.getD_eq_getElem l default h]
  simp only [List.map_cons, List.sum_cons]

theorem sum_map_drop_le (f : TPPLPoly → Nat) (l : TPPLPolyList) (j : Nat) :
    ((l.drop j).map f).sum ≤ (l.map f).sum := by
  have h : (l.map f).sum = ((l.take j).map f).sum + ((l.drop j).map f).sum := by
    rw [← List.sum_append, ← List.map_append, List.take_append_drop]
  omega

theorem sum_map_set (f : TPPLPoly → Nat) (a : TPPLPoly) :
    ∀ (l : TPPLPolyList) (i : Nat), i < l.length →
      ((l.set i a).map f).sum + f (polyAt l i) = (l.map f).sum + f a
  | [], i, h => by simp at h
  | b :: l, 0, _ => by
    simp only [List.set_cons_zero, List.map_cons, List.sum_cons, polyAt, List.getD_cons_zero]
    omega
  | b :: l, i + 1, h => by
    have ih := sum_map_set f a l i (by simpa using h)
    simp only [polyAt] at ih ⊢
    simp only [List.set_cons_succ, List.map_cons, List.sum_cons, List.getD_cons_succ]
    omega

theorem hmRest_le (triangles : TPPLPolyList) (iter1 i11 : Nat) (h : iter1 < triangles.length) :
    hmRest triangles iter1 i11 ≤ hmSize triangles := by
  have h1 := sum_map_drop_succ (fun t => t.GetNumPoints + 1) triangles iter1 h
  have h2 := sum_map_drop_le (fun t => t.GetNumPoints + 1) triangles iter1
  unfold hmRest hmSize
  simp only at h1
  omega

/-- A merge removes one polygon and three units of `hmSize`. -/
theorem hmEdge_size {triangles triangles1 : TPPLPolyList} {iter1 i11 : Nat}
    (hit : iter1 < triangles.length) (hi : i11 < (polyAt triangles iter1).GetNumPoints)
    (h : hmEdge triangles iter1 i11 = some triangles1) :
    triangles1.length + 1 = triangles.length ∧ iter1 < triangles1.length ∧
      hmSize triangles1 + 3 = hmSize triangles := by
  obtain ⟨iter2, i21, hf, _, _, rfl⟩ := hmEdge_some h
  obtain ⟨h1, h2, h3, _, _⟩ := findDiagonal_some hf
  have hlen : (triangles.eraseIdx iter2).length = triangles.length - 1 :=
    List.length_eraseIdx_of_lt h2
  have hnew : (hmMerge (polyAt triangles iter1) (polyAt triangles iter2) i11
      ((i11 + 1) % (polyAt triangles iter1).GetNumPoints) i21
      ((i21 + 1) % (polyAt triangles iter2).GetNumPoints)).GetNumPoints + 2
      = (polyAt triangles iter1).GetNumPoints + (polyAt triangles iter2).GetNumPoints := by
    have hlen2 := congrArg List.length (hmMerge_points _ _ i11 i21 hi h3)
    simp only [List.length_append, List.length_drop, List.length_rotate] at hlen2
    unfold TPPLPoly.GetNumPoints at hi h3 hlen2 ⊢
    omega
  have e1 := sum_map_eraseIdx (fun t => t.GetNumPoints + 1) triangles iter2 h2
  have e2 := sum_map_set (fun t => t.GetNumPoints + 1)
    (hmMerge (polyAt triangles iter1) (polyAt triangles iter2) i11
      ((i11 + 1) % (polyAt triangles iter1).GetNumPoints) i21
      ((i21 + 1) % (polyAt triangles iter2).GetNumPoints))
    (triangles.eraseIdx iter2) iter1 (by omega)
  have e3 : polyAt (triangles.eraseIdx iter2) iter1 = polyAt triangles iter1 := by
    rw [polyAt_eraseIdx, if_pos h1]
  rw [e3] at e2
  simp only at e1 e2
  refine ⟨by rw [List.length_set]; omega, by rw [List.length_set]; omega, ?_⟩
  unfold hmSize
  omega

theorem hmLoop_stable :
    ∀ (fuel : Nat) (triangles : TPPLPolyList) (iter1 i11 : Nat),
      hmMeasure triangles iter1 i11 ≤ fuel →
      hmLoop (fuel + 1) triangles iter1 i11 = hmLoop fuel triangles iter1 i11
  | 0, triangles, iter1, i11, h => by
    unfold hmMeasure at h
    by_cases hit : iter1 < triangles.length
    · rw [if_pos hit] at h
      unfold hmRest at h
      omega
    · unfold hmLoop
      rw [if_neg hit]
  | fuel + 1, triangles, iter1, i11, h => by
    conv_lhs => rw [hmLoop]
    conv_rhs => rw [hmLoop]
    by_cases hit : iter1 < triangles.length
    · rw [if_pos hit, if_pos hit]
      unfold hmMeasure at h
      rw [if_pos hit] at h
      by_cases hi : i11 < (polyAt triangles iter1).GetNumPoints
      · rw [if_pos hi, if_pos hi]
        cases he : hmEdge triangles iter1 i11 with
        | none =>
          simp only
          apply hmLoop_stable fuel
          unfold hmMeasure
          rw [if_pos hit]
          unfold hmRest at h ⊢
          omega
        | some triangles1 =>
          simp only
          apply hmLoop_stable fuel
          obtain ⟨hl, hit1, hsz⟩ := hmEdge_size hit hi he
          have hr := hmRest_le triangles1 iter1 0 hit1
          unfold hmMeasure
          rw [if_pos hit1]
          have hmul : triangles1.length * (hmSize triangles1 + 1)
              ≤ triangles1.length * (hmSize triangles + 1) :=
            Nat.mul_le_mul_left _ (by omega)
          have hsplit : triangles.length * (hmSize triangles + 1)
              = triangles1.length * (hmSize triangles + 1) + (hmSize triangles + 1) := by
            rw [← hl, Nat.add_mul, Nat.one_mul]
          omega
      · rw [if_neg hi, if_neg hi]
        apply hmLoop_stable fuel
        unfold hmMeasure
        by_cases hit1 : iter1 + 1 < triangles.length
        · rw [if_pos hit1]
          have h1 := sum_map_drop_succ (fun t => t.GetNumPoints + 1) triangles (iter1 + 1) hit1
          simp only at h1
          unfold hmRest at h ⊢
          omega
        · rw [if_neg hit1]
          omega
    · rw [if_neg hit, if_neg hit]

/-- The step bound `hmFuel` of the model is never reached: more steps give the same list. -/
theorem hmLoop_fuel_adequate (triangles : TPPLPolyList) (k : Nat) :
    hmLoop (hmFuel triangles + k) triangles 0 0 = hmLoop (hmFuel triangles) triangles 0 0 := by
  have h0 : hmMeasure triangles 0 0 ≤ hmFuel triangles := by
    unfold hmMeasure hmFuel
    split
    · next hit =>
      have hr := hmRest_le triangles 0 0 hit
      rw [hmSize_eq] at hr ⊢
      have e : (triangles.length + 1) * (totalPoints triangles + triangles.length + 2)
          = triangles.length * (totalPoints triangles + triangles.length + 2)
            + (totalPoints triangles + triangles.length + 2) := by
        rw [Nat.add_mul, Nat.one_mul]
      have : triangles.length * (totalPoints triangles + triangles.length + 1)
          ≤ triangles.length * (totalPoints triangles + triangles.length + 2) :=
        Nat.mul_le_mul_left _ (by omega)
      omega
    · exact Nat.zero_le _
  induction k with
  | zero => rfl
  | succ k ih =>
    rw [← Nat.add_assoc, hmLoop_stable _ _ _ _ (by omega)]
    exact ih

/-! ## The documented examples -/

/-- C18 (as stated, refuted): on the colinear polygon `[(0,0),(1,0),(2,0)]` the
single-polygon `Triangulate_EC` returns 1, not 0, and so does `Triangulate_OPT`. -/
theorem C18_counterexample :
    (Triangulate_EC sqrtApprox flatTriangle []).1 = 1 ∧
    (Triangulate_OPT sqrtApprox flatTriangle []).1 = 1 := by
  decide!

/-- C18 (amended): on the colinear polygon `[(0,0),(1,0),(2,0)]` the single-polygon
`Triangulate_MONO` returns 0 and appends nothing, while `Triangulate_EC` and
`Triangulate_OPT` return 1 and append the polygon itself as their one triangle. -/
theorem C18_colinear_triangle_amended :
    Triangulate_MONO monoSweep TriangulateMonotone flatTriangle [] = (0, []) ∧
    Triangulate_EC sqrtApprox flatTriangle [] = (1, [flatTriangle]) ∧
    Triangulate_OPT sqrtApprox flatTriangle [] = (1, [flatTriangle]) := by
  decide!

/-- C19: on the square `[(0,0),(10,0),(10,10),(0,10)]` each of the single-polygon
`Triangulate_EC`, `Triangulate_OPT` and `Triangulate_MONO` returns 1 and appends exactly two
triangles, whose shoelace sums add up to `2 * 100` (signed areas: 100). -/
theorem C19_square_two_triangles :
    (Triangulate_EC sqrtApprox squarePoly []).1 = 1 ∧
    (Triangulate_EC sqrtApprox squarePoly []).2.length = 2 ∧
    (∀ t ∈ (Triangulate_EC sqrtApprox squarePoly []).2, t.GetNumPoints = 3) ∧
    shoelaceSum (Triangulate_EC sqrtApprox squarePoly []).2 = 2 * 100 ∧
    (Triangulate_OPT sqrtApprox squarePoly []).1 = 1 ∧
    (Triangulate_OPT sqrtApprox squarePoly []).2.length = 2 ∧
    (∀ t ∈ (Triangulate_OPT sqrtApprox squarePoly []).2, t.GetNumPoints = 3) ∧
    shoelaceSum (Triangulate_OPT sqrtApprox squarePoly []).2 = 2 * 100 ∧
    (Triangulate_MONO monoSweep TriangulateMonotone squarePoly []).1 = 1 ∧
    (Triangulate_MONO monoSweep TriangulateMonotone squarePoly []).2.length = 2 ∧
    (∀ t ∈ (Triangulate_MONO monoSweep TriangulateMonotone squarePoly []).2,
      t.GetNumPoints = 3) ∧
    shoelaceSum (Triangulate_MONO monoSweep TriangulateMonotone squarePoly []).2
      = 2 * 100 := by
  decide!

/-- C20: on the L-shape `[(0,0),(4,0),(4,2),(2,2),(2,4),(0,4)]`, `Triangulate_EC` returns 1
with 4 triangles, `ConvexPartition_HM` returns 1 with 2 polygons and `ConvexPartition_OPT`
returns 1 with 2 polygons, and in each of the three outputs the shoelace sums add up to
`2 * 12` (signed areas: 12). -/
theorem C20_ell_shape :
    (Triangulate_EC sqrtApprox ellPoly []).1 = 1 ∧
    (Triangulate_EC sqrtApprox ellPoly []).2.length = 4 ∧
    (∀ t ∈ (Triangulate_EC sqrtApprox ellPoly []).2, t.GetNumPoints = 3) ∧
    shoelaceSum (Triangulate_EC sqrtApprox ellPoly []).2 = 2 * 12 ∧
    (ConvexPartition_HM sqrtApprox ellPoly []).1 = 1 ∧
    (ConvexPartition_HM sqrtApprox ellPoly []).2.length = 2 ∧
    shoelaceSum (ConvexPartition_HM sqrtApprox ellPoly []).2 = 2 * 12 ∧
    (ConvexPartition_OPT ellPoly []).1 = 1 ∧
    (ConvexPartition_OPT ellPoly []).2.length = 2 ∧
    shoelaceSum (ConvexPartition_OPT ellPoly []).2 = 2 * 12 := by
  decide!

/-! ## Minimum-weight triangulation: the table -/

theorem foldl_range'_invariant {σ : Type} (Q : Nat → σ → Prop) (f : σ → Nat → σ) :
    ∀ (m a : Nat) (s : σ), Q a s →
      (∀ x s, a ≤ x → x < a + m → Q x s → Q (x + 1) (f s x)) →
      Q (a + m) ((List.range' a m).foldl f s)
  | 0, a, s, h0, _ => by simpa using h0
  | m + 1, a, s, h0, hstep => by
    rw [List.range'_succ, List.foldl_cons]
    have h1 := foldl_range'_invariant Q f m (a + 1) (f s a)
      (hstep a s (Nat.le_refl _) (by omega) h0)
      (fun x s hx1 hx2 hq => hstep x s (by omega) (by omega) hq)
    have e : a + (m + 1) = a + 1 + m := by omega
    rw [e]
    exact h1

theorem foldlM_range'_invariant {σ : Type} (Q : Nat → σ → Prop) (f : σ → Nat → Option σ) :
    ∀ (m a : Nat) (s r : σ), Q a s →
      (∀ x s s1, a ≤ x → x < a + m → Q x s → f s x = some s1 → Q (x + 1) s1) →
      (List.range' a m).foldlM f s = some r → Q (a + m) r
  | 0, a, s, r, h0, _, h => by
    simp only [List.range'_zero, List.foldlM_nil] at h
    cases h
    simpa using h0
  | m + 1, a, s, r, h0, hstep, h => by
    rw [List.range'_succ, List.foldlM_cons] at h
    cases hf : f s a with
    | none => rw [hf] at h; exact absurd h (by simp)
    | some s1 =>
      rw [hf] at h
      have h1 := foldlM_range'_invariant Q f m (a + 1) s1 r
        (hstep a s s1 (Nat.le_refl _) (by omega) h0 hf)
        (fun x s s2 hx1 hx2 hq => hstep x s s2 (by omega) (by omega) hq) h
      have e : a + (m + 1) = a + 1 + m := by omega
      rw [e]
      exact h1

theorem getD_set_self {α : Type} (l : List α) (i : Nat) (v d : α) (h : i < l.length) :
    (l.set i v).getD i d = v := by
  simp only [List.getD_eq_getElem?_getD, List.getElem?_set_self h, Option.getD_some]

theorem getD_set_ne {α : Type} (l : List α) {i j : Nat} (v d : α) (h : i ≠ j) :
    (l.set i v).getD j d = l.getD j d := by
  simp only [List.getD_eq_getElem?_getD, List.getElem?_set_ne h]

theorem DPTable.Shaped.set_cell {n : Nat} {dp : DPTable} (h : dp.Shaped n) (j i : Nat)
    (s : DPState) : (dp.set j i s).Shaped n := by
  unfold DPTable.set
  refine ⟨by rw [List.length_set]; exact h.1, fun a ha => ?_⟩
  by_cases haj : j = a
  · subst haj
    rw [getD_set_self _ _ _ _ (by rw [h.1]; exact ha), List.length_set]
    exact h.2 j ha
  · rw [getD_set_ne _ _ _ haj]
    exact h.2 a ha

theorem DPTable.get_set {n : Nat} {dp : DPTable} (h : dp.Shaped n) {j i : Nat} (hj : j < n)
    (hi : i < j) (s : DPState) (a b : Nat) :
    (dp.set j i s).get a b = if a = j ∧ b = i then s else dp.get a b := by
  unfold DPTable.get DPTable.set
  by_cases haj : a = j
  · subst haj
    rw [getD_set_self _ _ _ _ (by rw [h.1]; exact hj)]
    by_cases hbi : b = i
    · subst hbi
      rw [if_pos ⟨rfl, rfl⟩, getD_set_self _ _ _ _ (by rw [h.2 a hj]; exact hi)]
    · rw [if_neg (fun hc => hbi hc.2), getD_set_ne _ _ _ (Ne.symm hbi)]
  · rw [if_neg (fun hc => haj hc.1), getD_set_ne _ _ _ (Ne.symm haj)]

theorem baseTable_shaped (n : Nat) :
    DPTable.Shaped n ((List.range n).map (fun i => List.replicate i (default : DPState))) := by
  refine ⟨by simp, fun j hj => ?_⟩
  rw [List.getD_eq_getElem _ _ (by simpa using hj)]
  simp

theorem baseTable_get (n a b : Nat) :
    DPTable.get ((List.range n).map (fun i => List.replicate i (default : DPState))) a b
      = default := by
  have hrow : ∀ m : Nat, (List.replicate m (default : DPState)).getD b default = default := by
    intro m
    by_cases hb : b < m
    · rw [List.getD_eq_getElem _ _ (by simpa using hb)]
      simp
    · rw [List.getD_eq_default _ _ (by simpa using hb)]
  have hrows : ((List.range n).map (fun i => List.replicate i (default : DPState))).getD a []
      = List.replicate a default ∨
      ((List.range n).map (fun i => List.replicate i (default : DPState))).getD a [] = [] := by
    by_cases ha : a < n
    · left
      rw [List.getD_eq_getElem _ _ (by simpa using ha)]
      simp
    · right
      rw [List.getD_eq_default _ _ (by simpa using ha)]
  unfold DPTable.get
  rcases hrows with h | h
  · rw [h, hrow]
  · rw [h]; rfl

/-- A loop that writes `f a i` to the cells `(a, i)` for the rows `a` of a list. -/
theorem foldl_set_rows (n i : Nat) (f : Nat → DPState) :
    ∀ (l : List Nat) (dp : DPTable), dp.Shaped n → (∀ a ∈ l, i < a ∧ a < n) →
      DPTable.Shaped n (l.foldl (fun (dp : DPTable) j => dp.set j i (f j)) dp) ∧
      ∀ a b, (l.foldl (fun (dp : DPTable) j => dp.set j i (f j)) dp).get a b
        = if b = i ∧ a ∈ l then f a else dp.get a b
  | [], dp, h, _ => ⟨h, fun a b => by simp⟩
  | j :: l, dp, h, hl => by
    rw [List.foldl_cons]
    obtain ⟨h1, h2⟩ := foldl_set_rows n i f l (dp.set j i (f j)) (h.set_cell j i (f j))
      (fun a ha => hl a (List.mem_cons_of_mem _ ha))
    refine ⟨h1, fun a b => ?_⟩
    rw [h2 a b, DPTable.get_set h (hl j (List.mem_cons_self _ _)).2
      (hl j (List.mem_cons_self _ _)).1]
    by_cases hb : b = i
    · by_cases ha : a ∈ l
      · simp [hb, ha]
      · by_cases haj : a = j
        · simp [hb, haj]
        · simp [hb, ha, haj]
    · simp [hb]

/-- The two nested loops of the initialisation. -/
theorem foldl_set_cells (n : Nat) (f : Nat → Nat → DPState) :
    ∀ (l : List Nat) (dp : DPTable), dp.Shaped n →
      DPTable.Shaped n (l.foldl (fun (dp : DPTable) i =>
        (List.range' (i + 1) (n - (i + 1))).foldl (fun (dp : DPTable) j =>
          dp.set j i (f i j)) dp) dp) ∧
      ∀ a b, (l.foldl (fun (dp : DPTable) i =>
        (List.range' (i + 1) (n - (i + 1))).foldl (fun (dp : DPTable) j =>
          dp.set j i (f i j)) dp) dp).get a b
        = if b ∈ l ∧ b < a ∧ a < n then f b a else dp.get a b
  | [], dp, h => ⟨h, fun a b => by simp⟩
  | i :: l, dp, h => by
    rw [List.foldl_cons]
    obtain ⟨h1, h2⟩ := foldl_set_rows n i (f i) (List.range' (i + 1) (n - (i + 1))) dp h
      (fun a ha => by rw [List.mem_range'_1] at ha; omega)
    obtain ⟨h3, h4⟩ := foldl_set_cells n f l _ h1
    refine ⟨h3, fun a b => ?_⟩
    rw [h4 a b, h2 a b]
    by_cases hbl : b ∈ l ∧ b < a ∧ a < n
    · rw [if_pos hbl, if_pos ⟨List.mem_cons_of_mem _ hbl.1, hbl.2⟩]
    · rw [if_neg hbl]
      by_cases hbi : b = i
      · subst hbi
        by_cases hr : b < a ∧ a < n
        · rw [if_pos ⟨rfl, by rw [List.mem_range'_1]; omega⟩,
            if_pos ⟨List.mem_cons_self _ _, hr⟩]
        · rw [if_neg (fun hc => hr (by have := hc.2; rw [List.mem_range'_1] at this; omega)),
            if_neg (fun hc => hr hc.2)]
      · rw [if_neg (fun hc => hbi hc.1)]
        rw [if_neg]
        intro hc
        rcases List.mem_cons.mp hc.1 with h5 | h5
        · exact hbi h5
        · exact hbl ⟨h5, hc.2⟩

theorem optInit_shaped (poly : TPPLPoly) (n : Nat) : DPTable.Shaped n (optInit poly n) := by
  unfold optInit
  exact ((foldl_set_cells n (fun i j => ⟨optVisible poly n i j, 0, -1⟩) (List.range (n - 1)) _
    (baseTable_shaped n)).1).set_cell _ _ _

/-- The table after the initialisation. -/
theorem optInit_get (poly : TPPLPoly) (n : Nat) (hn : 3 ≤ n) (a b : Nat) :
    (optInit poly n).get a b =
      if a = n - 1 ∧ b = 0 then ⟨true, 0, -1⟩
      else if b < a ∧ a < n then ⟨optVisible poly n b a, 0, -1⟩ else default := by
  unfold optInit
  obtain ⟨h1, h2⟩ := foldl_set_cells n (fun i j => ⟨optVisible poly n i j, 0, -1⟩)
    (List.range (n - 1)) _ (baseTable_shaped n)
  simp only
  rw [DPTable.get_set h1 (by omega) (by omega), h2 a b, baseTable_get]
  by_cases h0 : a = n - 1 ∧ b = 0
  · rw [if_pos h0, if_pos h0]
  · rw [if_neg h0, if_neg h0]
    by_cases hr : b < a ∧ a < n
    · rw [if_pos hr, if_pos ⟨by rw [List.mem_range]; omega, hr⟩]
    · rw [if_neg hr, if_neg (fun hc => hr hc.2)]

theorem optBest_spec (sqrt : ℚ → ℚ) (poly : TPPLPoly) (dp : DPTable) (i j : Nat)
    (hij : i + 1 ≤ j) :
    ((optBest sqrt poly dp i j).1 = -1 ∧
      ∀ k1, i < k1 → k1 < j → ¬ ((dp.get k1 i).visible = true ∧ (dp.get j k1).visible = true)) ∨
    ∃ k : Nat, (optBest sqrt poly dp i j).1 = (k : Int) ∧ i < k ∧ k < j ∧
      (dp.get k i).visible = true ∧ (dp.get j k).visible = true ∧
      (optBest sqrt poly dp i j).2 = optCand sqrt poly dp i j k ∧
      ∀ k1, i < k1 → k1 < j → (dp.get k1 i).visible = true → (dp.get j k1).visible = true →
        (optBest sqrt poly dp i j).2 ≤ optCand sqrt poly dp i j k1 := by
  unfold optBest
  have key := foldl_range'_invariant
    (fun x (st : Int × ℚ) =>
      (st.1 = -1 ∧ ∀ k1, i < k1 → k1 < x →
        ¬ ((dp.get k1 i).visible = true ∧ (dp.get j k1).visible = true)) ∨
      ∃ k : Nat, st.1 = (k : Int) ∧ i < k ∧ k < x ∧
        (dp.get k i).visible = true ∧ (dp.get j k).visible = true ∧
        st.2 = optCand sqrt poly dp i j k ∧
        ∀ k1, i < k1 → k1 < x → (dp.get k1 i).visible = true →
          (dp.get j k1).visible = true → st.2 ≤ optCand sqrt poly dp i j k1)
    (fun (st : Int × ℚ) k =>
      if !(dp.get k i).visible then st
      else if !(dp.get j k).visible then st
      else
        let d1 := if k ≤ i + 1 then 0 else Distance sqrt (poly.GetPoint i) (poly.GetPoint k)
        let d2 := if j ≤ k + 1 then 0 else Distance sqrt (poly.GetPoint k) (poly.GetPoint j)
        let weight := (dp.get k i).weight + (dp.get j k).weight + d1 + d2
        if st.1 = -1 ∨ weight < st.2 then ((k : Int), weight) else st)
    (j - (i + 1)) (i + 1) (-1, 0) (Or.inl ⟨rfl, fun k1 h1 h2 => by omega⟩) ?_
  · have e : i + 1 + (j - (i + 1)) = j := by omega
    rw [e] at key
    exact key
  · intro x st hx1 hx2 hq
    have hext : ∀ k1, k1 < x + 1 → k1 < x ∨ k1 = x := fun k1 h => by omega
    by_cases hv1 : (dp.get x i).visible = true
    swap
    · simp only [hv1, Bool.not_false, if_true]
      rcases hq with ⟨h1, h2⟩ | ⟨k, h1, h2, h3, h4, h5, h6, h7⟩
      · left
        refine ⟨h1, fun k1 hk1 hk2 => ?_⟩
        rcases hext k1 hk2 with h | h
        · exact h2 k1 hk1 h
        · subst h; exact fun hc => hv1 hc.1
      · right
        refine ⟨k, h1, h2, by omega, h4, h5, h6, fun k1 hk1 hk2 hk3 hk4 => ?_⟩
        rcases hext k1 hk2 with h | h
        · exact h7 k1 hk1 h hk3 hk4
        · subst h; exact absurd hk3 hv1
    by_cases hv2 : (dp.get j x).visible = true
    swap
    · simp only [hv1, hv2, Bool.not_true, Bool.not_false, Bool.false_eq_true, if_false, if_true]
      rcases hq with ⟨h1, h2⟩ | ⟨k, h1, h2, h3, h4, h5, h6, h7⟩
      · left
        refine ⟨h1, fun k1 hk1 hk2 => ?_⟩
        rcases hext k1 hk2 with h | h
        · exact h2 k1 hk1 h
        · subst h; exact fun hc => hv2 hc.2
      · right
        refine ⟨k, h1, h2, by omega, h4, h5, h6, fun k1 hk1 hk2 hk3 hk4 => ?_⟩
        rcases hext k1 hk2 with h | h
        · exact h7 k1 hk1 h hk3 hk4
        · subst h; exact absurd hk4 hv2
    simp only [hv1, hv2, Bool.not_true, Bool.false_eq_true, if_false]
    have hc : (dp.get x i).weight + (dp.get j x).weight
        + (if x ≤ i + 1 then 0 else Distance sqrt (poly.GetPoint i) (poly.GetPoint x))
        + (if j ≤ x + 1 then 0 else Distance sqrt (poly.GetPoint x) (poly.GetPoint j))
        = optCand sqrt poly dp i j x := rfl
    rw [hc]
    right
    rcases hq with ⟨h1, h2⟩ | ⟨k, h1, h2, h3, h4, h5, h6, h7⟩
    · rw [if_pos (Or.inl h1)]
      refine ⟨x, rfl, by omega, by omega, hv1, hv2, rfl, fun k1 hk1 hk2 hk3 hk4 => ?_⟩
      rcases hext k1 hk2 with h | h
      · exact absurd ⟨hk3, hk4⟩ (h2 k1 hk1 h)
      · subst h; exact le_refl _
    · by_cases hlt : optCand sqrt poly dp i j x < st.2
      · rw [if_pos (Or.inr hlt)]
        refine ⟨x, rfl, by omega, by omega, hv1, hv2, rfl, fun k1 hk1 hk2 hk3 hk4 => ?_⟩
        rcases hext k1 hk2 with h | h
        · exact le_of_lt (lt_of_lt_of_le hlt (h7 k1 hk1 h hk3 hk4))
        · subst h; exact le_refl _
      · have hne : ¬ (st.1 = -1 ∨ optCand sqrt poly dp i j x < st.2) := by
          intro hc2
          rcases hc2 with hc2 | hc2
          · rw [h1] at hc2; omega
          · exact hlt hc2
        rw [if_neg hne]
        refine ⟨k, h1, h2, by omega, h4, h5, h6, fun k1 hk1 hk2 hk3 hk4 => ?_⟩
        rcases hext k1 hk2 with h | h
        · exact h7 k1 hk1 h hk3 hk4
        · subst h; exact not_lt.mp hlt


theorem optCand_congr (sqrt : ℚ → ℚ) (poly : TPPLPoly) {dp dp1 : DPTable} {i j k : Nat}
    (h1 : dp1.get k i = dp.get k i) (h2 : dp1.get j k = dp.get j k) :
    optCand sqrt poly dp1 i j k = optCand sqrt poly dp i j k := by
  unfold optCand
  rw [h1, h2]

theorem CellDone.congr {sqrt : ℚ → ℚ} {poly : TPPLPoly} {dp dp1 : DPTable} {i j : Nat}
    (h : CellDone sqrt poly dp i j) (h0 : dp1.get j i = dp.get j i)
    (h1 : ∀ k, i < k → k < j → dp1.get k i = dp.get k i ∧ dp1.get j k = dp.get j k) :
    CellDone sqrt poly dp1 i j := by
  intro hv
  rw [h0] at hv ⊢
  obtain ⟨k, e1, e2, e3, e4, e5, e6, e7⟩ := h hv
  refine ⟨k, e1, e2, e3, ?_, ?_, ?_, fun k1 hk1 hk2 hk3 hk4 => ?_⟩
  · rw [(h1 k e2 e3).1]; exact e4
  · rw [(h1 k e2 e3).2]; exact e5
  · rw [optCand_congr sqrt poly (h1 k e2 e3).1 (h1 k e2 e3).2]; exact e6
  · rw [optCand_congr sqrt poly (h1 k1 hk1 hk2).1 (h1 k1 hk1 hk2).2]
    rw [(h1 k1 hk1 hk2).1] at hk3
    rw [(h1 k1 hk1 hk2).2] at hk4
    exact e7 k1 hk1 hk2 hk3 hk4

theorem optCell_step (sqrt : ℚ → ℚ) (poly : TPPLPoly) (n : Nat) (dp0 dp dp1 : DPTable)
    (gap i : Nat) (hgap : 2 ≤ gap) (hi : i + gap < n) (h : FillInv sqrt poly n dp0 dp gap i)
    (hc : optCell sqrt poly gap dp i = some dp1) : FillInv sqrt poly n dp0 dp1 gap (i + 1) := by
  obtain ⟨hs, hvis, hedge, hdone⟩ := h
  unfold optCell at hc
  simp only at hc
  by_cases hv : (dp.get (i + gap) i).visible = true
  swap
  · simp only [hv, Bool.not_false, if_true, Option.some.injEq] at hc
    subst hc
    refine ⟨hs, hvis, hedge, fun a b hab hb hd => ?_⟩
    by_cases hnew : a = i ∧ b = i + gap
    · obtain ⟨rfl, rfl⟩ := hnew
      exact fun hc => absurd hc hv
    · exact hdone a b hab hb (by omega)
  simp only [hv, Bool.not_true, Bool.false_eq_true, if_false] at hc
  by_cases hb1 : (optBest sqrt poly dp i (i + gap)).1 = -1
  · simp only [hb1, if_true] at hc
    exact absurd hc (by simp)
  simp only [hb1, if_false, Option.some.injEq] at hc
  subst hc
  have hget := DPTable.get_set hs hi (show i < i + gap by omega)
    ⟨true, (optBest sqrt poly dp i (i + gap)).2, (optBest sqrt poly dp i (i + gap)).1⟩
  have hother : ∀ a b, ¬ (a = i + gap ∧ b = i) →
      (dp.set (i + gap) i ⟨true, (optBest sqrt poly dp i (i + gap)).2,
        (optBest sqrt poly dp i (i + gap)).1⟩).get a b = dp.get a b := by
    intro a b hne
    rw [hget, if_neg hne]
  refine ⟨hs.set_cell _ _ _, fun a b => ?_, fun a ha => ?_, fun a b hab hb hd => ?_⟩
  · rw [hget]
    by_cases hab : a = i + gap ∧ b = i
    · rw [if_pos hab, ← hvis a b, hab.1, hab.2, hv]
    · rw [if_neg hab]; exact hvis a b
  · rw [hother _ _ (by omega)]
    exact hedge a ha
  · by_cases hnew : a = i ∧ b = i + gap
    · obtain ⟨rfl, rfl⟩ := hnew
      intro _
      rcases optBest_spec sqrt poly dp a (a + gap) (by omega) with ⟨h1, _⟩ | h1
      · exact absurd h1 hb1
      · obtain ⟨k, e1, e2, e3, e4, e5, e6, e7⟩ := h1
        have hk1 : ∀ k1, a < k1 → k1 < a + gap →
            (dp.set (a + gap) a ⟨true, (optBest sqrt poly dp a (a + gap)).2,
              (optBest sqrt poly dp a (a + gap)).1⟩).get k1 a = dp.get k1 a ∧
            (dp.set (a + gap) a ⟨true, (optBest sqrt poly dp a (a + gap)).2,
              (optBest sqrt poly dp a (a + gap)).1⟩).get (a + gap) k1
              = dp.get (a + gap) k1 :=
          fun k1 h1 h2 => ⟨hother _ _ (by omega), hother _ _ (by omega)⟩
        rw [hget, if_pos ⟨rfl, rfl⟩]
        refine ⟨k, e1, e2, e3, ?_, ?_, ?_, fun k1 h1 h2 h3 h4 => ?_⟩
        · rw [(hk1 k e2 e3).1]; exact e4
        · rw [(hk1 k e2 e3).2]; exact e5
        · rw [optCand_congr sqrt poly (hk1 k e2 e3).1 (hk1 k e2 e3).2]; exact e6
        · rw [optCand_congr sqrt poly (hk1 k1 h1 h2).1 (hk1 k1 h1 h2).2]
          rw [(hk1 k1 h1 h2).1] at h3
          rw [(hk1 k1 h1 h2).2] at h4
          exact e7 k1 h1 h2 h3 h4
    · have hd1 : b - a < gap ∨ (b - a = gap ∧ a < i) := by omega
      refine (hdone a b hab hb hd1).congr (hother _ _ (by omega)) (fun k h1 h2 => ?_)
      exact ⟨hother _ _ (by omega), hother _ _ (by omega)⟩

/-- When the loops over `gap` and `i` end without `return 0`, the state of every pair
`i + 2 ≤ j` is final. -/
theorem optFill_spec (sqrt : ℚ → ℚ) (poly : TPPLPoly) (n : Nat) (dp0 dp : DPTable)
    (hn : 3 ≤ n) (h0 : FillInv sqrt poly n dp0 dp0 2 0)
    (h : optFill sqrt poly n dp0 = some dp) : FillInv sqrt poly n dp0 dp n 0 := by
  unfold optFill at h
  have key := foldlM_range'_invariant (fun g dp => FillInv sqrt poly n dp0 dp g 0)
    (fun dp gap => (List.range (n - gap)).foldlM (optCell sqrt poly gap) dp)
    (n - 2) 2 dp0 dp h0 ?_ h
  · have e : 2 + (n - 2) = n := by omega
    rw [e] at key
    exact key
  · intro g s s1 hg1 hg2 hq hf
    simp only at hf
    rw [List.range_eq_range'] at hf
    have inner := foldlM_range'_invariant (fun x dp => FillInv sqrt poly n dp0 dp g x)
      (optCell sqrt poly g) (n - g) 0 s s1 hq
      (fun x s2 s3 _ hx2 hq2 hc => optCell_step sqrt poly n dp0 s2 s3 g x hg1 (by omega) hq2 hc)
      hf
    obtain ⟨hs, hvis, hedge, hdone⟩ := inner
    exact ⟨hs, hvis, hedge, fun a b hab hb hd => hdone a b hab hb (by omega)⟩

theorem optInit_fillInv (sqrt : ℚ → ℚ) (poly : TPPLPoly) (n : Nat) (hn : 3 ≤ n) :
    FillInv sqrt poly n (optInit poly n) (optInit poly n) 2 0 := by
  refine ⟨optInit_shaped poly n, fun _ _ => rfl, fun a ha => ?_, fun a b hab hb hd => ?_⟩
  · rw [optInit_get poly n hn]
    split_ifs <;> rfl
  · omega

theorem optRecover_eq_triples (poly : TPPLPoly) (dp : DPTable) :
    ∀ (fuel : Nat) (diagonals : List (Nat × Nat)) (triangles : TPPLPolyList),
      (optRecover poly dp fuel diagonals triangles).2
        = triangles ++ (optTriples dp fuel diagonals).map (idxTriangle poly)
  | 0, [], triangles => by simp [optRecover, optTriples]
  | 0, _ :: _, triangles => by simp [optRecover, optTriples]
  | fuel + 1, [], triangles => by simp [optRecover, optTriples]
  | fuel + 1, d :: ds, triangles => by
    unfold optRecover optTriples
    simp only
    by_cases hb : (dp.get d.2 d.1).bestvertex = -1
    · simp [hb]
    · rw [if_neg hb, if_neg hb, optRecover_eq_triples poly dp fuel]
      simp [idxTriangle]

theorem pathTo_add (pts : Nat → TPPLPoint) (i m1 : Nat) :
    ∀ m2, pathTo pts i (m1 + m2) = pathTo pts i m1 + pathTo pts (i + m1) m2
  | 0 => by simp [pathTo]
  | m2 + 1 => by
    rw [← Nat.add_assoc, pathTo, pathTo, pathTo_add pts i m1 m2]
    have e : i + (m1 + m2) = i + m1 + m2 := by omega
    rw [e]
    ring

theorem subShoelace_split (poly : TPPLPoly) {i k j : Nat} (hik : i < k) (hkj : k < j) :
    subShoelace poly i j = subShoelace poly i k + subShoelace poly k j
      + shoelacePts [poly.GetPoint i, poly.GetPoint k, poly.GetPoint j] := by
  unfold subShoelace
  have e : j - i = (k - i) + (j - k) := by omega
  have e2 : i + (k - i) = k := by omega
  rw [e, pathTo_add, e2, shoelacePts_triangle]
  have h1 := cross_antisymm (poly.GetPoint i) (poly.GetPoint k)
  have h2 := cross_antisymm (poly.GetPoint k) (poly.GetPoint j)
  linarith

theorem subShoelace_edge (poly : TPPLPoly) (i : Nat) : subShoelace poly i (i + 1) = 0 := by
  unfold subShoelace
  have e : i + 1 - i = 1 := by omega
  rw [e]
  simp only [pathTo, Nat.add_zero, zero_add]
  exact cross_antisymm _ _

theorem shoelace_eq_subShoelace (poly : TPPLPoly) (hn : 1 ≤ poly.GetNumPoints) :
    poly.shoelace = subShoelace poly 0 (poly.GetNumPoints - 1) := by
  unfold TPPLPoly.shoelace subShoelace
  rw [foldl_add_eq_sum (fun i1 =>
    ((poly.GetPoint i1).x * (poly.GetPoint (if i1 + 1 = poly.GetNumPoints then 0 else i1 + 1)).y
      - (poly.GetPoint i1).y *
        (poly.GetPoint (if i1 + 1 = poly.GetNumPoints then 0 else i1 + 1)).x))]
  rw [zero_add]
  obtain ⟨m, hm⟩ : ∃ m, poly.GetNumPoints = m + 1 := ⟨poly.GetNumPoints - 1, by omega⟩
  rw [hm, List.range_succ, List.map_append, List.sum_append]
  simp only [List.map_cons, List.map_nil, List.sum_cons, List.sum_nil, add_zero, if_true,
    Nat.add_sub_cancel, Nat.sub_zero]
  have hpre : ∀ m1, m1 ≤ m → ((List.range m1).map (fun i1 =>
      ((poly.GetPoint i1).x * (poly.GetPoint (if i1 + 1 = m + 1 then 0 else i1 + 1)).y
        - (poly.GetPoint i1).y * (poly.GetPoint (if i1 + 1 = m + 1 then 0 else i1 + 1)).x))).sum
      = pathTo poly.GetPoint 0 m1 := by
    intro m1
    induction m1 with
    | zero => intro _; simp [pathTo]
    | succ m1 ih =>
      intro h
      rw [List.range_succ, List.map_append, List.sum_append, ih (by omega)]
      have hne : ¬ (m1 + 1 = m + 1) := by omega
      simp only [List.map_cons, List.map_nil, List.sum_cons, List.sum_nil, add_zero, hne,
        if_false, pathTo, Nat.zero_add]
      rfl
  rw [hpre m (Nat.le_refl _)]
  rfl


/-- The queue after the pass for the diagonal `d` with `bestvertex = k`. -/
theorem optQueue_step (d : Nat × Nat) (ds : List (Nat × Nat)) (k : Nat) :
    (if (d.2 : Int) > (k : Int) + 1 then
      (if (k : Int) > (d.1 : Int) + 1 then ds ++ [(d.1, (k : Int).toNat)] else ds)
        ++ [((k : Int).toNat, d.2)]
    else (if (k : Int) > (d.1 : Int) + 1 then ds ++ [(d.1, (k : Int).toNat)] else ds))
    = ds ++ (if d.1 + 2 ≤ k then [(d.1, k)] else [])
        ++ (if k + 2 ≤ d.2 then [(k, d.2)] else []) := by
  simp only [Int.toNat_ofNat]
  by_cases h1 : d.1 + 2 ≤ k
  · have c1 : (k : Int) > (d.1 : Int) + 1 := by omega
    by_cases h2 : k + 2 ≤ d.2
    · have c2 : (d.2 : Int) > (k : Int) + 1 := by omega
      simp only [c1, c2, h1, h2, if_true]
    · have c2 : ¬ (d.2 : Int) > (k : Int) + 1 := by omega
      simp only [c1, c2, h1, h2, if_true, if_false, List.append_nil]
  · have c1 : ¬ (k : Int) > (d.1 : Int) + 1 := by omega
    by_cases h2 : k + 2 ≤ d.2
    · have c2 : (d.2 : Int) > (k : Int) + 1 := by omega
      simp only [c1, c2, h1, h2, if_true, if_false, List.append_nil]
    · have c2 : ¬ (d.2 : Int) > (k : Int) + 1 := by omega
      simp only [c1, c2, h1, h2, if_false, List.append_nil]

theorem optTriples_step (dp : DPTable) (fuel : Nat) (d : Nat × Nat) (ds : List (Nat × Nat))
    (k : Nat) (hb : (dp.get d.2 d.1).bestvertex = (k : Int)) :
    optTriples dp (fuel + 1) (d :: ds) = (d.1, k, d.2) :: optTriples dp fuel
      (ds ++ (if d.1 + 2 ≤ k then [(d.1, k)] else [])
        ++ (if k + 2 ≤ d.2 then [(k, d.2)] else [])) := by
  rw [optTriples]
  simp only [hb]
  have hne : ¬ ((k : Int) = -1) := by omega
  rw [if_neg hne, optQueue_step, Int.toNat_ofNat]

theorem optRecover_step (poly : TPPLPoly) (dp : DPTable) (fuel : Nat) (d : Nat × Nat)
    (ds : List (Nat × Nat)) (triangles : TPPLPolyList)
    (k : Nat) (hb : (dp.get d.2 d.1).bestvertex = (k : Int)) :
    optRecover poly dp (fuel + 1) (d :: ds) triangles = optRecover poly dp fuel
      (ds ++ (if d.1 + 2 ≤ k then [(d.1, k)] else [])
        ++ (if k + 2 ≤ d.2 then [(k, d.2)] else []))
      (triangles ++ [idxTriangle poly (d.1, k, d.2)]) := by
  rw [optRecover]
  simp only [hb]
  have hne : ¬ ((k : Int) = -1) := by omega
  rw [if_neg hne, optQueue_step, Int.toNat_ofNat]
  rfl

/-- The recovery loop of `Triangulate_OPT` on a table whose states are final: it returns 1
within `queueSize` passes; the number of triangles, their shoelace sums and the lengths
of their diagonals. -/
theorem optTriples_spec (sqrt : ℚ → ℚ) (poly : TPPLPoly) (n : Nat) (dp : DPTable)
    (hdone : ∀ a b, a + 2 ≤ b → b < n → CellDone sqrt poly dp a b)
    (hedge : ∀ a, a + 1 < n → (dp.get (a + 1) a).weight = 0) :
    ∀ (fuel : Nat) (diagonals : List (Nat × Nat)),
      (∀ d ∈ diagonals, d.1 + 2 ≤ d.2 ∧ d.2 < n ∧ (dp.get d.2 d.1).visible = true) →
      queueSize diagonals ≤ fuel →
      (∀ triangles, (optRecover poly dp fuel diagonals triangles).1 = 1) ∧
      (optTriples dp fuel diagonals).length = queueSize diagonals ∧
      (∀ t ∈ optTriples dp fuel diagonals, t.1 < t.2.1 ∧ t.2.1 < t.2.2 ∧ t.2.2 < n) ∧
      ((optTriples dp fuel diagonals).map (fun t => (idxTriangle poly t).shoelace)).sum
        = (diagonals.map (fun d => subShoelace poly d.1 d.2)).sum ∧
      ((optTriples dp fuel diagonals).map (optDiagCost sqrt poly)).sum
        = (diagonals.map (fun d => (dp.get d.2 d.1).weight)).sum := by
  intro fuel
  induction fuel with
  | zero =>
    intro diagonals hq hsize
    cases diagonals with
    | nil => simp [optRecover, optTriples, queueSize]
    | cons d ds =>
      have := (hq d (List.mem_cons_self _ _)).1
      simp only [queueSize, List.map_cons, List.sum_cons] at hsize
      omega
  | succ fuel ih =>
    intro diagonals hq hsize
    cases diagonals with
    | nil => simp [optRecover, optTriples, queueSize]
    | cons d ds =>
      obtain ⟨hd1, hd2, hd3⟩ := hq d (List.mem_cons_self _ _)
      obtain ⟨k, e1, e2, e3, e4, e5, e6, _⟩ := hdone d.1 d.2 hd1 hd2 hd3
      have hq2 : ∀ x ∈ ds ++ (if d.1 + 2 ≤ k then [(d.1, k)] else [])
          ++ (if k + 2 ≤ d.2 then [(k, d.2)] else []),
          x.1 + 2 ≤ x.2 ∧ x.2 < n ∧ (dp.get x.2 x.1).visible = true := by
        intro x hx
        simp only [List.mem_append] at hx
        rcases hx with (hx | hx) | hx
        · exact hq x (List.mem_cons_of_mem _ hx)
        · split_ifs at hx with h1
          · simp only [List.mem_singleton] at hx
            subst hx
            exact ⟨h1, by simp only; omega, e4⟩
          · simp at hx
        · split_ifs at hx with h2
          · simp only [List.mem_singleton] at hx
            subst hx
            exact ⟨h2, hd2, e5⟩
          · simp at hx
      have hsz : queueSize (ds ++ (if d.1 + 2 ≤ k then [(d.1, k)] else [])
          ++ (if k + 2 ≤ d.2 then [(k, d.2)] else [])) + 1 = queueSize (d :: ds) := by
        unfold queueSize
        simp only [List.map_append, List.sum_append, List.map_cons, List.sum_cons]
        split_ifs <;> simp <;> omega
      obtain ⟨i1, i2, i3, i4, i5⟩ := ih _ hq2 (by omega)
      refine ⟨fun triangles => ?_, ?_, ?_, ?_, ?_⟩
      · rw [optRecover_step poly dp fuel d ds triangles k e1]
        exact i1 _
      · rw [optTriples_step dp fuel d ds k e1, List.length_cons, i2]
        exact hsz
      · rw [optTriples_step dp fuel d ds k e1]
        intro t ht
        rcases List.mem_cons.mp ht with ht | ht
        · subst ht; exact ⟨e2, e3, hd2⟩
        · exact i3 t ht
      · rw [optTriples_step dp fuel d ds k e1, List.map_cons, List.sum_cons, i4]
        simp only [List.map_append, List.sum_append, List.map_cons, List.sum_cons]
        rw [subShoelace_split poly e2 e3]
        have ht : (idxTriangle poly (d.1, k, d.2)).shoelace
            = shoelacePts [poly.GetPoint d.1, poly.GetPoint k, poly.GetPoint d.2] :=
          shoelace_Triangle _ _ _
        rw [ht]
        have hA : ((if d.1 + 2 ≤ k then [(d.1, k)] else []).map
            (fun d => subShoelace poly d.1 d.2)).sum = subShoelace poly d.1 k := by
          split_ifs with h1
          · simp
          · have : k = d.1 + 1 := by omega
            subst this
            simp [subShoelace_edge]
        have hB : ((if k + 2 ≤ d.2 then [(k, d.2)] else []).map
            (fun d => subShoelace poly d.1 d.2)).sum = subShoelace poly k d.2 := by
          split_ifs with h2
          · simp
          · have : d.2 = k + 1 := by omega
            rw [this]
            simp [subShoelace_edge]
        rw [hA, hB]
        ring
      · rw [optTriples_step dp fuel d ds k e1, List.map_cons, List.sum_cons, i5]
        simp only [List.map_append, List.sum_append, List.map_cons, List.sum_cons]
        rw [e6]
        have hA : ((if d.1 + 2 ≤ k then [(d.1, k)] else []).map
            (fun d => (dp.get d.2 d.1).weight)).sum = (dp.get k d.1).weight := by
          split_ifs with h1
          · simp
          · have : k = d.1 + 1 := by omega
            subst this
            simp [hedge d.1 (by omega)]
        have hB : ((if k + 2 ≤ d.2 then [(k, d.2)] else []).map
            (fun d => (dp.get d.2 d.1).weight)).sum = (dp.get d.2 k).weight := by
          split_ifs with h2
          · simp
          · have : d.2 = k + 1 := by omega
            rw [this]
            simp [hedge k (by omega)]
        rw [hA, hB]
        unfold optDiagCost optCand
        simp only
        ring


/-- The weight of a final state is at most the cost of any triangulation of its vertex
sequence with visible diagonals. -/
theorem TriTree.weight_le (sqrt : ℚ → ℚ) (poly : TPPLPoly) (n : Nat) (dp0 dp : DPTable)
    (hdone : ∀ a b, a + 2 ≤ b → b < n → CellDone sqrt poly dp a b)
    (hedge : ∀ a, a + 1 < n → (dp.get (a + 1) a).weight = 0)
    (hvis : ∀ a b, (dp.get a b).visible = (dp0.get a b).visible)
    (hedgevis : ∀ a, a + 1 < n → (dp.get (a + 1) a).visible = true) :
    ∀ (t : TriTree) (i j : Nat), t.Valid (fun i j => (dp0.get j i).visible) i j → j < n →
      (i + 2 ≤ j → (dp.get j i).visible = true) →
      (dp.get j i).weight
        ≤ t.cost (fun i j => Distance sqrt (poly.GetPoint i) (poly.GetPoint j)) i j
  | TriTree.leaf, i, j, hv, hj, _ => by
    simp only [TriTree.Valid] at hv
    subst hv
    rw [hedge i hj]
    exact le_refl _
  | TriTree.node k l r, i, j, hv, hj, hroot => by
    simp only [TriTree.Valid] at hv
    obtain ⟨h1, h2, h3, h4, h5, h6⟩ := hv
    have hvl : i + 2 ≤ k → (dp.get k i).visible = true := fun h => by
      rw [hvis]; exact h3 h
    have hvr : k + 2 ≤ j → (dp.get j k).visible = true := fun h => by
      rw [hvis]; exact h4 h
    have hl := TriTree.weight_le sqrt poly n dp0 dp hdone hedge hvis hedgevis l i k h5
      (by omega) hvl
    have hr := TriTree.weight_le sqrt poly n dp0 dp hdone hedge hvis hedgevis r k j h6 hj hvr
    have hvk1 : (dp.get k i).visible = true := by
      by_cases h : i + 2 ≤ k
      · exact hvl h
      · have : k = i + 1 := by omega
        subst this
        exact hedgevis i (by omega)
    have hvk2 : (dp.get j k).visible = true := by
      by_cases h : k + 2 ≤ j
      · exact hvr h
      · have : j = k + 1 := by omega
        subst this
        exact hedgevis k hj
    obtain ⟨k0, _, _, _, _, _, _, e7⟩ := hdone i j (by omega) hj (hroot (by omega))
    have hmin := e7 k h1 h2 hvk1 hvk2
    unfold optCand at hmin
    simp only [TriTree.cost]
    have c1 : (if k ≤ i + 1 then (0 : ℚ) else Distance sqrt (poly.GetPoint i) (poly.GetPoint k))
        = if i + 2 ≤ k then Distance sqrt (poly.GetPoint i) (poly.GetPoint k) else 0 := by
      by_cases h : i + 2 ≤ k
      · rw [if_pos h, if_neg (by omega)]
      · rw [if_neg h, if_pos (by omega)]
    have c2 : (if j ≤ k + 1 then (0 : ℚ) else Distance sqrt (poly.GetPoint k) (poly.GetPoint j))
        = if k + 2 ≤ j then Distance sqrt (poly.GetPoint k) (poly.GetPoint j) else 0 := by
      by_cases h : k + 2 ≤ j
      · rw [if_pos h, if_neg (by omega)]
      · rw [if_neg h, if_pos (by omega)]
    rw [c1, c2] at hmin
    linarith

/-- What a call of `Triangulate_OPT` that returns 1 went through. -/
theorem Triangulate_OPT_run (sqrt : ℚ → ℚ) (poly : TPPLPoly) (out : TPPLPolyList)
    (hret : (Triangulate_OPT sqrt poly out).1 = 1) :
    3 ≤ poly.GetNumPoints ∧ ∃ dp,
      FillInv sqrt poly poly.GetNumPoints (optInit poly poly.GetNumPoints) dp
        poly.GetNumPoints 0 ∧
      Triangulate_OPT_triples sqrt poly
        = optTriples dp poly.GetNumPoints [(0, poly.GetNumPoints - 1)] ∧
      (Triangulate_OPT sqrt poly out).2
        = out ++ (Triangulate_OPT_triples sqrt poly).map (idxTriangle poly) := by
  unfold Triangulate_OPT at hret ⊢
  unfold Triangulate_OPT_triples
  by_cases hv : poly.Valid = true
  swap
  · simp only [hv, Bool.not_false, if_true] at hret
    exact absurd hret (by decide)
  have hn : 3 ≤ poly.GetNumPoints := by simpa [TPPLPoly.Valid] using hv
  simp only [hv, Bool.not_true, Bool.false_eq_true, if_false] at hret ⊢
  cases hf : optFill sqrt poly poly.GetNumPoints (optInit poly poly.GetNumPoints) with
  | none =>
    rw [hf] at hret
    simp at hret
  | some dp =>
    refine ⟨hn, dp, optFill_spec sqrt poly _ _ dp hn (optInit_fillInv sqrt poly _ hn) hf,
      rfl, ?_⟩
    simp only
    exact optRecover_eq_triples poly dp _ _ _

/-- The facts about a successful call of `Triangulate_OPT` that the claims use. -/
theorem Triangulate_OPT_spec (sqrt : ℚ → ℚ) (poly : TPPLPoly) (out : TPPLPolyList)
    (hret : (Triangulate_OPT sqrt poly out).1 = 1) :
    3 ≤ poly.GetNumPoints ∧
    (Triangulate_OPT sqrt poly out).2
      = out ++ (Triangulate_OPT_triples sqrt poly).map (idxTriangle poly) ∧
    (Triangulate_OPT_triples sqrt poly).length = poly.GetNumPoints - 2 ∧
    (∀ t ∈ Triangulate_OPT_triples sqrt poly,
      t.1 < t.2.1 ∧ t.2.1 < t.2.2 ∧ t.2.2 < poly.GetNumPoints) ∧
    shoelaceSum ((Triangulate_OPT_triples sqrt poly).map (idxTriangle poly)) = poly.shoelace ∧
    ∀ t : TriTree,
      t.Valid (fun i j => ((optInit poly poly.GetNumPoints).get j i).visible) 0
        (poly.GetNumPoints - 1) →
      ((Triangulate_OPT_triples sqrt poly).map (optDiagCost sqrt poly)).sum
        ≤ t.cost (fun i j => Distance sqrt (poly.GetPoint i) (poly.GetPoint j)) 0
          (poly.GetNumPoints - 1) := by
  obtain ⟨hn, dp, ⟨hs, hvis, hedge, hdone⟩, htri, hout⟩ := Triangulate_OPT_run sqrt poly out hret
  have hdone1 : ∀ a b, a + 2 ≤ b → b < poly.GetNumPoints → CellDone sqrt poly dp a b :=
    fun a b hab hb => hdone a b hab hb (Or.inl (by omega))
  have hroot : (dp.get (poly.GetNumPoints - 1) 0).visible = true := by
    rw [hvis, optInit_get poly _ hn, if_pos ⟨rfl, rfl⟩]
  have hedgevis : ∀ a, a + 1 < poly.GetNumPoints → (dp.get (a + 1) a).visible = true := by
    intro a ha
    rw [hvis, optInit_get poly _ hn]
    by_cases h0 : a + 1 = poly.GetNumPoints - 1 ∧ a = 0
    · rw [if_pos h0]
    · rw [if_neg h0, if_pos ⟨by omega, ha⟩]
      simp [optVisible]
  obtain ⟨_, i2, i3, i4, i5⟩ := optTriples_spec sqrt poly _ dp hdone1 hedge poly.GetNumPoints
    [(0, poly.GetNumPoints - 1)]
    (fun d hd => by
      simp only [List.mem_singleton] at hd
      subst hd
      exact ⟨by simp only; omega, by simp only; omega, hroot⟩)
    (by simp [queueSize]; omega)
  rw [← htri] at i2 i3 i4 i5
  refine ⟨hn, hout, ?_, i3, ?_, fun t ht => ?_⟩
  · rw [i2]; simp [queueSize]; omega
  · unfold shoelaceSum
    rw [List.map_map]
    have : (TPPLPoly.shoelace ∘ idxTriangle poly) = fun t => (idxTriangle poly t).shoelace := rfl
    rw [this, i4]
    simp only [List.map_cons, List.map_nil, List.sum_cons, List.sum_nil, add_zero]
    exact (shoelace_eq_subShoelace poly (by omega)).symm
  · rw [i5]
    simp only [List.map_cons, List.map_nil, List.sum_cons, List.sum_nil, add_zero]
    exact TriTree.weight_le sqrt poly _ _ dp hdone1 hedge hvis hedgevis t 0 _ ht (by omega)
      (fun _ => hroot)


/-- C11: when `Triangulate_OPT` returns 1 on a polygon with `n` points (then `n ≥ 3`),
exactly `n - 2` polygons are appended to the output list, each with exactly three points:
the triangle `(index1, bestvertex, index2)` of a diagonal `index1 < bestvertex < index2`. -/
theorem C11_Triangulate_OPT_count (sqrt : ℚ → ℚ) (poly : TPPLPoly) (out : TPPLPolyList)
    (hret : (Triangulate_OPT sqrt poly out).1 = 1) :
    3 ≤ poly.GetNumPoints ∧ ∃ new, (Triangulate_OPT sqrt poly out).2 = out ++ new ∧
      new.length = poly.GetNumPoints - 2 ∧
      ∀ t ∈ new, t.GetNumPoints = 3 ∧ ∃ i k j, i < k ∧ k < j ∧ j < poly.GetNumPoints ∧
        t = TPPLPoly.Triangle (poly.GetPoint i) (poly.GetPoint k) (poly.GetPoint j) := by
  obtain ⟨hn, hout, hlen, hidx, _, _⟩ := Triangulate_OPT_spec sqrt poly out hret
  refine ⟨hn, _, hout, by rw [List.length_map]; exact hlen, fun t ht => ?_⟩
  obtain ⟨x, hx, rfl⟩ := List.mem_map.mp ht
  obtain ⟨h1, h2, h3⟩ := hidx x hx
  exact ⟨rfl, x.1, x.2.1, x.2.2, h1, h2, h3, rfl⟩

theorem C11_witness :
    (Triangulate_OPT sqrtApprox squarePoly []).1 = 1 ∧
    3 ≤ squarePoly.GetNumPoints ∧ ∃ new, (Triangulate_OPT sqrtApprox squarePoly []).2 = [] ++ new ∧
      new.length = squarePoly.GetNumPoints - 2 ∧
      ∀ t ∈ new, t.GetNumPoints = 3 ∧ ∃ i k j, i < k ∧ k < j ∧ j < squarePoly.GetNumPoints ∧
        t = TPPLPoly.Triangle (squarePoly.GetPoint i) (squarePoly.GetPoint k)
          (squarePoly.GetPoint j) :=
  ⟨by decide!, C11_Triangulate_OPT_count sqrtApprox squarePoly [] (by decide!)⟩

/-- C12: when `Triangulate_OPT` returns 1, the shoelace sums of the appended triangles add
up to the shoelace sum of the input polygon. -/
theorem C12_Triangulate_OPT_shoelace (sqrt : ℚ → ℚ) (poly : TPPLPoly) (out : TPPLPolyList)
    (hret : (Triangulate_OPT sqrt poly out).1 = 1) :
    ∃ new, (Triangulate_OPT sqrt poly out).2 = out ++ new ∧
      shoelaceSum new = poly.shoelace := by
  obtain ⟨_, hout, _, _, hsh, _⟩ := Triangulate_OPT_spec sqrt poly out hret
  exact ⟨_, hout, hsh⟩

theorem C12_witness :
    (Triangulate_OPT sqrtApprox squarePoly []).1 = 1 ∧
    ∃ new, (Triangulate_OPT sqrtApprox squarePoly []).2 = [] ++ new ∧
      shoelaceSum new = squarePoly.shoelace :=
  ⟨by decide!, C12_Triangulate_OPT_shoelace sqrtApprox squarePoly [] (by decide!)⟩

/-! ## Triangles -/

theorem VertexSorter_eq (vs : List MonotoneVertex) (i j : Nat) :
    VertexSorter vs i j = Below (vs.getD j default).p (vs.getD i default).p := by
  unfold VertexSorter Below
  generalize (vs.getD j default).p = q
  generalize (vs.getD i default).p = p
  by_cases h : q.y < p.y
  · simp only [gt_iff_lt, h, if_true]
  · simp only [gt_iff_lt, h, if_false]
    congr 1
    apply propext
    constructor
    · rintro ⟨h1, h2⟩; exact ⟨h1.symm, h2⟩
    · rintro ⟨h1, h2⟩; exact ⟨h1.symm, h2⟩

theorem IsConvex_rotate (a b c : TPPLPoint) : IsConvex a b c = IsConvex b c a := by
  unfold IsConvex
  have e : (c.y - a.y) * (b.x - a.x) - (c.x - a.x) * (b.y - a.y)
      = (a.y - b.y) * (c.x - b.x) - (a.x - b.x) * (c.y - b.y) := by ring
  rw [e]

theorem IsConvex_swap {a b c : TPPLPoint} (h : IsConvex a b c = true) :
    IsConvex a c b = false := by
  unfold IsConvex at h ⊢
  simp only [decide_eq_true_eq, decide_eq_false_iff_not, not_lt] at h ⊢
  linarith

theorem Below_iff (p q : TPPLPoint) :
    Below p q = true ↔ p.y < q.y ∨ (p.y = q.y ∧ p.x < q.x) := by
  unfold Below
  by_cases h : p.y < q.y
  · simp [h]
  · simp [h]

theorem Below_asymm {p q : TPPLPoint} (h : Below p q = true) : Below q p = false := by
  rw [← Bool.not_eq_true, Below_iff]
  rw [Below_iff] at h
  intro hc
  rcases h with h | ⟨h1, h2⟩ <;> rcases hc with hc | ⟨hc1, hc2⟩ <;> linarith

theorem Below_total {p q : TPPLPoint} (h : ¬ (p.x = q.x ∧ p.y = q.y)) :
    Below p q = true ∨ Below q p = true := by
  rw [Below_iff, Below_iff]
  rcases lt_trichotomy p.y q.y with h1 | h1 | h1
  · exact Or.inl (Or.inl h1)
  · rcases lt_trichotomy p.x q.x with h2 | h2 | h2
    · exact Or.inl (Or.inr ⟨h1, h2⟩)
    · exact absurd ⟨h2, h1⟩ h
    · exact Or.inr (Or.inr ⟨h1.symm, h2⟩)
  · exact Or.inr (Or.inl h1)

theorem Below_trans {p q r : TPPLPoint} (h1 : Below p q = true) (h2 : Below q r = true) :
    Below p r = true := by
  rw [Below_iff] at h1 h2 ⊢
  rcases h1 with h1 | ⟨h1, h3⟩ <;> rcases h2 with h2 | ⟨h2, h4⟩
  · exact Or.inl (by linarith)
  · exact Or.inl (by linarith)
  · exact Or.inl (by linarith)
  · exact Or.inr ⟨by linarith, by linarith⟩

theorem list_set_getD_self {α : Type} (d : α) :
    ∀ (l : List α) (i : Nat), l.set i (l.getD i d) = l
  | [], _ => by simp
  | a :: l, 0 => by simp
  | a :: l, i + 1 => by
    simp only [List.set_cons_succ, List.getD_cons_succ]
    rw [list_set_getD_self d l i]

theorem DPTable2_set_get_self (dp : DPTable2) (a b : Nat) : dp.set a b (dp.get a b) = dp := by
  unfold DPTable2.set DPTable2.get
  rw [list_set_getD_self, list_set_getD_self]

theorem DPTable2_square_set {n : Nat} {dp : DPTable2} (h : dp.Square n) (a b : Nat)
    (s : DPState2) : (dp.set a b s).Square n := by
  unfold DPTable2.set
  refine ⟨by rw [List.length_set]; exact h.1, fun x hx => ?_⟩
  by_cases hax : a = x
  · subst hax
    rw [getD_set_self _ _ _ _ (by rw [h.1]; exact hx), List.length_set]
    exact h.2 a hx
  · rw [getD_set_ne _ _ _ hax]
    exact h.2 x hx

theorem DPTable2_get_set {n : Nat} {dp : DPTable2} (h : dp.Square n) {a b : Nat} (ha : a < n)
    (hb : b < n) (s : DPState2) (x y : Nat) :
    (dp.set a b s).get x y = if x = a ∧ y = b then s else dp.get x y := by
  unfold DPTable2.get DPTable2.set
  by_cases hxa : x = a
  · subst hxa
    rw [getD_set_self _ _ _ _ (by rw [h.1]; exact ha)]
    by_cases hyb : y = b
    · subst hyb
      rw [if_pos ⟨rfl, rfl⟩, getD_set_self _ _ _ _ (by rw [h.2 x ha]; exact hb)]
    · rw [if_neg (fun hc => hyb hc.2), getD_set_ne _ _ _ (Ne.symm hyb)]
  · rw [if_neg (fun hc => hxa hc.1), getD_set_ne _ _ _ (Ne.symm hxa)]

theorem replicate_square (n : Nat) :
    DPTable2.Square n (List.replicate n (List.replicate n (default : DPState2))) := by
  refine ⟨by simp, fun a ha => ?_⟩
  rw [List.getD_eq_getElem _ _ (by simpa using ha)]
  simp

theorem replicate_get (n a b : Nat) :
    DPTable2.get (List.replicate n (List.replicate n (default : DPState2))) a b = default := by
  unfold DPTable2.get
  have hrow : ∀ l : List DPState2, (∀ x ∈ l, x = default) → l.getD b default = default := by
    intro l hl
    by_cases hb : b < l.length
    · rw [List.getD_eq_getElem _ _ hb]
      exact hl _ (List.getElem_mem _)
    · rw [List.getD_eq_default _ _ (Nat.le_of_not_lt hb)]
  have hrows : ∀ x ∈ [(List.replicate n (List.replicate n (default : DPState2))).getD a []],
      ∀ y ∈ x, y = default := by
    intro x hx y hy
    rw [List.mem_singleton] at hx
    subst hx
    by_cases ha : a < n
    · rw [List.getD_eq_getElem _ _ (by simpa using ha)] at hy
      simp only [List.getElem_replicate] at hy
      exact (List.mem_replicate.mp hy).2
    · rw [List.getD_eq_default _ _ (by simpa using ha)] at hy
      simp at hy
  exact hrow _ (hrows _ (List.mem_singleton_self _))

theorem TPPLPoint.eq_self (p : TPPLPoint) : p.eq p = true := by
  simp [TPPLPoint.eq]

theorem IsReflex_of_IsConvex {a b c : TPPLPoint} (h : IsConvex a b c = true) :
    IsReflex a b c = false := by
  unfold IsConvex at h
  unfold IsReflex
  simp only [decide_eq_true_eq, decide_eq_false_iff_not, not_lt] at h ⊢
  linarith

/-- Both ends of the second segment lie strictly to the left of the first one. -/
theorem Intersects_left {a b c d : TPPLPoint} (hc : IsConvex a b c = true)
    (hd : IsConvex a b d = true) : Intersects a b c d = 0 := by
  unfold IsConvex at hc hd
  simp only [decide_eq_true_eq] at hc hd
  unfold Intersects
  split
  · rfl
  · have e1 : (c.x - a.x) * (b.y - a.y) + (c.y - a.y) * (a.x - b.x)
        = -((c.y - a.y) * (b.x - a.x) - (c.x - a.x) * (b.y - a.y)) := by ring
    have e2 : (d.x - a.x) * (b.y - a.y) + (d.y - a.y) * (a.x - b.x)
        = -((d.y - a.y) * (b.x - a.x) - (d.x - a.x) * (b.y - a.y)) := by ring
    have hpos : ((c.x - a.x) * (b.y - a.y) + (c.y - a.y) * (a.x - b.x)) *
        ((d.x - a.x) * (b.y - a.y) + (d.y - a.y) * (a.x - b.x)) > 0 := by
      rw [e1, e2]
      exact mul_pos_of_neg_of_neg (by linarith) (by linarith)
    simp only
    rw [if_pos (Or.inr hpos)]

/-- Both ends of the second segment lie strictly to the right of the first one. -/
theorem Intersects_right {a b c d : TPPLPoint} (hc : IsConvex a c b = true)
    (hd : IsConvex a d b = true) : Intersects a b c d = 0 := by
  unfold IsConvex at hc hd
  simp only [decide_eq_true_eq] at hc hd
  unfold Intersects
  split
  · rfl
  · have e1 : (c.x - a.x) * (b.y - a.y) + (c.y - a.y) * (a.x - b.x)
        = (b.y - a.y) * (c.x - a.x) - (b.x - a.x) * (c.y - a.y) := by ring
    have e2 : (d.x - a.x) * (b.y - a.y) + (d.y - a.y) * (a.x - b.x)
        = (b.y - a.y) * (d.x - a.x) - (b.x - a.x) * (d.y - a.y) := by ring
    have hpos : ((c.x - a.x) * (b.y - a.y) + (c.y - a.y) * (a.x - b.x)) *
        ((d.x - a.x) * (b.y - a.y) + (d.y - a.y) * (a.x - b.x)) > 0 := by
      rw [e1, e2]
      exact mul_pos hc hd
    simp only
    rw [if_pos (Or.inr hpos)]

theorem ConvexPosition.tri {poly : TPPLPoly} (h : ConvexPosition poly) {i j k : Nat}
    (hij : i < j) (hjk : j < k) (hk : k < poly.GetNumPoints) :
    IsConvex (poly.GetPoint i) (poly.GetPoint j) (poly.GetPoint k) = true :=
  h k hk j hjk i hij

theorem ConvexPosition.rot1 {poly : TPPLPoly} (h : ConvexPosition poly) {i j k : Nat}
    (hij : i < j) (hjk : j < k) (hk : k < poly.GetNumPoints) :
    IsConvex (poly.GetPoint j) (poly.GetPoint k) (poly.GetPoint i) = true := by
  rw [← IsConvex_rotate]; exact h.tri hij hjk hk

theorem ConvexPosition.rot2 {poly : TPPLPoly} (h : ConvexPosition poly) {i j k : Nat}
    (hij : i < j) (hjk : j < k) (hk : k < poly.GetNumPoints) :
    IsConvex (poly.GetPoint k) (poly.GetPoint i) (poly.GetPoint j) = true := by
  rw [IsConvex_rotate]; exact h.tri hij hjk hk

theorem cvxVertex_reflex {poly : TPPLPoly} (h : ConvexPosition poly) {x : Nat} (hx1 : 1 ≤ x)
    (hx : x < poly.GetNumPoints) (hn : 3 ≤ poly.GetNumPoints) :
    IsReflex (poly.GetPoint (x - 1)) (poly.GetPoint x)
      (poly.GetPoint (if x = poly.GetNumPoints - 1 then 0 else x + 1)) = false := by
  apply IsReflex_of_IsConvex
  by_cases hl : x = poly.GetNumPoints - 1
  · rw [if_pos hl]
    exact h.rot1 (show 0 < x - 1 by omega) (show x - 1 < x by omega) hx
  · rw [if_neg hl]
    exact h.tri (show x - 1 < x by omega) (show x < x + 1 by omega) (by omega)

theorem cpoVertices_convex (poly : TPPLPoly) (h : ConvexPosition poly)
    (hn : 3 ≤ poly.GetNumPoints) :
    (cpoVertices poly poly.GetNumPoints).length = poly.GetNumPoints ∧
    ∀ i, i < poly.GetNumPoints →
      vtx (cpoVertices poly poly.GetNumPoints) i = cvxVertex poly poly.GetNumPoints i := by
  have key := foldl_range'_invariant
    (fun x vs => vs.length = poly.GetNumPoints ∧
      ∀ i, i < poly.GetNumPoints → vtx vs i = cvxVertex poly x i)
    (fun vs i => UpdateVertexReflexity i vs) (poly.GetNumPoints - 1) 1
    (initVertices poly poly.GetNumPoints)
    ⟨by simp [initVertices], fun i hi => by
      rw [vtx_initVertices poly _ i hi]
      unfold cvxVertex
      have : ¬ (1 ≤ i ∧ i < 1) := by omega
      rw [decide_eq_false this]⟩
    (fun x vs hx1 hx2 hq => by
      obtain ⟨hlen, hq⟩ := hq
      have hx : x < poly.GetNumPoints := by omega
      have e0 : vtx vs x = cvxVertex poly x x := hq x hx
      have hprev : (vtx vs x).previous = x - 1 := by
        rw [e0]; unfold cvxVertex; simp only; rw [if_neg (by omega)]
      have hnext : (vtx vs x).next = if x = poly.GetNumPoints - 1 then 0 else x + 1 := by
        rw [e0]; unfold cvxVertex; rfl
      have hp : ∀ i, i < poly.GetNumPoints → (vtx vs i).p = poly.GetPoint i := by
        intro i hi; rw [hq i hi]; rfl
      unfold UpdateVertexReflexity
      refine ⟨by rw [List.length_set]; exact hlen, fun i hi => ?_⟩
      simp only [vtx_set]
      split
      · next hc =>
        obtain ⟨rfl, _⟩ := hc
        rw [hprev, hnext, hp _ (show x - 1 < _ by omega), hp x hx,
          hp _ (show (if x = poly.GetNumPoints - 1 then 0 else x + 1) < _ by
            split <;> omega),
          cvxVertex_reflex h hx1 hx hn, e0]
        unfold cvxVertex
        have : (1 ≤ x ∧ x < x + 1) := by omega
        simp [this, show ¬ x = 0 by omega]
      · next hc =>
        have hne : x ≠ i := fun e => hc ⟨e, by rw [hlen]; exact e ▸ hi⟩
        rw [hq i hi]
        unfold cvxVertex
        have : (1 ≤ i ∧ i < x) ↔ (1 ≤ i ∧ i < x + 1) := by omega
        simp [this])
  have e : 1 + (poly.GetNumPoints - 1) = poly.GetNumPoints := by omega
  rw [e] at key
  exact key

/-- The vertex array at the time of the main loop: vertex 0 is not convex "by convention",
each other vertex is convex. -/
theorem cpoVertices_flags (poly : TPPLPoly) (h : ConvexPosition poly)
    (hn : 3 ≤ poly.GetNumPoints) :
    (cpoVertices poly poly.GetNumPoints).set 0
      { vtx (cpoVertices poly poly.GetNumPoints) 0 with isConvex := false }
      = cpoVertices poly poly.GetNumPoints := by
  have e0 := (cpoVertices_convex poly h hn).2 0 (by omega)
  have : ({ vtx (cpoVertices poly poly.GetNumPoints) 0 with isConvex := false }
      : PartitionVertex) = vtx (cpoVertices poly poly.GetNumPoints) 0 := by
    rw [e0]; unfold cvxVertex; simp
  rw [this]
  exact list_set_getD_self _ _ _

theorem InCone_of_convex {p1 p2 p3 p : TPPLPoint} (h1 : IsConvex p1 p2 p3 = true)
    (h2 : IsConvex p1 p2 p = true) (h3 : IsConvex p2 p3 p = true) :
    InCone p1 p2 p3 p = true := by
  unfold InCone
  simp [h1, h2, h3]

theorem DPTable2_get_set_row_ne (dp : DPTable2) (a b : Nat) (s : DPState2) {x : Nat} (y : Nat)
    (h : x ≠ a) : (dp.set a b s).get x y = dp.get x y := by
  unfold DPTable2.get DPTable2.set
  rw [getD_set_ne _ _ _ (Ne.symm h)]

/-- No edge of a polygon in convex position crosses the diagonal from vertex 0 to `j`. -/
theorem cvx_no_crossing {poly : TPPLPoly} (h : ConvexPosition poly) {j : Nat} (hj1 : 2 ≤ j)
    (hj : j < poly.GetNumPoints) (k : Nat) (hk : k < poly.GetNumPoints) :
    Intersects (poly.GetPoint 0) (poly.GetPoint j) (poly.GetPoint k)
      (if k = poly.GetNumPoints - 1 then poly.GetPoint 0 else poly.GetPoint (k + 1)) = 0 := by
  by_cases hk0 : k = 0
  · subst hk0
    unfold Intersects
    simp [TPPLPoint.eq_self]
  by_cases hkl : k = poly.GetNumPoints - 1
  · rw [if_pos hkl]
    unfold Intersects
    simp [TPPLPoint.eq_self]
  rw [if_neg hkl]
  by_cases hkj : k = j
  · subst hkj
    unfold Intersects
    simp [TPPLPoint.eq_self]
  by_cases hkj1 : k + 1 = j
  · subst hkj1
    unfold Intersects
    simp [TPPLPoint.eq_self]
  by_cases hlt : k < j
  · exact Intersects_right (h.tri (show 0 < k by omega) hlt hj)
      (h.tri (show 0 < k + 1 by omega) (show k + 1 < j by omega) hj)
  · exact Intersects_left (h.tri (show 0 < j by omega) (show j < k by omega) hk)
      (h.tri (show 0 < j by omega) (show j < k + 1 by omega) (by omega))

theorem cpoVisible_convex (poly : TPPLPoly) (h : ConvexPosition poly)
    (hn : 4 ≤ poly.GetNumPoints) {j : Nat} (hj1 : 1 ≤ j) (hj : j + 1 < poly.GetNumPoints) :
    cpoVisible poly (cpoVertices poly poly.GetNumPoints) poly.GetNumPoints 0 j = true := by
  obtain ⟨_, hv⟩ := cpoVertices_convex poly h (by omega)
  unfold cpoVisible
  by_cases hj2 : j = 0 + 1
  · rw [if_neg (not_not.mpr hj2)]
  rw [if_pos hj2]
  have hj2 : 2 ≤ j := by omega
  have hI0 : InConeV (cpoVertices poly poly.GetNumPoints) 0 (poly.GetPoint j) = true := by
    unfold InConeV
    rw [hv 0 (by omega)]
    simp only [cvxVertex, if_true]
    rw [if_neg (show ¬ 0 = poly.GetNumPoints - 1 by omega), hv _ (show
      poly.GetNumPoints - 1 < _ by omega), hv _ (show 0 + 1 < _ by omega)]
    simp only [cvxVertex]
    exact InCone_of_convex
      (h.rot2 (show 0 < 0 + 1 by omega) (show 0 + 1 < poly.GetNumPoints - 1 by omega) (by omega))
      (h.rot2 (show 0 < j by omega) (show j < poly.GetNumPoints - 1 by omega) (by omega))
      (h.tri (show 0 < 0 + 1 by omega) (show 0 + 1 < j by omega) (by omega))
  have hIj : InConeV (cpoVertices poly poly.GetNumPoints) j (poly.GetPoint 0) = true := by
    unfold InConeV
    rw [hv j (by omega)]
    simp only [cvxVertex]
    rw [if_neg (show ¬ j = 0 by omega), if_neg (show ¬ j = poly.GetNumPoints - 1 by omega),
      hv _ (show j - 1 < _ by omega), hv _ (show j + 1 < _ by omega)]
    simp only [cvxVertex]
    exact InCone_of_convex
      (h.tri (show j - 1 < j by omega) (show j < j + 1 by omega) (by omega))
      (h.rot1 (show 0 < j - 1 by omega) (show j - 1 < j by omega) (by omega))
      (h.rot1 (show 0 < j by omega) (show j < j + 1 by omega) (by omega))
  simp only [hI0, hIj, Bool.not_true, Bool.false_eq_true, if_false]
  rw [Bool.not_eq_true', List.any_eq_false]
  intro k hk
  rw [List.mem_range] at hk
  have := cvx_no_crossing h hj2 (show j < poly.GetNumPoints by omega) k hk
  by_cases hkl : k = poly.GetNumPoints - 1
  · rw [if_pos hkl] at this ⊢
    simp [this]
  · rw [if_neg hkl] at this ⊢
    simp [this]

/-- Row 0 after the first initialisation loop of `ConvexPartition_OPT`. -/
theorem cpoInit_loop1 (poly : TPPLPoly) (vs : List PartitionVertex) (n : Nat) :
    DPTable2.Square n ((List.range (n - 1)).foldl (fun (dp : DPTable2) i =>
      (List.range' (i + 1) (n - (i + 1))).foldl (fun (dp : DPTable2) j =>
        dp.set i j { dp.get i j with
          visible := cpoVisible poly vs n i j,
          weight := if j = i + 1 then 0 else 2147483647 }) dp)
      (List.replicate n (List.replicate n default))) ∧
    ∀ b, 1 ≤ b → b < n →
      DPTable2.get ((List.range (n - 1)).foldl (fun (dp : DPTable2) i =>
        (List.range' (i + 1) (n - (i + 1))).foldl (fun (dp : DPTable2) j =>
          dp.set i j { dp.get i j with
            visible := cpoVisible poly vs n i j,
            weight := if j = i + 1 then 0 else 2147483647 }) dp)
        (List.replicate n (List.replicate n default))) 0 b
      = ⟨cpoVisible poly vs n 0 b, if b = 0 + 1 then 0 else 2147483647, []⟩ := by
  rw [List.range_eq_range']
  have key := foldl_range'_invariant
    (fun x (dp : DPTable2) => dp.Square n ∧ ∀ b, 1 ≤ b → b < n →
      dp.get 0 b = if 0 < x then
        (⟨cpoVisible poly vs n 0 b, if b = 0 + 1 then 0 else 2147483647, []⟩ : DPState2)
        else default)
    (fun (dp : DPTable2) i =>
      (List.range' (i + 1) (n - (i + 1))).foldl (fun (dp : DPTable2) j =>
        dp.set i j { dp.get i j with
          visible := cpoVisible poly vs n i j,
          weight := if j = i + 1 then 0 else 2147483647 }) dp)
    (n - 1) 0 (List.replicate n (List.replicate n default))
    ⟨replicate_square n, fun b _ _ => by rw [replicate_get]; rfl⟩ ?_
  · refine ⟨key.1, fun b hb1 hb => ?_⟩
    have := key.2 b hb1 hb
    rw [if_pos (show 0 < 0 + (n - 1) by omega)] at this
    exact this
  · intro x dp _ hx hq
    simp only
    by_cases hx0 : x = 0
    · subst hx0
      have inner := foldl_range'_invariant
        (fun j (dp : DPTable2) => dp.Square n ∧ ∀ b, 1 ≤ b → b < n →
          dp.get 0 b = if b < j then
            (⟨cpoVisible poly vs n 0 b, if b = 0 + 1 then 0 else 2147483647, []⟩ : DPState2)
            else default)
        (fun (dp : DPTable2) j =>
          dp.set 0 j { dp.get 0 j with
            visible := cpoVisible poly vs n 0 j,
            weight := if j = 0 + 1 then 0 else 2147483647 })
        (n - (0 + 1)) (0 + 1) dp
        ⟨hq.1, fun b hb1 hb => by
          rw [hq.2 b hb1 hb, if_neg (show ¬ 0 < 0 by omega),
            if_neg (show ¬ b < 0 + 1 by omega)]⟩
        (fun j dp hj1 hj hr => by
          refine ⟨DPTable2_square_set hr.1 _ _ _, fun b hb1 hb => ?_⟩
          rw [DPTable2_get_set hr.1 (show 0 < n by omega) (show j < n by omega)]
          by_cases hbj : b = j
          · subst hbj
            rw [if_pos ⟨rfl, rfl⟩, if_pos (show b < b + 1 by omega), hr.2 b hb1 hb,
              if_neg (show ¬ b < b by omega)]
            rfl
          · rw [if_neg (fun hc => hbj hc.2), hr.2 b hb1 hb]
            by_cases hlt : b < j
            · rw [if_pos hlt, if_pos (show b < j + 1 by omega)]
            · rw [if_neg hlt, if_neg (show ¬ b < j + 1 by omega)])
      refine ⟨inner.1, fun b hb1 hb => ?_⟩
      rw [inner.2 b hb1 hb, if_pos (show b < 0 + 1 + (n - (0 + 1)) by omega),
        if_pos (show 0 < 0 + 1 by omega)]
    · apply foldl_invariant (fun (dp : DPTable2) => dp.Square n ∧ ∀ b, 1 ≤ b → b < n →
        dp.get 0 b = if 0 < x + 1 then
          (⟨cpoVisible poly vs n 0 b, if b = 0 + 1 then 0 else 2147483647, []⟩ : DPState2)
          else default)
      · refine ⟨hq.1, fun b hb1 hb => ?_⟩
        rw [hq.2 b hb1 hb, if_pos (show 0 < x by omega), if_pos (show 0 < x + 1 by omega)]
      · intro dp j _ hr
        refine ⟨DPTable2_square_set hr.1 _ _ _, fun b hb1 hb => ?_⟩
        rw [DPTable2_get_set_row_ne _ _ _ _ _ (Ne.symm hx0)]
        exact hr.2 b hb1 hb

/-- Row 0 after the second initialisation loop of `ConvexPartition_OPT`, when the pair
`(0, 2)` is visible. -/
theorem cpoInit_loop2 (n : Nat) (hn : 3 ≤ n) (dp1 : DPTable2) (hs : dp1.Square n)
    (hv : (dp1.get 0 2).visible = true) :
    DPTable2.Square n ((List.range (n - 2)).foldl (fun (dp : DPTable2) i =>
      if (dp.get i (i + 2)).visible then
        dp.set i (i + 2) { dp.get i (i + 2) with
          weight := 0, pairs := (dp.get i (i + 2)).pairs ++ [⟨i + 1, i + 1⟩] }
      else dp) dp1) ∧
    ∀ b, DPTable2.get ((List.range (n - 2)).foldl (fun (dp : DPTable2) i =>
      if (dp.get i (i + 2)).visible then
        dp.set i (i + 2) { dp.get i (i + 2) with
          weight := 0, pairs := (dp.get i (i + 2)).pairs ++ [⟨i + 1, i + 1⟩] }
      else dp) dp1) 0 b
      = if b = 2 then { dp1.get 0 2 with
          weight := 0, pairs := (dp1.get 0 2).pairs ++ [⟨1, 1⟩] }
        else dp1.get 0 b := by
  rw [List.range_eq_range']
  have key := foldl_range'_invariant
    (fun x (dp : DPTable2) => dp.Square n ∧ ∀ b,
      dp.get 0 b = if 0 < x ∧ b = 2 then ({ dp1.get 0 2 with
          weight := 0, pairs := (dp1.get 0 2).pairs ++ [⟨1, 1⟩] } : DPState2)
        else dp1.get 0 b)
    (fun (dp : DPTable2) i =>
      if (dp.get i (i + 2)).visible then
        dp.set i (i + 2) { dp.get i (i + 2) with
          weight := 0, pairs := (dp.get i (i + 2)).pairs ++ [⟨i + 1, i + 1⟩] }
      else dp)
    (n - 2) 0 dp1
    ⟨hs, fun b => by rw [if_neg (fun hc => absurd hc.1 (by omega))]⟩ ?_
  · refine ⟨key.1, fun b => ?_⟩
    rw [key.2 b]
    by_cases hb : b = 2
    · rw [if_pos ⟨by omega, hb⟩, if_pos hb]
    · rw [if_neg (fun hc => hb hc.2), if_neg hb]
  · intro x dp _ hx hq
    simp only
    by_cases hx0 : x = 0
    · subst hx0
      have e02 : dp.get 0 (0 + 2) = dp1.get 0 2 := by
        rw [hq.2 (0 + 2), if_neg (fun hc => absurd hc.1 (by omega))]
      rw [e02, hv, if_pos rfl]
      refine ⟨DPTable2_square_set hq.1 _ _ _, fun b => ?_⟩
      rw [DPTable2_get_set hq.1 (show 0 < n by omega) (show 0 + 2 < n by omega)]
      by_cases hb : b = 2
      · subst hb
        rw [if_pos ⟨rfl, rfl⟩, if_pos ⟨by omega, rfl⟩]
      · rw [if_neg (fun hc => hb hc.2), hq.2 b, if_neg (fun hc => hb hc.2),
          if_neg (fun hc => hb hc.2)]
    · have hrow : ∀ b, dp.get 0 b = if 0 < x + 1 ∧ b = 2 then ({ dp1.get 0 2 with
          weight := 0, pairs := (dp1.get 0 2).pairs ++ [⟨1, 1⟩] } : DPState2)
          else dp1.get 0 b := by
        intro b
        rw [hq.2 b]
        by_cases hb : b = 2
        · rw [if_pos ⟨by omega, hb⟩, if_pos ⟨by omega, hb⟩]
        · rw [if_neg (fun hc => hb hc.2), if_neg (fun hc => hb hc.2)]
      split
      · refine ⟨DPTable2_square_set hq.1 _ _ _, fun b => ?_⟩
        rw [DPTable2_get_set_row_ne _ _ _ _ _ (Ne.symm hx0)]
        exact hrow b
      · exact ⟨hq.1, hrow⟩

theorem cpoInit_cvxRow (poly : TPPLPoly) (h : ConvexPosition poly)
    (hn : 4 ≤ poly.GetNumPoints) :
    CvxRow poly.GetNumPoints 3
      (cpoInit poly (cpoVertices poly poly.GetNumPoints) poly.GetNumPoints) := by
  obtain ⟨h1s, h1⟩ := cpoInit_loop1 poly (cpoVertices poly poly.GetNumPoints) poly.GetNumPoints
  have hvis : ∀ b, 1 ≤ b → b + 1 < poly.GetNumPoints →
      cpoVisible poly (cpoVertices poly poly.GetNumPoints) poly.GetNumPoints 0 b = true :=
    fun b hb1 hb => cpoVisible_convex poly h hn hb1 hb
  have hv2 := h1 2 (by omega) (by omega)
  rw [hvis 2 (by omega) (by omega)] at hv2
  obtain ⟨h2s, h2⟩ := cpoInit_loop2 poly.GetNumPoints (by omega) _ h1s (by rw [hv2])
  unfold cpoInit
  simp only
  refine ⟨DPTable2_square_set h2s _ _ _, fun b hb1 hb => ?_⟩
  rw [DPTable2_get_set h2s (show 0 < poly.GetNumPoints by omega)
    (show poly.GetNumPoints - 1 < poly.GetNumPoints by omega), h2, h2]
  unfold cvxCell
  by_cases hbl : b = poly.GetNumPoints - 1
  · rw [if_pos ⟨rfl, hbl⟩, if_neg (show ¬ poly.GetNumPoints - 1 = 2 by omega),
      h1 _ (by omega) (by omega)]
    simp only
    rw [if_neg (show ¬ poly.GetNumPoints - 1 = 0 + 1 by omega),
      if_neg (show ¬ b < 3 by omega), if_neg (show ¬ (2 ≤ b ∧ b < 3) by omega)]
  · rw [if_neg (fun hc => hbl hc.2)]
    by_cases hb2 : b = 2
    · subst hb2
      rw [if_pos rfl, hv2]
      simp
    · rw [if_neg hb2, h1 b hb1 hb, hvis b hb1 (by omega)]
      by_cases hb1 : b = 0 + 1
      · rw [if_pos hb1, if_pos (show b < 3 by omega), if_neg (show ¬ (2 ≤ b ∧ b < 3) by omega)]
      · rw [if_neg hb1, if_neg (show ¬ b < 3 by omega),
          if_neg (show ¬ (2 ≤ b ∧ b < 3) by omega)]

theorem typeAScan_cvx (poly : TPPLPoly) (h : ConvexPosition poly)
    {g : Nat} (hg3 : 3 ≤ g) (hg : g < poly.GetNumPoints) {dp : DPTable2}
    (hr : CvxRow poly.GetNumPoints g dp) :
    typeAScan 0 (g - 1) g (cpoVertices poly poly.GetNumPoints) dp 0 = (1, 0) := by
  obtain ⟨_, hv⟩ := cpoVertices_convex poly h (by omega)
  have hp : ∀ i, i < poly.GetNumPoints →
      (vtx (cpoVertices poly poly.GetNumPoints) i).p = poly.GetPoint i := by
    intro i hi; rw [hv i hi]; rfl
  have c1 : (dp.get 0 (g - 1)).pairs = [⟨1, g - 1 - 1⟩] := by
    rw [hr.2 (g - 1) (by omega) (by omega)]
    unfold cvxCell
    simp only
    rw [if_pos (by omega)]
  have r1 : IsReflex (poly.GetPoint (g - 1 - 1)) (poly.GetPoint (g - 1)) (poly.GetPoint g)
      = false :=
    IsReflex_of_IsConvex (h.tri (show g - 1 - 1 < g - 1 by omega) (show g - 1 < g by omega) hg)
  have r2 : IsReflex (poly.GetPoint g) (poly.GetPoint 0) (poly.GetPoint 1) = false :=
    IsReflex_of_IsConvex (h.rot2 (show 0 < 1 by omega) (show 1 < g by omega) hg)
  unfold typeAScan
  simp only [c1, List.reverse_singleton, List.takeWhile_cons, List.takeWhile_nil,
    hp _ (show g - 1 - 1 < _ by omega), hp _ (show g - 1 < _ by omega), hp g hg,
    hp 0 (show 0 < poly.GetNumPoints by omega), r1, Bool.not_false, if_true,
    List.getLast?_singleton, hp 1 (show 1 < poly.GetNumPoints by omega), r2,
    Bool.false_eq_true, if_false]

theorem TypeA_cvx (poly : TPPLPoly) (h : ConvexPosition poly)
    {g : Nat} (hg3 : 3 ≤ g) (hg : g < poly.GetNumPoints) {dp : DPTable2}
    (hr : CvxRow poly.GetNumPoints g dp) :
    CvxRow poly.GetNumPoints (g + 1)
      (TypeA 0 (g - 1) g (cpoVertices poly poly.GetNumPoints) dp) := by
  have c1 : dp.get 0 (g - 1) = ⟨true, 0, [⟨1, g - 1 - 1⟩]⟩ := by
    rw [hr.2 (g - 1) (by omega) (by omega)]
    unfold cvxCell
    rw [if_pos (show g - 1 < g by omega), if_pos (show 2 ≤ g - 1 ∧ g - 1 < g by omega)]
  have c2 : dp.get 0 g = ⟨true, 2147483647, []⟩ := by
    rw [hr.2 g (by omega) hg]
    unfold cvxCell
    rw [if_neg (show ¬ g < g by omega), if_neg (show ¬ (2 ≤ g ∧ g < g) by omega)]
  have hT : TypeA 0 (g - 1) g (cpoVertices poly poly.GetNumPoints) dp
      = dp.set 0 g ⟨true, 0, [⟨1, g - 1⟩]⟩ := by
    unfold TypeA
    rw [if_neg (by rw [c1]; simp), if_neg (by omega : ¬ (g - (g - 1) > 1 ∧ _))]
    simp only
    rw [if_neg (show ¬ g - (g - 1) > 1 by omega), if_pos (show g - 1 - 0 > 1 by omega)]
    have e : (dp.get 0 (g - 1)).weight = 0 := by rw [c1]
    rw [e, typeAScan_cvx poly h hg3 hg hr]
    unfold UpdateState
    simp only [c2]
    simp
  rw [hT]
  refine ⟨DPTable2_square_set hr.1 _ _ _, fun b hb1 hb => ?_⟩
  rw [DPTable2_get_set hr.1 (show 0 < poly.GetNumPoints by omega) hg]
  by_cases hbg : b = g
  · subst hbg
    rw [if_pos ⟨rfl, rfl⟩]
    unfold cvxCell
    rw [if_pos (show b < b + 1 by omega), if_pos (show 2 ≤ b ∧ b < b + 1 by omega)]
  · rw [if_neg (fun hc => hbg hc.2), hr.2 b hb1 hb]
    unfold cvxCell
    by_cases hlt : b < g
    · rw [if_pos hlt, if_pos (show b < g + 1 by omega)]
      by_cases h2 : 2 ≤ b
      · rw [if_pos ⟨h2, hlt⟩, if_pos ⟨h2, (show b < g + 1 by omega)⟩]
      · rw [if_neg (fun hc => h2 hc.1), if_neg (fun hc => h2 hc.1)]
    · rw [if_neg hlt, if_neg (show ¬ b < g + 1 by omega),
        if_neg (fun hc => hlt hc.2), if_neg (fun hc => absurd hc.2 (by omega))]

theorem foldl_id {σ α : Type} (f : σ → α → σ) :
    ∀ (l : List α) (s : σ), (∀ x ∈ l, ∀ s, f s x = s) → l.foldl f s = s
  | [], _, _ => rfl
  | a :: l, s, h => by
    rw [List.foldl_cons, h a (List.mem_cons_self _ _) s]
    exact foldl_id f l s (fun x hx => h x (List.mem_cons_of_mem _ hx))

theorem cvx_isConvex (poly : TPPLPoly) (h : ConvexPosition poly) (hn : 3 ≤ poly.GetNumPoints)
    (i : Nat) (hi : i < poly.GetNumPoints) :
    (vtx (cpoVertices poly poly.GetNumPoints) i).isConvex = decide (1 ≤ i) := by
  rw [(cpoVertices_convex poly h hn).2 i hi]
  unfold cvxVertex
  simp only
  by_cases h1 : 1 ≤ i
  · rw [decide_eq_true h1, decide_eq_true (⟨h1, hi⟩ : 1 ≤ i ∧ i < poly.GetNumPoints)]
  · rw [decide_eq_false h1, decide_eq_false (fun hc => h1 hc.1)]

/-- For a polygon in convex position the `TypeB` loop of a gap changes nothing: each vertex
`k ≥ gap` is convex. -/
theorem cpoGapB_cvx (poly : TPPLPoly) (h : ConvexPosition poly) (hn : 3 ≤ poly.GetNumPoints)
    {g : Nat} (hg1 : 1 ≤ g) (dp : DPTable2) :
    cpoGapB (cpoVertices poly poly.GetNumPoints) poly.GetNumPoints g dp = dp := by
  unfold cpoGapB
  apply foldl_id
  intro k hk s
  rw [List.mem_range'_1] at hk
  simp only
  rw [cvx_isConvex poly h hn k (by omega), decide_eq_true (show 1 ≤ k by omega), if_pos rfl]

/-- For a polygon in convex position the `TypeA` loop of a gap comes down to the one call
`TypeA(0, gap - 1, gap)`. -/
theorem cpoGapA_cvx (poly : TPPLPoly) (h : ConvexPosition poly) (hn : 3 ≤ poly.GetNumPoints)
    {g : Nat} (hg3 : 3 ≤ g) (hg : g < poly.GetNumPoints) {dp : DPTable2}
    (hr : CvxRow poly.GetNumPoints g dp) :
    cpoGapA (cpoVertices poly poly.GetNumPoints) poly.GetNumPoints g dp
      = TypeA 0 (g - 1) g (cpoVertices poly poly.GetNumPoints) dp := by
  unfold cpoGapA
  have e : poly.GetNumPoints - g = (poly.GetNumPoints - g - 1) + 1 := by omega
  rw [List.range_eq_range', e, List.range'_succ, List.foldl_cons]
  have hhead : (if (vtx (cpoVertices poly poly.GetNumPoints) 0).isConvex = true then dp
      else
        let k := 0 + g
        if (dp.get 0 k).visible = true then
          if (!(vtx (cpoVertices poly poly.GetNumPoints) k).isConvex) = true then
            (List.range' (0 + 1) (k - (0 + 1))).foldl
              (fun dp j => TypeA 0 j k (cpoVertices poly poly.GetNumPoints) dp) dp
          else
            let dp1 := (List.range' (0 + 1) (k - 1 - (0 + 1))).foldl (fun dp j =>
              if (vtx (cpoVertices poly poly.GetNumPoints) j).isConvex = true then dp
              else TypeA 0 j k (cpoVertices poly poly.GetNumPoints) dp) dp
            TypeA 0 (k - 1) k (cpoVertices poly poly.GetNumPoints) dp1
        else dp) = TypeA 0 (g - 1) g (cpoVertices poly poly.GetNumPoints) dp := by
    rw [cvx_isConvex poly h hn 0 (by omega), decide_eq_false (show ¬ 1 ≤ 0 by omega),
      if_neg (by simp)]
    simp only [Nat.zero_add]
    have c2 : (dp.get 0 g).visible = true := by
      rw [hr.2 g (by omega) hg]; rfl
    rw [c2, if_pos rfl, cvx_isConvex poly h hn g hg, decide_eq_true (show 1 ≤ g by omega),
      if_neg (by simp)]
    rw [foldl_id _ _ dp (fun j hj s => by
      rw [List.mem_range'_1] at hj
      rw [cvx_isConvex poly h hn j (by omega), decide_eq_true (show 1 ≤ j by omega),
        if_pos rfl])]
  rw [hhead]
  apply foldl_id
  intro i hi s
  rw [List.mem_range'_1] at hi
  simp only
  rw [cvx_isConvex poly h hn i (by omega), decide_eq_true (show 1 ≤ i by omega), if_pos rfl]

theorem cpoFill_cvx (poly : TPPLPoly) (h : ConvexPosition poly) (hn : 4 ≤ poly.GetNumPoints)
    {dp0 : DPTable2} (hr : CvxRow poly.GetNumPoints 3 dp0) :
    CvxRow poly.GetNumPoints poly.GetNumPoints
      (cpoFill (cpoVertices poly poly.GetNumPoints) poly.GetNumPoints dp0) := by
  unfold cpoFill
  have key := foldl_range'_invariant
    (fun g (dp : DPTable2) => CvxRow poly.GetNumPoints g dp)
    (fun dp gap => cpoGapB (cpoVertices poly poly.GetNumPoints) poly.GetNumPoints gap
      (cpoGapA (cpoVertices poly poly.GetNumPoints) poly.GetNumPoints gap dp))
    (poly.GetNumPoints - 3) 3 dp0 hr
    (fun g dp hg3 hg hq => by
      simp only
      rw [cpoGapB_cvx poly h (by omega) (by omega),
        cpoGapA_cvx poly h (by omega) hg3 (by omega) hq]
      exact TypeA_cvx poly h hg3 (by omega) hq)
  have e : 3 + (poly.GetNumPoints - 3) = poly.GetNumPoints := by omega
  rw [e] at key
  exact key

theorem cpoRecover1_short (vs : List PartitionVertex) :
    ∀ (ds : List Diagonal) (fuel : Nat) (dp : DPTable2),
      (∀ d ∈ ds, d.index2 - d.index1 ≤ 1) → ds.length ≤ fuel →
      cpoRecover1 vs fuel ds dp = some dp
  | [], fuel, dp, _, _ => by cases fuel <;> rfl
  | d :: ds, 0, dp, _, hf => by simp at hf
  | d :: ds, fuel + 1, dp, hs, hf => by
    unfold cpoRecover1
    rw [if_pos (hs d (List.mem_cons_self _ _))]
    exact cpoRecover1_short vs ds fuel dp (fun x hx => hs x (List.mem_cons_of_mem _ hx))
      (by simpa using hf)

theorem cvxRow_pairs {n : Nat} {dp : DPTable2} (hr : CvxRow n n dp) {k : Nat} (hk2 : 2 ≤ k)
    (hk : k < n) : (dp.get 0 k).pairs = [⟨1, k - 1⟩] := by
  rw [hr.2 k (by omega) hk]
  unfold cvxCell
  simp only
  rw [if_pos ⟨hk2, hk⟩]

/-- The first recovery loop on the table of a polygon in convex position: from the diagonal
`(0, k)` it walks down the fan at vertex 0 and leaves the table as it is. -/
theorem cpoRecover1_cvx (poly : TPPLPoly) (h : ConvexPosition poly)
    (hn : 3 ≤ poly.GetNumPoints) {dp : DPTable2}
    (hr : CvxRow poly.GetNumPoints poly.GetNumPoints dp) :
    ∀ (m : Nat) (k : Nat), k = m + 2 → k < poly.GetNumPoints →
      ∀ (rest : List Diagonal) (fuel : Nat), (∀ d ∈ rest, d.index2 - d.index1 ≤ 1) →
      2 * (k - 1) + rest.length ≤ fuel →
      cpoRecover1 (cpoVertices poly poly.GetNumPoints) fuel (⟨0, k⟩ :: rest) dp = some dp
  | _, _, _, _, _, 0, _, hf => by omega
  | 0, k, hk2, hk, rest, fuel + 1, hs, hf => by
    subst hk2
    unfold cpoRecover1
    simp only
    rw [if_neg (show ¬ 0 + 2 - 0 ≤ 1 by omega), cvxRow_pairs hr (by omega) hk,
      cvx_isConvex poly h hn 0 (by omega)]
    simp only [List.isEmpty_cons, Bool.false_eq_true, if_false, decide_eq_false
      (show ¬ 1 ≤ 0 by omega), Bool.not_false, if_true, List.getLastD_cons, List.getLastD_nil]
    rw [if_neg (show ¬ 0 + 2 - 1 - 0 > 1 by omega)]
    exact cpoRecover1_short _ _ fuel dp (fun d hd => by
      rcases List.mem_cons.mp hd with rfl | hd
      · simp
      · exact hs d hd) (by simp at hf ⊢; omega)
  | m + 1, k, hk2, hk, rest, fuel + 1, hs, hf => by
    subst hk2
    unfold cpoRecover1
    simp only
    rw [if_neg (show ¬ m + 1 + 2 - 0 ≤ 1 by omega), cvxRow_pairs hr (by omega) hk,
      cvx_isConvex poly h hn 0 (by omega)]
    simp only [List.isEmpty_cons, Bool.false_eq_true, if_false, decide_eq_false
      (show ¬ 1 ≤ 0 by omega), Bool.not_false, if_true, List.getLastD_cons, List.getLastD_nil]
    rw [if_pos (show m + 1 + 2 - 1 - 0 > 1 by omega),
      if_pos (show (1 : Nat) ≠ m + 1 + 2 - 1 by omega),
      cvxRow_pairs hr (show 2 ≤ m + 1 + 2 - 1 by omega) (by omega)]
    have e : List.rdropWhile (fun d : Diagonal => decide (1 ≠ d.index1))
        [⟨1, m + 1 + 2 - 1 - 1⟩] = [⟨1, m + 1 + 2 - 1 - 1⟩] := by
      simp [List.rdropWhile]
    rw [e]
    simp only [List.isEmpty_cons, Bool.false_eq_true, if_false]
    have e2 : ({ dp.get 0 (m + 1 + 2 - 1) with pairs := [⟨1, m + 1 + 2 - 1 - 1⟩] } : DPState2)
        = dp.get 0 (m + 1 + 2 - 1) := by
      have := cvxRow_pairs hr (show 2 ≤ m + 1 + 2 - 1 by omega) (show m + 1 + 2 - 1 < _ by omega)
      rw [← this]
    rw [e2, DPTable2_set_get_self]
    exact cpoRecover1_cvx poly h hn hr m (m + 1 + 2 - 1) (by omega) (by omega) _ fuel
      (fun d hd => by
        rcases List.mem_cons.mp hd with rfl | hd
        · simp
        · exact hs d hd) (by simp at hf ⊢; omega)

theorem cpoRecover2_short (vs : List PartitionVertex) (dp : DPTable2) (n : Nat) :
    ∀ (ds : List Diagonal) (fuel : Nat) (parts : TPPLPolyList),
      (∀ d ∈ ds, d.index2 - d.index1 ≤ 1) → ds.length ≤ fuel →
      cpoRecover2 vs dp n fuel ds parts = parts
  | [], fuel, parts, _, _ => by cases fuel <;> rfl
  | d :: ds, 0, parts, _, hf => by simp at hf
  | d :: ds, fuel + 1, parts, hs, hf => by
    unfold cpoRecover2
    rw [if_pos (hs d (List.mem_cons_self _ _))]
    exact cpoRecover2_short vs dp n ds fuel parts
      (fun x hx => hs x (List.mem_cons_of_mem _ hx)) (by simpa using hf)

theorem cpoPick_cvx (poly : TPPLPoly) (h : ConvexPosition poly)
    (hn : 3 ≤ poly.GetNumPoints) {dp : DPTable2}
    (hr : CvxRow poly.GetNumPoints poly.GetNumPoints dp) {k : Nat} (hk2 : 2 ≤ k)
    (hk : k < poly.GetNumPoints) :
    cpoPick (cpoVertices poly poly.GetNumPoints) dp ⟨0, k⟩ = (k - 1, decide (1 = k - 1), true) := by
  unfold cpoPick
  simp only
  rw [cvxRow_pairs hr hk2 hk, cvx_isConvex poly h hn 0 (by omega)]
  simp

/-- The collection loop on the table of a polygon in convex position: from the diagonal
`(0, k)` it gathers the vertices `k - 1, ..., 1` and `k` polygon edges. -/
theorem cpoCollect_cvx (poly : TPPLPoly) (h : ConvexPosition poly)
    (hn : 3 ≤ poly.GetNumPoints) {dp : DPTable2}
    (hr : CvxRow poly.GetNumPoints poly.GetNumPoints dp) :
    ∀ (m : Nat) (k : Nat), k = m + 2 → k < poly.GetNumPoints →
      ∀ (diagonals : List Diagonal) (indices : List Nat) (fuel : Nat), k - 1 ≤ fuel →
      ∃ ds, cpoCollect (cpoVertices poly poly.GetNumPoints) dp fuel diagonals [⟨0, k⟩] indices
          = (diagonals ++ ds, indices ++ (List.range' 1 (k - 1)).reverse) ∧
        (∀ d ∈ ds, d.index2 - d.index1 ≤ 1) ∧ ds.length = k
  | _, _, _, _, _, _, 0, hf => by omega
  | 0, k, hk2, hk, diagonals, indices, fuel + 1, hf => by
    subst hk2
    refine ⟨[⟨0, 1⟩, ⟨1, 2⟩], ?_, ?_, rfl⟩
    · unfold cpoCollect
      simp only
      rw [if_neg (show ¬ 0 + 2 - 0 ≤ 1 by omega), cpoPick_cvx poly h hn hr (by omega) hk]
      simp only [Nat.zero_add, Nat.add_one_sub_one, decide_True, if_true, List.append_assoc,
        List.singleton_append]
      cases fuel <;> simp [cpoCollect]
    · intro d hd
      simp only [List.mem_cons, List.mem_singleton, List.mem_nil_iff, or_false] at hd
      rcases hd with rfl | rfl <;> simp
  | m + 1, k, hk2, hk, diagonals, indices, fuel + 1, hf => by
    subst hk2
    obtain ⟨ds, hds, hshort, hlen⟩ := cpoCollect_cvx poly h hn hr m (m + 1 + 2 - 1) (by omega)
      (by omega) (diagonals ++ [⟨m + 1 + 2 - 1, m + 1 + 2⟩]) (indices ++ [m + 1 + 2 - 1]) fuel
      (by omega)
    refine ⟨⟨m + 1 + 2 - 1, m + 1 + 2⟩ :: ds, ?_, ?_, by simp [hlen]⟩
    · unfold cpoCollect
      simp only
      rw [if_neg (show ¬ m + 1 + 2 - 0 ≤ 1 by omega), cpoPick_cvx poly h hn hr (by omega) hk]
      simp only [decide_eq_false (show ¬ 1 = m + 1 + 2 - 1 by omega), Bool.false_eq_true,
        if_false, if_true, List.nil_append]
      rw [hds]
      have e : List.range' 1 (m + 1 + 2 - 1) = List.range' 1 (m + 1 + 2 - 1 - 1) ++
          [m + 1 + 2 - 1] := by
        have e1 : m + 1 + 2 - 1 = (m + 1 + 2 - 1 - 1) + 1 := by omega
        conv_lhs => rw [e1, List.range'_concat]
        rw [show 1 + 1 * (m + 1 + 2 - 1 - 1) = m + 1 + 2 - 1 by omega]
      rw [e]
      simp
    · intro d hd
      rcases List.mem_cons.mp hd with rfl | hd
      · simp
      · exact hshort d hd

theorem sort_fan (n : Nat) (hn : 3 ≤ n) :
    ([0, n - 1] ++ (List.range' 1 (n - 1 - 1)).reverse).insertionSort (fun a b => a ≤ b)
      = List.range n := by
  apply List.eq_of_perm_of_sorted (r := fun a b : Nat => a ≤ b)
  · refine (List.perm_insertionSort _ _).trans ?_
    have e : List.range n = 0 :: (List.range' 1 (n - 1 - 1) ++ [n - 1]) := by
      rw [List.range_eq_range']
      have e1 : n = (n - 1 - 1 + 1) + 1 := by omega
      conv_lhs => rw [e1, List.range'_succ, List.range'_concat]
      rw [show 0 + 1 + 1 * (n - 1 - 1) = n - 1 by omega]
    rw [e]
    simp only [List.cons_append, List.nil_append]
    refine List.Perm.cons _ ?_
    refine List.Perm.trans ?_ (List.perm_append_singleton _ _).symm
    exact List.Perm.cons _ (List.reverse_perm _)
  · exact List.sorted_insertionSort _ _
  · exact List.sorted_le_range n

theorem cvx_points (poly : TPPLPoly) (h : ConvexPosition poly) (hn : 3 ≤ poly.GetNumPoints) :
    (List.range poly.GetNumPoints).map
      (fun i => (vtx (cpoVertices poly poly.GetNumPoints) i).p) = poly.points := by
  apply List.ext_getElem
  · simp [TPPLPoly.GetNumPoints]
  · intro i h1 h2
    have hi : i < poly.GetNumPoints := h2
    simp only [List.getElem_map, List.getElem_range]
    rw [(cpoVertices_convex poly h hn).2 i hi]
    unfold cvxVertex TPPLPoly.GetPoint
    simp only
    rw [List.getD_eq_getElem _ _ h2]

/-- On a polygon in convex position with at least four points `ConvexPartition_OPT` returns 1
and appends the one polygon formed by the points of the input. -/
theorem ConvexPartition_OPT_convex (poly : TPPLPoly) (out : TPPLPolyList)
    (h : ConvexPosition poly) (hn : 4 ≤ poly.GetNumPoints) :
    ConvexPartition_OPT poly out = (1, out ++ [TPPLPoly.ofPoints poly.points]) := by
  have hn3 : 3 ≤ poly.GetNumPoints := by omega
  have hr := cpoFill_cvx poly h hn (cpoInit_cvxRow poly h hn)
  have hv : poly.Valid = true := by
    unfold TPPLPoly.Valid; exact decide_eq_true hn3
  unfold ConvexPartition_OPT
  simp only [hv, Bool.not_true, Bool.false_eq_true, if_false]
  rw [cpoVertices_flags poly h hn3]
  rw [cpoRecover1_cvx poly h hn3 hr (poly.GetNumPoints - 3) (poly.GetNumPoints - 1) (by omega)
    (by omega) [] (2 * poly.GetNumPoints + 2) (fun d hd => by simp at hd)
    (by simp only [List.length_nil]; omega)]
  simp only
  obtain ⟨ds, hds, hshort, hlen⟩ := cpoCollect_cvx poly h hn3 hr (poly.GetNumPoints - 3)
    (poly.GetNumPoints - 1) (by omega) (by omega) [] [0, poly.GetNumPoints - 1]
    (2 * poly.GetNumPoints + 2) (by omega)
  have e : 2 * poly.GetNumPoints + 2 = (2 * poly.GetNumPoints + 1) + 1 := by omega
  conv_lhs => rw [e]
  unfold cpoRecover2
  simp only
  rw [if_neg (show ¬ poly.GetNumPoints - 1 - 0 ≤ 1 by omega), ← e, hds]
  simp only [List.nil_append]
  rw [sort_fan _ hn3, cvx_points poly h hn3,
    cpoRecover2_short _ _ _ ds _ _ hshort (by omega)]

theorem ConvexPosition.strictlyConvex {poly : TPPLPoly} (h : ConvexPosition poly)
    (hn : 3 ≤ poly.GetNumPoints) : StrictlyConvex poly := by
  intro v hv
  unfold ConvexAt
  by_cases h0 : v = 0
  · subst h0
    rw [if_pos rfl, if_neg (show ¬ 0 = poly.GetNumPoints - 1 by omega)]
    exact h.rot2 (show 0 < 0 + 1 by omega) (show 0 + 1 < poly.GetNumPoints - 1 by omega)
      (by omega)
  rw [if_neg h0]
  by_cases hl : v = poly.GetNumPoints - 1
  · rw [if_pos hl]
    exact h.rot1 (show 0 < v - 1 by omega) (show v - 1 < v by omega) hv
  · rw [if_neg hl]
    exact h.tri (show v - 1 < v by omega) (show v < v + 1 by omega) (by omega)

/-- C14 (failing input): the counter-clockwise triangle `[(0,0),(2,0),(1,2)]` has `n = 3`
points and satisfies `IsConvex(prev, v, next)` at every vertex; `ConvexPartition_OPT`
returns 0 on it and appends nothing, while `ConvexPartition_HM`, `Triangulate_EC` and
`Triangulate_OPT` return 1 with the triangle itself, and `ConvexPartition_OPT` returns the
square `[(0,0),(10,0),(10,10),(0,10)]` unchanged. -/
theorem C14_failing_input :
    smallTriangle.GetNumPoints = 3 ∧ StrictlyConvex smallTriangle ∧
    smallTriangle.GetOrientation = TPPLOrientation.CCW ∧
    ConvexPartition_OPT smallTriangle [] = (0, []) ∧
    ConvexPartition_HM sqrtApprox smallTriangle [] = (1, [smallTriangle]) ∧
    Triangulate_EC sqrtApprox smallTriangle [] = (1, [smallTriangle]) ∧
    Triangulate_OPT sqrtApprox smallTriangle [] = (1, [smallTriangle]) ∧
    ConvexPartition_OPT squarePoly [] = (1, [squarePoly]) := by
  decide!

/-! ## Evaluations for the convex and the monotone partition -/

/-- C15 (failing input): the polygon
`[(-2,3),(-3,3),(-2,2),(-3,1),(-2,-2),(-2,-3),(1,-3),(2,1),(3,2)]` is simple,
counter-clockwise and has no colinear consecutive vertices; `ConvexPartition_HM` returns 1
with three parts, each strictly convex, while `ConvexPartition_OPT` returns 1 with four
parts.  `Intersects` reports the diagonal from `(-2,3)` to `(-2,2)` as crossing the edge from
`(-2,-2)` to `(-2,-3)`, which lies on the same line and is disjoint from it. -/
theorem C15_failing_input :
    SimplePolygon notchedNonagon = true ∧ NoColinearVertex notchedNonagon = true ∧
    0 < notchedNonagon.shoelace ∧
    (ConvexPartition_HM sqrtApprox notchedNonagon []).1 = 1 ∧
    (ConvexPartition_HM sqrtApprox notchedNonagon []).2.map (fun t => t.points.map TPPLPoint.xy)
      = [[(-2, 3), (-3, 3), (-2, 2), (2, 1), (3, 2)],
         [(-2, -2), (-2, -3), (1, -3), (2, 1)],
         [(-2, -2), (2, 1), (-2, 2), (-3, 1)]] ∧
    (∀ t ∈ (ConvexPartition_HM sqrtApprox notchedNonagon []).2, StrictlyConvex t) ∧
    shoelaceSum (ConvexPartition_HM sqrtApprox notchedNonagon []).2 = notchedNonagon.shoelace ∧
    (ConvexPartition_OPT notchedNonagon []).1 = 1 ∧
    (ConvexPartition_OPT notchedNonagon []).2.map (fun t => t.points.map TPPLPoint.xy)
      = [[(-2, 3), (-3, 3), (2, 1), (3, 2)],
         [(-3, 3), (-2, 2), (2, 1)],
         [(-2, 2), (-3, 1), (-2, -2), (2, 1)],
         [(-2, -2), (-2, -3), (1, -3), (2, 1)]] ∧
    segmentsMeet (notchedNonagon.GetPoint 0) (notchedNonagon.GetPoint 2)
      (notchedNonagon.GetPoint 4) (notchedNonagon.GetPoint 5) = false ∧
    Intersects (notchedNonagon.GetPoint 0) (notchedNonagon.GetPoint 2)
      (notchedNonagon.GetPoint 4) (notchedNonagon.GetPoint 5) = 1 := by
  decide!

/-- C16 (failing input): the polygon `[(2,1),(3,-1),(3,5),(2,4),(1,6),(0,2),(1,0)]` is simple
and counter-clockwise; `MonotonePartition` returns 1 and delivers one ring of eleven points
that fails the monotonicity check of `TriangulateMonotone`, so that `Triangulate_MONO`
returns 0 on the polygon. -/
theorem C16_failing_input :
    SimplePolygon hourglass = true ∧ NoColinearVertex hourglass = true ∧
    0 < hourglass.shoelace ∧
    (MonotonePartition monoSweep [hourglass] []).1 = 1 ∧
    (MonotonePartition monoSweep [hourglass] []).2.map (fun t => t.points.map TPPLPoint.xy)
      = [[(2, 1), (0, 2), (2, 4), (1, 6), (0, 2), (2, 1), (3, -1), (3, 5), (2, 4), (0, 2),
          (1, 0)]] ∧
    (∀ t ∈ (MonotonePartition monoSweep [hourglass] []).2, monotoneCheck t = false) ∧
    (∀ t ∈ (MonotonePartition monoSweep [hourglass] []).2,
      (TriangulateMonotone t []).1 = 0) ∧
    Triangulate_MONO monoSweep TriangulateMonotone hourglass [] = (0, []) := by
  decide!

/-! ## Orientation -/

theorem pathSum_reverse : ∀ l : List TPPLPoint, pathSum l.reverse = -pathSum l
  | [] => by simp [pathSum]
  | [a] => by simp [pathSum]
  | a :: b :: t => by
    have ih := pathSum_reverse (b :: t)
    have e : (a :: b :: t).reverse = t.reverse ++ b :: [a] := by simp
    rw [e, pathSum_append]
    have e2 : t.reverse ++ [b] = (b :: t).reverse := by simp
    rw [e2, ih]
    simp only [pathSum]
    have := cross_antisymm a b
    linarith

theorem shoelacePts_reverse (l : List TPPLPoint) :
    shoelacePts l.reverse = -shoelacePts l := by
  cases l with
  | nil => simp [shoelacePts]
  | cons a l =>
    have hrot : (a :: l).reverse ~r a :: l.reverse := by
      refine ⟨l.length, ?_⟩
      rw [List.reverse_cons]
      rw [show l.length = l.reverse.length by simp, List.rotate_append_length_eq]
      rfl
    rw [shoelacePts_isRotated hrot, shoelacePts_eq_pathSum, shoelacePts_eq_pathSum]
    have e : a :: (l.reverse ++ [a]) = (a :: (l ++ [a])).reverse := by simp
    rw [e, pathSum_reverse]

theorem Invert_shoelace (poly : TPPLPoly) : poly.Invert.shoelace = -poly.shoelace := by
  rw [shoelace_eq_pts, shoelace_eq_pts]
  exact shoelacePts_reverse poly.points

theorem GetOrientation_cases (poly : TPPLPoly) :
    (poly.GetOrientation = TPPLOrientation.CCW ↔ poly.shoelace > 0) ∧
    (poly.GetOrientation = TPPLOrientation.CW ↔ poly.shoelace < 0) ∧
    (poly.GetOrientation = TPPLOrientation.NONE ↔ poly.shoelace = 0) := by
  unfold TPPLPoly.GetOrientation
  simp only
  rcases lt_trichotomy poly.shoelace 0 with h | h | h
  · have h1 : ¬ poly.shoelace > 0 := not_lt.mpr (le_of_lt h)
    rw [if_neg h1, if_pos h]
    exact ⟨by simp [h1], by simp [h], by simp [ne_of_lt h]⟩
  · rw [h]
    simp
  · rw [if_pos h]
    exact ⟨by simp [h], by simp [not_lt.mpr (le_of_lt h)], by simp [ne_of_gt h]⟩

theorem Invert_GetOrientation (poly : TPPLPoly) :
    poly.Invert.GetOrientation.toInt = -poly.GetOrientation.toInt := by
  have hs := Invert_shoelace poly
  obtain ⟨a1, a2, a3⟩ := GetOrientation_cases poly
  obtain ⟨b1, b2, b3⟩ := GetOrientation_cases poly.Invert
  rw [hs] at b1 b2 b3
  rcases lt_trichotomy poly.shoelace 0 with h | h | h
  · rw [a2.mpr h, b1.mpr (by linarith)]; rfl
  · rw [a3.mpr h, b3.mpr (by linarith)]; rfl
  · rw [a1.mpr h, b2.mpr (by linarith)]; rfl

/-- C22: `GetOrientation` returns CCW iff the shoelace sum over the cyclically consecutive
vertex pairs is positive, CW iff it is negative and NONE iff it is zero; it returns NONE for
`[(0,0),(1,0),(2,0)]`. -/
theorem C22_GetOrientation_shoelace (poly : TPPLPoly) :
    (poly.GetOrientation = TPPLOrientation.CCW ↔ shoelacePts poly.points > 0) ∧
    (poly.GetOrientation = TPPLOrientation.CW ↔ shoelacePts poly.points < 0) ∧
    (poly.GetOrientation = TPPLOrientation.NONE ↔ shoelacePts poly.points = 0) ∧
    flatTriangle.GetOrientation = TPPLOrientation.NONE := by
  rw [← shoelace_eq_pts]
  obtain ⟨a1, a2, a3⟩ := GetOrientation_cases poly
  exact ⟨a1, a2, a3, by decide!⟩

/-- C23 (as stated, refuted): in binary64, `GetOrientation` of
`[(2^27, 0), (0, 2^27), (2^27, -1), (1, 0)]` is CCW, and after `Invert` it is NONE, not
CW: the running sum, accumulated in the reverse order, rounds to 0. -/
theorem C23_counterexample :
    Arith.binary64.GetOrientation roundingQuad = TPPLOrientation.CCW ∧
    Arith.binary64.GetOrientation roundingQuad.Invert = TPPLOrientation.NONE ∧
    roundingQuad.GetOrientation = TPPLOrientation.CCW ∧
    roundingQuad.Invert.GetOrientation = TPPLOrientation.CW := by
  decide!

/-- C23 (amended): in exact arithmetic, the orientation after `Invert` is the negation of
the orientation before (CCW becomes CW, CW becomes CCW, NONE stays NONE); and `Invert`
applied twice restores the point sequence. -/
theorem C23_Invert_flips_orientation (poly : TPPLPoly) :
    poly.Invert.GetOrientation.toInt = -poly.GetOrientation.toInt ∧
    (poly.GetOrientation = TPPLOrientation.CCW ↔
      poly.Invert.GetOrientation = TPPLOrientation.CW) ∧
    (poly.GetOrientation = TPPLOrientation.CW ↔
      poly.Invert.GetOrientation = TPPLOrientation.CCW) ∧
    (poly.GetOrientation = TPPLOrientation.NONE ↔
      poly.Invert.GetOrientation = TPPLOrientation.NONE) ∧
    poly.Invert.Invert = poly := by
  have h := Invert_GetOrientation poly
  refine ⟨h, ?_, ?_, ?_, ?_⟩
  · cases h1 : poly.GetOrientation <;> cases h2 : poly.Invert.GetOrientation <;>
      rw [h1, h2] at h <;> simp [TPPLOrientation.toInt] at h ⊢
  · cases h1 : poly.GetOrientation <;> cases h2 : poly.Invert.GetOrientation <;>
      rw [h1, h2] at h <;> simp [TPPLOrientation.toInt] at h ⊢
  · cases h1 : poly.GetOrientation <;> cases h2 : poly.Invert.GetOrientation <;>
      rw [h1, h2] at h <;> simp [TPPLOrientation.toInt] at h ⊢
  · simp [TPPLPoly.Invert]

/-- C24 (as stated, refuted): in binary64, the orientation of
`[(2^27, 0), (0, 2^27), (2^27, -1), (1, 0)]` is CCW, not NONE, and after
`SetOrientation(CW)` `GetOrientation` returns NONE, not CW. -/
theorem C24_counterexample :
    Arith.binary64.GetOrientation roundingQuad = TPPLOrientation.CCW ∧
    Arith.binary64.GetOrientation
      (Arith.binary64.SetOrientation roundingQuad TPPLOrientation.CW)
      = TPPLOrientation.NONE := by
  decide!

/-- C24 (amended): in exact arithmetic, on a polygon whose orientation is not NONE,
`SetOrientation(o)` with `o` CW or CCW leaves a polygon of orientation `o` and
`SetOrientation(NONE)` reverses the vertex order; a polygon whose orientation is NONE is
left unchanged by `SetOrientation` with any argument. -/
theorem C24_SetOrientation (poly : TPPLPoly) :
    (poly.GetOrientation ≠ TPPLOrientation.NONE →
      (∀ o, o ≠ TPPLOrientation.NONE → (poly.SetOrientation o).GetOrientation = o) ∧
      poly.SetOrientation TPPLOrientation.NONE = poly.Invert ∧
      (poly.SetOrientation TPPLOrientation.NONE).points = poly.points.reverse) ∧
    (poly.GetOrientation = TPPLOrientation.NONE → ∀ o, poly.SetOrientation o = poly) := by
  have h := Invert_GetOrientation poly
  refine ⟨fun hne => ⟨fun o ho => ?_, ?_, ?_⟩, fun hn o => ?_⟩
  · unfold TPPLPoly.SetOrientation
    simp only
    by_cases heq : poly.GetOrientation = o
    · rw [if_neg (fun hc => hc.2 heq)]
      exact heq
    · rw [if_pos ⟨hne, heq⟩]
      cases h1 : poly.GetOrientation <;> cases h2 : poly.Invert.GetOrientation <;>
        cases o <;> rw [h1, h2] at h <;> simp [TPPLOrientation.toInt] at h <;>
        simp_all
  · unfold TPPLPoly.SetOrientation
    simp only
    rw [if_pos ⟨hne, hne⟩]
  · unfold TPPLPoly.SetOrientation
    simp only
    rw [if_pos ⟨hne, hne⟩]
    rfl
  · unfold TPPLPoly.SetOrientation
    simp only
    rw [if_neg (fun hc => hc.1 hn)]

/-! ## The geometric predicates -/

theorem IsConvex_iff (p1 p2 p3 : TPPLPoint) :
    IsConvex p1 p2 p3 = true ↔
      (p3.y - p1.y) * (p2.x - p1.x) - (p3.x - p1.x) * (p2.y - p1.y) > 0 := by
  unfold IsConvex
  exact decide_eq_true_iff

theorem IsReflex_iff (p1 p2 p3 : TPPLPoint) :
    IsReflex p1 p2 p3 = true ↔
      (p3.y - p1.y) * (p2.x - p1.x) - (p3.x - p1.x) * (p2.y - p1.y) < 0 := by
  unfold IsReflex
  exact decide_eq_true_iff

/-- Three points lie on one line iff the cross product of `IsConvex` vanishes. -/
theorem onCommonLine_iff (p1 p2 p3 : TPPLPoint) :
    OnCommonLine [p1, p2, p3] ↔
      (p3.y - p1.y) * (p2.x - p1.x) - (p3.x - p1.x) * (p2.y - p1.y) = 0 := by
  constructor
  · rintro ⟨a, b, c, hab, h⟩
    have h1 := h p1 (by simp)
    have h2 := h p2 (by simp)
    have h3 := h p3 (by simp)
    have ea : a * ((p3.y - p1.y) * (p2.x - p1.x) - (p3.x - p1.x) * (p2.y - p1.y)) = 0 := by
      have e2 : a * (p2.x - p1.x) = -(b * (p2.y - p1.y)) := by linarith
      have e3 : a * (p3.x - p1.x) = -(b * (p3.y - p1.y)) := by linarith
      calc a * ((p3.y - p1.y) * (p2.x - p1.x) - (p3.x - p1.x) * (p2.y - p1.y))
          = (p3.y - p1.y) * (a * (p2.x - p1.x)) - (a * (p3.x - p1.x)) * (p2.y - p1.y) := by ring
        _ = 0 := by rw [e2, e3]; ring
    have eb : b * ((p3.y - p1.y) * (p2.x - p1.x) - (p3.x - p1.x) * (p2.y - p1.y)) = 0 := by
      have e2 : b * (p2.y - p1.y) = -(a * (p2.x - p1.x)) := by linarith
      have e3 : b * (p3.y - p1.y) = -(a * (p3.x - p1.x)) := by linarith
      calc b * ((p3.y - p1.y) * (p2.x - p1.x) - (p3.x - p1.x) * (p2.y - p1.y))
          = (b * (p3.y - p1.y)) * (p2.x - p1.x) - (p3.x - p1.x) * (b * (p2.y - p1.y)) := by ring
        _ = 0 := by rw [e2, e3]; ring
    rcases hab with ha | hb
    · exact (mul_eq_zero.mp ea).resolve_left ha
    · exact (mul_eq_zero.mp eb).resolve_left hb
  · intro hc
    by_cases h2 : p2.y - p1.y ≠ 0 ∨ p2.x - p1.x ≠ 0
    · refine ⟨p2.y - p1.y, -(p2.x - p1.x), (p2.y - p1.y) * p1.x + -(p2.x - p1.x) * p1.y, ?_, ?_⟩
      · rcases h2 with h | h
        · exact Or.inl h
        · exact Or.inr (neg_ne_zero.mpr h)
      · intro p hp
        simp only [List.mem_cons, List.mem_singleton, List.mem_nil_iff, or_false] at hp
        rcases hp with rfl | rfl | rfl
        · ring
        · ring
        · linarith
    · have hy : p2.y - p1.y = 0 := by
        by_contra hne; exact h2 (Or.inl hne)
      have hx : p2.x - p1.x = 0 := by
        by_contra hne; exact h2 (Or.inr hne)
      by_cases h3 : p3.y - p1.y ≠ 0 ∨ p3.x - p1.x ≠ 0
      · refine ⟨p3.y - p1.y, -(p3.x - p1.x),
          (p3.y - p1.y) * p1.x + -(p3.x - p1.x) * p1.y, ?_, ?_⟩
        · rcases h3 with h | h
          · exact Or.inl h
          · exact Or.inr (neg_ne_zero.mpr h)
        · intro p hp
          simp only [List.mem_cons, List.mem_singleton, List.mem_nil_iff, or_false] at hp
          rcases hp with rfl | rfl | rfl
          · ring
          · have ex : p.x = p1.x := by linarith
            have ey : p.y = p1.y := by linarith
            rw [ex, ey]
          · ring
      · have hy3 : p3.y - p1.y = 0 := by
          by_contra hne; exact h3 (Or.inl hne)
        refine ⟨0, 1, p1.y, Or.inr one_ne_zero, ?_⟩
        intro p hp
        simp only [List.mem_cons, List.mem_singleton, List.mem_nil_iff, or_false] at hp
        rcases hp with rfl | rfl | rfl
        · ring
        · linarith
        · linarith

/-- C25 (as stated, refuted): in binary64, at `p1 = (0,0)`, `p2 = (2^27 + 1, 2^27)`,
`p3 = (2^27, 2^27 - 1)` the cross product `c` is `-1`, yet `IsConvex(p1,p2,p3)` and
`IsReflex(p1,p2,p3)` are both false (the two rounded products are equal) although the three
points are not on one line, and `IsReflex(p1,p2,p3)` differs from `IsConvex(p3,p2,p1)`. -/
theorem C25_counterexample :
    ((134217727 : ℚ) - 0) * (134217729 - 0) - (134217728 - 0) * (134217728 - 0) = -1 ∧
    Arith.binary64.IsConvex ⟨0, 0, 0⟩ ⟨134217729, 134217728, 1⟩ ⟨134217728, 134217727, 2⟩
      = false ∧
    Arith.binary64.IsReflex ⟨0, 0, 0⟩ ⟨134217729, 134217728, 1⟩ ⟨134217728, 134217727, 2⟩
      = false ∧
    ¬ OnCommonLine [⟨0, 0, 0⟩, ⟨134217729, 134217728, 1⟩, ⟨134217728, 134217727, 2⟩] ∧
    Arith.binary64.IsConvex ⟨134217728, 134217727, 2⟩ ⟨134217729, 134217728, 1⟩ ⟨0, 0, 0⟩
      = true := by
  refine ⟨by norm_num, by decide!, by decide!, ?_, by decide!⟩
  rintro ⟨a, b, c, hab, h⟩
  have h0 := h ⟨0, 0, 0⟩ (by simp)
  have h1 := h ⟨134217729, 134217728, 1⟩ (by simp)
  have h2 := h ⟨134217728, 134217727, 2⟩ (by simp)
  simp only at h0 h1 h2
  have ha : a = 0 := by linarith
  have hb : b = 0 := by linarith
  rcases hab with hab | hab
  · exact hab ha
  · exact hab hb

/-- C25 (amended): in exact arithmetic, `IsConvex(p1,p2,p3)` holds iff
`c = (p3.y-p1.y)(p2.x-p1.x) - (p3.x-p1.x)(p2.y-p1.y)` is positive and `IsReflex(p1,p2,p3)`
iff `c` is negative; they are never both true, both are false exactly when the three points
lie on one line, and `IsReflex(p1,p2,p3)` equals `IsConvex(p3,p2,p1)`. -/
theorem C25_IsConvex_IsReflex (p1 p2 p3 : TPPLPoint) :
    (IsConvex p1 p2 p3 = true ↔
      (p3.y - p1.y) * (p2.x - p1.x) - (p3.x - p1.x) * (p2.y - p1.y) > 0) ∧
    (IsReflex p1 p2 p3 = true ↔
      (p3.y - p1.y) * (p2.x - p1.x) - (p3.x - p1.x) * (p2.y - p1.y) < 0) ∧
    ¬ (IsConvex p1 p2 p3 = true ∧ IsReflex p1 p2 p3 = true) ∧
    ((IsConvex p1 p2 p3 = false ∧ IsReflex p1 p2 p3 = false) ↔ OnCommonLine [p1, p2, p3]) ∧
    IsReflex p1 p2 p3 = IsConvex p3 p2 p1 := by
  refine ⟨IsConvex_iff p1 p2 p3, IsReflex_iff p1 p2 p3, ?_, ?_, ?_⟩
  · rw [IsConvex_iff, IsReflex_iff]
    intro h
    linarith [h.1, h.2]
  · rw [onCommonLine_iff, ← Bool.not_eq_true, ← Bool.not_eq_true, IsConvex_iff, IsReflex_iff]
    constructor
    · intro h
      exact le_antisymm (not_lt.mp h.1) (not_lt.mp h.2)
    · intro h
      rw [h]
      exact ⟨lt_irrefl 0, lt_irrefl 0⟩
  · unfold IsReflex IsConvex
    have e : (p1.y - p3.y) * (p2.x - p3.x) - (p1.x - p3.x) * (p2.y - p3.y)
        = -((p3.y - p1.y) * (p2.x - p1.x) - (p3.x - p1.x) * (p2.y - p1.y)) := by ring
    rw [e]
    by_cases h : (p3.y - p1.y) * (p2.x - p1.x) - (p3.x - p1.x) * (p2.y - p1.y) < 0
    · rw [decide_eq_true h, decide_eq_true (show -((p3.y - p1.y) * (p2.x - p1.x)
        - (p3.x - p1.x) * (p2.y - p1.y)) > 0 by linarith)]
    · rw [decide_eq_false h, decide_eq_false (show ¬ -((p3.y - p1.y) * (p2.x - p1.x)
        - (p3.x - p1.x) * (p2.y - p1.y)) > 0 by intro hc; exact h (by linarith))]

theorem IsInside_iff (a b c p : TPPLPoint) :
    IsInside a b c p = true ↔
      (b.y - a.y) * (p.x - a.x) - (b.x - a.x) * (p.y - a.y) ≤ 0 ∧
      (c.y - b.y) * (p.x - b.x) - (c.x - b.x) * (p.y - b.y) ≤ 0 ∧
      (a.y - c.y) * (p.x - c.x) - (a.x - c.x) * (p.y - c.y) ≤ 0 := by
  unfold IsInside
  by_cases h1 : IsConvex a p b = true
  · rw [if_pos h1]
    have := (IsConvex_iff a p b).mp h1
    constructor
    · intro hc; exact absurd hc (by decide)
    · intro hc; linarith [hc.1]
  rw [if_neg h1]
  by_cases h2 : IsConvex b p c = true
  · rw [if_pos h2]
    have := (IsConvex_iff b p c).mp h2
    constructor
    · intro hc; exact absurd hc (by decide)
    · intro hc; linarith [hc.2.1]
  rw [if_neg h2]
  by_cases h3 : IsConvex c p a = true
  · rw [if_pos h3]
    have := (IsConvex_iff c p a).mp h3
    constructor
    · intro hc; exact absurd hc (by decide)
    · intro hc; linarith [hc.2.2]
  rw [if_neg h3]
  rw [IsConvex_iff] at h1 h2 h3
  exact ⟨fun _ => ⟨not_lt.mp h1, not_lt.mp h2, not_lt.mp h3⟩, fun _ => rfl⟩

/-- C26 (as stated, refuted): in binary64, for `a = (0,0)`, `b = (2^27 + 1, 2^27)`,
`c = (0, 2^27)`, a strictly counter-clockwise triangle, and `p = (2^27, 2^27 - 1)`,
`IsInside(a,b,c,p)` is true, yet `p` is no convex combination of `a`, `b` and `c`. -/
theorem C26_counterexample :
    Arith.binary64.IsConvex ⟨0, 0, 0⟩ ⟨134217729, 134217728, 1⟩ ⟨0, 134217728, 2⟩ = true ∧
    IsConvex ⟨0, 0, 0⟩ ⟨134217729, 134217728, 1⟩ ⟨0, 134217728, 2⟩ = true ∧
    Arith.binary64.IsInside ⟨0, 0, 0⟩ ⟨134217729, 134217728, 1⟩ ⟨0, 134217728, 2⟩
      ⟨134217728, 134217727, 3⟩ = true ∧
    ¬ InClosedTriangle ⟨0, 0, 0⟩ ⟨134217729, 134217728, 1⟩ ⟨0, 134217728, 2⟩
      ⟨134217728, 134217727, 3⟩ := by
  refine ⟨by decide!, by decide!, by decide!, ?_⟩
  rintro ⟨u, v, w, hu, hv, hw, hsum, hx, hy⟩
  simp only at hx hy
  linarith

/-- C26 (amended): in exact arithmetic, for a strictly counter-clockwise triangle
`(a, b, c)` and every point `p`, `IsInside(a,b,c,p)` is true iff `p` is a convex combination
of `a`, `b` and `c`. -/
theorem C26_IsInside_closed_triangle (a b c p : TPPLPoint) (h : IsConvex a b c = true) :
    IsInside a b c p = true ↔ InClosedTriangle a b c p := by
  rw [IsConvex_iff] at h
  rw [IsInside_iff]
  set D := (c.y - a.y) * (b.x - a.x) - (c.x - a.x) * (b.y - a.y) with hD
  have hD0 : D ≠ 0 := ne_of_gt h
  constructor
  · rintro ⟨h1, h2, h3⟩
    refine ⟨-((c.y - b.y) * (p.x - b.x) - (c.x - b.x) * (p.y - b.y)) / D,
      -((a.y - c.y) * (p.x - c.x) - (a.x - c.x) * (p.y - c.y)) / D,
      -((b.y - a.y) * (p.x - a.x) - (b.x - a.x) * (p.y - a.y)) / D, ?_, ?_, ?_, ?_, ?_, ?_⟩
    · exact div_nonneg (by linarith) (le_of_lt h)
    · exact div_nonneg (by linarith) (le_of_lt h)
    · exact div_nonneg (by linarith) (le_of_lt h)
    · rw [← add_div, ← add_div, div_eq_one_iff_eq hD0, hD]
      ring
    · field_simp
      rw [hD]
      ring
    · field_simp
      rw [hD]
      ring
  · rintro ⟨u, v, w, hu, hv, hw, hsum, hx, hy⟩
    have eu : u = 1 - v - w := by linarith
    subst eu
    have e1 : (b.y - a.y) * (p.x - a.x) - (b.x - a.x) * (p.y - a.y) = -(w * D) := by
      rw [hx, hy, hD]; ring
    have e2 : (c.y - b.y) * (p.x - b.x) - (c.x - b.x) * (p.y - b.y) = -((1 - v - w) * D) := by
      rw [hx, hy, hD]; ring
    have e3 : (a.y - c.y) * (p.x - c.x) - (a.x - c.x) * (p.y - c.y) = -(v * D) := by
      rw [hx, hy, hD]; ring
    rw [e1, e2, e3]
    refine ⟨?_, ?_, ?_⟩
    · have := mul_nonneg hw (le_of_lt h); linarith
    · have := mul_nonneg hu (le_of_lt h); linarith
    · have := mul_nonneg hv (le_of_lt h); linarith

theorem C26_witness :
    IsConvex ⟨0, 0, 0⟩ ⟨4, 0, 1⟩ ⟨0, 4, 2⟩ = true ∧
    IsInside ⟨0, 0, 0⟩ ⟨4, 0, 1⟩ ⟨0, 4, 2⟩ ⟨2, 2, 3⟩ = true ∧
    InClosedTriangle ⟨0, 0, 0⟩ ⟨4, 0, 1⟩ ⟨0, 4, 2⟩ ⟨2, 2, 3⟩ ∧
    IsInside ⟨0, 0, 0⟩ ⟨4, 0, 1⟩ ⟨0, 4, 2⟩ ⟨3, 2, 3⟩ = false ∧
    ¬ InClosedTriangle ⟨0, 0, 0⟩ ⟨4, 0, 1⟩ ⟨0, 4, 2⟩ ⟨3, 2, 3⟩ :=
  ⟨by decide!, by decide!,
    (C26_IsInside_closed_triangle ⟨0, 0, 0⟩ ⟨4, 0, 1⟩ ⟨0, 4, 2⟩ ⟨2, 2, 3⟩ (by decide!)).mp
      (by decide!),
    by decide!,
    fun hc => absurd
      ((C26_IsInside_closed_triangle ⟨0, 0, 0⟩ ⟨4, 0, 1⟩ ⟨0, 4, 2⟩ ⟨3, 2, 3⟩ (by decide!)).mpr hc)
      (by decide!)⟩

theorem C24_witness :
    squarePoly.GetOrientation ≠ TPPLOrientation.NONE ∧
    (squarePoly.SetOrientation TPPLOrientation.CW).GetOrientation = TPPLOrientation.CW ∧
    (squarePoly.SetOrientation TPPLOrientation.NONE).points = squarePoly.points.reverse ∧
    flatTriangle.GetOrientation = TPPLOrientation.NONE ∧
    flatTriangle.SetOrientation TPPLOrientation.CW = flatTriangle :=
  ⟨by decide!,
    ((C24_SetOrientation squarePoly).1 (by decide!)).1 TPPLOrientation.CW (by decide),
    ((C24_SetOrientation squarePoly).1 (by decide!)).2.2,
    by decide!,
    (C24_SetOrientation flatTriangle).2 (by decide!) TPPLOrientation.CW⟩

/-! ## The intersection test -/

/-- The value of `Intersects` on segments that share no endpoint. -/
theorem Intersects_eq_ite (p11 p12 p21 p22 : TPPLPoint)
    (hne : p11.eq p21 = false ∧ p11.eq p22 = false ∧ p12.eq p21 = false ∧
      p12.eq p22 = false) :
    Intersects p11 p12 p21 p22 =
      if sideOf p21 p22 p11 * sideOf p21 p22 p12 > 0 ∨
        sideOf p11 p12 p21 * sideOf p11 p12 p22 > 0 then 0 else 1 := by
  unfold Intersects sideOf
  rw [hne.1, hne.2.1, hne.2.2.1, hne.2.2.2]
  simp only [Bool.or_self, Bool.false_eq_true, if_false]

theorem sideOf_onSegment {a b p : TPPLPoint} (h : OnSegment a b p) : sideOf a b p = 0 := by
  obtain ⟨t, _, _, hx, hy⟩ := h
  unfold sideOf
  rw [hx, hy]
  ring

/-- The value of `sideOf a b` along a segment is the convex combination of its values at the
ends. -/
theorem sideOf_affine {c d q : TPPLPoint} (a b : TPPLPoint) {t : ℚ}
    (hx : q.x = c.x + t * (d.x - c.x)) (hy : q.y = c.y + t * (d.y - c.y)) :
    sideOf a b q = (1 - t) * sideOf a b c + t * sideOf a b d := by
  unfold sideOf
  rw [hx, hy]
  ring

/-- The ends of a segment are not strictly on one side of a line through one of its
points. -/
theorem sideOf_through_first {a b p : TPPLPoint} (d : TPPLPoint) (h : OnSegment a b p) :
    sideOf p d a * sideOf p d b ≤ 0 := by
  obtain ⟨t, ht0, ht1, hx, hy⟩ := h
  have e : sideOf p d a * sideOf p d b
      = -(t * (1 - t) * ((b.x - a.x) * (d.y - p.y) + (b.y - a.y) * (p.x - d.x)) ^ 2) := by
    unfold sideOf
    have ex1 : a.x - p.x = -(t * (b.x - a.x)) := by rw [hx]; ring
    have ey1 : a.y - p.y = -(t * (b.y - a.y)) := by rw [hy]; ring
    have ex2 : b.x - p.x = (1 - t) * (b.x - a.x) := by rw [hx]; ring
    have ey2 : b.y - p.y = (1 - t) * (b.y - a.y) := by rw [hy]; ring
    rw [ex1, ey1, ex2, ey2]
    ring
  rw [e]
  have := mul_nonneg (mul_nonneg ht0 (sub_nonneg.mpr ht1))
    (sq_nonneg ((b.x - a.x) * (d.y - p.y) + (b.y - a.y) * (p.x - d.x)))
  linarith

theorem sideOf_through_second {a b p : TPPLPoint} (c : TPPLPoint) (h : OnSegment a b p) :
    sideOf c p a * sideOf c p b ≤ 0 := by
  obtain ⟨t, ht0, ht1, hx, hy⟩ := h
  have e : sideOf c p a * sideOf c p b
      = -(t * (1 - t) * ((b.x - a.x) * (p.y - c.y) + (b.y - a.y) * (c.x - p.x)) ^ 2) := by
    unfold sideOf
    have ex1 : a.x = p.x - t * (b.x - a.x) := by rw [hx]; ring
    have ex2 : b.x = p.x + (1 - t) * (b.x - a.x) := by rw [hx]; ring
    have ey1 : a.y = p.y - t * (b.y - a.y) := by rw [hy]; ring
    have ey2 : b.y = p.y + (1 - t) * (b.y - a.y) := by rw [hy]; ring
    have e1 : (a.x - c.x) * (p.y - c.y) + (a.y - c.y) * (c.x - p.x)
        = -(t * ((b.x - a.x) * (p.y - c.y) + (b.y - a.y) * (c.x - p.x))) := by
      calc (a.x - c.x) * (p.y - c.y) + (a.y - c.y) * (c.x - p.x)
          = ((p.x - t * (b.x - a.x)) - c.x) * (p.y - c.y)
            + ((p.y - t * (b.y - a.y)) - c.y) * (c.x - p.x) := by rw [← ex1, ← ey1]
        _ = _ := by ring
    have e2 : (b.x - c.x) * (p.y - c.y) + (b.y - c.y) * (c.x - p.x)
        = (1 - t) * ((b.x - a.x) * (p.y - c.y) + (b.y - a.y) * (c.x - p.x)) := by
      calc (b.x - c.x) * (p.y - c.y) + (b.y - c.y) * (c.x - p.x)
          = ((p.x + (1 - t) * (b.x - a.x)) - c.x) * (p.y - c.y)
            + ((p.y + (1 - t) * (b.y - a.y)) - c.y) * (c.x - p.x) := by rw [← ex2, ← ey2]
        _ = _ := by ring
    rw [e1, e2]
    ring
  rw [e]
  have := mul_nonneg (mul_nonneg ht0 (sub_nonneg.mpr ht1))
    (sq_nonneg ((b.x - a.x) * (p.y - c.y) + (b.y - a.y) * (c.x - p.x)))
  linarith

theorem sideOf_onCommonLine {a b p : TPPLPoint} (h : OnCommonLine [a, b, p]) :
    sideOf a b p = 0 := by
  have := (onCommonLine_iff a b p).mp h
  unfold sideOf
  linarith

theorem OnCommonLine.sub {l : List TPPLPoint} (h : OnCommonLine l) (l1 : List TPPLPoint)
    (hs : ∀ p ∈ l1, p ∈ l) : OnCommonLine l1 := by
  obtain ⟨a, b, c, hab, hl⟩ := h
  exact ⟨a, b, c, hab, fun p hp => hl p (hs p hp)⟩

theorem convex_comb_ne_zero {d1 d2 t : ℚ} (h : d1 * d2 > 0) (ht0 : 0 ≤ t) (ht1 : t ≤ 1) :
    (1 - t) * d1 + t * d2 ≠ 0 := by
  intro hc
  have h1 : ((1 - t) * d1 + t * d2) * d1 = 0 := by rw [hc]; ring
  have h2 : (1 - t) * d1 ^ 2 + t * (d1 * d2) = 0 := by linarith [h1]
  have h3 : 0 ≤ (1 - t) * d1 ^ 2 := mul_nonneg (sub_nonneg.mpr ht1) (sq_nonneg d1)
  have h4 : 0 ≤ t * (d1 * d2) := mul_nonneg ht0 (le_of_lt h)
  have h5 : t * (d1 * d2) = 0 := by linarith
  have ht : t = 0 := (mul_eq_zero.mp h5).resolve_right (ne_of_gt h)
  subst ht
  have h6 : d1 ^ 2 = 0 := by linarith
  have h7 : d1 = 0 := pow_eq_zero_iff (by norm_num) |>.mp h6
  rw [h7] at h
  simp at h

/-- C27 (as stated, refuted): the segments from `(0,0)` to `(2,0)` and from `(1,0)` to
`(1,1)` share no endpoint and the endpoint `(1,0)` of the second lies on the first;
`Intersects` returns 1 on them, in exact arithmetic and in binary64.  In binary64 the
answer to such a contact depends on the rounding: the point `(0,0)` lies on the segment from
`(-1,-3)` to `(2^53, 3 * 2^53)`, and on this segment and the one from `(0,0)` to `(1,0)`
`Intersects` returns 0 in binary64 and 1 in exact arithmetic. -/
theorem C27_counterexample :
    (OnSegment ⟨0, 0, 0⟩ ⟨2, 0, 1⟩ ⟨1, 0, 2⟩ ∧
      TPPLPoint.eq ⟨0, 0, 0⟩ ⟨1, 0, 2⟩ = false ∧ TPPLPoint.eq ⟨0, 0, 0⟩ ⟨1, 1, 3⟩ = false ∧
      TPPLPoint.eq ⟨2, 0, 1⟩ ⟨1, 0, 2⟩ = false ∧ TPPLPoint.eq ⟨2, 0, 1⟩ ⟨1, 1, 3⟩ = false ∧
      Intersects ⟨0, 0, 0⟩ ⟨2, 0, 1⟩ ⟨1, 0, 2⟩ ⟨1, 1, 3⟩ = 1 ∧
      Arith.binary64.Intersects ⟨0, 0, 0⟩ ⟨2, 0, 1⟩ ⟨1, 0, 2⟩ ⟨1, 1, 3⟩ = 1) ∧
    (OnSegment ⟨-1, -3, 0⟩ ⟨9007199254740992, 27021597764222976, 1⟩ ⟨0, 0, 2⟩ ∧
      Arith.binary64.Intersects ⟨-1, -3, 0⟩ ⟨9007199254740992, 27021597764222976, 1⟩
        ⟨0, 0, 2⟩ ⟨1, 0, 3⟩ = 0 ∧
      Intersects ⟨-1, -3, 0⟩ ⟨9007199254740992, 27021597764222976, 1⟩ ⟨0, 0, 2⟩ ⟨1, 0, 3⟩
        = 1) := by
  refine ⟨⟨⟨1 / 2, by norm_num, by norm_num, by norm_num, by norm_num⟩, by decide!,
    by decide!, by decide!, by decide!, by decide!, by decide!⟩,
    ⟨⟨1 / 9007199254740993, by norm_num, by norm_num, by norm_num, by norm_num⟩,
      by decide!, by decide!⟩⟩

/-- C27 (amended): in exact arithmetic, `Intersects` counts a contact as an intersection:
for every two segments that share no endpoint, if an endpoint of one lies on the other
segment, `Intersects` returns 1. -/
theorem C27_Intersects_touching_amended (p11 p12 p21 p22 : TPPLPoint)
    (hne : p11.eq p21 = false ∧ p11.eq p22 = false ∧ p12.eq p21 = false ∧
      p12.eq p22 = false)
    (htouch : OnSegment p11 p12 p21 ∨ OnSegment p11 p12 p22 ∨ OnSegment p21 p22 p11 ∨
      OnSegment p21 p22 p12) :
    Intersects p11 p12 p21 p22 = 1 := by
  rw [Intersects_eq_ite p11 p12 p21 p22 hne]
  have key : ¬ (sideOf p21 p22 p11 * sideOf p21 p22 p12 > 0 ∨
      sideOf p11 p12 p21 * sideOf p11 p12 p22 > 0) := by
    rintro (hc | hc)
    · rcases htouch with h | h | h | h
      · exact absurd hc (not_lt.mpr (sideOf_through_first p22 h))
      · exact absurd hc (not_lt.mpr (sideOf_through_second p21 h))
      · rw [sideOf_onSegment h] at hc; simp at hc
      · rw [sideOf_onSegment h] at hc; simp at hc
    · rcases htouch with h | h | h | h
      · rw [sideOf_onSegment h] at hc; simp at hc
      · rw [sideOf_onSegment h] at hc; simp at hc
      · exact absurd hc (not_lt.mpr (sideOf_through_first p12 h))
      · exact absurd hc (not_lt.mpr (sideOf_through_second p11 h))
  rw [if_neg key]

theorem C27_witness :
    OnSegment ⟨0, 0, 0⟩ ⟨2, 0, 1⟩ ⟨1, 0, 2⟩ ∧
    Intersects ⟨0, 0, 0⟩ ⟨2, 0, 1⟩ ⟨1, 0, 2⟩ ⟨1, 1, 3⟩ = 1 :=
  ⟨⟨1 / 2, by norm_num, by norm_num, by norm_num, by norm_num⟩,
    C27_Intersects_touching_amended ⟨0, 0, 0⟩ ⟨2, 0, 1⟩ ⟨1, 0, 2⟩ ⟨1, 1, 3⟩
      ⟨by decide!, by decide!, by decide!, by decide!⟩
      (Or.inl ⟨1 / 2, by norm_num, by norm_num, by norm_num, by norm_num⟩)⟩

/-- C28: for all points `p11`, `p12`, `p21`, `p22` such that neither `p11` nor `p12` equals
`p21` or `p22`, if `Intersects(p11,p12,p21,p22)` returns 0 then the closed segments
`[p11,p12]` and `[p21,p22]` have no point in common. -/
theorem C28_Intersects_zero_sound (p11 p12 p21 p22 : TPPLPoint)
    (hne : p11.eq p21 = false ∧ p11.eq p22 = false ∧ p12.eq p21 = false ∧
      p12.eq p22 = false)
    (h0 : Intersects p11 p12 p21 p22 = 0) :
    ¬ ∃ q : TPPLPoint, OnSegment p11 p12 q ∧ OnSegment p21 p22 q := by
  rw [Intersects_eq_ite p11 p12 p21 p22 hne] at h0
  have key : sideOf p21 p22 p11 * sideOf p21 p22 p12 > 0 ∨
      sideOf p11 p12 p21 * sideOf p11 p12 p22 > 0 := by
    by_contra hc
    rw [if_neg hc] at h0
    exact absurd h0 (by decide)
  rintro ⟨q, h1, h2⟩
  rcases key with hk | hk
  · obtain ⟨t, ht0, ht1, hx, hy⟩ := h1
    have e := sideOf_affine p21 p22 hx hy
    rw [sideOf_onSegment h2] at e
    exact convex_comb_ne_zero hk ht0 ht1 e.symm
  · obtain ⟨t, ht0, ht1, hx, hy⟩ := h2
    have e := sideOf_affine p11 p12 hx hy
    rw [sideOf_onSegment h1] at e
    exact convex_comb_ne_zero hk ht0 ht1 e.symm

theorem C28_witness :
    Intersects ⟨0, 0, 0⟩ ⟨2, 0, 1⟩ ⟨0, 1, 2⟩ ⟨2, 1, 3⟩ = 0 ∧
    ¬ ∃ q : TPPLPoint, OnSegment ⟨0, 0, 0⟩ ⟨2, 0, 1⟩ q ∧ OnSegment ⟨0, 1, 2⟩ ⟨2, 1, 3⟩ q :=
  ⟨by decide!,
    C28_Intersects_zero_sound ⟨0, 0, 0⟩ ⟨2, 0, 1⟩ ⟨0, 1, 2⟩ ⟨2, 1, 3⟩
      ⟨by decide!, by decide!, by decide!, by decide!⟩ (by decide!)⟩

/-! ## The order of the sweep -/

theorem mem_sorterInsert (vs : List MonotoneVertex) (a x : Nat) :
    ∀ l : List Nat, x ∈ sorterInsert vs a l ↔ x = a ∨ x ∈ l
  | [] => by simp [sorterInsert]
  | b :: l => by
    unfold sorterInsert
    split
    · simp
    · simp only [List.mem_cons, mem_sorterInsert vs a x l]
      tauto

theorem sorterInsert_perm (vs : List MonotoneVertex) (a : Nat) :
    ∀ l : List Nat, (sorterInsert vs a l).Perm (a :: l)
  | [] => by simp [sorterInsert]
  | b :: l => by
    unfold sorterInsert
    split
    · exact List.Perm.refl _
    · exact ((sorterInsert_perm vs a l).cons b).trans (List.Perm.swap a b l)

/-- Insertion keeps the sequence in `Below`-descending order. -/
theorem sorterInsert_sorted (vs : List MonotoneVertex) (a : Nat) :
    ∀ l : List Nat,
      l.Pairwise (fun i j => Below (vs.getD i default).p (vs.getD j default).p = false) →
      (sorterInsert vs a l).Pairwise
        (fun i j => Below (vs.getD i default).p (vs.getD j default).p = false)
  | [], _ => by simp [sorterInsert]
  | b :: l, h => by
    unfold sorterInsert
    rw [List.pairwise_cons] at h
    by_cases hc : VertexSorter vs a b = true
    · rw [if_pos hc]
      rw [VertexSorter_eq] at hc
      refine List.pairwise_cons.mpr ⟨?_, List.pairwise_cons.mpr h⟩
      intro x hx
      rcases List.mem_cons.mp hx with rfl | hx
      · by_contra hne
        rw [Bool.not_eq_false] at hne
        have := Below_asymm hc
        rw [this] at hne
        exact absurd hne (by decide)
      · by_contra hne
        rw [Bool.not_eq_false] at hne
        have := Below_trans hc hne
        rw [h.1 x hx] at this
        exact absurd this (by decide)
    · rw [if_neg hc]
      rw [VertexSorter_eq, Bool.not_eq_true] at hc
      refine List.pairwise_cons.mpr ⟨?_, sorterInsert_sorted vs a l h.2⟩
      intro x hx
      rcases (mem_sorterInsert vs a x l).mp hx with rfl | hx
      · exact hc
      · exact h.1 x hx

theorem sortPriority_spec (vs : List MonotoneVertex) (priority : List Nat) :
    (sortPriority vs priority).Perm priority ∧
    (sortPriority vs priority).Pairwise
      (fun i j => Below (vs.getD i default).p (vs.getD j default).p = false) := by
  unfold sortPriority
  have key : ∀ (l acc : List Nat),
      acc.Pairwise (fun i j => Below (vs.getD i default).p (vs.getD j default).p = false) →
      (l.foldl (fun sorted a => sorterInsert vs a sorted) acc).Perm (acc ++ l) ∧
      (l.foldl (fun sorted a => sorterInsert vs a sorted) acc).Pairwise
        (fun i j => Below (vs.getD i default).p (vs.getD j default).p = false) := by
    intro l
    induction l with
    | nil => intro acc h; exact ⟨by simp, h⟩
    | cons a l ih =>
      intro acc h
      rw [List.foldl_cons]
      obtain ⟨h1, h2⟩ := ih (sorterInsert vs a acc) (sorterInsert_sorted vs a acc h)
      refine ⟨h1.trans ?_, h2⟩
      have := (sorterInsert_perm vs a acc).append_right l
      refine this.trans ?_
      simp only [List.cons_append]
      exact (List.perm_middle).symm
  have := key priority [] List.Pairwise.nil
  simpa using this

/-- C29: `Below(p1,p2)` holds iff `p1.y < p2.y` or (`p1.y = p2.y` and `p1.x < p2.x`); it is
irreflexive and transitive, and of two points that differ in `x` or `y` exactly one is below
the other; `VertexSorter(i,j)` holds iff `Below(p_j, p_i)`, and the sorted `priority` is a
permutation of the indices in which no vertex is below a later one. -/
theorem C29_Below_total_order (vs : List MonotoneVertex) (priority : List Nat) :
    (∀ p q : TPPLPoint, Below p q = true ↔ p.y < q.y ∨ (p.y = q.y ∧ p.x < q.x)) ∧
    (∀ p : TPPLPoint, Below p p = false) ∧
    (∀ p q r : TPPLPoint, Below p q = true → Below q r = true → Below p r = true) ∧
    (∀ p q : TPPLPoint, ¬ (p.x = q.x ∧ p.y = q.y) →
      (Below p q = true ∧ Below q p = false) ∨ (Below p q = false ∧ Below q p = true)) ∧
    (∀ i j : Nat, VertexSorter vs i j = true ↔
      Below (vs.getD j default).p (vs.getD i default).p = true) ∧
    (sortPriority vs priority).Perm priority ∧
    (sortPriority vs priority).Pairwise
      (fun i j => Below (vs.getD i default).p (vs.getD j default).p = false) := by
  refine ⟨Below_iff, ?_, fun p q r => Below_trans, ?_, ?_, sortPriority_spec vs priority⟩
  · intro p
    rw [← Bool.not_eq_true, Below_iff]
    rintro (h | ⟨_, h⟩) <;> exact lt_irrefl _ h
  · intro p q hne
    rcases Below_total hne with h | h
    · exact Or.inl ⟨h, Below_asymm h⟩
    · exact Or.inr ⟨Below_asymm h, h⟩
  · intro i j
    rw [VertexSorter_eq]

theorem xAt_onSegment (e : ScanLineEdge) (he : e.p1.y > e.p2.y) {h : ℚ} (h1 : e.p2.y ≤ h)
    (h2 : h ≤ e.p1.y) : OnSegment e.p1 e.p2 ⟨e.xAt h, h, 0⟩ := by
  have hd : e.p1.y - e.p2.y > 0 := by linarith
  have hd1 : e.p1.y - e.p2.y ≠ 0 := ne_of_gt hd
  have hd2 : e.p2.y - e.p1.y ≠ 0 := by
    intro hc; apply hd1; linarith
  refine ⟨(e.p1.y - h) / (e.p1.y - e.p2.y), div_nonneg (by linarith) (le_of_lt hd),
    (div_le_one hd).mpr (by linarith), ?_, ?_⟩
  · show e.xAt h = _
    unfold ScanLineEdge.xAt
    field_simp
    ring
  · show h = _
    field_simp
    ring

theorem xAt_affine (e : ScanLineEdge) (h0 h1 l : ℚ) :
    e.xAt ((1 - l) * h0 + l * h1) = (1 - l) * e.xAt h0 + l * e.xAt h1 := by
  unfold ScanLineEdge.xAt
  ring

/-- Two edges without a common point do not meet at a height that both reach. -/
theorem xAt_ne (a b : ScanLineEdge) (ha : a.p1.y > a.p2.y) (hb : b.p1.y > b.p2.y)
    (hdis : ¬ ∃ q : TPPLPoint, OnSegment a.p1 a.p2 q ∧ OnSegment b.p1 b.p2 q) {h : ℚ}
    (ha1 : a.p2.y ≤ h) (ha2 : h ≤ a.p1.y) (hb1 : b.p2.y ≤ h) (hb2 : h ≤ b.p1.y) :
    a.xAt h ≠ b.xAt h := by
  intro hc
  apply hdis
  refine ⟨⟨a.xAt h, h, 0⟩, xAt_onSegment a ha ha1 ha2, ?_⟩
  rw [hc]
  exact xAt_onSegment b hb hb1 hb2

/-- Two edges without a common point keep their order between two heights that both
reach. -/
theorem xAt_lt_of_lt (a b : ScanLineEdge) (ha : a.p1.y > a.p2.y) (hb : b.p1.y > b.p2.y)
    (hdis : ¬ ∃ q : TPPLPoint, OnSegment a.p1 a.p2 q ∧ OnSegment b.p1 b.p2 q) {h0 h1 : ℚ}
    (ha01 : a.p2.y ≤ h0) (ha02 : h0 ≤ a.p1.y) (hb01 : b.p2.y ≤ h0) (hb02 : h0 ≤ b.p1.y)
    (ha11 : a.p2.y ≤ h1) (ha12 : h1 ≤ a.p1.y) (hb11 : b.p2.y ≤ h1) (hb12 : h1 ≤ b.p1.y)
    (hlt : a.xAt h0 < b.xAt h0) : a.xAt h1 < b.xAt h1 := by
  by_contra hc
  have hne := xAt_ne a b ha hb hdis ha11 ha12 hb11 hb12
  have hgt : b.xAt h1 < a.xAt h1 := lt_of_le_of_ne (not_lt.mp hc) (Ne.symm hne)
  -- the gap changes sign between h0 and h1, so it vanishes in between
  have hg0 : b.xAt h0 - a.xAt h0 > 0 := by linarith
  have hg1 : a.xAt h1 - b.xAt h1 > 0 := by linarith
  have hs : (b.xAt h0 - a.xAt h0) + (a.xAt h1 - b.xAt h1) > 0 := by linarith
  have hs0 : (b.xAt h0 - a.xAt h0) + (a.xAt h1 - b.xAt h1) ≠ 0 := ne_of_gt hs
  have hl0 : 0 ≤ (b.xAt h0 - a.xAt h0) / ((b.xAt h0 - a.xAt h0) + (a.xAt h1 - b.xAt h1)) :=
    div_nonneg (le_of_lt hg0) (le_of_lt hs)
  have hl1 : (b.xAt h0 - a.xAt h0) / ((b.xAt h0 - a.xAt h0) + (a.xAt h1 - b.xAt h1)) ≤ 1 :=
    (div_le_one hs).mpr (by linarith)
  generalize hl : (b.xAt h0 - a.xAt h0) / ((b.xAt h0 - a.xAt h0) + (a.xAt h1 - b.xAt h1)) = l
    at hl0 hl1
  have hl2 : l * ((b.xAt h0 - a.xAt h0) + (a.xAt h1 - b.xAt h1)) = b.xAt h0 - a.xAt h0 := by
    rw [← hl]; field_simp
  have hm1 : 0 ≤ 1 - l := by linarith
  refine xAt_ne a b ha hb hdis (h := (1 - l) * h0 + l * h1) ?_ ?_ ?_ ?_ ?_
  · nlinarith [mul_nonneg hm1 (sub_nonneg.mpr ha01), mul_nonneg hl0 (sub_nonneg.mpr ha11)]
  · nlinarith [mul_nonneg hm1 (sub_nonneg.mpr ha02), mul_nonneg hl0 (sub_nonneg.mpr ha12)]
  · nlinarith [mul_nonneg hm1 (sub_nonneg.mpr hb01), mul_nonneg hl0 (sub_nonneg.mpr hb11)]
  · nlinarith [mul_nonneg hm1 (sub_nonneg.mpr hb02), mul_nonneg hl0 (sub_nonneg.mpr hb12)]
  · rw [xAt_affine, xAt_affine]
    linarith

theorem xAt_p1 (e : ScanLineEdge) : e.xAt e.p1.y = e.p1.x := by
  unfold ScanLineEdge.xAt
  simp

/-- C30 (as stated, refuted): the edges `a` from `(0,0)` to `(2^27 + 1, -2^27)` and `b` from
`(2^27, -(2^27 - 1))` to `(2^27 + 10, -2^27)` have `p1` strictly above `p2` and no point in
common, and at the height `c = -(2^27 - 1)`, which both reach, the x-coordinate of `a` is
strictly smaller than that of `b`; in binary64 `a < b` is false and `b < a` is true. -/
theorem C30_counterexample :
    steepEdgeA.p1.y > steepEdgeA.p2.y ∧ steepEdgeB.p1.y > steepEdgeB.p2.y ∧
    (¬ ∃ q : TPPLPoint, OnSegment steepEdgeA.p1 steepEdgeA.p2 q ∧
      OnSegment steepEdgeB.p1 steepEdgeB.p2 q) ∧
    (steepEdgeA.p2.y ≤ -134217727 ∧ (-134217727 : ℚ) ≤ steepEdgeA.p1.y) ∧
    (steepEdgeB.p2.y ≤ -134217727 ∧ (-134217727 : ℚ) ≤ steepEdgeB.p1.y) ∧
    steepEdgeA.xAt (-134217727) < steepEdgeB.xAt (-134217727) ∧
    Arith.binary64.edgeLt steepEdgeA steepEdgeB = false ∧
    Arith.binary64.edgeLt steepEdgeB steepEdgeA = true := by
  refine ⟨by decide!, by decide!, ?_, by decide!, by decide!, by decide!, by decide!,
    by decide!⟩
  rintro ⟨q, ⟨t, ht0, ht1, hx, hy⟩, ⟨s, hs0, hs1, hx2, hy2⟩⟩
  simp only [steepEdgeA, steepEdgeB] at hx hy hx2 hy2
  rw [hx] at hx2
  rw [hy] at hy2
  linarith

/-- C30 (amended): in exact arithmetic, for two edges `a` and `b`, each with `p1` strictly
above `p2`, that have no point in common, and every height `c` that both edges reach,
`a < b` holds iff the x-coordinate of `a` at height `c` is strictly smaller than that of
`b`. -/
theorem C30_ScanLineEdge_order (a b : ScanLineEdge) (ha : a.p1.y > a.p2.y)
    (hb : b.p1.y > b.p2.y)
    (hdis : ¬ ∃ q : TPPLPoint, OnSegment a.p1 a.p2 q ∧ OnSegment b.p1 b.p2 q) (c : ℚ)
    (hca : a.p2.y ≤ c ∧ c ≤ a.p1.y) (hcb : b.p2.y ≤ c ∧ c ≤ b.p1.y) :
    a.lt b = true ↔ a.xAt c < b.xAt c := by
  unfold ScanLineEdge.lt
  rw [if_neg (ne_of_gt hb), if_neg (ne_of_gt ha)]
  by_cases hlt : a.p1.y < b.p1.y
  · rw [if_pos hlt]
    -- the height of the top of `a` is reached by both edges
    have r1 : a.p2.y ≤ a.p1.y := le_of_lt ha
    have r2 : b.p2.y ≤ a.p1.y := le_trans hcb.1 hca.2
    have r3 : a.p1.y ≤ b.p1.y := le_of_lt hlt
    have hne := xAt_ne a b ha hb hdis r1 (le_refl _) r2 r3
    have hd : b.p2.y - b.p1.y < 0 := by linarith
    have hd0 : b.p2.y - b.p1.y ≠ 0 := ne_of_lt hd
    have e : (a.p1.y - b.p1.y) * (b.p2.x - b.p1.x) - (a.p1.x - b.p1.x) * (b.p2.y - b.p1.y)
        = -(b.p2.y - b.p1.y) * (a.xAt a.p1.y - b.xAt a.p1.y) := by
      rw [xAt_p1]
      unfold ScanLineEdge.xAt
      field_simp
      ring
    have hconv : IsConvex b.p1 b.p2 a.p1 = true ↔ b.xAt a.p1.y < a.xAt a.p1.y := by
      rw [IsConvex_iff, e]
      constructor
      · intro h
        by_contra hc
        have : a.xAt a.p1.y - b.xAt a.p1.y ≤ 0 := by linarith
        nlinarith [mul_nonneg_of_nonpos_of_nonpos (le_of_lt hd) this]
      · intro h
        have h1 : 0 < a.xAt a.p1.y - b.xAt a.p1.y := by linarith
        have := mul_pos (neg_pos.mpr hd) h1
        linarith
    constructor
    · intro h
      have h1 : ¬ IsConvex b.p1 b.p2 a.p1 = true := by
        intro hc; rw [hc] at h; exact absurd h (by decide)
      have h2 : a.xAt a.p1.y < b.xAt a.p1.y :=
        lt_of_le_of_ne (not_lt.mp (fun hc => h1 (hconv.mpr hc))) hne
      exact xAt_lt_of_lt a b ha hb hdis r1 (le_refl _) r2 r3 hca.1 hca.2 hcb.1 hcb.2 h2
    · intro h
      have hdis1 : ¬ ∃ q : TPPLPoint, OnSegment b.p1 b.p2 q ∧ OnSegment a.p1 a.p2 q := by
        rintro ⟨q, h1, h2⟩; exact hdis ⟨q, h2, h1⟩
      have h1 : ¬ b.xAt a.p1.y < a.xAt a.p1.y := by
        intro hc
        have := xAt_lt_of_lt b a hb ha hdis1 r2 r3 r1 (le_refl _) hcb.1 hcb.2 hca.1 hca.2 hc
        linarith
      have h2 : IsConvex b.p1 b.p2 a.p1 = false := by
        rw [← Bool.not_eq_true]
        exact fun hc => h1 (hconv.mp hc)
      rw [h2]
      rfl
  · rw [if_neg hlt]
    have r1 : b.p2.y ≤ b.p1.y := le_of_lt hb
    have r2 : a.p2.y ≤ b.p1.y := le_trans hca.1 hcb.2
    have r3 : b.p1.y ≤ a.p1.y := not_lt.mp hlt
    have hd : a.p2.y - a.p1.y < 0 := by linarith
    have hd0 : a.p2.y - a.p1.y ≠ 0 := ne_of_lt hd
    have e : (b.p1.y - a.p1.y) * (a.p2.x - a.p1.x) - (b.p1.x - a.p1.x) * (a.p2.y - a.p1.y)
        = (a.p2.y - a.p1.y) * (a.xAt b.p1.y - b.xAt b.p1.y) := by
      rw [xAt_p1]
      unfold ScanLineEdge.xAt
      field_simp
      ring
    have hconv : IsConvex a.p1 a.p2 b.p1 = true ↔ a.xAt b.p1.y < b.xAt b.p1.y := by
      rw [IsConvex_iff, e]
      constructor
      · intro h
        by_contra hc
        have : 0 ≤ a.xAt b.p1.y - b.xAt b.p1.y := by linarith
        nlinarith [mul_nonneg (le_of_lt (neg_pos.mpr hd)) this]
      · intro h
        have h1 : a.xAt b.p1.y - b.xAt b.p1.y < 0 := by linarith
        exact mul_pos_of_neg_of_neg hd h1
    rw [hconv]
    constructor
    · intro h
      exact xAt_lt_of_lt a b ha hb hdis r2 r3 r1 (le_refl _) hca.1 hca.2 hcb.1 hcb.2 h
    · intro h
      exact xAt_lt_of_lt a b ha hb hdis hca.1 hca.2 hcb.1 hcb.2 r2 r3 r1 (le_refl _) h

theorem C30_witness :
    (¬ ∃ q : TPPLPoint, OnSegment (⟨0, ⟨0, 2, 0⟩, ⟨0, 0, 1⟩⟩ : ScanLineEdge).p1
        (⟨0, ⟨0, 2, 0⟩, ⟨0, 0, 1⟩⟩ : ScanLineEdge).p2 q ∧
      OnSegment (⟨2, ⟨1, 3, 2⟩, ⟨2, 1, 3⟩⟩ : ScanLineEdge).p1
        (⟨2, ⟨1, 3, 2⟩, ⟨2, 1, 3⟩⟩ : ScanLineEdge).p2 q) ∧
    ScanLineEdge.lt ⟨0, ⟨0, 2, 0⟩, ⟨0, 0, 1⟩⟩ ⟨2, ⟨1, 3, 2⟩, ⟨2, 1, 3⟩⟩ = true ∧
    ScanLineEdge.xAt ⟨0, ⟨0, 2, 0⟩, ⟨0, 0, 1⟩⟩ 1 < ScanLineEdge.xAt ⟨2, ⟨1, 3, 2⟩, ⟨2, 1, 3⟩⟩ 1 :=
  have hdis : ¬ ∃ q : TPPLPoint, OnSegment (⟨0, ⟨0, 2, 0⟩, ⟨0, 0, 1⟩⟩ : ScanLineEdge).p1
      (⟨0, ⟨0, 2, 0⟩, ⟨0, 0, 1⟩⟩ : ScanLineEdge).p2 q ∧
      OnSegment (⟨2, ⟨1, 3, 2⟩, ⟨2, 1, 3⟩⟩ : ScanLineEdge).p1
        (⟨2, ⟨1, 3, 2⟩, ⟨2, 1, 3⟩⟩ : ScanLineEdge).p2 q := by
    rintro ⟨q, ⟨t, ht0, ht1, hx, hy⟩, ⟨s, hs0, hs1, hx1, hy1⟩⟩
    simp only at hx hx1
    nlinarith
  ⟨hdis, by decide!,
    (C30_ScanLineEdge_order ⟨0, ⟨0, 2, 0⟩, ⟨0, 0, 1⟩⟩ ⟨2, ⟨1, 3, 2⟩, ⟨2, 1, 3⟩⟩
      (by norm_num) (by norm_num) hdis 1 ⟨by norm_num, by norm_num⟩
      ⟨by norm_num, by norm_num⟩).mp (by decide!)⟩

/-! ## The list form of ear clipping -/

theorem Triangulate_EC_ret (sqrt : ℚ → ℚ) (poly : TPPLPoly) (out : TPPLPolyList) :
    (Triangulate_EC sqrt poly out).1 = 0 ∨ (Triangulate_EC sqrt poly out).1 = 1 := by
  unfold Triangulate_EC
  split
  · exact Or.inl rfl
  split
  · exact Or.inl rfl
  split
  · exact Or.inr rfl
  simp only
  split
  · exact Or.inl rfl
  · exact Or.inr rfl

/-- The loop of the list form of `Triangulate_EC` on a single polygon. -/
theorem triangulateAll_EC_single (sqrt : ℚ → ℚ) (poly : TPPLPoly) (out : TPPLPolyList) :
    triangulateAll_EC sqrt [poly] out = Triangulate_EC sqrt poly out := by
  unfold triangulateAll_EC
  rcases Triangulate_EC_ret sqrt poly out with h | h
  · generalize hres : Triangulate_EC sqrt poly out = res at h ⊢
    obtain ⟨r, t⟩ := res
    simp only at h
    subst h
    rfl
  · generalize hres : Triangulate_EC sqrt poly out = res at h ⊢
    obtain ⟨r, t⟩ := res
    simp only at h
    subst h
    rfl

/-- The list form of `Triangulate_EC` on the square with the square hole, for any `sqrt`:
when it returns 1, it has triangulated one merged polygon of 10 points. -/
theorem Triangulate_EC_list_square (sqrt : ℚ → ℚ) (out : TPPLPolyList)
    (hret : (Triangulate_EC_list sqrt [squarePoly, squareHole] out).1 = 1) :
    ∃ merged, RemoveHoles sqrt [squarePoly, squareHole] [] = (1, [merged]) ∧
      merged.GetNumPoints = 10 ∧ merged.shoelace = 2 * 84 ∧
      Triangulate_EC_list sqrt [squarePoly, squareHole] out = Triangulate_EC sqrt merged out := by
  unfold Triangulate_EC_list at hret ⊢
  rcases RemoveHoles_cases sqrt [squarePoly, squareHole] [] with
    ⟨h0, _⟩ | ⟨_, ⟨L, hl, h⟩ | ⟨_, h⟩⟩
  · have := h0 squareHole (by simp)
    exact absurd this (by decide)
  · obtain ⟨a1, a2, a3, a4⟩ := removeHolesLoop_some _ _ _ hl
    rw [numNonHoles_of_no_holes L a1] at a2
    have hlen : L.length = 1 := by rw [a2]; decide
    obtain ⟨merged, rfl⟩ := List.length_eq_one.mp hlen
    have hpts : merged.GetNumPoints = 10 := by
      have e : totalPoints [merged] = merged.GetNumPoints := by simp [totalPoints]
      rw [← e, a3]; decide
    have hsh : merged.shoelace = 2 * 84 := by
      have e : shoelaceSum [merged] = merged.shoelace := by simp [shoelaceSum]
      rw [← e, a4]; decide!
    rw [h] at hret ⊢
    simp only [List.nil_append] at hret ⊢
    exact ⟨merged, rfl, hpts, hsh, triangulateAll_EC_single sqrt merged out⟩
  · rw [h] at hret
    simp at hret

/-- The list form of `Triangulate_EC` on the square with the square hole, for any `sqrt`: when
it returns 1, exactly 8 triangles are appended, whose shoelace sums add up to `2 * 84`. -/
theorem Triangulate_EC_list_square_count (sqrt : ℚ → ℚ) (out : TPPLPolyList)
    (hret : (Triangulate_EC_list sqrt [squarePoly, squareHole] out).1 = 1) :
    ∃ new, (Triangulate_EC_list sqrt [squarePoly, squareHole] out).2 = out ++ new ∧
      new.length = 8 ∧ (∀ t ∈ new, t.GetNumPoints = 3) ∧ shoelaceSum new = 2 * 84 := by
  obtain ⟨merged, h1, h2, h3, h4⟩ := Triangulate_EC_list_square sqrt out hret
  rw [h4] at hret ⊢
  obtain ⟨new, hn1, _, hn3⟩ := Triangulate_EC_spec sqrt merged out
  obtain ⟨_, b2, b3, b4⟩ := hn3 hret
  exact ⟨new, hn1, by rw [b2, h2], b3, by rw [b4, h3]⟩

/-- C21: on the counter-clockwise square `[(0,0),(10,0),(10,10),(0,10)]` with the clockwise
hole `[(3,3),(3,7),(7,7),(7,3)]`, `RemoveHoles` merges the two into one polygon of 10 points
in which the bridge vertices `(10,10)` and `(7,7)` occur twice, and the list form of
`Triangulate_EC` returns 1 and appends exactly 8 triangles, whose shoelace sums add up to
`2 * 84`; count and sum hold for every `sqrt` with which the call returns 1. -/
theorem C21_Triangulate_EC_square_with_hole :
    (RemoveHoles sqrtApprox [squarePoly, squareHole] []).2.map
        (fun t => t.points.map TPPLPoint.xy)
      = [[(0, 0), (10, 0), (10, 10), (7, 7), (7, 3), (3, 3), (3, 7), (7, 7), (10, 10),
          (0, 10)]] ∧
    (Triangulate_EC_list sqrtApprox [squarePoly, squareHole] []).1 = 1 ∧
    (Triangulate_EC_list sqrtApprox [squarePoly, squareHole] []).2.length = 8 ∧
    (∀ t ∈ (Triangulate_EC_list sqrtApprox [squarePoly, squareHole] []).2,
      t.GetNumPoints = 3) ∧
    shoelaceSum (Triangulate_EC_list sqrtApprox [squarePoly, squareHole] []).2 = 2 * 84 ∧
    ∀ (sqrt : ℚ → ℚ) (out : TPPLPolyList),
      (Triangulate_EC_list sqrt [squarePoly, squareHole] out).1 = 1 →
      ∃ new, (Triangulate_EC_list sqrt [squarePoly, squareHole] out).2 = out ++ new ∧
        new.length = 8 ∧ (∀ t ∈ new, t.GetNumPoints = 3) ∧ shoelaceSum new = 2 * 84 :=
  ⟨by decide!, by decide!, by decide!, by decide!, by decide!,
    Triangulate_EC_list_square_count⟩

/-! ## Atomic failure of `Triangulate_OPT` -/

theorem Triangulate_OPT_of_fill (sqrt : ℚ → ℚ) (poly : TPPLPoly) (out : TPPLPolyList)
    (dp : DPTable) (hn : 3 ≤ poly.GetNumPoints)
    (hf : optFill sqrt poly poly.GetNumPoints (optInit poly poly.GetNumPoints) = some dp) :
    Triangulate_OPT sqrt poly out
      = optRecover poly dp poly.GetNumPoints [(0, poly.GetNumPoints - 1)] out ∧
    (optRecover poly dp poly.GetNumPoints [(0, poly.GetNumPoints - 1)] out).1 = 1 ∧
    (optTriples dp poly.GetNumPoints [(0, poly.GetNumPoints - 1)]).length
      = poly.GetNumPoints - 2 := by
  have hv : poly.Valid = true := by simpa [TPPLPoly.Valid] using hn
  obtain ⟨hs, hvis, hedge, hdone⟩ :=
    optFill_spec sqrt poly _ _ dp hn (optInit_fillInv sqrt poly _ hn) hf
  have hdone1 : ∀ a b, a + 2 ≤ b → b < poly.GetNumPoints → CellDone sqrt poly dp a b :=
    fun a b hab hb => hdone a b hab hb (Or.inl (by omega))
  have hroot : (dp.get (poly.GetNumPoints - 1) 0).visible = true := by
    rw [hvis, optInit_get poly _ hn, if_pos ⟨rfl, rfl⟩]
  obtain ⟨i1, i2, _⟩ := optTriples_spec sqrt poly _ dp hdone1 hedge poly.GetNumPoints
    [(0, poly.GetNumPoints - 1)]
    (fun d hd => by
      simp only [List.mem_singleton] at hd
      subst hd
      exact ⟨by simp only; omega, by simp only; omega, hroot⟩)
    (by simp [queueSize]; omega)
  refine ⟨?_, i1 out, ?_⟩
  · unfold Triangulate_OPT
    simp only [hv, Bool.not_true, Bool.false_eq_true, if_false, hf]
  · rw [i2]; simp [queueSize]; omega

/-- C38: `Triangulate_OPT` fails atomically.  If the call returns 0, the output list is
the list it was given; and when the loops over `gap` and `i` run to their end on a polygon
with at least three points, the recovery loop is passed `n - 2` times without meeting
`bestvertex = -1`, the call returns 1 and the output is the list given followed by the
`n - 2` triangles. -/
theorem C38_Triangulate_OPT_atomic (sqrt : ℚ → ℚ) (poly : TPPLPoly) (out : TPPLPolyList) :
    ((Triangulate_OPT sqrt poly out).1 = 0 → (Triangulate_OPT sqrt poly out).2 = out) ∧
    ∀ dp, 3 ≤ poly.GetNumPoints →
      optFill sqrt poly poly.GetNumPoints (optInit poly poly.GetNumPoints) = some dp →
      (Triangulate_OPT sqrt poly out).1 = 1 ∧
      (optTriples dp poly.GetNumPoints [(0, poly.GetNumPoints - 1)]).length
        = poly.GetNumPoints - 2 ∧
      (Triangulate_OPT sqrt poly out).2 = out ++
        (optTriples dp poly.GetNumPoints [(0, poly.GetNumPoints - 1)]).map
          (idxTriangle poly) := by
  constructor
  · intro hret
    by_cases hv : poly.Valid = true
    swap
    · unfold Triangulate_OPT
      simp only [hv, Bool.not_false, if_true]
    have hn : 3 ≤ poly.GetNumPoints := by simpa [TPPLPoly.Valid] using hv
    cases hf : optFill sqrt poly poly.GetNumPoints (optInit poly poly.GetNumPoints) with
    | none =>
      unfold Triangulate_OPT
      simp only [hv, Bool.not_true, Bool.false_eq_true, if_false, hf]
    | some dp =>
      obtain ⟨e1, e2, _⟩ := Triangulate_OPT_of_fill sqrt poly out dp hn hf
      rw [e1, e2] at hret
      exact absurd hret (by decide)
  · intro dp hn hf
    obtain ⟨e1, e2, e3⟩ := Triangulate_OPT_of_fill sqrt poly out dp hn hf
    rw [e1]
    exact ⟨e2, e3, optRecover_eq_triples poly dp _ _ _⟩

theorem C38_witness :
    (Triangulate_OPT sqrtApprox bowTie []).1 = 0 ∧
    (Triangulate_OPT sqrtApprox bowTie []).2 = [] :=
  ⟨by decide!, (C38_Triangulate_OPT_atomic sqrtApprox bowTie []).1 (by decide!)⟩

/-! ## The choice of the ear -/

theorem findEar_spec (vs : List PartitionVertex) (n : Nat) :
    (findEar vs n = none → ∀ j, j < n → ¬ ((vtx vs j).isActive = true ∧ (vtx vs j).isEar = true)) ∧
    ∀ e, findEar vs n = some e →
      e < n ∧ (vtx vs e).isActive = true ∧ (vtx vs e).isEar = true ∧
      ∀ j, j < n → (vtx vs j).isActive = true → (vtx vs j).isEar = true →
        (vtx vs j).angle ≤ (vtx vs e).angle ∧ (j < e → (vtx vs j).angle < (vtx vs e).angle) := by
  unfold findEar
  rw [List.range_eq_range']
  have key := foldl_range'_invariant
    (fun x (ear : Option Nat) =>
      (ear = none → ∀ j, j < x → ¬ ((vtx vs j).isActive = true ∧ (vtx vs j).isEar = true)) ∧
      ∀ e, ear = some e →
        e < x ∧ (vtx vs e).isActive = true ∧ (vtx vs e).isEar = true ∧
        ∀ j, j < x → (vtx vs j).isActive = true → (vtx vs j).isEar = true →
          (vtx vs j).angle ≤ (vtx vs e).angle ∧ (j < e → (vtx vs j).angle < (vtx vs e).angle))
    (fun ear j =>
      if !(vtx vs j).isActive then ear
      else if !(vtx vs j).isEar then ear
      else match ear with
        | none => some j
        | some e => if (vtx vs j).angle > (vtx vs e).angle then some j else some e)
    n 0 none ⟨fun _ j hj => absurd hj (Nat.not_lt_zero j), fun e he => by simp at he⟩ ?_
  · simpa using key
  · intro x ear _ _ ⟨h1, h2⟩
    by_cases ha : (vtx vs x).isActive = true
    swap
    · simp only [ha, Bool.not_false, if_true]
      refine ⟨fun hn j hj => ?_, fun e he => ?_⟩
      · rcases Nat.lt_succ_iff_lt_or_eq.mp hj with h | h
        · exact h1 hn j h
        · subst h; exact fun hc => ha hc.1
      · obtain ⟨a1, a2, a3, a4⟩ := h2 e he
        refine ⟨by omega, a2, a3, fun j hj hja hje => ?_⟩
        rcases Nat.lt_succ_iff_lt_or_eq.mp hj with h | h
        · exact a4 j h hja hje
        · subst h; exact absurd hja ha
    by_cases hb : (vtx vs x).isEar = true
    swap
    · simp only [ha, hb, Bool.not_true, Bool.not_false, Bool.false_eq_true, if_false, if_true]
      refine ⟨fun hn j hj => ?_, fun e he => ?_⟩
      · rcases Nat.lt_succ_iff_lt_or_eq.mp hj with h | h
        · exact h1 hn j h
        · subst h; exact fun hc => hb hc.2
      · obtain ⟨a1, a2, a3, a4⟩ := h2 e he
        refine ⟨by omega, a2, a3, fun j hj hja hje => ?_⟩
        rcases Nat.lt_succ_iff_lt_or_eq.mp hj with h | h
        · exact a4 j h hja hje
        · subst h; exact absurd hje hb
    simp only [ha, hb, Bool.not_true, Bool.false_eq_true, if_false]
    cases ear with
    | none =>
      simp only
      refine ⟨fun hn => by simp at hn, fun e he => ?_⟩
      simp only [Option.some.injEq] at he
      subst he
      refine ⟨by omega, ha, hb, fun j hj hja hje => ?_⟩
      rcases Nat.lt_succ_iff_lt_or_eq.mp hj with h | h
      · exact absurd ⟨hja, hje⟩ (h1 rfl j h)
      · subst h; exact ⟨le_refl _, fun hc => absurd hc (Nat.lt_irrefl _)⟩
    | some e0 =>
      obtain ⟨a1, a2, a3, a4⟩ := h2 e0 rfl
      simp only
      by_cases hg : (vtx vs x).angle > (vtx vs e0).angle
      · simp only [hg, if_true]
        refine ⟨fun hn => by simp at hn, fun e he => ?_⟩
        simp only [Option.some.injEq] at he
        subst he
        refine ⟨by omega, ha, hb, fun j hj hja hje => ?_⟩
        rcases Nat.lt_succ_iff_lt_or_eq.mp hj with h | h
        · have := (a4 j h hja hje).1
          exact ⟨le_of_lt (lt_of_le_of_lt this hg), fun _ => lt_of_le_of_lt this hg⟩
        · subst h; exact ⟨le_refl _, fun hc => absurd hc (Nat.lt_irrefl _)⟩
      · simp only [hg, if_false]
        refine ⟨fun hn => by simp at hn, fun e he => ?_⟩
        simp only [Option.some.injEq] at he
        subst he
        refine ⟨by omega, a2, a3, fun j hj hja hje => ?_⟩
        rcases Nat.lt_succ_iff_lt_or_eq.mp hj with h | h
        · exact a4 j h hja hje
        · subst h; exact ⟨not_lt.mp hg, fun hc => absurd hc (by omega)⟩

/-- C35: in a pass of the clipping loop of `Triangulate_EC` that finds an ear, the vertex
`e` that is clipped (its triangle is appended and `clipEar` takes it out of the ring) is
active and flagged as ear, no active ear has a greater stored `angle`, and every active
ear of lower index has a strictly smaller one. -/
theorem C35_most_extruded_ear (sqrt : ℚ → ℚ) (n rem : Nat) (vs : List PartitionVertex)
    (triangles : TPPLPolyList) (e : Nat) (h : findEar vs n = some e) :
    ecLoop sqrt n (rem + 1) vs triangles =
      (if rem = 0 then (true, clipEar vs e, triangles ++ [earTriangle vs e])
       else ecLoop sqrt n rem
         (UpdateVertex sqrt
           (vtx (UpdateVertex sqrt (vtx (clipEar vs e) e).previous (clipEar vs e) n) e).next
           (UpdateVertex sqrt (vtx (clipEar vs e) e).previous (clipEar vs e) n) n)
         (triangles ++ [earTriangle vs e])) ∧
    e < n ∧ (vtx vs e).isActive = true ∧ (vtx vs e).isEar = true ∧
    ∀ j, j < n → (vtx vs j).isActive = true → (vtx vs j).isEar = true →
      (vtx vs j).angle ≤ (vtx vs e).angle ∧ (j < e → (vtx vs j).angle < (vtx vs e).angle) := by
  refine ⟨?_, (findEar_spec vs n).2 e h⟩
  rw [ecLoop, h]

theorem C35_witness :
    findEar (ecVertices sqrtApprox ellPoly) 6 = some 1 ∧
    (ecLoop sqrtApprox 6 (2 + 1) (ecVertices sqrtApprox ellPoly) [] =
      (if 2 = 0 then (true, clipEar (ecVertices sqrtApprox ellPoly) 1,
          [] ++ [earTriangle (ecVertices sqrtApprox ellPoly) 1])
       else ecLoop sqrtApprox 6 2
         (UpdateVertex sqrtApprox
           (vtx (UpdateVertex sqrtApprox (vtx (clipEar (ecVertices sqrtApprox ellPoly) 1) 1).previous
             (clipEar (ecVertices sqrtApprox ellPoly) 1) 6) 1).next
           (UpdateVertex sqrtApprox (vtx (clipEar (ecVertices sqrtApprox ellPoly) 1) 1).previous
             (clipEar (ecVertices sqrtApprox ellPoly) 1) 6) 6)
         ([] ++ [earTriangle (ecVertices sqrtApprox ellPoly) 1])) ∧
    1 < 6 ∧ (vtx (ecVertices sqrtApprox ellPoly) 1).isActive = true ∧
    (vtx (ecVertices sqrtApprox ellPoly) 1).isEar = true ∧
    ∀ j, j < 6 → (vtx (ecVertices sqrtApprox ellPoly) j).isActive = true →
      (vtx (ecVertices sqrtApprox ellPoly) j).isEar = true →
      (vtx (ecVertices sqrtApprox ellPoly) j).angle ≤ (vtx (ecVertices sqrtApprox ellPoly) 1).angle ∧
      (j < 1 → (vtx (ecVertices sqrtApprox ellPoly) j).angle
        < (vtx (ecVertices sqrtApprox ellPoly) 1).angle)) :=
  ⟨by decide!, C35_most_extruded_ear sqrtApprox 6 2 (ecVertices sqrtApprox ellPoly) [] 1
    (by decide!)⟩

/-! ## Ear clipping without a convex vertex -/

theorem ecVertices_sameLinks (sqrt : ℚ → ℚ) (poly : TPPLPoly) :
    SameLinks (initVertices poly poly.GetNumPoints) (ecVertices sqrt poly) :=
  foldl_UpdateVertex_sameLinks sqrt _ _ _

theorem ecVertices_earOk (sqrt : ℚ → ℚ) (poly : TPPLPoly) (i : Nat) :
    EarOkAt (ecVertices sqrt poly) i := by
  unfold ecVertices
  apply foldl_UpdateVertex_earOk
  · intro j hj
    simpa [initVertices] using hj
  · intro j
    by_cases hj : j < poly.GetNumPoints
    · left; exact List.mem_range.mpr hj
    · right
      intro hc
      have : vtx (initVertices poly poly.GetNumPoints) j = default := by
        unfold vtx
        rw [List.getD_eq_default]
        simp [initVertices]; omega
      rw [this] at hc
      exact absurd hc (by decide)

/-- C39: when a polygon has at least four points and `IsConvex(prev, v, next)` is false at
every vertex `v`, the single-polygon `Triangulate_EC` returns 0 and the output list is the
list it was given. -/
theorem C39_Triangulate_EC_no_convex_vertex (sqrt : ℚ → ℚ) (poly : TPPLPoly)
    (out : TPPLPolyList) (hn : 4 ≤ poly.GetNumPoints)
    (hconvex : ∀ i, i < poly.GetNumPoints →
      IsConvex (poly.GetPoint ((i + poly.GetNumPoints - 1) % poly.GetNumPoints))
        (poly.GetPoint i) (poly.GetPoint ((i + 1) % poly.GetNumPoints)) = false) :
    Triangulate_EC sqrt poly out = (0, out) := by
  have hv : poly.Valid = true := by simp [TPPLPoly.Valid]; omega
  have hfind : findEar (ecVertices sqrt poly) poly.GetNumPoints = none := by
    cases hf : findEar (ecVertices sqrt poly) poly.GetNumPoints with
    | none => rfl
    | some e =>
      exfalso
      have he := (findEar_some hf).1
      have hear := findEar_isEar hf
      have hok := ecVertices_earOk sqrt poly e hear
      obtain ⟨_, hl⟩ := ecVertices_sameLinks sqrt poly
      rw [(hl e).2.1, (hl e).2.2.1, (hl e).2.2.2, (hl _).2.1, (hl _).2.1,
        vtx_initVertices poly _ e he] at hok
      simp only at hok
      have hc := hconvex e he
      have e1 : (e + poly.GetNumPoints - 1) % poly.GetNumPoints
          = if e = 0 then poly.GetNumPoints - 1 else e - 1 := by
        split
        · next h => subst h; rw [Nat.zero_add]; exact Nat.mod_eq_of_lt (by omega)
        · next h =>
          rw [show e + poly.GetNumPoints - 1 = (e - 1) + poly.GetNumPoints by omega,
            Nat.add_mod_right]
          exact Nat.mod_eq_of_lt (by omega)
      have e2 : (e + 1) % poly.GetNumPoints
          = if e = poly.GetNumPoints - 1 then 0 else e + 1 := by
        split
        · next h =>
          rw [show e + 1 = poly.GetNumPoints by omega]; exact Nat.mod_self _
        · next h => exact Nat.mod_eq_of_lt (by omega)
      rw [e1, e2] at hc
      rw [vtx_initVertices poly _ _ (by split <;> omega),
        vtx_initVertices poly _ _ (by split <;> omega)] at hok
      simp only at hok
      rw [hc] at hok
      exact absurd hok (by decide)
  unfold Triangulate_EC
  simp only [hv, Bool.not_true, Bool.false_eq_true, if_false]
  rw [if_neg (by omega), if_neg (by omega)]
  obtain ⟨r, hr⟩ : ∃ r, poly.GetNumPoints - 3 = r + 1 := ⟨poly.GetNumPoints - 4, by omega⟩
  rw [hr, ecLoop]
  unfold ecVertices at hfind
  rw [hfind]

theorem C39_witness :
    (4 ≤ squareHole.GetNumPoints ∧
    ∀ i, i < squareHole.GetNumPoints →
      IsConvex (squareHole.GetPoint ((i + squareHole.GetNumPoints - 1) % squareHole.GetNumPoints))
        (squareHole.GetPoint i)
        (squareHole.GetPoint ((i + 1) % squareHole.GetNumPoints)) = false) ∧
    Triangulate_EC sqrtApprox squareHole [] = (0, []) :=
  ⟨⟨by decide, by decide!⟩,
    C39_Triangulate_EC_no_convex_vertex sqrtApprox squareHole [] (by decide) (by decide!)⟩

/-! ## `UpdateState` -/

theorem dropWhile_index2_lt (j : Nat) (l : List Diagonal) (hl : PairsDecreasing l) :
    ∀ e ∈ l.dropWhile (fun d => decide (d.index2 ≥ j)), e.index2 < j := by
  induction l with
  | nil => intro e he; simp at he
  | cons h t ih =>
    have ht := (List.pairwise_cons.mp hl)
    intro e he
    rw [List.dropWhile_cons] at he
    by_cases hp : h.index2 ≥ j
    · simp only [hp, decide_True, if_true] at he
      exact ih ht.2 e he
    · simp only [hp, decide_False, Bool.false_eq_true, if_false] at he
      rcases List.mem_cons.mp he with h1 | h1
      · subst h1; omega
      · have := (ht.1 e h1).2
        omega

/-- C32: `UpdateState(a, b, w, i, j)` on a table with `n` rows and columns, `a, b < n`.
Only the state `(a, b)` can change and its flag `visible` is kept.  When `w` is greater
than the stored weight the table is unchanged; when it is smaller the weight becomes `w`
and the list the single pair `(i, j)`; on equal weight the table is unchanged when the list
is not empty and `i ≤ index1` of its front pair, and otherwise the front pairs with
`index2 ≥ j` are popped and `(i, j)` is pushed at the front.  The stored weight never
increases, and a list that is strictly decreasing in `index1` and `index2` from front to
back stays so. -/
theorem C32_UpdateState (n a b : Nat) (w : Int) (i j : Nat) (dp : DPTable2)
    (hsq : dp.Square n) (ha : a < n) (hb : b < n) :
    (∀ x y, ¬ (x = a ∧ y = b) → (UpdateState a b w i j dp).get x y = dp.get x y) ∧
    ((UpdateState a b w i j dp).get a b).visible = (dp.get a b).visible ∧
    (w > (dp.get a b).weight → UpdateState a b w i j dp = dp) ∧
    (w < (dp.get a b).weight →
      (UpdateState a b w i j dp).get a b = ⟨(dp.get a b).visible, w, [⟨i, j⟩]⟩) ∧
    (w = (dp.get a b).weight →
      ((dp.get a b).pairs ≠ [] ∧ i ≤ ((dp.get a b).pairs.headD default).index1 →
        UpdateState a b w i j dp = dp) ∧
      (¬ ((dp.get a b).pairs ≠ [] ∧ i ≤ ((dp.get a b).pairs.headD default).index1) →
        (UpdateState a b w i j dp).get a b = ⟨(dp.get a b).visible, w,
          ⟨i, j⟩ :: (dp.get a b).pairs.dropWhile (fun d => decide (d.index2 ≥ j))⟩)) ∧
    ((UpdateState a b w i j dp).get a b).weight ≤ (dp.get a b).weight ∧
    (PairsDecreasing (dp.get a b).pairs →
      PairsDecreasing ((UpdateState a b w i j dp).get a b).pairs) := by
  have hset := DPTable2_get_set hsq ha hb
  by_cases h1 : w > (dp.get a b).weight
  · have e : UpdateState a b w i j dp = dp := by
      unfold UpdateState; simp only [h1, if_true]
    rw [e]
    exact ⟨fun _ _ _ => rfl, rfl, fun _ => rfl, fun h => absurd h (by omega),
      fun h => absurd h (by omega), le_refl _, fun h => h⟩
  by_cases h2 : w < (dp.get a b).weight
  · have e : UpdateState a b w i j dp
        = dp.set a b { dp.get a b with pairs := [⟨i, j⟩], weight := w } := by
      unfold UpdateState; simp only [h1, if_false, h2, if_true]
    rw [e]
    refine ⟨fun x y hxy => by rw [hset, if_neg hxy], by rw [hset, if_pos ⟨rfl, rfl⟩],
      fun h => absurd h h1, fun _ => by rw [hset, if_pos ⟨rfl, rfl⟩],
      fun h => absurd h (by omega), ?_, fun _ => ?_⟩
    · rw [hset, if_pos ⟨rfl, rfl⟩]; exact le_of_lt h2
    · rw [hset, if_pos ⟨rfl, rfl⟩]
      exact List.pairwise_singleton _ _
  have h3 : w = (dp.get a b).weight := by omega
  by_cases h4 : (dp.get a b).pairs ≠ [] ∧ i ≤ ((dp.get a b).pairs.headD default).index1
  · have e : UpdateState a b w i j dp = dp := by
      unfold UpdateState
      have : (dp.get a b).pairs.isEmpty = false := by
        cases hp : (dp.get a b).pairs with
        | nil => exact absurd hp h4.1
        | cons _ _ => rfl
      simp only [h1, if_false, h2, this, Bool.not_false, Bool.true_and, decide_eq_true_eq,
        h4.2, if_true]
    rw [e]
    exact ⟨fun _ _ _ => rfl, rfl, fun _ => rfl, fun h => absurd h h2,
      fun _ => ⟨fun _ => rfl, fun h => absurd h4 h⟩, le_refl _, fun h => h⟩
  · have e : UpdateState a b w i j dp = dp.set a b { dp.get a b with
        pairs := ⟨i, j⟩ :: (dp.get a b).pairs.dropWhile (fun d => decide (d.index2 ≥ j)) } := by
      unfold UpdateState
      have : (!(dp.get a b).pairs.isEmpty && decide (i ≤ ((dp.get a b).pairs.headD default).index1))
          = false := by
        cases hp : (dp.get a b).pairs with
        | nil => rfl
        | cons d ds =>
          rw [hp] at h4
          have : ¬ i ≤ d.index1 := fun hc => h4 ⟨by simp, hc⟩
          simp only [List.isEmpty_cons, List.headD_cons, Bool.not_false, Bool.true_and,
            decide_eq_false_iff_not]
          exact this
      simp only [h1, if_false, h2, this, Bool.false_eq_true]
    rw [e]
    refine ⟨fun x y hxy => by rw [hset, if_neg hxy], by rw [hset, if_pos ⟨rfl, rfl⟩],
      fun h => absurd h h1, fun h => absurd h h2,
      fun _ => ⟨fun h => absurd h h4, fun _ => ?_⟩, ?_, fun hdec => ?_⟩
    · rw [hset, if_pos ⟨rfl, rfl⟩, h3]
    · rw [hset, if_pos ⟨rfl, rfl⟩]
    · rw [hset, if_pos ⟨rfl, rfl⟩]
      show PairsDecreasing (_ :: _)
      unfold PairsDecreasing
      rw [List.pairwise_cons]
      refine ⟨fun e he => ⟨?_, dropWhile_index2_lt j _ hdec e he⟩,
        List.Pairwise.sublist (List.dropWhile_sublist _) hdec⟩
      have hmem : e ∈ (dp.get a b).pairs := (List.dropWhile_sublist _).subset he
      cases hp : (dp.get a b).pairs with
      | nil => rw [hp] at hmem; simp at hmem
      | cons d ds =>
        rw [hp] at hmem h4 hdec
        have hd : ¬ i ≤ d.index1 := fun hc => h4 ⟨by simp, hc⟩
        rcases List.mem_cons.mp hmem with h5 | h5
        · subst h5; show e.index1 < i; omega
        · have := ((List.pairwise_cons.mp hdec).1 e h5).1
          show e.index1 < i
          omega

theorem C32_witness :
    (pairsTable.Square 2 ∧ 0 < 2 ∧ 1 < 2) ∧
    (UpdateState 0 1 5 4 5 pairsTable).get 0 1 = ⟨true, 5, [⟨4, 5⟩, ⟨2, 4⟩, ⟨1, 2⟩]⟩ ∧
    ((UpdateState 0 1 5 4 5 pairsTable).get 0 1).weight ≤ (pairsTable.get 0 1).weight ∧
    (PairsDecreasing (pairsTable.get 0 1).pairs →
      PairsDecreasing ((UpdateState 0 1 5 4 5 pairsTable).get 0 1).pairs) :=
  ⟨⟨⟨rfl, by decide⟩, by decide, by decide⟩, rfl,
    (C32_UpdateState 2 0 1 5 4 5 pairsTable ⟨rfl, by decide⟩ (by decide) (by decide)).2.2.2.2.2⟩

/-! ## The visibility tables of the two dynamic programs -/

theorem prev_mod {n i : Nat} (hi : i < n) :
    (i + n - 1) % n = if i = 0 then n - 1 else i - 1 := by
  split
  · next h => subst h; rw [Nat.zero_add]; exact Nat.mod_eq_of_lt (by omega)
  · next h =>
    rw [show i + n - 1 = (i - 1) + n by omega, Nat.add_mod_right]
    exact Nat.mod_eq_of_lt (by omega)

theorem next_mod {n i : Nat} (hi : i < n) :
    (i + 1) % n = if i = n - 1 then 0 else i + 1 := by
  split
  · next h => rw [show i + 1 = n by omega]; exact Nat.mod_self _
  · next h => exact Nat.mod_eq_of_lt (by omega)

theorem cpoVertices_sameLinks (poly : TPPLPoly) (n : Nat) :
    SameLinks (initVertices poly n) (cpoVertices poly n) := by
  unfold cpoVertices
  apply foldl_invariant (SameLinks (initVertices poly n))
  · exact SameLinks.refl _
  · intro vs j _ hvs
    exact hvs.trans (UpdateVertexReflexity_sameLinks j vs)

theorem InConeV_cpoVertices (poly : TPPLPoly) (n i : Nat) (hi : i < n) (p : TPPLPoint) :
    InConeV (cpoVertices poly n) i p
      = InCone (poly.GetPoint (if i = 0 then n - 1 else i - 1)) (poly.GetPoint i)
          (poly.GetPoint (if i = n - 1 then 0 else i + 1)) p := by
  obtain ⟨_, hl⟩ := cpoVertices_sameLinks poly n
  unfold InConeV
  rw [(hl i).2.1, (hl i).2.2.1, (hl i).2.2.2, (hl _).2.1, (hl _).2.1,
    vtx_initVertices poly _ i hi]
  simp only
  rw [vtx_initVertices poly _ _ (by split <;> omega),
    vtx_initVertices poly _ _ (by split <;> omega)]

theorem cpoVisible_eq_optVisible (poly : TPPLPoly) (n i j : Nat) (hi : i < n) (hj : j < n) :
    cpoVisible poly (cpoVertices poly n) n i j = optVisible poly n i j := by
  unfold cpoVisible optVisible
  simp only [InConeV_cpoVertices poly n i hi, InConeV_cpoVertices poly n j hj,
    apply_ite poly.GetPoint]

theorem cpoInit_visible (poly : TPPLPoly) (vs : List PartitionVertex) (n : Nat) (hn : 3 ≤ n)
    (a b : Nat) (hab : a < b) (hb : b < n) :
    ((cpoInit poly vs n).get a b).visible
      = if a = 0 ∧ b = n - 1 then true else cpoVisible poly vs n a b := by
  have loop1 := foldl_range'_invariant
    (fun x (dp : DPTable2) => dp.Square n ∧ ∀ a b, a < b → b < n →
      (dp.get a b).visible = if a < x then cpoVisible poly vs n a b else false)
    (fun (dp : DPTable2) i =>
      (List.range' (i + 1) (n - (i + 1))).foldl (fun (dp : DPTable2) j =>
        dp.set i j { dp.get i j with
          visible := cpoVisible poly vs n i j,
          weight := if j = i + 1 then 0 else 2147483647 }) dp)
    (n - 1) 0 (List.replicate n (List.replicate n default))
    ⟨replicate_square n, fun a b _ _ => by rw [replicate_get]; rfl⟩
    (fun x dp _ hx hq => by
      simp only
      have inner := foldl_range'_invariant
        (fun y (dp : DPTable2) => dp.Square n ∧ ∀ a b, a < b → b < n →
          (dp.get a b).visible
            = if a < x ∨ (a = x ∧ b < y) then cpoVisible poly vs n a b else false)
        (fun (dp : DPTable2) j =>
          dp.set x j { dp.get x j with
            visible := cpoVisible poly vs n x j,
            weight := if j = x + 1 then 0 else 2147483647 })
        (n - (x + 1)) (x + 1) dp
        ⟨hq.1, fun a b hab hb => by
          rw [hq.2 a b hab hb]
          by_cases hax : a < x
          · rw [if_pos hax, if_pos (Or.inl hax)]
          · rw [if_neg hax, if_neg (by omega)]⟩
        (fun j dp hj1 hj hr => by
          refine ⟨DPTable2_square_set hr.1 _ _ _, fun a b hab hb => ?_⟩
          rw [DPTable2_get_set hr.1 (show x < n by omega) (show j < n by omega)]
          by_cases hxy : a = x ∧ b = j
          · obtain ⟨rfl, rfl⟩ := hxy
            rw [if_pos ⟨rfl, rfl⟩, if_pos (Or.inr ⟨rfl, by omega⟩)]
          · rw [if_neg hxy, hr.2 a b hab hb]
            by_cases hc : a < x ∨ (a = x ∧ b < j)
            · rw [if_pos hc, if_pos (by omega)]
            · rw [if_neg hc, if_neg (by omega)])
      refine ⟨inner.1, fun a b hab hb => ?_⟩
      rw [inner.2 a b hab hb]
      by_cases hc : a < x + 1
      · rw [if_pos hc, if_pos (by omega)]
      · rw [if_neg hc, if_neg (by omega)])
  rw [← List.range_eq_range'] at loop1
  obtain ⟨hs1, hv1⟩ := loop1
  have loop2 := foldl_invariant
    (fun (dp : DPTable2) => dp.Square n ∧ ∀ a b, a < b → b < n →
      (dp.get a b).visible = cpoVisible poly vs n a b)
    (fun (dp : DPTable2) i =>
      if (dp.get i (i + 2)).visible then
        dp.set i (i + 2) { dp.get i (i + 2) with
          weight := 0, pairs := (dp.get i (i + 2)).pairs ++ [⟨i + 1, i + 1⟩] }
      else dp)
    (List.range (n - 2)) _
    ⟨hs1, fun a b hab hb => by rw [hv1 a b hab hb, if_pos (by omega)]⟩
    (fun dp i hi hq => by
      have hi2 : i < n - 2 := List.mem_range.mp hi
      simp only
      split
      · refine ⟨DPTable2_square_set hq.1 _ _ _, fun a b hab hb => ?_⟩
        rw [DPTable2_get_set hq.1 (show i < n by omega) (show i + 2 < n by omega)]
        by_cases hxy : a = i ∧ b = i + 2
        · obtain ⟨rfl, rfl⟩ := hxy
          rw [if_pos ⟨rfl, rfl⟩]
          exact hq.2 a (a + 2) hab hb
        · rw [if_neg hxy]
          exact hq.2 a b hab hb
      · exact hq)
  obtain ⟨hs2, hv2⟩ := loop2
  unfold cpoInit
  simp only
  rw [DPTable2_get_set hs2 (show 0 < n by omega) (show n - 1 < n by omega)]
  by_cases h0 : a = 0 ∧ b = n - 1
  · rw [if_pos h0, if_pos h0]
  · rw [if_neg h0, if_neg h0]
    exact hv2 a b hab hb

theorem optVisible_iff (poly : TPPLPoly) (n i j : Nat) (hi : i < n) (hj : j < n)
    (hne : j ≠ i + 1) :
    optVisible poly n i j = true ↔
      InCone (poly.GetPoint ((i + n - 1) % n)) (poly.GetPoint i)
        (poly.GetPoint ((i + 1) % n)) (poly.GetPoint j) = true ∧
      InCone (poly.GetPoint ((j + n - 1) % n)) (poly.GetPoint j)
        (poly.GetPoint ((j + 1) % n)) (poly.GetPoint i) = true ∧
      ∀ k, k < n → Intersects (poly.GetPoint i) (poly.GetPoint j) (poly.GetPoint k)
        (poly.GetPoint ((k + 1) % n)) = 0 := by
  unfold optVisible
  rw [if_pos hne, prev_mod hi, next_mod hi, prev_mod hj, next_mod hj]
  simp only [apply_ite poly.GetPoint]
  by_cases c1 : InCone (if i = 0 then poly.GetPoint (n - 1) else poly.GetPoint (i - 1))
      (poly.GetPoint i) (if i = n - 1 then poly.GetPoint 0 else poly.GetPoint (i + 1))
      (poly.GetPoint j) = true
  swap
  · simp [c1]
  by_cases c2 : InCone (if j = 0 then poly.GetPoint (n - 1) else poly.GetPoint (j - 1))
      (poly.GetPoint j) (if j = n - 1 then poly.GetPoint 0 else poly.GetPoint (j + 1))
      (poly.GetPoint i) = true
  swap
  · simp [c1, c2]
  simp only [c1, c2, Bool.not_true, Bool.false_eq_true, if_false, true_and,
    Bool.not_eq_true', List.any_eq_false, List.mem_range, decide_eq_true_eq, not_not]
  constructor
  · intro h k hk
    rw [next_mod hk, apply_ite poly.GetPoint]
    exact h k hk
  · intro h k hk
    have := h k hk
    rw [next_mod hk, apply_ite poly.GetPoint] at this
    exact this

/-- C31: for a polygon with `n ≥ 3` points and `i < j < n`, the flag
`dpstates[j][i].visible` of `Triangulate_OPT` after its initialisation equals the flag
`dpstates[i][j].visible` of `ConvexPartition_OPT` after its initialisation.  The flag is
true for `j = i + 1` and for `(0, n - 1)`, and for every other pair it is true exactly
when `p_j` is `InCone` at vertex `i`, `p_i` is `InCone` at vertex `j`, and
`Intersects(p_i, p_j, p_k, p_((k+1) mod n))` is 0 for every `k < n`. -/
theorem C31_visibility_tables_agree (poly : TPPLPoly) (i j : Nat)
    (hn : 3 ≤ poly.GetNumPoints) (hij : i < j) (hj : j < poly.GetNumPoints) :
    ((optInit poly poly.GetNumPoints).get j i).visible
      = ((cpoInit poly (cpoVertices poly poly.GetNumPoints) poly.GetNumPoints).get i j).visible ∧
    (j = i + 1 ∨ (i = 0 ∧ j = poly.GetNumPoints - 1) →
      ((optInit poly poly.GetNumPoints).get j i).visible = true) ∧
    (¬ (j = i + 1 ∨ (i = 0 ∧ j = poly.GetNumPoints - 1)) →
      (((optInit poly poly.GetNumPoints).get j i).visible = true ↔
        InCone (poly.GetPoint ((i + poly.GetNumPoints - 1) % poly.GetNumPoints))
          (poly.GetPoint i) (poly.GetPoint ((i + 1) % poly.GetNumPoints))
          (poly.GetPoint j) = true ∧
        InCone (poly.GetPoint ((j + poly.GetNumPoints - 1) % poly.GetNumPoints))
          (poly.GetPoint j) (poly.GetPoint ((j + 1) % poly.GetNumPoints))
          (poly.GetPoint i) = true ∧
        ∀ k, k < poly.GetNumPoints →
          Intersects (poly.GetPoint i) (poly.GetPoint j) (poly.GetPoint k)
            (poly.GetPoint ((k + 1) % poly.GetNumPoints)) = 0)) := by
  have hopt : ((optInit poly poly.GetNumPoints).get j i).visible
      = if i = 0 ∧ j = poly.GetNumPoints - 1 then true
        else optVisible poly poly.GetNumPoints i j := by
    rw [optInit_get poly _ hn]
    by_cases h0 : j = poly.GetNumPoints - 1 ∧ i = 0
    · rw [if_pos h0, if_pos ⟨h0.2, h0.1⟩]
    · rw [if_neg h0, if_pos ⟨hij, hj⟩, if_neg (fun hc => h0 ⟨hc.2, hc.1⟩)]
  refine ⟨?_, fun h => ?_, fun h => ?_⟩
  · rw [hopt, cpoInit_visible poly _ _ hn i j hij hj,
      cpoVisible_eq_optVisible poly _ i j (by omega) hj]
  · rw [hopt]
    by_cases h0 : i = 0 ∧ j = poly.GetNumPoints - 1
    · rw [if_pos h0]
    · rw [if_neg h0]
      have h1 : j = i + 1 := by tauto
      unfold optVisible
      rw [if_neg (not_not.mpr h1)]
  · rw [hopt, if_neg (fun hc => h (Or.inr hc))]
    exact optVisible_iff poly _ i j (by omega) hj (fun hc => h (Or.inl hc))

theorem C31_witness :
    (3 ≤ ellPoly.GetNumPoints ∧ 1 < 4 ∧ 4 < ellPoly.GetNumPoints) ∧
    ((optInit ellPoly ellPoly.GetNumPoints).get 4 1).visible = false ∧
    ((cpoInit ellPoly (cpoVertices ellPoly ellPoly.GetNumPoints)
      ellPoly.GetNumPoints).get 1 4).visible = false ∧
    ((optInit ellPoly ellPoly.GetNumPoints).get 4 1).visible
      = ((cpoInit ellPoly (cpoVertices ellPoly ellPoly.GetNumPoints)
          ellPoly.GetNumPoints).get 1 4).visible :=
  ⟨⟨by decide, by decide, by decide⟩, by decide!, by decide!,
    (C31_visibility_tables_agree ellPoly 1 4 (by decide) (by decide) (by decide)).1⟩

/-! ## The monotonicity check of `TriangulateMonotone` -/

theorem Below_irrefl (p : TPPLPoint) : Below p p = false := by
  rw [← Bool.not_eq_true, Below_iff]
  intro h
  rcases h with h | ⟨_, h⟩ <;> exact absurd h (lt_irrefl _)

/-- The scan for `topindex` and `bottomindex` ends on a vertex that no vertex is above and
on a vertex that no vertex is below. -/
theorem topBottom_extreme (inPoly : TPPLPoly) (hn : 1 ≤ inPoly.GetNumPoints) :
    (topBottom inPoly).1 < inPoly.GetNumPoints ∧ (topBottom inPoly).2 < inPoly.GetNumPoints ∧
    (∀ i, i < inPoly.GetNumPoints →
      Below (inPoly.GetPoint (topBottom inPoly).1) (inPoly.GetPoint i) = false) ∧
    ∀ i, i < inPoly.GetNumPoints →
      Below (inPoly.GetPoint i) (inPoly.GetPoint (topBottom inPoly).2) = false := by
  unfold topBottom
  have key := foldl_range'_invariant
    (fun x (tb : Nat × Nat) => tb.1 < x ∧ tb.2 < x ∧
      (∀ i, i < x → Below (inPoly.GetPoint tb.1) (inPoly.GetPoint i) = false) ∧
      ∀ i, i < x → Below (inPoly.GetPoint i) (inPoly.GetPoint tb.2) = false)
    (fun (tb : Nat × Nat) i =>
      let bottomindex := if Below (inPoly.GetPoint i) (inPoly.GetPoint tb.2) then i else tb.2
      let topindex := if Below (inPoly.GetPoint tb.1) (inPoly.GetPoint i) then i else tb.1
      (topindex, bottomindex))
    (inPoly.GetNumPoints - 1) 1 (0, 0)
    ⟨by decide, by decide,
      fun i hi => by
        have : i = 0 := by omega
        subst this; exact Below_irrefl _,
      fun i hi => by
        have : i = 0 := by omega
        subst this; exact Below_irrefl _⟩
    (fun x tb _ _ ⟨h1, h2, h3, h4⟩ => by
      simp only
      refine ⟨by split <;> omega, by split <;> omega, fun i hi => ?_, fun i hi => ?_⟩
      · by_cases hc : Below (inPoly.GetPoint tb.1) (inPoly.GetPoint x) = true
        · rw [if_pos hc]
          rcases Nat.lt_succ_iff_lt_or_eq.mp hi with h | h
          · rw [← Bool.not_eq_true]
            intro hb
            have := Below_trans hc hb
            rw [h3 i h] at this
            exact absurd this (by decide)
          · subst h; exact Below_irrefl _
        · rw [if_neg hc]
          rcases Nat.lt_succ_iff_lt_or_eq.mp hi with h | h
          · exact h3 i h
          · subst h; simpa using hc
      · by_cases hc : Below (inPoly.GetPoint x) (inPoly.GetPoint tb.2) = true
        · rw [if_pos hc]
          rcases Nat.lt_succ_iff_lt_or_eq.mp hi with h | h
          · rw [← Bool.not_eq_true]
            intro hb
            have := Below_trans hb hc
            rw [h4 i h] at this
            exact absurd this (by decide)
          · subst h; exact Below_irrefl _
        · rw [if_neg hc]
          rcases Nat.lt_succ_iff_lt_or_eq.mp hi with h | h
          · exact h4 i h
          · subst h; simpa using hc)
  have e : 1 + (inPoly.GetNumPoints - 1) = inPoly.GetNumPoints := by omega
  rw [e] at key
  exact key

theorem succ_wrap {n i : Nat} (hi : i < n) :
    (if i + 1 ≥ n then 0 else i + 1) = (i + 1) % n := by
  split
  · next h => rw [show i + 1 = n by omega]; exact (Nat.mod_self _).symm
  · next h => exact (Nat.mod_eq_of_lt (by omega)).symm

theorem walk_ne {n a b m k : Nat} (ha : a < n) (hb : b < n) (hk : k < (b + n - a) % n)
    (hm : m ≤ k) : (a + m) % n ≠ b := by
  intro hc
  have hd : (b + n - a) % n < n := Nat.mod_lt _ (by omega)
  have hmn : m < n := by omega
  by_cases h1 : a + m < n
  · rw [Nat.mod_eq_of_lt h1] at hc
    subst hc
    rw [show a + m + n - a = m + n by omega, Nat.add_mod_right, Nat.mod_eq_of_lt hmn] at hk
    omega
  · have e : (a + m) % n = a + m - n := by
      rw [Nat.mod_eq_sub_mod (by omega)]
      exact Nat.mod_eq_of_lt (by omega)
    rw [e] at hc
    subst hc
    rw [show a + m - n + n - a = m by omega, Nat.mod_eq_of_lt hmn] at hk
    omega

theorem chainDown_fails (inPoly : TPPLPoly) (bottomindex : Nat) :
    ∀ (k fuel i : Nat), k < fuel → i < inPoly.GetNumPoints →
      (∀ m, m ≤ k → (i + m) % inPoly.GetNumPoints ≠ bottomindex) →
      Below (inPoly.GetPoint ((i + k + 1) % inPoly.GetNumPoints))
        (inPoly.GetPoint ((i + k) % inPoly.GetNumPoints)) = false →
      chainDown inPoly bottomindex fuel i = false := by
  intro k
  induction k with
  | zero =>
    intro fuel i hf hi hne hb
    obtain ⟨f, rfl⟩ : ∃ f, fuel = f + 1 := ⟨fuel - 1, by omega⟩
    have h0 := hne 0 (le_refl _)
    rw [Nat.add_zero, Nat.mod_eq_of_lt hi] at h0
    simp only [Nat.add_zero, Nat.mod_eq_of_lt hi] at hb
    rw [chainDown, if_neg h0]
    simp only
    rw [succ_wrap hi, hb]
    rfl
  | succ k ih =>
    intro fuel i hf hi hne hb
    obtain ⟨f, rfl⟩ : ∃ f, fuel = f + 1 := ⟨fuel - 1, by omega⟩
    have h0 := hne 0 (Nat.zero_le _)
    rw [Nat.add_zero, Nat.mod_eq_of_lt hi] at h0
    rw [chainDown, if_neg h0]
    simp only
    rw [succ_wrap hi]
    split
    · rfl
    · apply ih f _ (by omega) (Nat.mod_lt _ (by omega))
      · intro m hm
        have := hne (m + 1) (by omega)
        rw [Nat.mod_add_mod, show i + 1 + m = i + (m + 1) by omega]
        exact this
      · rw [Nat.mod_add_mod, show (i + 1) % inPoly.GetNumPoints + k + 1
            = (i + 1) % inPoly.GetNumPoints + (k + 1) by omega, Nat.mod_add_mod,
          show i + 1 + (k + 1) = i + (k + 1) + 1 by omega, show i + 1 + k = i + (k + 1) by omega]
        exact hb

theorem chainUp_fails (inPoly : TPPLPoly) (topindex : Nat) :
    ∀ (k fuel i : Nat), k < fuel → i < inPoly.GetNumPoints →
      (∀ m, m ≤ k → (i + m) % inPoly.GetNumPoints ≠ topindex) →
      Below (inPoly.GetPoint ((i + k) % inPoly.GetNumPoints))
        (inPoly.GetPoint ((i + k + 1) % inPoly.GetNumPoints)) = false →
      chainUp inPoly topindex fuel i = false := by
  intro k
  induction k with
  | zero =>
    intro fuel i hf hi hne hb
    obtain ⟨f, rfl⟩ : ∃ f, fuel = f + 1 := ⟨fuel - 1, by omega⟩
    have h0 := hne 0 (le_refl _)
    rw [Nat.add_zero, Nat.mod_eq_of_lt hi] at h0
    simp only [Nat.add_zero, Nat.mod_eq_of_lt hi] at hb
    rw [chainUp, if_neg h0]
    simp only
    rw [succ_wrap hi, hb]
    rfl
  | succ k ih =>
    intro fuel i hf hi hne hb
    obtain ⟨f, rfl⟩ : ∃ f, fuel = f + 1 := ⟨fuel - 1, by omega⟩
    have h0 := hne 0 (Nat.zero_le _)
    rw [Nat.add_zero, Nat.mod_eq_of_lt hi] at h0
    rw [chainUp, if_neg h0]
    simp only
    rw [succ_wrap hi]
    split
    · rfl
    · apply ih f _ (by omega) (Nat.mod_lt _ (by omega))
      · intro m hm
        have := hne (m + 1) (by omega)
        rw [Nat.mod_add_mod, show i + 1 + m = i + (m + 1) by omega]
        exact this
      · rw [Nat.mod_add_mod, show (i + 1) % inPoly.GetNumPoints + k + 1
            = (i + 1) % inPoly.GetNumPoints + (k + 1) by omega, Nat.mod_add_mod,
          show i + 1 + (k + 1) = i + (k + 1) + 1 by omega, show i + 1 + k = i + (k + 1) by omega]
        exact hb

/-- C36: let a polygon have `n > 3` points and let `topindex` and `bottomindex` be the
vertices found by the scan of `TriangulateMonotone`: no vertex is above the first and no
vertex is below the second.  If on the walk by increasing index (cyclically) from
`topindex` to `bottomindex` some vertex is not `Below` its predecessor, or on the walk from
`bottomindex` to `topindex` some vertex is not `Below` its successor, `TriangulateMonotone`
returns 0 and the output list is the list it was given. -/
theorem C36_TriangulateMonotone_rejects (inPoly : TPPLPoly) (triangles : TPPLPolyList)
    (hn : 3 < inPoly.GetNumPoints)
    (hwalk :
      (∃ k, k < ((topBottom inPoly).2 + inPoly.GetNumPoints - (topBottom inPoly).1)
            % inPoly.GetNumPoints ∧
          Below (inPoly.GetPoint (((topBottom inPoly).1 + k + 1) % inPoly.GetNumPoints))
            (inPoly.GetPoint (((topBottom inPoly).1 + k) % inPoly.GetNumPoints)) = false) ∨
      (∃ k, k < ((topBottom inPoly).1 + inPoly.GetNumPoints - (topBottom inPoly).2)
            % inPoly.GetNumPoints ∧
          Below (inPoly.GetPoint (((topBottom inPoly).2 + k) % inPoly.GetNumPoints))
            (inPoly.GetPoint (((topBottom inPoly).2 + k + 1) % inPoly.GetNumPoints)) = false)) :
    ((∀ i, i < inPoly.GetNumPoints →
        Below (inPoly.GetPoint (topBottom inPoly).1) (inPoly.GetPoint i) = false) ∧
      ∀ i, i < inPoly.GetNumPoints →
        Below (inPoly.GetPoint i) (inPoly.GetPoint (topBottom inPoly).2) = false) ∧
    TriangulateMonotone inPoly triangles = (0, triangles) := by
  obtain ⟨ht, hb, hmax, hmin⟩ := topBottom_extreme inPoly (by omega)
  refine ⟨⟨hmax, hmin⟩, ?_⟩
  have hv : inPoly.Valid = true := by simp [TPPLPoly.Valid]; omega
  unfold TriangulateMonotone
  simp only [hv, Bool.not_true, Bool.false_eq_true, if_false]
  rw [if_neg (by omega)]
  rcases hwalk with ⟨k, hk, hbel⟩ | ⟨k, hk, hbel⟩
  · have hd : ((topBottom inPoly).2 + inPoly.GetNumPoints - (topBottom inPoly).1)
        % inPoly.GetNumPoints < inPoly.GetNumPoints := Nat.mod_lt _ (by omega)
    have := chainDown_fails inPoly (topBottom inPoly).2 k inPoly.GetNumPoints
      (topBottom inPoly).1 (by omega) ht (fun m hm => walk_ne ht hb hk hm) hbel
    simp only [this, Bool.not_false, if_true]
  · have hd : ((topBottom inPoly).1 + inPoly.GetNumPoints - (topBottom inPoly).2)
        % inPoly.GetNumPoints < inPoly.GetNumPoints := Nat.mod_lt _ (by omega)
    have := chainUp_fails inPoly (topBottom inPoly).1 k inPoly.GetNumPoints
      (topBottom inPoly).2 (by omega) hb (fun m hm => walk_ne hb ht hk hm) hbel
    simp only [this, Bool.not_false, if_true, ite_self]

theorem C36_witness :
    (3 < ellPoly.GetNumPoints ∧ topBottom ellPoly = (4, 0) ∧
      2 < (4 + ellPoly.GetNumPoints - 0) % ellPoly.GetNumPoints ∧
      Below (ellPoly.GetPoint ((0 + 2) % ellPoly.GetNumPoints))
        (ellPoly.GetPoint ((0 + 2 + 1) % ellPoly.GetNumPoints)) = false) ∧
    TriangulateMonotone ellPoly [] = (0, []) :=
  ⟨⟨by decide, by decide!, by decide, by decide!⟩,
    (C36_TriangulateMonotone_rejects ellPoly [] (by decide)
      (Or.inr ⟨2, by decide!, by decide!⟩)).2⟩

/-! ## The number of triangles of `TriangulateMonotone` -/

theorem foldl_push_triangles (g : TPPLPolyList → Nat → TPPLPolyList)
    (hg : ∀ t j, ∃ tri : TPPLPoly, g t j = t ++ [tri] ∧ tri.GetNumPoints = 3) :
    ∀ (l : List Nat) (init : TPPLPolyList),
      ∃ new : TPPLPolyList, l.foldl g init = init ++ new ∧ new.length = l.length ∧
        ∀ t ∈ new, t.GetNumPoints = 3
  | [], init => ⟨[], by simp, rfl, fun t ht => by simp at ht⟩
  | j :: l, init => by
    obtain ⟨tri, e1, e2⟩ := hg init j
    obtain ⟨new, h1, h2, h3⟩ := foldl_push_triangles g hg l (g init j)
    refine ⟨tri :: new, ?_, by simp [h2], fun t ht => ?_⟩
    · rw [List.foldl_cons, h1, e1]; simp
    · rcases List.mem_cons.mp ht with h | h
      · subst h; exact e2
      · exact h3 t h

theorem trimStack_count (inPoly : TPPLPoly) (vertextype : Int) (vindex : Nat)
    (stack : List Nat) :
    ∀ (stackptr : Nat) (triangles : TPPLPolyList),
      ∃ new : TPPLPolyList,
        (trimStack inPoly vertextype vindex stack stackptr triangles).2 = triangles ++ new ∧
        (trimStack inPoly vertextype vindex stack stackptr triangles).1 + new.length = stackptr ∧
        ∀ t ∈ new, t.GetNumPoints = 3
  | 0, triangles => ⟨[], by simp [trimStack], by simp [trimStack], fun t ht => by simp at ht⟩
  | stackptr + 1, triangles => by
    rw [trimStack]
    by_cases hv : vertextype = 1
    · simp only [hv, if_true]
      split
      · obtain ⟨new, h1, h2, h3⟩ := trimStack_count inPoly 1 vindex stack stackptr
          (triangles ++ [TPPLPoly.Triangle (inPoly.GetPoint vindex)
            (inPoly.GetPoint (stack.getD stackptr 0))
            (inPoly.GetPoint (stack.getD (stackptr + 1) 0))])
        refine ⟨TPPLPoly.Triangle (inPoly.GetPoint vindex)
            (inPoly.GetPoint (stack.getD stackptr 0))
            (inPoly.GetPoint (stack.getD (stackptr + 1) 0)) :: new, ?_, ?_, fun t ht => ?_⟩
        · rw [h1]; simp
        · rw [List.length_cons]; omega
        · rcases List.mem_cons.mp ht with h | h
          · subst h; rfl
          · exact h3 t h
      · exact ⟨[], by simp, by simp, fun t ht => by simp at ht⟩
    · simp only [hv, if_false]
      split
      · obtain ⟨new, h1, h2, h3⟩ := trimStack_count inPoly vertextype vindex stack stackptr
          (triangles ++ [TPPLPoly.Triangle (inPoly.GetPoint vindex)
            (inPoly.GetPoint (stack.getD (stackptr + 1) 0))
            (inPoly.GetPoint (stack.getD stackptr 0))])
        refine ⟨TPPLPoly.Triangle (inPoly.GetPoint vindex)
            (inPoly.GetPoint (stack.getD (stackptr + 1) 0))
            (inPoly.GetPoint (stack.getD stackptr 0)) :: new, ?_, ?_, fun t ht => ?_⟩
        · rw [h1]; simp
        · rw [List.length_cons]; omega
        · rcases List.mem_cons.mp ht with h | h
          · subst h; rfl
          · exact h3 t h
      · exact ⟨[], by simp, by simp, fun t ht => by simp at ht⟩

/-- One pass of the loop over the vertices: the stack keeps at least two entries, and its
size plus the number of triangles emitted grows by one. -/
theorem stackStep_count (inPoly : TPPLPoly) (m : ChainMerge) (s : StackState) (i : Nat)
    (hs : 2 ≤ s.stackptr) :
    2 ≤ (stackStep inPoly m s i).stackptr ∧
    ∃ new : TPPLPolyList, (stackStep inPoly m s i).triangles = s.triangles ++ new ∧
      (stackStep inPoly m s i).stackptr + new.length = s.stackptr + 1 ∧
      ∀ t ∈ new, t.GetNumPoints = 3 := by
  unfold stackStep
  simp only
  split
  · dsimp only
    refine ⟨le_refl _, ?_⟩
    obtain ⟨new, h1, h2, h3⟩ := foldl_push_triangles
      (fun (triangles : TPPLPolyList) j =>
        if m.vertextypes.getD (m.priority.getD i 0) 0 = 1 then
          triangles ++ [TPPLPoly.Triangle (inPoly.GetPoint (s.stack.getD (j + 1) 0))
            (inPoly.GetPoint (s.stack.getD j 0)) (inPoly.GetPoint (m.priority.getD i 0))]
        else
          triangles ++ [TPPLPoly.Triangle (inPoly.GetPoint (s.stack.getD j 0))
            (inPoly.GetPoint (s.stack.getD (j + 1) 0)) (inPoly.GetPoint (m.priority.getD i 0))])
      (fun t j => by
        simp only
        split
        · exact ⟨_, rfl, rfl⟩
        · exact ⟨_, rfl, rfl⟩)
      (List.range (s.stackptr - 1)) s.triangles
    refine ⟨new, h1, ?_, h3⟩
    rw [h2, List.length_range]
    omega
  · dsimp only
    obtain ⟨new, h1, h2, h3⟩ := trimStack_count inPoly
      (m.vertextypes.getD (m.priority.getD i 0) 0) (m.priority.getD i 0) s.stack
      (s.stackptr - 1) s.triangles
    refine ⟨by omega, new, h1, by omega, h3⟩

/-- The closing loop emits one triangle for each stack entry but the first. -/
theorem finalLoop_count (inPoly : TPPLPoly) (m : ChainMerge) (s : StackState) (vindex : Nat) :
    ∃ new : TPPLPolyList,
      (List.range (s.stackptr - 1)).foldl (fun (triangles : TPPLPolyList) j =>
        if m.vertextypes.getD (s.stack.getD (j + 1) 0) 0 = 1 then
          triangles ++ [TPPLPoly.Triangle (inPoly.GetPoint (s.stack.getD j 0))
            (inPoly.GetPoint (s.stack.getD (j + 1) 0)) (inPoly.GetPoint vindex)]
        else
          triangles ++ [TPPLPoly.Triangle (inPoly.GetPoint (s.stack.getD (j + 1) 0))
            (inPoly.GetPoint (s.stack.getD j 0)) (inPoly.GetPoint vindex)]) s.triangles
        = s.triangles ++ new ∧
      new.length = s.stackptr - 1 ∧ ∀ t ∈ new, t.GetNumPoints = 3 := by
  obtain ⟨new, h1, h2, h3⟩ := foldl_push_triangles
    (fun (triangles : TPPLPolyList) j =>
      if m.vertextypes.getD (s.stack.getD (j + 1) 0) 0 = 1 then
        triangles ++ [TPPLPoly.Triangle (inPoly.GetPoint (s.stack.getD j 0))
          (inPoly.GetPoint (s.stack.getD (j + 1) 0)) (inPoly.GetPoint vindex)]
      else
        triangles ++ [TPPLPoly.Triangle (inPoly.GetPoint (s.stack.getD (j + 1) 0))
          (inPoly.GetPoint (s.stack.getD j 0)) (inPoly.GetPoint vindex)])
    (fun t j => by
      simp only
      split
      · exact ⟨_, rfl, rfl⟩
      · exact ⟨_, rfl, rfl⟩)
    (List.range (s.stackptr - 1)) s.triangles
  exact ⟨new, h1, by rw [h2, List.length_range], h3⟩

/-- C37: when `TriangulateMonotone` returns 1 on a polygon with `n` points, `n ≥ 3` and
exactly `n - 2` polygons are appended to the output list, each with three points, whatever
the convexity tests of the same-chain case give. -/
theorem C37_TriangulateMonotone_count (inPoly : TPPLPoly) (triangles : TPPLPolyList)
    (hret : (TriangulateMonotone inPoly triangles).1 = 1) :
    3 ≤ inPoly.GetNumPoints ∧
    ∃ new : TPPLPolyList, (TriangulateMonotone inPoly triangles).2 = triangles ++ new ∧
      new.length = inPoly.GetNumPoints - 2 ∧ ∀ t ∈ new, t.GetNumPoints = 3 := by
  unfold TriangulateMonotone at hret ⊢
  by_cases hv : inPoly.Valid = true
  swap
  · simp only [hv, Bool.not_false, if_true] at hret
    exact absurd hret (by decide)
  have hn : 3 ≤ inPoly.GetNumPoints := by simpa [TPPLPoly.Valid] using hv
  refine ⟨hn, ?_⟩
  simp only [hv, Bool.not_true, Bool.false_eq_true, if_false] at hret ⊢
  by_cases h3 : inPoly.GetNumPoints = 3
  · rw [if_pos h3]
    exact ⟨[inPoly], rfl, by rw [h3]; rfl, fun t ht => by
      rw [List.mem_singleton] at ht; subst ht; exact h3⟩
  rw [if_neg h3] at hret ⊢
  by_cases c1 : chainDown inPoly (topBottom inPoly).2 inPoly.GetNumPoints (topBottom inPoly).1
      = true
  swap
  · simp only [c1, Bool.not_false, if_true] at hret
    exact absurd hret (by decide)
  by_cases c2 : chainUp inPoly (topBottom inPoly).1 inPoly.GetNumPoints (topBottom inPoly).2
      = true
  swap
  · simp only [c1, c2, Bool.not_true, Bool.not_false, Bool.false_eq_true, if_false,
      if_true] at hret
    exact absurd hret (by decide)
  simp only [c1, c2, Bool.not_true, Bool.false_eq_true, if_false]
  have key := foldl_range'_invariant
    (fun x (s : StackState) => 2 ≤ s.stackptr ∧
      ∃ new : TPPLPolyList, s.triangles = triangles ++ new ∧ s.stackptr + new.length = x ∧
        ∀ t ∈ new, t.GetNumPoints = 3)
    (stackStep inPoly (mergeChains inPoly (topBottom inPoly).1 (topBottom inPoly).2))
    (inPoly.GetNumPoints - 3) 2
    { stack := ((List.replicate inPoly.GetNumPoints 0).set 0
        ((mergeChains inPoly (topBottom inPoly).1 (topBottom inPoly).2).priority.getD 0 0)).set 1
        ((mergeChains inPoly (topBottom inPoly).1 (topBottom inPoly).2).priority.getD 1 0)
      stackptr := 2
      triangles := triangles }
    ⟨le_refl _, [], by simp, rfl, fun t ht => by simp at ht⟩
    (fun x s _ _ ⟨hs, new, h1, h2, h3⟩ => by
      obtain ⟨k1, new1, k2, k3, k4⟩ := stackStep_count inPoly
        (mergeChains inPoly (topBottom inPoly).1 (topBottom inPoly).2) s x hs
      refine ⟨k1, new ++ new1, by rw [k2, h1, List.append_assoc], ?_, fun t ht => ?_⟩
      · rw [List.length_append]; omega
      · rcases List.mem_append.mp ht with h | h
        · exact h3 t h
        · exact k4 t h)
  obtain ⟨hs, new, h1, h2, h3⟩ := key
  obtain ⟨new1, k1, k2, k3⟩ := finalLoop_count inPoly
    (mergeChains inPoly (topBottom inPoly).1 (topBottom inPoly).2) _
    ((mergeChains inPoly (topBottom inPoly).1 (topBottom inPoly).2).priority.getD
      (inPoly.GetNumPoints - 1) 0)
  refine ⟨new ++ new1, ?_, ?_, fun t ht => ?_⟩
  · show List.foldl _ _ _ = _
    rw [k1, h1, List.append_assoc]
  · rw [List.length_append, k2]; omega
  · rcases List.mem_append.mp ht with h | h
    · exact h3 t h
    · exact k3 t h

theorem C37_witness :
    (TriangulateMonotone squarePoly []).1 = 1 ∧
    3 ≤ squarePoly.GetNumPoints ∧
    ∃ new : TPPLPolyList, (TriangulateMonotone squarePoly []).2 = [] ++ new ∧
      new.length = squarePoly.GetNumPoints - 2 ∧ ∀ t ∈ new, t.GetNumPoints = 3 :=
  ⟨by decide!, C37_TriangulateMonotone_count squarePoly [] (by decide!)⟩

/-! ## `AddDiagonal` and the doubly-connected list -/

theorem getD_set_ite {α : Type} (l : List α) (i j : Nat) (v d : α) :
    (l.set i v).getD j d = if i = j ∧ i < l.length then v else l.getD j d := by
  by_cases h : i = j
  · subst h
    by_cases h2 : i < l.length
    · rw [if_pos ⟨rfl, h2⟩, getD_set_self _ _ _ _ h2]
    · rw [if_neg (fun hc => h2 hc.2), List.getD_eq_default _ _ (by simpa using h2),
        List.getD_eq_default _ _ (by simpa using h2)]
  · rw [if_neg (fun hc => h hc.1), getD_set_ne _ _ _ h]

theorem setP_fields (vs : List MonotoneVertex) (i : Nat) (q : TPPLPoint) (hi : i < vs.length)
    (x : Nat) :
    (setP vs i q).length = vs.length ∧
    ((setP vs i q).getD x default).p = (if x = i then q else (vs.getD x default).p) ∧
    ((setP vs i q).getD x default).next = (vs.getD x default).next ∧
    ((setP vs i q).getD x default).previous = (vs.getD x default).previous := by
  unfold setP
  rw [getD_set_ite, List.length_set]
  by_cases h : x = i
  · subst h
    rw [if_pos ⟨rfl, hi⟩, if_pos rfl]
    exact ⟨rfl, rfl, rfl, rfl⟩
  · rw [if_neg (fun hc => h hc.1.symm), if_neg h]
    exact ⟨rfl, rfl, rfl, rfl⟩

theorem setNextIdx_fields (vs : List MonotoneVertex) (i j : Nat) (hi : i < vs.length)
    (x : Nat) :
    (setNextIdx vs i j).length = vs.length ∧
    ((setNextIdx vs i j).getD x default).p = (vs.getD x default).p ∧
    ((setNextIdx vs i j).getD x default).next
      = (if x = i then j else (vs.getD x default).next) ∧
    ((setNextIdx vs i j).getD x default).previous = (vs.getD x default).previous := by
  unfold setNextIdx
  rw [getD_set_ite, List.length_set]
  by_cases h : x = i
  · subst h
    rw [if_pos ⟨rfl, hi⟩, if_pos rfl]
    exact ⟨rfl, rfl, rfl, rfl⟩
  · rw [if_neg (fun hc => h hc.1.symm), if_neg h]
    exact ⟨rfl, rfl, rfl, rfl⟩

theorem setPreviousIdx_fields (vs : List MonotoneVertex) (i j : Nat) (hi : i < vs.length)
    (x : Nat) :
    (setPreviousIdx vs i j).length = vs.length ∧
    ((setPreviousIdx vs i j).getD x default).p = (vs.getD x default).p ∧
    ((setPreviousIdx vs i j).getD x default).next = (vs.getD x default).next ∧
    ((setPreviousIdx vs i j).getD x default).previous
      = (if x = i then j else (vs.getD x default).previous) := by
  unfold setPreviousIdx
  rw [getD_set_ite, List.length_set]
  by_cases h : x = i
  · subst h
    rw [if_pos ⟨rfl, hi⟩, if_pos rfl]
    exact ⟨rfl, rfl, rfl, rfl⟩
  · rw [if_neg (fun hc => h hc.1.symm), if_neg h]
    exact ⟨rfl, rfl, rfl, rfl⟩

/-- The doubly-connected list after the ten writes of `AddDiagonal`, entry by entry. -/
theorem addDiagonalLinks_spec (vs : List MonotoneVertex) (index1 index2 n : Nat)
    (hlen : n + 2 ≤ vs.length) (h1 : index1 < n) (h2 : index2 < n)
    (ha : (vs.getD index1 default).next < n) (hb : (vs.getD index2 default).next < n)
    (x : Nat) :
    ((addDiagonalLinks vs index1 index2 n (n + 1)).getD x default).p
      = (if x = n + 1 then (vs.getD index2 default).p
         else if x = n then (vs.getD index1 default).p else (vs.getD x default).p) ∧
    ((addDiagonalLinks vs index1 index2 n (n + 1)).getD x default).next
      = (if x = index2 then n else if x = index1 then n + 1
         else if x = n then (vs.getD index1 default).next
         else if x = n + 1 then (vs.getD index2 default).next
         else (vs.getD x default).next) ∧
    ((addDiagonalLinks vs index1 index2 n (n + 1)).getD x default).previous
      = (if x = n then index2 else if x = n + 1 then index1
         else if x = (vs.getD index1 default).next then n
         else if x = (vs.getD index2 default).next then n + 1
         else (vs.getD x default).previous) := by
  unfold addDiagonalLinks
  -- the lists after each write, with their entries
  have e1 := setP_fields vs n (vs.getD index1 default).p (by omega)
  generalize setP vs n (vs.getD index1 default).p = vs1 at e1 ⊢
  have q1 : (vs1.getD index2 default).p = (vs.getD index2 default).p := by
    rw [(e1 index2).2.1, if_neg (by omega)]
  simp only [q1]
  have e2 := setP_fields vs1 (n + 1) (vs.getD index2 default).p (by rw [(e1 0).1]; omega)
  generalize setP vs1 (n + 1) (vs.getD index2 default).p = vs2 at e2 ⊢
  have q2 : (vs2.getD index2 default).next = (vs.getD index2 default).next := by
    rw [(e2 index2).2.2.1, (e1 index2).2.2.1]
  simp only [q2]
  have e3 := setNextIdx_fields vs2 (n + 1) (vs.getD index2 default).next
    (by rw [(e2 0).1, (e1 0).1]; omega)
  generalize setNextIdx vs2 (n + 1) (vs.getD index2 default).next = vs3 at e3 ⊢
  have q3 : (vs3.getD index1 default).next = (vs.getD index1 default).next := by
    rw [(e3 index1).2.2.1, if_neg (by omega), (e2 index1).2.2.1, (e1 index1).2.2.1]
  simp only [q3]
  have e4 := setNextIdx_fields vs3 n (vs.getD index1 default).next
    (by rw [(e3 0).1, (e2 0).1, (e1 0).1]; omega)
  generalize setNextIdx vs3 n (vs.getD index1 default).next = vs4 at e4 ⊢
  have q4 : (vs4.getD index2 default).next = (vs.getD index2 default).next := by
    rw [(e4 index2).2.2.1, if_neg (by omega), (e3 index2).2.2.1, if_neg (by omega),
      (e2 index2).2.2.1, (e1 index2).2.2.1]
  simp only [q4]
  have e5 := setPreviousIdx_fields vs4 (vs.getD index2 default).next (n + 1)
    (by rw [(e4 0).1, (e3 0).1, (e2 0).1, (e1 0).1]; omega)
  generalize setPreviousIdx vs4 (vs.getD index2 default).next (n + 1) = vs5 at e5 ⊢
  have q5 : (vs5.getD index1 default).next = (vs.getD index1 default).next := by
    rw [(e5 index1).2.2.1, (e4 index1).2.2.1, if_neg (by omega), (e3 index1).2.2.1,
      if_neg (by omega), (e2 index1).2.2.1, (e1 index1).2.2.1]
  simp only [q5]
  have e6 := setPreviousIdx_fields vs5 (vs.getD index1 default).next n
    (by rw [(e5 0).1, (e4 0).1, (e3 0).1, (e2 0).1, (e1 0).1]; omega)
  generalize setPreviousIdx vs5 (vs.getD index1 default).next n = vs6 at e6 ⊢
  have e7 := setNextIdx_fields vs6 index1 (n + 1)
    (by rw [(e6 0).1, (e5 0).1, (e4 0).1, (e3 0).1, (e2 0).1, (e1 0).1]; omega)
  generalize setNextIdx vs6 index1 (n + 1) = vs7 at e7 ⊢
  have e8 := setPreviousIdx_fields vs7 (n + 1) index1
    (by rw [(e7 0).1, (e6 0).1, (e5 0).1, (e4 0).1, (e3 0).1, (e2 0).1, (e1 0).1]; omega)
  generalize setPreviousIdx vs7 (n + 1) index1 = vs8 at e8 ⊢
  have e9 := setNextIdx_fields vs8 index2 n
    (by rw [(e8 0).1, (e7 0).1, (e6 0).1, (e5 0).1, (e4 0).1, (e3 0).1, (e2 0).1, (e1 0).1]
        omega)
  generalize setNextIdx vs8 index2 n = vs9 at e9 ⊢
  have e10 := setPreviousIdx_fields vs9 n index2
    (by rw [(e9 0).1, (e8 0).1, (e7 0).1, (e6 0).1, (e5 0).1, (e4 0).1, (e3 0).1, (e2 0).1,
          (e1 0).1]
        omega)
  generalize setPreviousIdx vs9 n index2 = vs10 at e10 ⊢
  refine ⟨?_, ?_, ?_⟩
  · rw [(e10 x).2.1, (e9 x).2.1, (e8 x).2.1, (e7 x).2.1, (e6 x).2.1, (e5 x).2.1, (e4 x).2.1,
      (e3 x).2.1, (e2 x).2.1, (e1 x).2.1]
  · rw [(e10 x).2.2.1, (e9 x).2.2.1, (e8 x).2.2.1, (e7 x).2.2.1, (e6 x).2.2.1, (e5 x).2.2.1,
      (e4 x).2.2.1, (e3 x).2.2.1, (e2 x).2.2.1, (e1 x).2.2.1]
  · rw [(e10 x).2.2.2, (e9 x).2.2.2, (e8 x).2.2.2, (e7 x).2.2.2, (e6 x).2.2.2, (e5 x).2.2.2,
      (e4 x).2.2.2, (e3 x).2.2.2, (e2 x).2.2.2, (e1 x).2.2.2]

theorem copyStructures_vertices (st : MonotoneState) (index newindex : Nat) :
    (copyStructures st index newindex).vertices = st.vertices ∧
    (copyStructures st index newindex).newnumvertices = st.newnumvertices :=
  ⟨rfl, rfl⟩

theorem AddDiagonal_vertices (st : MonotoneState) (index1 index2 : Nat) :
    (AddDiagonal st index1 index2).vertices
      = addDiagonalLinks st.vertices index1 index2 st.newnumvertices (st.newnumvertices + 1) ∧
    (AddDiagonal st index1 index2).newnumvertices = st.newnumvertices + 2 :=
  ⟨rfl, rfl⟩

/-- C33: let `next` and `previous` map the indices below `numvertices` to indices below
`numvertices` and be mutually inverse there, let `index1` and `index2` be two distinct
indices below `numvertices`, and let the array have room for two more records.  Then
`AddDiagonal` increases `numvertices` by 2, leaves the positions of the old records as they
are, gives record `numvertices` the position of `index1` and record `numvertices + 1` the
position of `index2`, sets `next[index1]` to the copy of `index2` and `next[index2]` to the
copy of `index1`, and `next` and `previous` map the indices below `numvertices + 2` to
such indices and are mutually inverse there. -/
theorem C33_AddDiagonal_ring (st : MonotoneState) (index1 index2 : Nat)
    (hlen : st.newnumvertices + 2 ≤ st.vertices.length)
    (h1 : index1 < st.newnumvertices) (h2 : index2 < st.newnumvertices)
    (hne : index1 ≠ index2)
    (hlink : ∀ v, v < st.newnumvertices →
      (st.vertex v).next < st.newnumvertices ∧ (st.vertex v).previous < st.newnumvertices ∧
      (st.vertex (st.vertex v).next).previous = v ∧
      (st.vertex (st.vertex v).previous).next = v) :
    (AddDiagonal st index1 index2).newnumvertices = st.newnumvertices + 2 ∧
    (∀ v, v < st.newnumvertices →
      ((AddDiagonal st index1 index2).vertex v).p = (st.vertex v).p) ∧
    ((AddDiagonal st index1 index2).vertex st.newnumvertices).p = (st.vertex index1).p ∧
    ((AddDiagonal st index1 index2).vertex (st.newnumvertices + 1)).p = (st.vertex index2).p ∧
    ((AddDiagonal st index1 index2).vertex index1).next = st.newnumvertices + 1 ∧
    ((AddDiagonal st index1 index2).vertex index2).next = st.newnumvertices ∧
    ∀ v, v < st.newnumvertices + 2 →
      ((AddDiagonal st index1 index2).vertex v).next < st.newnumvertices + 2 ∧
      ((AddDiagonal st index1 index2).vertex v).previous < st.newnumvertices + 2 ∧
      ((AddDiagonal st index1 index2).vertex
        ((AddDiagonal st index1 index2).vertex v).next).previous = v ∧
      ((AddDiagonal st index1 index2).vertex
        ((AddDiagonal st index1 index2).vertex v).previous).next = v := by
  refine ⟨rfl, ?_⟩
  unfold MonotoneState.vertex at hlink ⊢
  rw [(AddDiagonal_vertices st index1 index2).1]
  generalize st.newnumvertices = n at hlen h1 h2 hlink ⊢
  generalize st.vertices = vs at hlen hlink ⊢
  have ha := (hlink index1 h1).1
  have hb := (hlink index2 h2).1
  have spec := addDiagonalLinks_spec vs index1 index2 n hlen h1 h2 ha hb
  have hab : (vs.getD index1 default).next ≠ (vs.getD index2 default).next := by
    intro hc
    have e1 := (hlink index1 h1).2.2.1
    have e2 := (hlink index2 h2).2.2.1
    rw [hc] at e1
    exact hne (e1.symm.trans e2)
  refine ⟨fun v hv => ?_, ?_, ?_, ?_, ?_, fun v hv => ?_⟩
  · rw [(spec v).1, if_neg (by omega), if_neg (by omega)]
  · rw [(spec n).1, if_neg (by omega), if_pos rfl]
  · rw [(spec (n + 1)).1, if_pos rfl]
  · rw [(spec index1).2.1, if_neg hne, if_pos rfl]
  · rw [(spec index2).2.1, if_pos rfl]
  · -- the four kinds of index: `index1`, `index2`, the two copies, the others
    have hnext : ∀ x, x < n → (vs.getD x default).next < n := fun x hx => (hlink x hx).1
    have hprev : ∀ x, x < n → (vs.getD x default).previous < n := fun x hx => (hlink x hx).2.1
    have hpn : ∀ x, x < n → (vs.getD (vs.getD x default).next default).previous = x :=
      fun x hx => (hlink x hx).2.2.1
    have hnp : ∀ x, x < n → (vs.getD (vs.getD x default).previous default).next = x :=
      fun x hx => (hlink x hx).2.2.2
    refine ⟨?_, ?_, ?_, ?_⟩
    · rw [(spec v).2.1]
      split_ifs
      · omega
      · omega
      · omega
      · omega
      · have := hnext v (by omega); omega
    · rw [(spec v).2.2]
      split_ifs
      · omega
      · omega
      · omega
      · omega
      · have := hprev v (by omega); omega
    · rw [(spec _).2.2, (spec v).2.1]
      by_cases c1 : v = index2
      · subst c1; rw [if_pos rfl, if_pos rfl]
      rw [if_neg c1]
      by_cases c2 : v = index1
      · subst c2; rw [if_pos rfl, if_neg (by omega), if_pos rfl]
      rw [if_neg c2]
      by_cases c3 : v = n
      · subst c3
        rw [if_pos rfl, if_neg (by omega), if_neg (by omega), if_pos rfl]
      rw [if_neg c3]
      by_cases c4 : v = n + 1
      · subst c4
        rw [if_pos rfl, if_neg (by omega), if_neg (by omega), if_neg (Ne.symm hab), if_pos rfl]
      rw [if_neg c4]
      have hvn : v < n := by omega
      have := hnext v hvn
      rw [if_neg (by omega), if_neg (by omega), if_neg, if_neg]
      · exact hpn v hvn
      · intro hc
        have e1 := hpn v hvn
        rw [hc, hpn index2 h2] at e1
        exact c1 e1.symm
      · intro hc
        have e1 := hpn v hvn
        rw [hc, hpn index1 h1] at e1
        exact c2 e1.symm
    · rw [(spec _).2.1, (spec v).2.2]
      by_cases c1 : v = n
      · subst c1; rw [if_pos rfl, if_pos rfl]
      rw [if_neg c1]
      by_cases c2 : v = n + 1
      · subst c2; rw [if_pos rfl, if_neg hne, if_pos rfl]
      rw [if_neg c2]
      have hvn : v < n := by omega
      by_cases c3 : v = (vs.getD index1 default).next
      · rw [if_pos c3, if_neg (by omega), if_neg (by omega), if_pos rfl]
        exact c3.symm
      rw [if_neg c3]
      by_cases c4 : v = (vs.getD index2 default).next
      · rw [if_pos c4, if_neg (by omega), if_neg (by omega), if_neg (by omega), if_pos rfl]
        exact c4.symm
      rw [if_neg c4]
      have := hprev v hvn
      have e := hnp v hvn
      rw [if_neg, if_neg, if_neg (by omega), if_neg (by omega)]
      · exact e
      · intro hc
        rw [hc] at e
        exact c3 e.symm
      · intro hc
        rw [hc] at e
        exact c4 e.symm

theorem C33_witness :
    ((monoInitState [squarePoly] 4).newnumvertices + 2
        ≤ (monoInitState [squarePoly] 4).vertices.length ∧
      0 < (monoInitState [squarePoly] 4).newnumvertices ∧
      2 < (monoInitState [squarePoly] 4).newnumvertices ∧ 0 ≠ 2 ∧
      ∀ v, v < (monoInitState [squarePoly] 4).newnumvertices →
        ((monoInitState [squarePoly] 4).vertex v).next
          < (monoInitState [squarePoly] 4).newnumvertices ∧
        ((monoInitState [squarePoly] 4).vertex v).previous
          < (monoInitState [squarePoly] 4).newnumvertices ∧
        ((monoInitState [squarePoly] 4).vertex
          ((monoInitState [squarePoly] 4).vertex v).next).previous = v ∧
        ((monoInitState [squarePoly] 4).vertex
          ((monoInitState [squarePoly] 4).vertex v).previous).next = v) ∧
    (AddDiagonal (monoInitState [squarePoly] 4) 0 2).newnumvertices
      = (monoInitState [squarePoly] 4).newnumvertices + 2 ∧
    ∀ v, v < (monoInitState [squarePoly] 4).newnumvertices + 2 →
      ((AddDiagonal (monoInitState [squarePoly] 4) 0 2).vertex v).next
        < (monoInitState [squarePoly] 4).newnumvertices + 2 ∧
      ((AddDiagonal (monoInitState [squarePoly] 4) 0 2).vertex v).previous
        < (monoInitState [squarePoly] 4).newnumvertices + 2 ∧
      ((AddDiagonal (monoInitState [squarePoly] 4) 0 2).vertex
        ((AddDiagonal (monoInitState [squarePoly] 4) 0 2).vertex v).next).previous = v ∧
      ((AddDiagonal (monoInitState [squarePoly] 4) 0 2).vertex
        ((AddDiagonal (monoInitState [squarePoly] 4) 0 2).vertex v).previous).next = v :=
  ⟨⟨by decide, by decide, by decide, by decide, by decide⟩,
    (C33_AddDiagonal_ring (monoInitState [squarePoly] 4) 0 2 (by decide) (by decide)
      (by decide) (by decide) (by decide)).1,
    (C33_AddDiagonal_ring (monoInitState [squarePoly] 4) 0 2 (by decide) (by decide)
      (by decide) (by decide) (by decide)).2.2.2.2.2.2⟩

/-! ## The direction of the bridge chosen by `RemoveHoles` -/

theorem polyPointStep_keeps (sqrt : ℚ → ℚ) (polys : TPPLPolyList) (H : TPPLPoint) (it i : Nat)
    (st : Option (Nat × Nat)) (q : ℚ) (h : BridgeAtLeast sqrt polys H st q) :
    BridgeAtLeast sqrt polys H (polyPointStep sqrt polys H it i st) q := by
  obtain ⟨s, rfl, hq⟩ := h
  unfold polyPointStep
  simp only
  split
  · exact ⟨s, rfl, hq⟩
  split
  · exact ⟨s, rfl, hq⟩
  split
  · exact ⟨s, rfl, hq⟩
  split
  · next hw _ =>
    refine ⟨(it, i), rfl, ?_⟩
    have hw2 : ¬ bridgeDirX sqrt polys H s.1 s.2 > bridgeDirX sqrt polys H it i := by
      simpa [bridgeDirX] using hw
    exact le_trans hq (not_lt.mp hw2)
  · exact ⟨s, rfl, hq⟩

theorem polyPointStep_takes (sqrt : ℚ → ℚ) (polys : TPPLPolyList) (H : TPPLPoint) (it i : Nat)
    (st : Option (Nat × Nat)) (hb : bridgeTest polys H it i = true) :
    BridgeAtLeast sqrt polys H (polyPointStep sqrt polys H it i st)
      (bridgeDirX sqrt polys H it i) := by
  unfold bridgeTest at hb
  simp only [Bool.and_eq_true, decide_eq_true_eq] at hb
  obtain ⟨⟨h1, h2⟩, h3⟩ := hb
  unfold polyPointStep
  simp only [not_le.mpr h1, if_false, h2, Bool.not_true, Bool.false_eq_true, h3, if_true]
  cases st with
  | none => exact ⟨(it, i), rfl, le_refl _⟩
  | some s =>
    simp only
    by_cases hw : bridgeDirX sqrt polys H s.1 s.2 > bridgeDirX sqrt polys H it i
    · have : (Normalize sqrt (((polyAt polys s.1).GetPoint s.2).sub H)).x
          > (Normalize sqrt (((polyAt polys it).GetPoint i).sub H)).x := hw
      simp only [this, decide_True, if_true]
      exact ⟨s, rfl, le_of_lt hw⟩
    · have : ¬ (Normalize sqrt (((polyAt polys s.1).GetPoint s.2).sub H)).x
          > (Normalize sqrt (((polyAt polys it).GetPoint i).sub H)).x := hw
      simp only [this, decide_False, Bool.false_eq_true, if_false]
      exact ⟨(it, i), rfl, le_refl _⟩

theorem polyPoint_inner_best (sqrt : ℚ → ℚ) (polys : TPPLPolyList) (H : TPPLPoint) (it : Nat) :
    ∀ (l : List Nat) (st : Option (Nat × Nat)),
      (∀ q, BridgeAtLeast sqrt polys H st q →
        BridgeAtLeast sqrt polys H
          (l.foldl (fun st i => polyPointStep sqrt polys H it i st) st) q) ∧
      ∀ i ∈ l, bridgeTest polys H it i = true →
        BridgeAtLeast sqrt polys H
          (l.foldl (fun st i => polyPointStep sqrt polys H it i st) st)
          (bridgeDirX sqrt polys H it i)
  | [], st => ⟨fun _ h => h, fun i hi => by simp at hi⟩
  | j :: l, st => by
    obtain ⟨ih1, ih2⟩ := polyPoint_inner_best sqrt polys H it l
      (polyPointStep sqrt polys H it j st)
    refine ⟨fun q h => ih1 q (polyPointStep_keeps sqrt polys H it j st q h), fun i hi hb => ?_⟩
    rw [List.foldl_cons]
    rcases List.mem_cons.mp hi with h | h
    · subst h
      exact ih1 _ (polyPointStep_takes sqrt polys H it i st hb)
    · exact ih2 i h hb

theorem polyPoint_outer_best (sqrt : ℚ → ℚ) (polys : TPPLPolyList) (H : TPPLPoint) :
    ∀ (l : List Nat) (st : Option (Nat × Nat)),
      (∀ q, BridgeAtLeast sqrt polys H st q →
        BridgeAtLeast sqrt polys H
          (l.foldl (fun st it =>
            if (polyAt polys it).IsHole then st
            else (List.range (polyAt polys it).GetNumPoints).foldl
              (fun st i => polyPointStep sqrt polys H it i st) st) st) q) ∧
      ∀ it ∈ l, (polyAt polys it).IsHole = false →
        ∀ i, i < (polyAt polys it).GetNumPoints → bridgeTest polys H it i = true →
        BridgeAtLeast sqrt polys H
          (l.foldl (fun st it =>
            if (polyAt polys it).IsHole then st
            else (List.range (polyAt polys it).GetNumPoints).foldl
              (fun st i => polyPointStep sqrt polys H it i st) st) st)
          (bridgeDirX sqrt polys H it i)
  | [], st => ⟨fun _ h => h, fun it hit => by simp at hit⟩
  | j :: l, st => by
    rw [List.foldl_cons]
    obtain ⟨ih1, ih2⟩ := polyPoint_outer_best sqrt polys H l
      (if (polyAt polys j).IsHole then st
        else (List.range (polyAt polys j).GetNumPoints).foldl
          (fun st i => polyPointStep sqrt polys H j i st) st)
    obtain ⟨in1, in2⟩ := polyPoint_inner_best sqrt polys H j
      (List.range (polyAt polys j).GetNumPoints) st
    refine ⟨fun q h => ih1 q ?_, fun it hit hh i hi hb => ?_⟩
    · split
      · exact h
      · exact in1 q h
    · rcases List.mem_cons.mp hit with h | h
      · subst h
        apply ih1
        rw [if_neg (by rw [hh]; decide)]
        exact in2 i (List.mem_range.mpr hi) hb
      · exact ih2 it h hh i hi hb

/-- The vertex found by the search of `RemoveHoles` is a bridge vertex, and no bridge
vertex has a direction with a greater x component after `Normalize`. -/
theorem findPolyPoint_best (sqrt : ℚ → ℚ) (polys : TPPLPolyList) (H : TPPLPoint)
    (s : Nat × Nat) (h : findPolyPoint sqrt polys H = some s) :
    Bridge polys H s.1 s.2 ∧
    ∀ it i, Bridge polys H it i →
      bridgeDirX sqrt polys H it i ≤ bridgeDirX sqrt polys H s.1 s.2 := by
  refine ⟨findPolyPoint_some h, fun it i hb => ?_⟩
  obtain ⟨h1, h2, h3, h4⟩ := (bridgeTest_iff polys H it i).mpr hb
  obtain ⟨s1, e1, e2⟩ := (polyPoint_outer_best sqrt polys H (List.range polys.length) none).2
    it (List.mem_range.mpr h1) h2 i h3 h4
  unfold findPolyPoint at h
  rw [h] at e1
  simp only [Option.some.injEq] at e1
  subst e1
  exact e2

/-- C34, the claim as stated fails: in the first pass of `RemoveHoles` on the square
`[(0,0),(10,0),(10,10),(0,10)]` with the hole `[(3,3),(3,7),(7,7),(7,3)]` the hole vertex
is `H = (7,7)` and the bridge vertex chosen is `(10,10)`, although `(10,0)` is to the right
of `H`, has `H` in its cone, is joined to `H` by a segment that meets no edge, and has a
direction with a strictly smaller x component after `Normalize`. -/
theorem C34_counterexample :
    findHolePoint [squarePoly, squareHole] = some (1, 2) ∧
    findPolyPoint sqrtApprox [squarePoly, squareHole] (squareHole.GetPoint 2) = some (0, 2) ∧
    Bridge [squarePoly, squareHole] (squareHole.GetPoint 2) 0 1 ∧
    bridgeDirX sqrtApprox [squarePoly, squareHole] (squareHole.GetPoint 2) 0 1
      < bridgeDirX sqrtApprox [squarePoly, squareHole] (squareHole.GetPoint 2) 0 2 :=
  ⟨by decide!, by decide!,
    (bridgeTest_iff _ _ 0 1).mp ⟨by decide, by decide, by decide, by decide!⟩, by decide!⟩

/-- C34, amended: in a pass of `RemoveHoles` that succeeds, with `H` the hole vertex
selected, the bridge vertex `P` chosen satisfies `P.x > H.x`,
`InCone(prev(P), P, next(P), H)` and `Intersects(H, P, e) = 0` for every edge `e` of every
non-hole polygon, and among all vertices of non-hole polygons with these three
properties it is one whose direction `Normalize(P - H)` has the largest x component. -/
theorem C34_bridge_largest_direction (sqrt : ℚ → ℚ) (polys polys1 : TPPLPolyList)
    (h : removeHolesStep sqrt polys = HoleStep.next polys1) :
    ∃ hi hpi pi ppi, findHolePoint polys = some (hi, hpi) ∧
      findPolyPoint sqrt polys ((polyAt polys hi).GetPoint hpi) = some (pi, ppi) ∧
      Bridge polys ((polyAt polys hi).GetPoint hpi) pi ppi ∧
      (∀ it i, Bridge polys ((polyAt polys hi).GetPoint hpi) it i →
        bridgeDirX sqrt polys ((polyAt polys hi).GetPoint hpi) it i
          ≤ bridgeDirX sqrt polys ((polyAt polys hi).GetPoint hpi) pi ppi) ∧
      polys1 = ((polys.eraseIdx hi).eraseIdx (if hi < pi then pi - 1 else pi))
        ++ [mergeHole (polyAt polys hi) (polyAt polys pi) hpi ppi] := by
  unfold removeHolesStep at h
  cases h1 : findHolePoint polys with
  | none => rw [h1] at h; simp at h
  | some s =>
    obtain ⟨hi, hpi⟩ := s
    rw [h1] at h
    simp only at h
    cases h2 : findPolyPoint sqrt polys ((polyAt polys hi).GetPoint hpi) with
    | none => rw [h2] at h; simp at h
    | some s2 =>
      obtain ⟨pi, ppi⟩ := s2
      rw [h2] at h
      simp only [HoleStep.next.injEq] at h
      obtain ⟨hb, hmax⟩ := findPolyPoint_best sqrt polys _ (pi, ppi) h2
      exact ⟨hi, hpi, pi, ppi, rfl, h2, hb, hmax, h.symm⟩

theorem removeHolesStep_square :
    removeHolesStep sqrtApprox [squarePoly, squareHole]
      = HoleStep.next [mergeHole squareHole squarePoly 2 2] := by
  have e1 : findHolePoint [squarePoly, squareHole] = some (1, 2) := by decide!
  have e2 : findPolyPoint sqrtApprox [squarePoly, squareHole]
      ((polyAt [squarePoly, squareHole] 1).GetPoint 2) = some (0, 2) := by decide!
  unfold removeHolesStep
  rw [e1]
  simp only
  rw [e2]
  rfl

theorem C34_witness :
    removeHolesStep sqrtApprox [squarePoly, squareHole]
      = HoleStep.next [mergeHole squareHole squarePoly 2 2] ∧
    ∃ hi hpi pi ppi, findHolePoint [squarePoly, squareHole] = some (hi, hpi) ∧
      findPolyPoint sqrtApprox [squarePoly, squareHole]
        ((polyAt [squarePoly, squareHole] hi).GetPoint hpi) = some (pi, ppi) ∧
      Bridge [squarePoly, squareHole] ((polyAt [squarePoly, squareHole] hi).GetPoint hpi)
        pi ppi ∧
      (∀ it i, Bridge [squarePoly, squareHole]
          ((polyAt [squarePoly, squareHole] hi).GetPoint hpi) it i →
        bridgeDirX sqrtApprox [squarePoly, squareHole]
          ((polyAt [squarePoly, squareHole] hi).GetPoint hpi) it i
          ≤ bridgeDirX sqrtApprox [squarePoly, squareHole]
            ((polyAt [squarePoly, squareHole] hi).GetPoint hpi) pi ppi) ∧
      [mergeHole squareHole squarePoly 2 2]
        = (([squarePoly, squareHole].eraseIdx hi).eraseIdx (if hi < pi then pi - 1 else pi))
          ++ [mergeHole (polyAt [squarePoly, squareHole] hi)
            (polyAt [squarePoly, squareHole] pi) hpi ppi] :=
  ⟨removeHolesStep_square, C34_bridge_largest_direction sqrtApprox [squarePoly, squareHole]
    [mergeHole squareHole squarePoly 2 2] removeHolesStep_square⟩

/-! ## The sweep without SPLIT and MERGE vertices -/

theorem monoOutput_eq (st : MonotoneState) (monotonePolys : TPPLPolyList) :
    monoOutput st monotonePolys
      = ((List.range st.newnumvertices).foldl (monoOutputStep st)
          (List.replicate st.newnumvertices false, monotonePolys)).2 := rfl

theorem monoNumVertices_some :
    ∀ (inpolys : TPPLPolyList) (init n : Nat),
      inpolys.foldlM (fun numvertices poly =>
        if !poly.Valid then none else some (numvertices + poly.GetNumPoints)) init = some n →
      n = init + totalPoints inpolys ∧ ∀ poly ∈ inpolys, 3 ≤ poly.GetNumPoints
  | [], init, n, h => by
    simp only [List.foldlM_nil, Option.pure_def, Option.some.injEq] at h
    exact ⟨by simp [totalPoints, h], fun p hp => by simp at hp⟩
  | poly :: rest, init, n, h => by
    rw [List.foldlM_cons] at h
    by_cases hv : poly.Valid = true
    · simp only [hv, Bool.not_true, Bool.false_eq_true, if_false, Option.some_bind,
        Option.bind_eq_bind] at h
      obtain ⟨h1, h2⟩ := monoNumVertices_some rest _ n h
      refine ⟨?_, fun p hp => ?_⟩
      · rw [h1]; simp [totalPoints]; omega
      · rcases List.mem_cons.mp hp with h3 | h3
        · subst h3; simpa [TPPLPoly.Valid] using hv
        · exact h2 p h3
    · simp [hv] at h

theorem getD_map_range_append {α : Type} (f : Nat → α) (n k i : Nat) (d : α) :
    ((List.range n).map f ++ List.replicate k d).getD i d = if i < n then f i else d := by
  by_cases h : i < n
  · rw [if_pos h, List.getD_eq_getElem?_getD, List.getElem?_append_left (by simpa using h)]
    simp [h]
  · rw [if_neg h]
    by_cases h2 : i < n + k
    · rw [List.getD_eq_getElem?_getD, List.getElem?_append_right (by simpa using h)]
      simp only [List.length_map, List.length_range]
      rw [List.getElem?_replicate, if_pos (by omega)]
      rfl
    · rw [List.getD_eq_default]
      simp; omega

theorem monoInitState_vertextype (inpolys : TPPLPolyList) (n i : Nat) :
    (monoInitState inpolys n).vertextype i
      = if i < n then monoVertexType (monoInitVertices inpolys 0) i
        else TPPLVertexType.REGULAR := by
  unfold MonotoneState.vertextype monoInitState
  exact getD_map_range_append _ _ _ _ _

/-- One pass of the loop "for each vertex" adds no diagonal when no vertex type is SPLIT or
MERGE. -/
theorem monoStep_no_diagonal (st st1 : MonotoneState) (vindex : Nat)
    (hno : ∀ i, st.vertextype i ≠ TPPLVertexType.SPLIT ∧ st.vertextype i ≠ TPPLVertexType.MERGE)
    (h : monoStep st vindex = some st1) :
    st1.vertices = st.vertices ∧ st1.vertextypes = st.vertextypes ∧
    st1.newnumvertices = st.newnumvertices := by
  have hdiag : diagonalToHelper st vindex = (st, vindex) := by
    unfold diagonalToHelper
    rw [if_neg (hno _).2]
  have herase : ∀ i, (eraseEdge st i).vertices = st.vertices ∧
      (eraseEdge st i).vertextypes = st.vertextypes ∧
      (eraseEdge st i).newnumvertices = st.newnumvertices := by
    intro i
    unfold eraseEdge
    split <;> exact ⟨rfl, rfl, rfl⟩
  have hleft : ∀ e v, (helperLeft st e v).vertices = st.vertices ∧
      (helperLeft st e v).vertextypes = st.vertextypes ∧
      (helperLeft st e v).newnumvertices = st.newnumvertices := by
    intro e v
    unfold helperLeft
    simp only [if_neg (hno _).2]
    exact ⟨rfl, rfl, rfl⟩
  unfold monoStep at h
  cases ht : st.vertextype vindex with
  | START =>
    rw [ht] at h
    simp only [Option.some.injEq] at h
    subst h
    exact ⟨rfl, rfl, rfl⟩
  | END =>
    rw [ht] at h
    simp only [hdiag] at h
    split at h
    · exact absurd h (by simp)
    · simp only [Option.some.injEq] at h
      subst h
      exact herase _
  | SPLIT => exact absurd ht (hno vindex).1
  | MERGE => exact absurd ht (hno vindex).2
  | REGULAR =>
    rw [ht] at h
    simp only [hdiag] at h
    split at h
    · split at h
      · exact absurd h (by simp)
      · simp only [Option.some.injEq] at h
        subst h
        exact herase _
    · split at h
      · exact absurd h (by simp)
      · simp only [Option.some.injEq] at h
        subst h
        exact hleft _ _

/-- The loop "for each vertex" adds no diagonal when no vertex type is SPLIT or MERGE. -/
theorem monoSteps_no_diagonal (l : List Nat) (st0 st : MonotoneState)
    (hno : ∀ i, st0.vertextype i ≠ TPPLVertexType.SPLIT ∧
      st0.vertextype i ≠ TPPLVertexType.MERGE)
    (h : l.foldlM monoStep st0 = some st) :
    st.vertices = st0.vertices ∧ st.vertextypes = st0.vertextypes ∧
    st.newnumvertices = st0.newnumvertices := by
  apply foldlM_invariant
    (fun (s : MonotoneState) => s.vertices = st0.vertices ∧ s.vertextypes = st0.vertextypes ∧
      s.newnumvertices = st0.newnumvertices)
    monoStep l st0 st ⟨rfl, rfl, rfl⟩ ?_ h
  intro s x s1 _ ⟨h1, h2, h3⟩ hs
  have hno1 : ∀ i, s.vertextype i ≠ TPPLVertexType.SPLIT ∧
      s.vertextype i ≠ TPPLVertexType.MERGE := by
    intro i
    unfold MonotoneState.vertextype
    rw [h2]
    exact hno i
  obtain ⟨k1, k2, k3⟩ := monoStep_no_diagonal s s1 x hno1 hs
  exact ⟨k1.trans h1, k2.trans h2, k3.trans h3⟩

/-! ## The output loop on the rings of the input polygons -/

theorem polyVertices_length (poly : TPPLPoly) (s : Nat) :
    (polyVertices poly s).length = poly.GetNumPoints := by
  simp [polyVertices]

theorem polyVertices_getD (poly : TPPLPoly) (s t : Nat) (ht : t < poly.GetNumPoints) :
    (polyVertices poly s).getD t default =
      { p := poly.GetPoint t
        previous := if t = 0 then s + poly.GetNumPoints - 1 else t + s - 1
        next := if t = poly.GetNumPoints - 1 then s else t + s + 1 } := by
  unfold polyVertices
  rw [List.getD_eq_getElem _ _ (by simpa using ht)]
  simp

theorem monoInitVertices_length :
    ∀ (polys : TPPLPolyList) (s : Nat), (monoInitVertices polys s).length = totalPoints polys
  | [], _ => rfl
  | poly :: rest, s => by
    rw [monoInitVertices, List.length_append, polyVertices_length,
      monoInitVertices_length rest]
    simp [totalPoints]

theorem getD_append_mid {α : Type} (pre mid post : List α) (t : Nat) (d : α)
    (ht : t < mid.length) : (pre ++ mid ++ post).getD (pre.length + t) d = mid.getD t d := by
  rw [List.getD_eq_getElem?_getD, List.getD_eq_getElem?_getD, List.append_assoc,
    List.getElem?_append_right (by omega), Nat.add_sub_cancel_left,
    List.getElem?_append_left ht]

theorem map_getD_range {α : Type} (l : List α) (d : α) :
    (List.range l.length).map (fun i => l.getD i d) = l := by
  apply List.ext_getElem
  · simp
  · intro i h1 h2
    simp only [List.getElem_map, List.getElem_range]
    exact List.getD_eq_getElem _ _ h2

theorem foldl_set_true (f : Nat → Nat) :
    ∀ (l : List Nat) (u : List Bool),
      (l.foldl (fun u w => u.set (f w) true) u).length = u.length ∧
      (∀ i, (∀ w ∈ l, f w ≠ i) →
        (l.foldl (fun u w => u.set (f w) true) u).getD i false = u.getD i false) ∧
      (∀ i, u.getD i false = true →
        (l.foldl (fun u w => u.set (f w) true) u).getD i false = true) ∧
      ∀ w ∈ l, f w < u.length →
        (l.foldl (fun u w => u.set (f w) true) u).getD (f w) false = true
  | [], u => ⟨rfl, fun _ _ => rfl, fun _ h => h, fun w hw => by simp at hw⟩
  | a :: l, u => by
    obtain ⟨h1, h2, h3, h4⟩ := foldl_set_true f l (u.set (f a) true)
    rw [List.foldl_cons]
    refine ⟨by rw [h1, List.length_set], fun i hi => ?_, fun i hi => ?_, fun w hw hlt => ?_⟩
    · rw [h2 i (fun w hw => hi w (List.mem_cons_of_mem _ hw)),
        getD_set_ne _ _ _ (hi a (List.mem_cons_self _ _))]
    · apply h3
      rw [getD_set_ite]
      split
      · rfl
      · exact hi
    · rcases List.mem_cons.mp hw with h | h
      · subst h
        apply h3
        rw [getD_set_self _ _ _ _ hlt]
      · exact h4 w h (by rw [List.length_set]; exact hlt)

theorem monoOutputStep_skip (st : MonotoneState) :
    ∀ (l : List Nat) (acc : List Bool × TPPLPolyList),
      (∀ i ∈ l, acc.1.getD i false = true) → l.foldl (monoOutputStep st) acc = acc
  | [], _, _ => rfl
  | a :: l, acc, h => by
    rw [List.foldl_cons]
    have : monoOutputStep st acc a = acc := by
      unfold monoOutputStep
      rw [if_pos (h a (List.mem_cons_self _ _))]
    rw [this]
    exact monoOutputStep_skip st l acc (fun i hi => h i (List.mem_cons_of_mem _ hi))

/-- The walk along `next` in the ring of a polygon whose records start at `s`: from the
record `t` it visits the records up to the last one and stops back at `s`. -/
theorem ringWalk_poly (vs : List MonotoneVertex) (s m : Nat)
    (hnext : ∀ t, t < m → (vs.getD (s + t) default).next = if t = m - 1 then s else s + t + 1) :
    ∀ (k t fuel : Nat), t + k = m → 1 ≤ t → k < fuel →
      ringWalk vs s fuel (if t = m then s else s + t) = List.range' (s + t) k
  | 0, t, fuel, htk, ht, hf => by
    obtain ⟨f, rfl⟩ : ∃ f, fuel = f + 1 := ⟨fuel - 1, by omega⟩
    rw [if_pos (by omega), ringWalk, if_pos rfl]
    rfl
  | k + 1, t, fuel, htk, ht, hf => by
    obtain ⟨f, rfl⟩ : ∃ f, fuel = f + 1 := ⟨fuel - 1, by omega⟩
    rw [if_neg (by omega), ringWalk, if_neg (by omega), hnext t (by omega), List.range'_succ]
    have := ringWalk_poly vs s m hnext k (t + 1) f (by omega) (by omega) (by omega)
    have e : (if t = m - 1 then s else s + t + 1) = if t + 1 = m then s else s + (t + 1) := by
      by_cases h : t = m - 1
      · rw [if_pos h, if_pos (by omega)]
      · rw [if_neg h, if_neg (by omega)]; omega
    rw [e, this]
    rfl

/-- The passes of the output loop over the records of one input polygon, none of which is
marked as used: the polygon is appended, and only its records get marked. -/
theorem polyRing_output (st : MonotoneState) (poly : TPPLPoly) (pre post : List MonotoneVertex)
    (used : List Bool) (acc : TPPLPolyList)
    (hvs : st.vertices = pre ++ polyVertices poly pre.length ++ post)
    (hm : 1 ≤ poly.GetNumPoints)
    (hn : pre.length + poly.GetNumPoints ≤ st.newnumvertices)
    (hlen : used.length = st.newnumvertices)
    (hused : ∀ i, pre.length ≤ i → used.getD i false = false) :
    ∃ used1 : List Bool,
      (List.range' pre.length poly.GetNumPoints).foldl (monoOutputStep st) (used, acc)
        = (used1, acc ++ [TPPLPoly.ofPoints poly.points]) ∧
      used1.length = st.newnumvertices ∧
      ∀ i, pre.length + poly.GetNumPoints ≤ i → used1.getD i false = false := by
  have hv : ∀ t, t < poly.GetNumPoints →
      st.vertex (pre.length + t) =
        { p := poly.GetPoint t
          previous := if t = 0 then pre.length + poly.GetNumPoints - 1 else t + pre.length - 1
          next := if t = poly.GetNumPoints - 1 then pre.length else t + pre.length + 1 } := by
    intro t ht
    unfold MonotoneState.vertex
    rw [hvs, getD_append_mid _ _ _ _ _ (by rw [polyVertices_length]; exact ht),
      polyVertices_getD poly _ t ht]
  have hnext : ∀ t, t < poly.GetNumPoints →
      (st.vertices.getD (pre.length + t) default).next
        = if t = poly.GetNumPoints - 1 then pre.length else pre.length + t + 1 := by
    intro t ht
    have := hv t ht
    unfold MonotoneState.vertex at this
    rw [this]
    simp only
    split
    · rfl
    · omega
  obtain ⟨m1, hm1⟩ : ∃ m1, poly.GetNumPoints = m1 + 1 := ⟨poly.GetNumPoints - 1, by omega⟩
  -- the walk from the first record
  have hwalk : ringWalk st.vertices pre.length st.newnumvertices (st.vertex pre.length).next
      = List.range' (pre.length + 1) m1 := by
    have h0 := hnext 0 (by omega)
    rw [Nat.add_zero] at h0
    unfold MonotoneState.vertex
    rw [h0]
    have := ringWalk_poly st.vertices pre.length poly.GetNumPoints hnext m1 1
      st.newnumvertices (by omega) (le_refl _) (by omega)
    have e : (if 0 = poly.GetNumPoints - 1 then pre.length else pre.length + 0 + 1)
        = if 1 = poly.GetNumPoints then pre.length else pre.length + 1 := by
      by_cases h : 1 = poly.GetNumPoints
      · rw [if_pos h, if_pos (by omega)]
      · rw [if_neg h, if_neg (by omega)]
    rw [e, this]
  have hpts : (st.vertex pre.length).p
        :: (List.range' (pre.length + 1) m1).map (fun w => (st.vertex w).p) = poly.points := by
    have e1 : (st.vertex pre.length).p
        :: (List.range' (pre.length + 1) m1).map (fun w => (st.vertex w).p)
        = (List.range' pre.length (m1 + 1)).map (fun w => (st.vertex w).p) := by
      rw [List.range'_succ, List.map_cons]
    rw [e1, ← hm1, List.range'_eq_map_range, List.map_map]
    have e2 : (List.range poly.GetNumPoints).map ((fun w => (st.vertex w).p) ∘ fun x => pre.length + x)
        = (List.range poly.GetNumPoints).map (fun i => poly.points.getD i default) := by
      apply List.map_congr_left
      intro t ht
      simp only [Function.comp]
      rw [hv t (List.mem_range.mp ht)]
      rfl
    rw [e2]
    exact map_getD_range poly.points default
  -- the marks
  obtain ⟨g1, g2, g3, g4⟩ := foldl_set_true (fun w => (st.vertex w).next)
    (List.range' (pre.length + 1) m1)
    ((used.set pre.length true).set (st.vertex pre.length).next true)
  have hnx : ∀ w, pre.length ≤ w → w < pre.length + poly.GetNumPoints →
      pre.length ≤ (st.vertex w).next ∧ (st.vertex w).next < pre.length + poly.GetNumPoints ∧
      (w + 1 < pre.length + poly.GetNumPoints → (st.vertex w).next = w + 1) := by
    intro w hw1 hw2
    obtain ⟨t, rfl⟩ : ∃ t, w = pre.length + t := ⟨w - pre.length, by omega⟩
    rw [hv t (by omega)]
    simp only
    split
    · exact ⟨le_refl _, by omega, fun h => by omega⟩
    · exact ⟨by omega, by omega, fun _ => by omega⟩
  have hstep : monoOutputStep st (used, acc) pre.length
      = ((List.range' (pre.length + 1) m1).foldl
          (fun used w => used.set (st.vertex w).next true)
          ((used.set pre.length true).set (st.vertex pre.length).next true),
        acc ++ [TPPLPoly.ofPoints poly.points]) := by
    unfold monoOutputStep
    rw [if_neg (by rw [hused _ (le_refl _)]; decide)]
    simp only [hwalk, hpts]
  refine ⟨(List.range' (pre.length + 1) m1).foldl
      (fun used w => used.set (st.vertex w).next true)
      ((used.set pre.length true).set (st.vertex pre.length).next true), ?_, ?_,
    fun i hi => ?_⟩
  · rw [hm1, List.range'_succ, List.foldl_cons, hstep]
    apply monoOutputStep_skip
    intro i hi
    rw [List.mem_range'_1] at hi
    simp only
    by_cases h1 : i = pre.length + 1
    · apply g3
      have := (hnx pre.length (le_refl _) (by omega)).2.2 (by omega)
      rw [this, ← h1, getD_set_self _ _ _ _ (by rw [List.length_set, hlen]; omega)]
    · have hw := (hnx (i - 1) (by omega) (by omega)).2.2 (by omega)
      have := g4 (i - 1) (List.mem_range'_1.mpr ⟨by omega, by omega⟩)
        (by simp only [List.length_set]; rw [hw, hlen]; omega)
      rw [hw, show i - 1 + 1 = i by omega] at this
      exact this
  · rw [g1, List.length_set, List.length_set, hlen]
  · rw [g2 i (fun w hw => by
      rw [List.mem_range'_1] at hw
      have := (hnx w (by omega) (by omega)).2.1
      intro hc
      omega)]
    have := (hnx pre.length (le_refl _) (by omega)).2.1
    rw [getD_set_ne _ _ _ (by omega), getD_set_ne _ _ _ (by omega)]
    exact hused i (by omega)

/-- The output loop over the records of a list of polygons laid out one after the other:
the polygons are appended in order. -/
theorem outputLoop_polys (st : MonotoneState) :
    ∀ (polys : TPPLPolyList) (pre post : List MonotoneVertex) (used : List Bool)
      (acc : TPPLPolyList),
      st.vertices = pre ++ monoInitVertices polys pre.length ++ post →
      (∀ poly ∈ polys, 1 ≤ poly.GetNumPoints) →
      pre.length + totalPoints polys ≤ st.newnumvertices →
      used.length = st.newnumvertices →
      (∀ i, pre.length ≤ i → used.getD i false = false) →
      ((List.range' pre.length (totalPoints polys)).foldl (monoOutputStep st) (used, acc)).2
        = acc ++ polys.map (fun poly => TPPLPoly.ofPoints poly.points)
  | [], pre, post, used, acc, _, _, _, _, _ => by
    simp [totalPoints]
  | poly :: rest, pre, post, used, acc, hvs, hm, hn, hlen, hused => by
    have htot : totalPoints (poly :: rest) = poly.GetNumPoints + totalPoints rest := by
      simp [totalPoints]
    rw [monoInitVertices] at hvs
    have hvs1 : st.vertices = pre ++ polyVertices poly pre.length
        ++ (monoInitVertices rest (pre.length + poly.GetNumPoints) ++ post) := by
      rw [hvs]; simp only [List.append_assoc]
    obtain ⟨used1, k1, k2, k3⟩ := polyRing_output st poly pre _ used acc hvs1
      (hm poly (List.mem_cons_self _ _)) (by omega) hlen hused
    have hvs2 : st.vertices = (pre ++ polyVertices poly pre.length)
        ++ monoInitVertices rest (pre ++ polyVertices poly pre.length).length ++ post := by
      rw [hvs, List.length_append, polyVertices_length]; simp only [List.append_assoc]
    have hl : (pre ++ polyVertices poly pre.length).length = pre.length + poly.GetNumPoints := by
      rw [List.length_append, polyVertices_length]
    have ih := outputLoop_polys st rest (pre ++ polyVertices poly pre.length) post used1
      (acc ++ [TPPLPoly.ofPoints poly.points]) hvs2
      (fun p hp => hm p (List.mem_cons_of_mem _ hp)) (by rw [hl]; omega) k2
      (fun i hi => k3 i (by rw [hl] at hi; exact hi))
    rw [hl] at ih
    have hsplit : List.range' pre.length (totalPoints (poly :: rest))
        = List.range' pre.length poly.GetNumPoints
          ++ List.range' (pre.length + poly.GetNumPoints) (totalPoints rest) := by
      rw [htot, Nat.add_comm]
      exact (List.range'_append_1 _ _ _).symm
    rw [hsplit, List.foldl_append, k1, ih]
    simp

/-- C40: let no vertex of the input list be classified SPLIT or MERGE and let
`MonotonePartition` return 1.  Then the loop "for each vertex" ends without having added
a diagonal: `newnumvertices` is still the number of input vertices and the records with
their links are those of the initialisation.  The output list is the list given followed
by one polygon for each input polygon, in the order of the input, with the same sequence
of points. -/
theorem C40_MonotonePartition_no_split_merge (inpolys monotonePolys : TPPLPolyList)
    (hno : NoSplitMerge inpolys)
    (hret : (MonotonePartition monoSweep inpolys monotonePolys).1 = 1) :
    (∃ st, (sortPriority (monoInitState inpolys (totalPoints inpolys)).vertices
          (List.range (totalPoints inpolys))).foldlM monoStep
          (monoInitState inpolys (totalPoints inpolys)) = some st ∧
      st.newnumvertices = totalPoints inpolys ∧
      st.vertices = (monoInitState inpolys (totalPoints inpolys)).vertices) ∧
    (MonotonePartition monoSweep inpolys monotonePolys).2
      = monotonePolys ++ inpolys.map (fun poly => TPPLPoly.ofPoints poly.points) := by
  unfold MonotonePartition at hret ⊢
  cases hnum : monoNumVertices inpolys with
  | none =>
    rw [hnum] at hret
    simp at hret
  | some n =>
    obtain ⟨hn, hvalid⟩ := monoNumVertices_some inpolys 0 n hnum
    rw [Nat.zero_add] at hn
    subst hn
    rw [hnum] at hret
    simp only at hret ⊢
    unfold monoSweep at hret ⊢
    simp only at hret ⊢
    cases hrun : (sortPriority (monoInitState inpolys (totalPoints inpolys)).vertices
        (List.range (totalPoints inpolys))).foldlM monoStep
        (monoInitState inpolys (totalPoints inpolys)) with
    | none =>
      rw [hrun] at hret
      simp at hret
    | some st =>
      have hno0 : ∀ i, (monoInitState inpolys (totalPoints inpolys)).vertextype i
            ≠ TPPLVertexType.SPLIT ∧
          (monoInitState inpolys (totalPoints inpolys)).vertextype i
            ≠ TPPLVertexType.MERGE := by
        intro i
        rw [monoInitState_vertextype]
        split
        · next h => exact hno i h
        · exact ⟨by decide, by decide⟩
      obtain ⟨k1, _, k3⟩ := monoSteps_no_diagonal _ _ st hno0 hrun
      have k3 : st.newnumvertices = totalPoints inpolys := k3
      refine ⟨⟨st, rfl, k3, k1⟩, ?_⟩
      simp only
      rw [monoOutput_eq, k3, List.range_eq_range']
      have hvs : st.vertices = ([] : List MonotoneVertex)
          ++ monoInitVertices inpolys ([] : List MonotoneVertex).length
          ++ List.replicate (totalPoints inpolys * 3 - totalPoints inpolys) default := by
        rw [k1]; rfl
      have := outputLoop_polys st inpolys [] _
        (List.replicate (totalPoints inpolys) false) monotonePolys hvs
        (fun p hp => by have := hvalid p hp; omega)
        (by rw [k3]; simp) (by rw [k3]; simp)
        (fun i _ => by
          by_cases hi : i < totalPoints inpolys
          · rw [List.getD_eq_getElem _ _ (by simpa using hi)]; simp
          · rw [List.getD_eq_default _ _ (by simpa using hi)])
      exact this

theorem C40_witness :
    (NoSplitMerge [squarePoly, smallTriangle] ∧
      (MonotonePartition monoSweep [squarePoly, smallTriangle] []).1 = 1) ∧
    (MonotonePartition monoSweep [squarePoly, smallTriangle] []).2
      = [] ++ [squarePoly, smallTriangle].map (fun poly => TPPLPoly.ofPoints poly.points) :=
  ⟨⟨by unfold NoSplitMerge; decide!, by decide!⟩,
    (C40_MonotonePartition_no_split_merge [squarePoly, smallTriangle] []
      (by unfold NoSplitMerge; decide!) (by decide!)).2⟩

/-! ## The generic forms in exact arithmetic -/

theorem IsConvex_exact (sqrt : ℚ → ℚ) : (Arith.exact sqrt).IsConvex = IsConvex := rfl
theorem IsReflex_exact (sqrt : ℚ → ℚ) : (Arith.exact sqrt).IsReflex = IsReflex := rfl
theorem IsInside_exact (sqrt : ℚ → ℚ) : (Arith.exact sqrt).IsInside = IsInside := rfl
theorem InCone_exact (sqrt : ℚ → ℚ) : (Arith.exact sqrt).InCone = InCone := rfl
theorem Intersects_exact (sqrt : ℚ → ℚ) : (Arith.exact sqrt).Intersects = Intersects := rfl
theorem Normalize_exact (sqrt : ℚ → ℚ) : (Arith.exact sqrt).Normalize = Normalize sqrt := rfl
theorem Distance_exact (sqrt : ℚ → ℚ) : (Arith.exact sqrt).Distance = Distance sqrt := rfl
theorem GetOrientation_exact (sqrt : ℚ → ℚ) :
    (Arith.exact sqrt).GetOrientation = TPPLPoly.GetOrientation := rfl
theorem SetOrientation_exact (sqrt : ℚ → ℚ) :
    (Arith.exact sqrt).SetOrientation = TPPLPoly.SetOrientation := rfl
theorem edgeLt_exact (sqrt : ℚ → ℚ) : (Arith.exact sqrt).edgeLt = ScanLineEdge.lt := rfl
theorem monoSweep_exact (sqrt : ℚ → ℚ) : (Arith.exact sqrt).monoSweep = monoSweep := rfl
theorem UpdateVertex_exact (sqrt : ℚ → ℚ) :
    (Arith.exact sqrt).UpdateVertex = UpdateVertex sqrt := rfl

theorem ecLoop_exact (sqrt : ℚ → ℚ) (n : Nat) :
    ∀ (rem : Nat) (vs : List PartitionVertex) (triangles : TPPLPolyList),
      (Arith.exact sqrt).ecLoop n rem vs triangles = ecLoop sqrt n rem vs triangles
  | 0, _, _ => rfl
  | rem + 1, vs, triangles => by
    rw [Arith.ecLoop, ecLoop]
    cases findEar vs n with
    | none => rfl
    | some ear =>
      simp only [UpdateVertex_exact]
      split
      · rfl
      · exact ecLoop_exact sqrt n rem _ _

theorem Triangulate_EC_exact (sqrt : ℚ → ℚ) (poly : TPPLPoly) (triangles : TPPLPolyList) :
    (Arith.exact sqrt).Triangulate_EC poly triangles = Triangulate_EC sqrt poly triangles := by
  unfold Arith.Triangulate_EC Triangulate_EC
  simp only [UpdateVertex_exact, ecLoop_exact]

theorem hmEdge_exact (sqrt : ℚ → ℚ) : (Arith.exact sqrt).hmEdge = hmEdge := rfl

theorem hmLoop_exact (sqrt : ℚ → ℚ) :
    ∀ (fuel : Nat) (triangles : TPPLPolyList) (iter1 i11 : Nat),
      (Arith.exact sqrt).hmLoop fuel triangles iter1 i11 = hmLoop fuel triangles iter1 i11
  | 0, _, _, _ => rfl
  | fuel + 1, triangles, iter1, i11 => by
    rw [Arith.hmLoop, hmLoop, hmEdge_exact]
    split
    · split
      · cases hmEdge triangles iter1 i11 with
        | none => exact hmLoop_exact sqrt fuel _ _ _
        | some t => exact hmLoop_exact sqrt fuel _ _ _
      · exact hmLoop_exact sqrt fuel _ _ _
    · rfl

theorem ConvexPartition_HM_exact (sqrt : ℚ → ℚ) (poly : TPPLPoly) (parts : TPPLPolyList) :
    (Arith.exact sqrt).ConvexPartition_HM poly parts = ConvexPartition_HM sqrt poly parts := by
  unfold Arith.ConvexPartition_HM ConvexPartition_HM
  have h : (Arith.exact sqrt).hasReflex = hasReflex := rfl
  simp only [h, Triangulate_EC_exact, hmLoop_exact]

theorem Triangulate_OPT_exact (sqrt : ℚ → ℚ) :
    (Arith.exact sqrt).Triangulate_OPT = Triangulate_OPT sqrt := rfl

/-! ## Minimum-weight triangulation with the weights in an ordered field -/

theorem DPTableW.Shaped.set_cellW {W : Type} [LinearOrderedField W]
    {n : Nat} {dp : DPTableW W} (h : dp.Shaped n) (j i : Nat)
    (s : DPStateW W) : (dp.set j i s).Shaped n := by
  unfold DPTableW.set
  refine ⟨by rw [List.length_set]; exact h.1, fun a ha => ?_⟩
  by_cases haj : j = a
  · subst haj
    rw [getD_set_self _ _ _ _ (by rw [h.1]; exact ha), List.length_set]
    exact h.2 j ha
  · rw [getD_set_ne _ _ _ haj]
    exact h.2 a ha

theorem DPTableW.get_setW {W : Type} [LinearOrderedField W]
    {n : Nat} {dp : DPTableW W} (h : dp.Shaped n) {j i : Nat} (hj : j < n)
    (hi : i < j) (s : DPStateW W) (a b : Nat) :
    (dp.set j i s).get a b = if a = j ∧ b = i then s else dp.get a b := by
  unfold DPTableW.get DPTableW.set
  by_cases haj : a = j
  · subst haj
    rw [getD_set_self _ _ _ _ (by rw [h.1]; exact hj)]
    by_cases hbi : b = i
    · subst hbi
      rw [if_pos ⟨rfl, rfl⟩, getD_set_self _ _ _ _ (by rw [h.2 a hj]; exact hi)]
    · rw [if_neg (fun hc => hbi hc.2), getD_set_ne _ _ _ (Ne.symm hbi)]
  · rw [if_neg (fun hc => haj hc.1), getD_set_ne _ _ _ (Ne.symm haj)]

theorem baseTableW_shaped {W : Type} [LinearOrderedField W] (n : Nat) :
    DPTableW.Shaped n ((List.range n).map (fun i => List.replicate i (default : DPStateW W))) := by
  refine ⟨by simp, fun j hj => ?_⟩
  rw [List.getD_eq_getElem _ _ (by simpa using hj)]
  simp

theorem baseTableW_get {W : Type} [LinearOrderedField W] (n a b : Nat) :
    DPTableW.get ((List.range n).map (fun i => List.replicate i (default : DPStateW W))) a b
      = default := by
  have hrow : ∀ m : Nat, (List.replicate m (default : DPStateW W)).getD b default = default := by
    intro m
    by_cases hb : b < m
    · rw [List.getD_eq_getElem _ _ (by simpa using hb)]
      simp
    · rw [List.getD_eq_default _ _ (by simpa using hb)]
  have hrows : ((List.range n).map (fun i => List.replicate i (default : DPStateW W))).getD a []
      = List.replicate a default ∨
      ((List.range n).map (fun i => List.replicate i (default : DPStateW W))).getD a [] = [] := by
    by_cases ha : a < n
    · left
      rw [List.getD_eq_getElem _ _ (by simpa using ha)]
      simp
    · right
      rw [List.getD_eq_default _ _ (by simpa using ha)]
  unfold DPTableW.get
  rcases hrows with h | h
  · rw [h, hrow]
  · rw [h]; rfl

/-- A loop that writes `f a i` to the cells `(a, i)` for the rows `a` of a list. -/
theorem foldl_set_rowsW {W : Type} [LinearOrderedField W] (n i : Nat) (f : Nat → DPStateW W) :
    ∀ (l : List Nat) (dp : DPTableW W), dp.Shaped n → (∀ a ∈ l, i < a ∧ a < n) →
      DPTableW.Shaped n (l.foldl (fun (dp : DPTableW W) j => dp.set j i (f j)) dp) ∧
      ∀ a b, (l.foldl (fun (dp : DPTableW W) j => dp.set j i (f j)) dp).get a b
        = if b = i ∧ a ∈ l then f a else dp.get a b
  | [], dp, h, _ => ⟨h, fun a b => by simp⟩
  | j :: l, dp, h, hl => by
    rw [List.foldl_cons]
    obtain ⟨h1, h2⟩ := foldl_set_rowsW n i f l (dp.set j i (f j)) (h.set_cellW j i (f j))
      (fun a ha => hl a (List.mem_cons_of_mem _ ha))
    refine ⟨h1, fun a b => ?_⟩
    rw [h2 a b, DPTableW.get_setW h (hl j (List.mem_cons_self _ _)).2
      (hl j (List.mem_cons_self _ _)).1]
    by_cases hb : b = i
    · by_cases ha : a ∈ l
      · simp [hb, ha]
      · by_cases haj : a = j
        · simp [hb, haj]
        · simp [hb, ha, haj]
    · simp [hb]

/-- The two nested loops of the initialisation. -/
theorem foldl_set_cellsW {W : Type} [LinearOrderedField W] (n : Nat) (f : Nat → Nat → DPStateW W) :
    ∀ (l : List Nat) (dp : DPTableW W), dp.Shaped n →
      DPTableW.Shaped n (l.foldl (fun (dp : DPTableW W) i =>
        (List.range' (i + 1) (n - (i + 1))).foldl (fun (dp : DPTableW W) j =>
          dp.set j i (f i j)) dp) dp) ∧
      ∀ a b, (l.foldl (fun (dp : DPTableW W) i =>
        (List.range' (i + 1) (n - (i + 1))).foldl (fun (dp : DPTableW W) j =>
          dp.set j i (f i j)) dp) dp).get a b
        = if b ∈ l ∧ b < a ∧ a < n then f b a else dp.get a b
  | [], dp, h => ⟨h, fun a b => by simp⟩
  | i :: l, dp, h => by
    rw [List.foldl_cons]
    obtain ⟨h1, h2⟩ := foldl_set_rowsW n i (f i) (List.range' (i + 1) (n - (i + 1))) dp h
      (fun a ha => by rw [List.mem_range'_1] at ha; omega)
    obtain ⟨h3, h4⟩ := foldl_set_cellsW n f l _ h1
    refine ⟨h3, fun a b => ?_⟩
    rw [h4 a b, h2 a b]
    by_cases hbl : b ∈ l ∧ b < a ∧ a < n
    · rw [if_pos hbl, if_pos ⟨List.mem_cons_of_mem _ hbl.1, hbl.2⟩]
    · rw [if_neg hbl]
      by_cases hbi : b = i
      · subst hbi
        by_cases hr : b < a ∧ a < n
        · rw [if_pos ⟨rfl, by rw [List.mem_range'_1]; omega⟩,
            if_pos ⟨List.mem_cons_self _ _, hr⟩]
        · rw [if_neg (fun hc => hr (by have := hc.2; rw [List.mem_range'_1] at this; omega)),
            if_neg (fun hc => hr hc.2)]
      · rw [if_neg (fun hc => hbi hc.1)]
        rw [if_neg]
        intro hc
        rcases List.mem_cons.mp hc.1 with h5 | h5
        · exact hbi h5
        · exact hbl ⟨h5, hc.2⟩

theorem optInitW_shaped {W : Type} [LinearOrderedField W]
    (poly : TPPLPoly) (n : Nat) : DPTableW.Shaped n (optInitW W poly n) := by
  unfold optInitW
  exact ((foldl_set_cellsW n (fun i j => ⟨optVisible poly n i j, 0, -1⟩) (List.range (n - 1)) _
    (baseTableW_shaped n)).1).set_cellW _ _ _

/-- The table after the initialisation. -/
theorem optInitW_get {W : Type} [LinearOrderedField W]
    (poly : TPPLPoly) (n : Nat) (hn : 3 ≤ n) (a b : Nat) :
    (optInitW W poly n).get a b =
      if a = n - 1 ∧ b = 0 then ⟨true, 0, -1⟩
      else if b < a ∧ a < n then ⟨optVisible poly n b a, 0, -1⟩ else default := by
  unfold optInitW
  obtain ⟨h1, h2⟩ := foldl_set_cellsW (W := W) n (fun i j => ⟨optVisible poly n i j, 0, -1⟩)
    (List.range (n - 1)) _ (baseTableW_shaped n)
  simp only
  rw [DPTableW.get_setW h1 (by omega) (by omega), h2 a b, baseTableW_get]
  by_cases h0 : a = n - 1 ∧ b = 0
  · rw [if_pos h0, if_pos h0]
  · rw [if_neg h0, if_neg h0]
    by_cases hr : b < a ∧ a < n
    · rw [if_pos hr, if_pos ⟨by rw [List.mem_range]; omega, hr⟩]
    · rw [if_neg hr, if_neg (fun hc => hr hc.2)]

theorem optBestW_spec {W : Type} [LinearOrderedField W]
    (sqrt : W → W) (poly : TPPLPoly) (dp : DPTableW W) (i j : Nat)
    (hij : i + 1 ≤ j) :
    ((optBestW sqrt poly dp i j).1 = -1 ∧
      ∀ k1, i < k1 → k1 < j → ¬ ((dp.get k1 i).visible = true ∧ (dp.get j k1).visible = true)) ∨
    ∃ k : Nat, (optBestW sqrt poly dp i j).1 = (k : Int) ∧ i < k ∧ k < j ∧
      (dp.get k i).visible = true ∧ (dp.get j k).visible = true ∧
      (optBestW sqrt poly dp i j).2 = optCandW sqrt poly dp i j k ∧
      ∀ k1, i < k1 → k1 < j → (dp.get k1 i).visible = true → (dp.get j k1).visible = true →
        (optBestW sqrt poly dp i j).2 ≤ optCandW sqrt poly dp i j k1 := by
  unfold optBestW
  have key := foldl_range'_invariant
    (fun x (st : Int × W) =>
      (st.1 = -1 ∧ ∀ k1, i < k1 → k1 < x →
        ¬ ((dp.get k1 i).visible = true ∧ (dp.get j k1).visible = true)) ∨
      ∃ k : Nat, st.1 = (k : Int) ∧ i < k ∧ k < x ∧
        (dp.get k i).visible = true ∧ (dp.get j k).visible = true ∧
        st.2 = optCandW sqrt poly dp i j k ∧
        ∀ k1, i < k1 → k1 < x → (dp.get k1 i).visible = true →
          (dp.get j k1).visible = true → st.2 ≤ optCandW sqrt poly dp i j k1)
    (fun (st : Int × W) k =>
      if !(dp.get k i).visible then st
      else if !(dp.get j k).visible then st
      else
        let d1 := if k ≤ i + 1 then 0 else DistanceW sqrt (poly.GetPoint i) (poly.GetPoint k)
        let d2 := if j ≤ k + 1 then 0 else DistanceW sqrt (poly.GetPoint k) (poly.GetPoint j)
        let weight := (dp.get k i).weight + (dp.get j k).weight + d1 + d2
        if st.1 = -1 ∨ weight < st.2 then ((k : Int), weight) else st)
    (j - (i + 1)) (i + 1) (-1, 0) (Or.inl ⟨rfl, fun k1 h1 h2 => by omega⟩) ?_
  · have e : i + 1 + (j - (i + 1)) = j := by omega
    rw [e] at key
    exact key
  · intro x st hx1 hx2 hq
    have hext : ∀ k1, k1 < x + 1 → k1 < x ∨ k1 = x := fun k1 h => by omega
    by_cases hv1 : (dp.get x i).visible = true
    swap
    · simp only [hv1, Bool.not_false, if_true]
      rcases hq with ⟨h1, h2⟩ | ⟨k, h1, h2, h3, h4, h5, h6, h7⟩
      · left
        refine ⟨h1, fun k1 hk1 hk2 => ?_⟩
        rcases hext k1 hk2 with h | h
        · exact h2 k1 hk1 h
        · subst h; exact fun hc => hv1 hc.1
      · right
        refine ⟨k, h1, h2, by omega, h4, h5, h6, fun k1 hk1 hk2 hk3 hk4 => ?_⟩
        rcases hext k1 hk2 with h | h
        · exact h7 k1 hk1 h hk3 hk4
        · subst h; exact absurd hk3 hv1
    by_cases hv2 : (dp.get j x).visible = true
    swap
    · simp only [hv1, hv2, Bool.not_true, Bool.not_false, Bool.false_eq_true, if_false, if_true]
      rcases hq with ⟨h1, h2⟩ | ⟨k, h1, h2, h3, h4, h5, h6, h7⟩
      · left
        refine ⟨h1, fun k1 hk1 hk2 => ?_⟩
        rcases hext k1 hk2 with h | h
        · exact h2 k1 hk1 h
        · subst h; exact fun hc => hv2 hc.2
      · right
        refine ⟨k, h1, h2, by omega, h4, h5, h6, fun k1 hk1 hk2 hk3 hk4 => ?_⟩
        rcases hext k1 hk2 with h | h
        · exact h7 k1 hk1 h hk3 hk4
        · subst h; exact absurd hk4 hv2
    simp only [hv1, hv2, Bool.not_true, Bool.false_eq_true, if_false]
    have hc : (dp.get x i).weight + (dp.get j x).weight
        + (if x ≤ i + 1 then 0 else DistanceW sqrt (poly.GetPoint i) (poly.GetPoint x))
        + (if j ≤ x + 1 then 0 else DistanceW sqrt (poly.GetPoint x) (poly.GetPoint j))
        = optCandW sqrt poly dp i j x := rfl
    rw [hc]
    right
    rcases hq with ⟨h1, h2⟩ | ⟨k, h1, h2, h3, h4, h5, h6, h7⟩
    · rw [if_pos (Or.inl h1)]
      refine ⟨x, rfl, by omega, by omega, hv1, hv2, rfl, fun k1 hk1 hk2 hk3 hk4 => ?_⟩
      rcases hext k1 hk2 with h | h
      · exact absurd ⟨hk3, hk4⟩ (h2 k1 hk1 h)
      · subst h; exact le_refl _
    · by_cases hlt : optCandW sqrt poly dp i j x < st.2
      · rw [if_pos (Or.inr hlt)]
        refine ⟨x, rfl, by omega, by omega, hv1, hv2, rfl, fun k1 hk1 hk2 hk3 hk4 => ?_⟩
        rcases hext k1 hk2 with h | h
        · exact le_of_lt (lt_of_lt_of_le hlt (h7 k1 hk1 h hk3 hk4))
        · subst h; exact le_refl _
      · have hne : ¬ (st.1 = -1 ∨ optCandW sqrt poly dp i j x < st.2) := by
          intro hc2
          rcases hc2 with hc2 | hc2
          · rw [h1] at hc2; omega
          · exact hlt hc2
        rw [if_neg hne]
        refine ⟨k, h1, h2, by omega, h4, h5, h6, fun k1 hk1 hk2 hk3 hk4 => ?_⟩
        rcases hext k1 hk2 with h | h
        · exact h7 k1 hk1 h hk3 hk4
        · subst h; exact not_lt.mp hlt


theorem optCandW_congr {W : Type} [LinearOrderedField W]
    (sqrt : W → W) (poly : TPPLPoly) {dp dp1 : DPTableW W} {i j k : Nat}
    (h1 : dp1.get k i = dp.get k i) (h2 : dp1.get j k = dp.get j k) :
    optCandW sqrt poly dp1 i j k = optCandW sqrt poly dp i j k := by
  unfold optCandW
  rw [h1, h2]

theorem CellDoneW.congrW {W : Type} [LinearOrderedField W]
    {sqrt : W → W} {poly : TPPLPoly} {dp dp1 : DPTableW W} {i j : Nat}
    (h : CellDoneW sqrt poly dp i j) (h0 : dp1.get j i = dp.get j i)
    (h1 : ∀ k, i < k → k < j → dp1.get k i = dp.get k i ∧ dp1.get j k = dp.get j k) :
    CellDoneW sqrt poly dp1 i j := by
  intro hv
  rw [h0] at hv ⊢
  obtain ⟨k, e1, e2, e3, e4, e5, e6, e7⟩ := h hv
  refine ⟨k, e1, e2, e3, ?_, ?_, ?_, fun k1 hk1 hk2 hk3 hk4 => ?_⟩
  · rw [(h1 k e2 e3).1]; exact e4
  · rw [(h1 k e2 e3).2]; exact e5
  · rw [optCandW_congr sqrt poly (h1 k e2 e3).1 (h1 k e2 e3).2]; exact e6
  · rw [optCandW_congr sqrt poly (h1 k1 hk1 hk2).1 (h1 k1 hk1 hk2).2]
    rw [(h1 k1 hk1 hk2).1] at hk3
    rw [(h1 k1 hk1 hk2).2] at hk4
    exact e7 k1 hk1 hk2 hk3 hk4

theorem optCellW_step {W : Type} [LinearOrderedField W]
    (sqrt : W → W) (poly : TPPLPoly) (n : Nat) (dp0 dp dp1 : DPTableW W)
    (gap i : Nat) (hgap : 2 ≤ gap) (hi : i + gap < n) (h : FillInvW sqrt poly n dp0 dp gap i)
    (hc : optCellW sqrt poly gap dp i = some dp1) : FillInvW sqrt poly n dp0 dp1 gap (i + 1) := by
  obtain ⟨hs, hvis, hedge, hdone⟩ := h
  unfold optCellW at hc
  simp only at hc
  by_cases hv : (dp.get (i + gap) i).visible = true
  swap
  · simp only [hv, Bool.not_false, if_true, Option.some.injEq] at hc
    subst hc
    refine ⟨hs, hvis, hedge, fun a b hab hb hd => ?_⟩
    by_cases hnew : a = i ∧ b = i + gap
    · obtain ⟨rfl, rfl⟩ := hnew
      exact fun hc => absurd hc hv
    · exact hdone a b hab hb (by omega)
  simp only [hv, Bool.not_true, Bool.false_eq_true, if_false] at hc
  by_cases hb1 : (optBestW sqrt poly dp i (i + gap)).1 = -1
  · simp only [hb1, if_true] at hc
    exact absurd hc (by simp)
  simp only [hb1, if_false, Option.some.injEq] at hc
  subst hc
  have hget := DPTableW.get_setW hs hi (show i < i + gap by omega)
    ⟨true, (optBestW sqrt poly dp i (i + gap)).2, (optBestW sqrt poly dp i (i + gap)).1⟩
  have hother : ∀ a b, ¬ (a = i + gap ∧ b = i) →
      (dp.set (i + gap) i ⟨true, (optBestW sqrt poly dp i (i + gap)).2,
        (optBestW sqrt poly dp i (i + gap)).1⟩).get a b = dp.get a b := by
    intro a b hne
    rw [hget, if_neg hne]
  refine ⟨hs.set_cellW _ _ _, fun a b => ?_, fun a ha => ?_, fun a b hab hb hd => ?_⟩
  · rw [hget]
    by_cases hab : a = i + gap ∧ b = i
    · rw [if_pos hab, ← hvis a b, hab.1, hab.2, hv]
    · rw [if_neg hab]; exact hvis a b
  · rw [hother _ _ (by omega)]
    exact hedge a ha
  · by_cases hnew : a = i ∧ b = i + gap
    · obtain ⟨rfl, rfl⟩ := hnew
      intro _
      rcases optBestW_spec sqrt poly dp a (a + gap) (by omega) with ⟨h1, _⟩ | h1
      · exact absurd h1 hb1
      · obtain ⟨k, e1, e2, e3, e4, e5, e6, e7⟩ := h1
        have hk1 : ∀ k1, a < k1 → k1 < a + gap →
            (dp.set (a + gap) a ⟨true, (optBestW sqrt poly dp a (a + gap)).2,
              (optBestW sqrt poly dp a (a + gap)).1⟩).get k1 a = dp.get k1 a ∧
            (dp.set (a + gap) a ⟨true, (optBestW sqrt poly dp a (a + gap)).2,
              (optBestW sqrt poly dp a (a + gap)).1⟩).get (a + gap) k1
              = dp.get (a + gap) k1 :=
          fun k1 h1 h2 => ⟨hother _ _ (by omega), hother _ _ (by omega)⟩
        rw [hget, if_pos ⟨rfl, rfl⟩]
        refine ⟨k, e1, e2, e3, ?_, ?_, ?_, fun k1 h1 h2 h3 h4 => ?_⟩
        · rw [(hk1 k e2 e3).1]; exact e4
        · rw [(hk1 k e2 e3).2]; exact e5
        · rw [optCandW_congr sqrt poly (hk1 k e2 e3).1 (hk1 k e2 e3).2]; exact e6
        · rw [optCandW_congr sqrt poly (hk1 k1 h1 h2).1 (hk1 k1 h1 h2).2]
          rw [(hk1 k1 h1 h2).1] at h3
          rw [(hk1 k1 h1 h2).2] at h4
          exact e7 k1 h1 h2 h3 h4
    · have hd1 : b - a < gap ∨ (b - a = gap ∧ a < i) := by omega
      refine (hdone a b hab hb hd1).congrW (hother _ _ (by omega)) (fun k h1 h2 => ?_)
      exact ⟨hother _ _ (by omega), hother _ _ (by omega)⟩

/-- When the loops over `gap` and `i` end without `return 0`, the state of every pair
`i + 2 ≤ j` is final. -/
theorem optFillW_spec {W : Type} [LinearOrderedField W]
    (sqrt : W → W) (poly : TPPLPoly) (n : Nat) (dp0 dp : DPTableW W)
    (hn : 3 ≤ n) (h0 : FillInvW sqrt poly n dp0 dp0 2 0)
    (h : optFillW sqrt poly n dp0 = some dp) : FillInvW sqrt poly n dp0 dp n 0 := by
  unfold optFillW at h
  have key := foldlM_range'_invariant (fun g dp => FillInvW sqrt poly n dp0 dp g 0)
    (fun dp gap => (List.range (n - gap)).foldlM (optCellW sqrt poly gap) dp)
    (n - 2) 2 dp0 dp h0 ?_ h
  · have e : 2 + (n - 2) = n := by omega
    rw [e] at key
    exact key
  · intro g s s1 hg1 hg2 hq hf
    simp only at hf
    rw [List.range_eq_range'] at hf
    have inner := foldlM_range'_invariant (fun x dp => FillInvW sqrt poly n dp0 dp g x)
      (optCellW sqrt poly g) (n - g) 0 s s1 hq
      (fun x s2 s3 _ hx2 hq2 hc => optCellW_step sqrt poly n dp0 s2 s3 g x hg1 (by omega) hq2 hc)
      hf
    obtain ⟨hs, hvis, hedge, hdone⟩ := inner
    exact ⟨hs, hvis, hedge, fun a b hab hb hd => hdone a b hab hb (by omega)⟩

theorem optInitW_fillInv {W : Type} [LinearOrderedField W]
    (sqrt : W → W) (poly : TPPLPoly) (n : Nat) (hn : 3 ≤ n) :
    FillInvW sqrt poly n (optInitW W poly n) (optInitW W poly n) 2 0 := by
  refine ⟨optInitW_shaped poly n, fun _ _ => rfl, fun a ha => ?_, fun a b hab hb hd => ?_⟩
  · rw [optInitW_get poly n hn]
    split_ifs <;> rfl
  · omega

theorem optRecoverW_eq_triples {W : Type} [LinearOrderedField W]
    (poly : TPPLPoly) (dp : DPTableW W) :
    ∀ (fuel : Nat) (diagonals : List (Nat × Nat)) (triangles : TPPLPolyList),
      (optRecoverW poly dp fuel diagonals triangles).2
        = triangles ++ (optTriplesW dp fuel diagonals).map (idxTriangle poly)
  | 0, [], triangles => by simp [optRecoverW, optTriplesW]
  | 0, _ :: _, triangles => by simp [optRecoverW, optTriplesW]
  | fuel + 1, [], triangles => by simp [optRecoverW, optTriplesW]
  | fuel + 1, d :: ds, triangles => by
    unfold optRecoverW optTriplesW
    simp only
    by_cases hb : (dp.get d.2 d.1).bestvertex = -1
    · simp [hb]
    · rw [if_neg hb, if_neg hb, optRecoverW_eq_triples poly dp fuel]
      simp [idxTriangle]

theorem optTriplesW_step {W : Type} [LinearOrderedField W]
    (dp : DPTableW W) (fuel : Nat) (d : Nat × Nat) (ds : List (Nat × Nat))
    (k : Nat) (hb : (dp.get d.2 d.1).bestvertex = (k : Int)) :
    optTriplesW dp (fuel + 1) (d :: ds) = (d.1, k, d.2) :: optTriplesW dp fuel
      (ds ++ (if d.1 + 2 ≤ k then [(d.1, k)] else [])
        ++ (if k + 2 ≤ d.2 then [(k, d.2)] else [])) := by
  rw [optTriplesW]
  simp only [hb]
  have hne : ¬ ((k : Int) = -1) := by omega
  rw [if_neg hne, optQueue_step, Int.toNat_ofNat]

theorem optRecoverW_step {W : Type} [LinearOrderedField W]
    (poly : TPPLPoly) (dp : DPTableW W) (fuel : Nat) (d : Nat × Nat)
    (ds : List (Nat × Nat)) (triangles : TPPLPolyList)
    (k : Nat) (hb : (dp.get d.2 d.1).bestvertex = (k : Int)) :
    optRecoverW poly dp (fuel + 1) (d :: ds) triangles = optRecoverW poly dp fuel
      (ds ++ (if d.1 + 2 ≤ k then [(d.1, k)] else [])
        ++ (if k + 2 ≤ d.2 then [(k, d.2)] else []))
      (triangles ++ [idxTriangle poly (d.1, k, d.2)]) := by
  rw [optRecoverW]
  simp only [hb]
  have hne : ¬ ((k : Int) = -1) := by omega
  rw [if_neg hne, optQueue_step, Int.toNat_ofNat]
  rfl

/-- The recovery loop of `Triangulate_OPT_W` on a table whose states are final: it returns 1
within `queueSize` passes; the number of triangles, their shoelace sums and the lengths
of their diagonals. -/
theorem optTriplesW_spec {W : Type} [LinearOrderedField W]
    (sqrt : W → W) (poly : TPPLPoly) (n : Nat) (dp : DPTableW W)
    (hdone : ∀ a b, a + 2 ≤ b → b < n → CellDoneW sqrt poly dp a b)
    (hedge : ∀ a, a + 1 < n → (dp.get (a + 1) a).weight = 0) :
    ∀ (fuel : Nat) (diagonals : List (Nat × Nat)),
      (∀ d ∈ diagonals, d.1 + 2 ≤ d.2 ∧ d.2 < n ∧ (dp.get d.2 d.1).visible = true) →
      queueSize diagonals ≤ fuel →
      (∀ triangles, (optRecoverW poly dp fuel diagonals triangles).1 = 1) ∧
      (optTriplesW dp fuel diagonals).length = queueSize diagonals ∧
      (∀ t ∈ optTriplesW dp fuel diagonals, t.1 < t.2.1 ∧ t.2.1 < t.2.2 ∧ t.2.2 < n) ∧
      ((optTriplesW dp fuel diagonals).map (fun t => (idxTriangle poly t).shoelace)).sum
        = (diagonals.map (fun d => subShoelace poly d.1 d.2)).sum ∧
      ((optTriplesW dp fuel diagonals).map (optDiagCostW sqrt poly)).sum
        = (diagonals.map (fun d => (dp.get d.2 d.1).weight)).sum := by
  intro fuel
  induction fuel with
  | zero =>
    intro diagonals hq hsize
    cases diagonals with
    | nil => simp [optRecoverW, optTriplesW, queueSize]
    | cons d ds =>
      have := (hq d (List.mem_cons_self _ _)).1
      simp only [queueSize, List.map_cons, List.sum_cons] at hsize
      omega
  | succ fuel ih =>
    intro diagonals hq hsize
    cases diagonals with
    | nil => simp [optRecoverW, optTriplesW, queueSize]
    | cons d ds =>
      obtain ⟨hd1, hd2, hd3⟩ := hq d (List.mem_cons_self _ _)
      obtain ⟨k, e1, e2, e3, e4, e5, e6, _⟩ := hdone d.1 d.2 hd1 hd2 hd3
      have hq2 : ∀ x ∈ ds ++ (if d.1 + 2 ≤ k then [(d.1, k)] else [])
          ++ (if k + 2 ≤ d.2 then [(k, d.2)] else []),
          x.1 + 2 ≤ x.2 ∧ x.2 < n ∧ (dp.get x.2 x.1).visible = true := by
        intro x hx
        simp only [List.mem_append] at hx
        rcases hx with (hx | hx) | hx
        · exact hq x (List.mem_cons_of_mem _ hx)
        · split_ifs at hx with h1
          · simp only [List.mem_singleton] at hx
            subst hx
            exact ⟨h1, by simp only; omega, e4⟩
          · simp at hx
        · split_ifs at hx with h2
          · simp only [List.mem_singleton] at hx
            subst hx
            exact ⟨h2, hd2, e5⟩
          · simp at hx
      have hsz : queueSize (ds ++ (if d.1 + 2 ≤ k then [(d.1, k)] else [])
          ++ (if k + 2 ≤ d.2 then [(k, d.2)] else [])) + 1 = queueSize (d :: ds) := by
        unfold queueSize
        simp only [List.map_append, List.sum_append, List.map_cons, List.sum_cons]
        split_ifs <;> simp <;> omega
      obtain ⟨i1, i2, i3, i4, i5⟩ := ih _ hq2 (by omega)
      refine ⟨fun triangles => ?_, ?_, ?_, ?_, ?_⟩
      · rw [optRecoverW_step poly dp fuel d ds triangles k e1]
        exact i1 _
      · rw [optTriplesW_step dp fuel d ds k e1, List.length_cons, i2]
        exact hsz
      · rw [optTriplesW_step dp fuel d ds k e1]
        intro t ht
        rcases List.mem_cons.mp ht with ht | ht
        · subst ht; exact ⟨e2, e3, hd2⟩
        · exact i3 t ht
      · rw [optTriplesW_step dp fuel d ds k e1, List.map_cons, List.sum_cons, i4]
        simp only [List.map_append, List.sum_append, List.map_cons, List.sum_cons]
        rw [subShoelace_split poly e2 e3]
        have ht : (idxTriangle poly (d.1, k, d.2)).shoelace
            = shoelacePts [poly.GetPoint d.1, poly.GetPoint k, poly.GetPoint d.2] :=
          shoelace_Triangle _ _ _
        rw [ht]
        have hA : ((if d.1 + 2 ≤ k then [(d.1, k)] else []).map
            (fun d => subShoelace poly d.1 d.2)).sum = subShoelace poly d.1 k := by
          split_ifs with h1
          · simp
          · have : k = d.1 + 1 := by omega
            subst this
            simp [subShoelace_edge]
        have hB : ((if k + 2 ≤ d.2 then [(k, d.2)] else []).map
            (fun d => subShoelace poly d.1 d.2)).sum = subShoelace poly k d.2 := by
          split_ifs with h2
          · simp
          · have : d.2 = k + 1 := by omega
            rw [this]
            simp [subShoelace_edge]
        rw [hA, hB]
        ring
      · rw [optTriplesW_step dp fuel d ds k e1, List.map_cons, List.sum_cons, i5]
        simp only [List.map_append, List.sum_append, List.map_cons, List.sum_cons]
        rw [e6]
        have hA : ((if d.1 + 2 ≤ k then [(d.1, k)] else []).map
            (fun d => (dp.get d.2 d.1).weight)).sum = (dp.get k d.1).weight := by
          split_ifs with h1
          · simp
          · have : k = d.1 + 1 := by omega
            subst this
            simp [hedge d.1 (by omega)]
        have hB : ((if k + 2 ≤ d.2 then [(k, d.2)] else []).map
            (fun d => (dp.get d.2 d.1).weight)).sum = (dp.get d.2 k).weight := by
          split_ifs with h2
          · simp
          · have : d.2 = k + 1 := by omega
            rw [this]
            simp [hedge k (by omega)]
        rw [hA, hB]
        unfold optDiagCostW optCandW
        simp only
        ring


/-- The weight of a final state is at most the cost of any triangulation of its vertex
sequence with visible diagonals. -/
theorem TriTree.weight_leW {W : Type} [LinearOrderedField W]
    (sqrt : W → W) (poly : TPPLPoly) (n : Nat) (dp0 dp : DPTableW W)
    (hdone : ∀ a b, a + 2 ≤ b → b < n → CellDoneW sqrt poly dp a b)
    (hedge : ∀ a, a + 1 < n → (dp.get (a + 1) a).weight = 0)
    (hvis : ∀ a b, (dp.get a b).visible = (dp0.get a b).visible)
    (hedgevis : ∀ a, a + 1 < n → (dp.get (a + 1) a).visible = true) :
    ∀ (t : TriTree) (i j : Nat), t.Valid (fun i j => (dp0.get j i).visible) i j → j < n →
      (i + 2 ≤ j → (dp.get j i).visible = true) →
      (dp.get j i).weight
        ≤ t.costW (fun i j => DistanceW sqrt (poly.GetPoint i) (poly.GetPoint j)) i j
  | TriTree.leaf, i, j, hv, hj, _ => by
    simp only [TriTree.Valid] at hv
    subst hv
    rw [hedge i hj]
    exact le_refl _
  | TriTree.node k l r, i, j, hv, hj, hroot => by
    simp only [TriTree.Valid] at hv
    obtain ⟨h1, h2, h3, h4, h5, h6⟩ := hv
    have hvl : i + 2 ≤ k → (dp.get k i).visible = true := fun h => by
      rw [hvis]; exact h3 h
    have hvr : k + 2 ≤ j → (dp.get j k).visible = true := fun h => by
      rw [hvis]; exact h4 h
    have hl := TriTree.weight_leW sqrt poly n dp0 dp hdone hedge hvis hedgevis l i k h5
      (by omega) hvl
    have hr := TriTree.weight_leW sqrt poly n dp0 dp hdone hedge hvis hedgevis r k j h6 hj hvr
    have hvk1 : (dp.get k i).visible = true := by
      by_cases h : i + 2 ≤ k
      · exact hvl h
      · have : k = i + 1 := by omega
        subst this
        exact hedgevis i (by omega)
    have hvk2 : (dp.get j k).visible = true := by
      by_cases h : k + 2 ≤ j
      · exact hvr h
      · have : j = k + 1 := by omega
        subst this
        exact hedgevis k hj
    obtain ⟨k0, _, _, _, _, _, _, e7⟩ := hdone i j (by omega) hj (hroot (by omega))
    have hmin := e7 k h1 h2 hvk1 hvk2
    unfold optCandW at hmin
    simp only [TriTree.costW]
    have c1 : (if k ≤ i + 1 then (0 : W) else DistanceW sqrt (poly.GetPoint i) (poly.GetPoint k))
        = if i + 2 ≤ k then DistanceW sqrt (poly.GetPoint i) (poly.GetPoint k) else 0 := by
      by_cases h : i + 2 ≤ k
      · rw [if_pos h, if_neg (by omega)]
      · rw [if_neg h, if_pos (by omega)]
    have c2 : (if j ≤ k + 1 then (0 : W) else DistanceW sqrt (poly.GetPoint k) (poly.GetPoint j))
        = if k + 2 ≤ j then DistanceW sqrt (poly.GetPoint k) (poly.GetPoint j) else 0 := by
      by_cases h : k + 2 ≤ j
      · rw [if_pos h, if_neg (by omega)]
      · rw [if_neg h, if_pos (by omega)]
    rw [c1, c2] at hmin
    linarith

/-- What a call of `Triangulate_OPT_W` that returns 1 went through. -/
theorem Triangulate_OPT_W_run {W : Type} [LinearOrderedField W]
    (sqrt : W → W) (poly : TPPLPoly) (out : TPPLPolyList)
    (hret : (Triangulate_OPT_W sqrt poly out).1 = 1) :
    3 ≤ poly.GetNumPoints ∧ ∃ dp,
      FillInvW sqrt poly poly.GetNumPoints (optInitW W poly poly.GetNumPoints) dp
        poly.GetNumPoints 0 ∧
      Triangulate_OPT_triplesW sqrt poly
        = optTriplesW dp poly.GetNumPoints [(0, poly.GetNumPoints - 1)] ∧
      (Triangulate_OPT_W sqrt poly out).2
        = out ++ (Triangulate_OPT_triplesW sqrt poly).map (idxTriangle poly) := by
  unfold Triangulate_OPT_W at hret ⊢
  unfold Triangulate_OPT_triplesW
  by_cases hv : poly.Valid = true
  swap
  · simp only [hv, Bool.not_false, if_true] at hret
    exact absurd hret (by decide)
  have hn : 3 ≤ poly.GetNumPoints := by simpa [TPPLPoly.Valid] using hv
  simp only [hv, Bool.not_true, Bool.false_eq_true, if_false] at hret ⊢
  cases hf : optFillW sqrt poly poly.GetNumPoints (optInitW W poly poly.GetNumPoints) with
  | none =>
    rw [hf] at hret
    simp at hret
  | some dp =>
    refine ⟨hn, dp, optFillW_spec sqrt poly _ _ dp hn (optInitW_fillInv sqrt poly _ hn) hf,
      rfl, ?_⟩
    simp only
    exact optRecoverW_eq_triples poly dp _ _ _

/-- The facts about a successful call of `Triangulate_OPT_W` that the claims use. -/
theorem Triangulate_OPT_W_spec {W : Type} [LinearOrderedField W]
    (sqrt : W → W) (poly : TPPLPoly) (out : TPPLPolyList)
    (hret : (Triangulate_OPT_W sqrt poly out).1 = 1) :
    3 ≤ poly.GetNumPoints ∧
    (Triangulate_OPT_W sqrt poly out).2
      = out ++ (Triangulate_OPT_triplesW sqrt poly).map (idxTriangle poly) ∧
    (Triangulate_OPT_triplesW sqrt poly).length = poly.GetNumPoints - 2 ∧
    (∀ t ∈ Triangulate_OPT_triplesW sqrt poly,
      t.1 < t.2.1 ∧ t.2.1 < t.2.2 ∧ t.2.2 < poly.GetNumPoints) ∧
    shoelaceSum ((Triangulate_OPT_triplesW sqrt poly).map (idxTriangle poly)) = poly.shoelace ∧
    ∀ t : TriTree,
      t.Valid (fun i j => ((optInitW W poly poly.GetNumPoints).get j i).visible) 0
        (poly.GetNumPoints - 1) →
      ((Triangulate_OPT_triplesW sqrt poly).map (optDiagCostW sqrt poly)).sum
        ≤ t.costW (fun i j => DistanceW sqrt (poly.GetPoint i) (poly.GetPoint j)) 0
          (poly.GetNumPoints - 1) := by
  obtain ⟨hn, dp, ⟨hs, hvis, hedge, hdone⟩, htri, hout⟩ := Triangulate_OPT_W_run sqrt poly out hret
  have hdone1 : ∀ a b, a + 2 ≤ b → b < poly.GetNumPoints → CellDoneW sqrt poly dp a b :=
    fun a b hab hb => hdone a b hab hb (Or.inl (by omega))
  have hroot : (dp.get (poly.GetNumPoints - 1) 0).visible = true := by
    rw [hvis, optInitW_get poly _ hn, if_pos ⟨rfl, rfl⟩]
  have hedgevis : ∀ a, a + 1 < poly.GetNumPoints → (dp.get (a + 1) a).visible = true := by
    intro a ha
    rw [hvis, optInitW_get poly _ hn]
    by_cases h0 : a + 1 = poly.GetNumPoints - 1 ∧ a = 0
    · rw [if_pos h0]
    · rw [if_neg h0, if_pos ⟨by omega, ha⟩]
      simp [optVisible]
  obtain ⟨_, i2, i3, i4, i5⟩ := optTriplesW_spec sqrt poly _ dp hdone1 hedge poly.GetNumPoints
    [(0, poly.GetNumPoints - 1)]
    (fun d hd => by
      simp only [List.mem_singleton] at hd
      subst hd
      exact ⟨by simp only; omega, by simp only; omega, hroot⟩)
    (by simp [queueSize]; omega)
  rw [← htri] at i2 i3 i4 i5
  refine ⟨hn, hout, ?_, i3, ?_, fun t ht => ?_⟩
  · rw [i2]; simp [queueSize]; omega
  · unfold shoelaceSum
    rw [List.map_map]
    have : (TPPLPoly.shoelace ∘ idxTriangle poly) = fun t => (idxTriangle poly t).shoelace := rfl
    rw [this, i4]
    simp only [List.map_cons, List.map_nil, List.sum_cons, List.sum_nil, add_zero]
    exact (shoelace_eq_subShoelace poly (by omega)).symm
  · rw [i5]
    simp only [List.map_cons, List.map_nil, List.sum_cons, List.sum_nil, add_zero]
    exact TriTree.weight_leW sqrt poly _ _ dp hdone1 hedge hvis hedgevis t 0 _ ht (by omega)
      (fun _ => hroot)

/-- The visibility flags of the table with weights in `W` are those of the rational table. -/
theorem optInitW_visible {W : Type} [LinearOrderedField W] (poly : TPPLPoly) (n : Nat)
    (hn : 3 ≤ n) (a b : Nat) :
    ((optInitW W poly n).get a b).visible = ((optInit poly n).get a b).visible := by
  rw [optInitW_get poly n hn, optInit_get poly n hn]
  split_ifs <;> rfl

theorem foldlM_range'_total {σ : Type} (Q : Nat → σ → Prop) (f : σ → Nat → Option σ) :
    ∀ (m a : Nat) (s : σ), Q a s →
      (∀ x s, a ≤ x → x < a + m → Q x s → ∃ s1, f s x = some s1 ∧ Q (x + 1) s1) →
      ∃ r, (List.range' a m).foldlM f s = some r
  | 0, a, s, _, _ => ⟨s, by simp⟩
  | m + 1, a, s, h0, hstep => by
    obtain ⟨s1, hs1, hq1⟩ := hstep a s (Nat.le_refl _) (by omega) h0
    obtain ⟨r, hr⟩ := foldlM_range'_total Q f m (a + 1) s1 hq1
      (fun x s hx1 hx2 hq => hstep x s (by omega) (by omega) hq)
    refine ⟨r, ?_⟩
    rw [List.range'_succ, List.foldlM_cons, hs1]
    exact hr

/-- The pass for the pair `(i, i + gap)` does not return 0 when every visible pair has a
split vertex. -/
theorem optCellW_total {W : Type} [LinearOrderedField W] (sqrt : W → W) (poly : TPPLPoly)
    (n : Nat) (dp0 dp : DPTableW W) (gap i : Nat) (hgap : 2 ≤ gap) (hi : i + gap < n)
    (hsp : ∀ a b, a + 2 ≤ b → b < n → (dp0.get b a).visible = true →
      ∃ k, a < k ∧ k < b ∧ (dp0.get k a).visible = true ∧ (dp0.get b k).visible = true)
    (h : FillInvW sqrt poly n dp0 dp gap i) :
    ∃ dp1, optCellW sqrt poly gap dp i = some dp1 := by
  obtain ⟨hs, hvis, hedge, hdone⟩ := h
  unfold optCellW
  simp only
  by_cases hv : (dp.get (i + gap) i).visible = true
  swap
  · simp only [hv, Bool.not_false, if_true]
    exact ⟨dp, rfl⟩
  simp only [hv, Bool.not_true, Bool.false_eq_true, if_false]
  rcases optBestW_spec sqrt poly dp i (i + gap) (by omega) with ⟨_, h2⟩ | ⟨k, h1, _⟩
  · rw [hvis] at hv
    obtain ⟨k, hk1, hk2, hk3, hk4⟩ := hsp i (i + gap) (by omega) hi hv
    rw [← hvis] at hk3 hk4
    exact absurd ⟨hk3, hk4⟩ (h2 k hk1 hk2)
  · have hne : ¬ ((optBestW sqrt poly dp i (i + gap)).1 = -1) := by
      rw [h1]; omega
    rw [if_neg hne]
    exact ⟨_, rfl⟩

/-- The loops over `gap` and `i` do not return 0 when every visible pair has a split
vertex. -/
theorem optFillW_total {W : Type} [LinearOrderedField W] (sqrt : W → W) (poly : TPPLPoly)
    (n : Nat) (dp0 : DPTableW W) (h0 : FillInvW sqrt poly n dp0 dp0 2 0)
    (hsp : ∀ a b, a + 2 ≤ b → b < n → (dp0.get b a).visible = true →
      ∃ k, a < k ∧ k < b ∧ (dp0.get k a).visible = true ∧ (dp0.get b k).visible = true) :
    ∃ dp, optFillW sqrt poly n dp0 = some dp := by
  unfold optFillW
  refine foldlM_range'_total (fun g dp => FillInvW sqrt poly n dp0 dp g 0)
    (fun dp gap => (List.range (n - gap)).foldlM (optCellW sqrt poly gap) dp)
    (n - 2) 2 dp0 h0 ?_
  intro g s hg1 hg2 hq
  simp only
  rw [List.range_eq_range']
  obtain ⟨s1, hs1⟩ := foldlM_range'_total (fun x dp => FillInvW sqrt poly n dp0 dp g x)
    (optCellW sqrt poly g) (n - g) 0 s hq
    (fun x s2 _ hx2 hq2 => by
      obtain ⟨s3, hs3⟩ := optCellW_total sqrt poly n dp0 s2 g x hg1 (by omega) hsp hq2
      exact ⟨s3, hs3, optCellW_step sqrt poly n dp0 s2 s3 g x hg1 (by omega) hq2 hs3⟩)
  refine ⟨s1, hs1, ?_⟩
  have inner := foldlM_range'_invariant (fun x dp => FillInvW sqrt poly n dp0 dp g x)
    (optCellW sqrt poly g) (n - g) 0 s s1 hq
    (fun x s2 s3 _ hx2 hq2 hc => optCellW_step sqrt poly n dp0 s2 s3 g x hg1 (by omega) hq2 hc)
    hs1
  obtain ⟨hs, hvis, hedge, hdone⟩ := inner
  exact ⟨hs, hvis, hedge, fun a b hab hb hd => hdone a b hab hb (by omega)⟩

/-- `Triangulate_OPT` returns 1 on a polygon with at least three points in whose table every
visible pair has a split vertex, whatever the weights. -/
theorem Triangulate_OPT_W_returns {W : Type} [LinearOrderedField W] (sqrt : W → W)
    (poly : TPPLPoly) (out : TPPLPolyList) (hv : poly.Valid = true) (hsp : HasSplits poly) :
    (Triangulate_OPT_W sqrt poly out).1 = 1 := by
  have hn : 3 ≤ poly.GetNumPoints := by simpa [TPPLPoly.Valid] using hv
  have hsp1 : ∀ a b, a + 2 ≤ b → b < poly.GetNumPoints →
      ((optInitW W poly poly.GetNumPoints).get b a).visible = true →
      ∃ k, a < k ∧ k < b ∧ ((optInitW W poly poly.GetNumPoints).get k a).visible = true ∧
        ((optInitW W poly poly.GetNumPoints).get b k).visible = true := by
    intro a b hab hb hvis
    rw [optInitW_visible poly _ hn] at hvis
    obtain ⟨k, hk1, hk2, hk3, hk4⟩ := hsp b hb a (by omega) hab hvis
    exact ⟨k, hk2, hk1, by rw [optInitW_visible poly _ hn]; exact hk3,
      by rw [optInitW_visible poly _ hn]; exact hk4⟩
  obtain ⟨dp, hf⟩ := optFillW_total sqrt poly _ _ (optInitW_fillInv sqrt poly _ hn) hsp1
  obtain ⟨hs, hvis, hedge, hdone⟩ :=
    optFillW_spec sqrt poly _ _ dp hn (optInitW_fillInv sqrt poly _ hn) hf
  have hdone1 : ∀ a b, a + 2 ≤ b → b < poly.GetNumPoints → CellDoneW sqrt poly dp a b :=
    fun a b hab hb => hdone a b hab hb (Or.inl (by omega))
  have hroot : (dp.get (poly.GetNumPoints - 1) 0).visible = true := by
    rw [hvis, optInitW_get poly _ hn, if_pos ⟨rfl, rfl⟩]
  obtain ⟨i1, _⟩ := optTriplesW_spec sqrt poly _ dp hdone1 hedge poly.GetNumPoints
    [(0, poly.GetNumPoints - 1)]
    (fun d hd => by
      simp only [List.mem_singleton] at hd
      subst hd
      exact ⟨by simp only; omega, by simp only; omega, hroot⟩)
    (by simp [queueSize]; omega)
  unfold Triangulate_OPT_W
  simp only [hv, Bool.not_true, Bool.false_eq_true, if_false, hf]
  exact i1 out

/-- `Distance`, computed in the real numbers with the real square root, is the Euclidean
distance. -/
theorem DistanceW_real (p q : TPPLPoint) :
    DistanceW Real.sqrt p q = dist (toPlane p) (toPlane q) := by
  unfold DistanceW toPlane
  rw [EuclideanSpace.dist_eq, Fin.sum_univ_two]
  simp only [Matrix.cons_val_zero, Matrix.cons_val_one, Matrix.head_cons, Real.dist_eq, sq_abs]
  congr 1
  ring

theorem optDiagCostW_real (poly : TPPLPoly) :
    optDiagCostW Real.sqrt poly = diagCostW (euclidLength poly) := by
  funext t
  unfold optDiagCostW diagCostW euclidLength
  rw [DistanceW_real, DistanceW_real]

/-! ### Rational weights: the exact model -/

theorem toW_get (dp : DPTable) (j i : Nat) : dp.toW.get j i = (dp.get j i).toW := by
  unfold DPTable.toW DPTableW.get DPTable.get
  have h1 : (dp.map (List.map DPState.toW)).getD j [] = (dp.getD j []).map DPState.toW :=
    List.getD_map dp [] (List.map DPState.toW)
  rw [h1]
  exact List.getD_map _ default DPState.toW

theorem toW_set (dp : DPTable) (j i : Nat) (s : DPState) :
    (dp.set j i s).toW = dp.toW.set j i s.toW := by
  unfold DPTable.toW DPTableW.set DPTable.set
  have h1 : (dp.map (List.map DPState.toW)).getD j [] = (dp.getD j []).map DPState.toW :=
    List.getD_map dp [] (List.map DPState.toW)
  rw [h1, List.map_set, List.map_set]

theorem optInitW_rat (poly : TPPLPoly) (n : Nat) : optInitW ℚ poly n = (optInit poly n).toW := by
  unfold optInitW optInit
  simp only
  rw [toW_set]
  congr 1
  rw [← List.foldl_hom DPTable.toW
    (fun (dp : DPTable) i => (List.range' (i + 1) (n - (i + 1))).foldl (fun (dp : DPTable) j =>
      dp.set j i ⟨optVisible poly n i j, 0, -1⟩) dp)
    (fun (dp : DPTableW ℚ) i => (List.range' (i + 1) (n - (i + 1))).foldl
      (fun (dp : DPTableW ℚ) j => dp.set j i ⟨optVisible poly n i j, 0, -1⟩) dp)]
  · congr 1
    unfold DPTable.toW
    rw [List.map_map]
    apply List.map_congr_left
    intro i _
    simp only [Function.comp, List.map_replicate]
    rfl
  · intro dp i
    rw [← List.foldl_hom DPTable.toW
      (fun (dp : DPTable) j => dp.set j i ⟨optVisible poly n i j, 0, -1⟩)
      (fun (dp : DPTableW ℚ) j => dp.set j i ⟨optVisible poly n i j, 0, -1⟩)]
    intro dp j
    rw [toW_set]
    rfl

theorem DistanceW_rat (sqrt : ℚ → ℚ) (p1 p2 : TPPLPoint) :
    DistanceW sqrt p1 p2 = Distance sqrt p1 p2 := by
  unfold DistanceW Distance
  simp only [Rat.cast_id]

theorem optBestW_rat (sqrt : ℚ → ℚ) (poly : TPPLPoly) (dp : DPTable) (i j : Nat) :
    optBestW sqrt poly dp.toW i j = optBest sqrt poly dp i j := by
  unfold optBestW optBest
  simp only [toW_get, DistanceW_rat]
  rfl

theorem optCellW_rat (sqrt : ℚ → ℚ) (poly : TPPLPoly) (gap : Nat) (dp : DPTable) (i : Nat) :
    optCellW sqrt poly gap dp.toW i = (optCell sqrt poly gap dp i).map DPTable.toW := by
  unfold optCellW optCell
  simp only [toW_get, optBestW_rat]
  by_cases hv : (dp.get (i + gap) i).visible = true
  · by_cases hb : (optBest sqrt poly dp i (i + gap)).1 = -1
    · simp [hv, hb, DPState.toW]
    · simp [hv, hb, DPState.toW, toW_set]
  · simp [hv, DPState.toW]

theorem foldlM_option_hom {α β γ : Type} (h : α → β) (f : α → γ → Option α)
    (g : β → γ → Option β) (H : ∀ a c, g (h a) c = (f a c).map h) :
    ∀ (l : List γ) (a : α), l.foldlM g (h a) = (l.foldlM f a).map h
  | [], a => rfl
  | c :: l, a => by
    rw [List.foldlM_cons, List.foldlM_cons, H]
    cases hf : f a c with
    | none => rfl
    | some a1 => exact foldlM_option_hom h f g H l a1

theorem optFillW_rat (sqrt : ℚ → ℚ) (poly : TPPLPoly) (n : Nat) (dp : DPTable) :
    optFillW sqrt poly n dp.toW = (optFill sqrt poly n dp).map DPTable.toW := by
  unfold optFillW optFill
  exact foldlM_option_hom DPTable.toW _ _
    (fun a gap => foldlM_option_hom DPTable.toW _ _
      (fun a1 i => optCellW_rat sqrt poly gap a1 i) _ a) _ dp

theorem optRecoverW_rat (poly : TPPLPoly) (dp : DPTable) :
    ∀ (fuel : Nat) (diagonals : List (Nat × Nat)) (triangles : TPPLPolyList),
      optRecoverW poly dp.toW fuel diagonals triangles
        = optRecover poly dp fuel diagonals triangles
  | 0, [], _ => by simp [optRecoverW, optRecover]
  | 0, _ :: _, _ => by simp [optRecoverW, optRecover]
  | fuel + 1, [], _ => by simp [optRecoverW, optRecover]
  | fuel + 1, d :: ds, triangles => by
    rw [optRecoverW, optRecover]
    simp only [toW_get, DPState.toW]
    by_cases hb : (dp.get d.2 d.1).bestvertex = -1
    · rw [if_pos hb, if_pos hb]
    · rw [if_neg hb, if_neg hb]
      exact optRecoverW_rat poly dp fuel _ _

/-- With rational weights the function is the `Triangulate_OPT` of the exact model. -/
theorem Triangulate_OPT_W_rat (sqrt : ℚ → ℚ) (poly : TPPLPoly) (triangles : TPPLPolyList) :
    Triangulate_OPT_W sqrt poly triangles = Triangulate_OPT sqrt poly triangles := by
  unfold Triangulate_OPT_W Triangulate_OPT
  by_cases hv : poly.Valid = true
  · simp only [hv, Bool.not_true, Bool.false_eq_true, if_false]
    rw [optInitW_rat, optFillW_rat]
    cases hf : optFill sqrt poly poly.GetNumPoints (optInit poly poly.GetNumPoints) with
    | none => rfl
    | some dp => exact optRecoverW_rat poly dp _ _ _
  · simp only [hv, Bool.not_false, if_true]

/-! ### Real weights -/

/-- C13 (as stated, refuted): in binary64, on the counter-clockwise quadrilateral
`[(0,0), (-1,-1/2), (2^27,0), (2^27 - 1, 1/2)]` `Triangulate_OPT` returns 1 with the
triangles `(0,1,3)` and `(1,2,3)`, whose diagonal from vertex 1 to vertex 3 has the
Euclidean length `sqrt (2^54 + 1)`; the triangulation by the diagonal from vertex 0 to
vertex 2, which is marked visible, has the smaller length `2^27`.  Both values of `Distance`
round to `2^27`, and of two equal weights the loop keeps the first. -/
theorem C13_counterexample :
    Arith.binary64.Triangulate_OPT thinQuad []
      = (1, [idxTriangle thinQuad (0, 1, 3), idxTriangle thinQuad (1, 2, 3)]) ∧
    (TriTree.node 2 (TriTree.node 1 TriTree.leaf TriTree.leaf) TriTree.leaf).Valid
      (fun i j => ((Arith.binary64.optInit thinQuad thinQuad.GetNumPoints).get j i).visible) 0
      (thinQuad.GetNumPoints - 1) ∧
    Arith.binary64.Distance (thinQuad.GetPoint 0) (thinQuad.GetPoint 2) = 134217728 ∧
    Arith.binary64.Distance (thinQuad.GetPoint 1) (thinQuad.GetPoint 3) = 134217728 ∧
    (TriTree.node 2 (TriTree.node 1 TriTree.leaf TriTree.leaf) TriTree.leaf).costW
        (euclidLength thinQuad) 0 (thinQuad.GetNumPoints - 1)
      < ([(0, 1, 3), (1, 2, 3)].map (diagCostW (euclidLength thinQuad))).sum := by
  refine ⟨by decide!, by decide!, by decide!, by decide!, ?_⟩
  have e : thinQuad.GetNumPoints - 1 = 3 := rfl
  rw [e]
  simp only [TriTree.costW, diagCostW, List.map_cons, List.map_nil, List.sum_cons,
    List.sum_nil]
  norm_num
  unfold euclidLength
  rw [← DistanceW_real, ← DistanceW_real]
  simp only [DistanceW]
  apply Real.sqrt_lt_sqrt
  · exact add_nonneg (mul_self_nonneg _) (mul_self_nonneg _)
  · simp only [thinQuad, TPPLPoly.GetPoint]
    norm_num

/-- C13 (amended): in exact arithmetic, that is with the weights real numbers and `sqrt` the
real square root, when `Triangulate_OPT` returns 1, its triangles are those of the index
triples `(index1, bestvertex, index2)` of the recovery loop, and the sum of the Euclidean
lengths of the diagonals among their sides `(index1, bestvertex)` and
`(bestvertex, index2)` is at most the sum of the Euclidean lengths of the diagonals of any
triangulation of the vertex sequence `0, ..., n - 1` whose diagonals are all marked visible
in the table of the initialisation. -/
theorem C13_Triangulate_OPT_optimal_amended (poly : TPPLPoly) (out : TPPLPolyList)
    (hret : (Triangulate_OPT_W Real.sqrt poly out).1 = 1) (t : TriTree)
    (ht : t.Valid (fun i j => ((optInit poly poly.GetNumPoints).get j i).visible) 0
      (poly.GetNumPoints - 1)) :
    (Triangulate_OPT_W Real.sqrt poly out).2
      = out ++ (Triangulate_OPT_triplesW Real.sqrt poly).map (idxTriangle poly) ∧
    ((Triangulate_OPT_triplesW Real.sqrt poly).map (diagCostW (euclidLength poly))).sum
      ≤ t.costW (euclidLength poly) 0 (poly.GetNumPoints - 1) := by
  obtain ⟨hn, hout, _, _, _, hopt⟩ := Triangulate_OPT_W_spec Real.sqrt poly out hret
  refine ⟨hout, ?_⟩
  have hd : (fun i j => DistanceW Real.sqrt (poly.GetPoint i) (poly.GetPoint j))
      = euclidLength poly := by
    funext i j
    exact DistanceW_real _ _
  have ht1 : t.Valid (fun i j => ((optInitW ℝ poly poly.GetNumPoints).get j i).visible) 0
      (poly.GetNumPoints - 1) := by
    have e : (fun i j => ((optInitW ℝ poly poly.GetNumPoints).get j i).visible)
        = fun i j => ((optInit poly poly.GetNumPoints).get j i).visible := by
      funext i j
      exact optInitW_visible poly _ hn j i
    rw [e]
    exact ht
  have := hopt t ht1
  rw [optDiagCostW_real, hd] at this
  exact this

theorem C13_witness :
    (Triangulate_OPT_W Real.sqrt thinQuad []).1 = 1 ∧
    (TriTree.node 1 TriTree.leaf (TriTree.node 2 TriTree.leaf TriTree.leaf)).Valid
      (fun i j => ((optInit thinQuad thinQuad.GetNumPoints).get j i).visible) 0
      (thinQuad.GetNumPoints - 1) ∧
    (Triangulate_OPT_W Real.sqrt thinQuad []).2
      = [] ++ (Triangulate_OPT_triplesW Real.sqrt thinQuad).map (idxTriangle thinQuad) ∧
    ((Triangulate_OPT_triplesW Real.sqrt thinQuad).map
        (diagCostW (euclidLength thinQuad))).sum
      ≤ (TriTree.node 1 TriTree.leaf (TriTree.node 2 TriTree.leaf TriTree.leaf)).costW
        (euclidLength thinQuad) 0 (thinQuad.GetNumPoints - 1) :=
  ⟨Triangulate_OPT_W_returns Real.sqrt thinQuad [] (by decide!) (by decide!), by decide!,
    C13_Triangulate_OPT_optimal_amended thinQuad []
      (Triangulate_OPT_W_returns Real.sqrt thinQuad [] (by decide!) (by decide!)) _
      (by decide!)⟩

end PolyPartition
